import Mathlib

/-!
Word ladders over a directed multigraph: `graph.c`.

A shallow embedding of `graph.c` (adjacency lists kept in order of destination,
`Neighbors`, `BFS`, `BFSd`, `DFS`, `getEdgeWeight`, `PopMin`, `Dijkstra`) and the
properties of those functions.

Conventions of the embedding:
* C `int` values (vertex ids, counters, weights) are `Int`; the only arithmetic that can
  leave the `int` range on the paths studied here, the sum `distance + edgeWeight` in
  `Dijkstra`, is reduced with `wrapInt32`.
* a C array is a `List`; an array that the C code terminates with `-1` keeps its `-1`.
* a C string is the `List Nat` of its bytes (values of `unsigned char`) before the
  terminating zero byte; `strcmp` is equality and `strcmp_neg`.
* a linked list of `Edge` nodes is the `List Edge` of its nodes, head first.
* a function that may return `NULL` returns an `Option`; `exit(-1)`, a failed `assert` and
  the dereference of `NULL` are `Fault.exit`; a loop that has not finished when the fuel
  is used up is `Fault.outOfFuel`.
* `mymalloc` always succeeds and the sizes of the allocated arrays are not part of the
  model; the containers of queue.h, stack.h and set.h follow the interfaces of the spec,
  and the stack of `DFS` has the capacity it is created with.
-/

namespace WordLadder

/-! ## Data model (graph.h, avl.h) -/

/-- `struct Edge` without its `next` link: the link is the tail of the list. A `Vertex`
(`typedef int Vertex;`) is an `Int` throughout. -/
structure Edge where
  src : Int
  dest : Int
  weight : Int
deriving DecidableEq, Repr

/-- `struct AVLNode` of avl.h; `nil` is the `NULL` tree. `Word` is the C string held by
the 64 bytes of `value.Word`. -/
inductive AVLNode where
  | nil : AVLNode
  | node (Word : List Nat) (Vertex : Int) (height : Int) (left right : AVLNode) : AVLNode
deriving DecidableEq, Repr

/-- `struct Graph`: `Vertices` and `Names` are the two arrays of `Capacity` slots; a slot
that holds `NULL` (or was never written) is `[]`, respectively `none`. -/
structure Graph where
  Vertices : List (List Edge)
  Names : List (Option (List Nat))
  NumVertices : Int
  NumEdges : Int
  Capacity : Int
  NamesTree : AVLNode
deriving DecidableEq, Repr

/-- The ways a call does not come back with a value. -/
inductive Fault where
  | exit
  | outOfFuel
deriving DecidableEq, Repr

deriving instance DecidableEq for Except

/-- `INT_MAX` of limits.h for a 32-bit `int`. -/
def INT_MAX : Int := 2147483647

/-- Two's complement reduction of a mathematical integer to a 32-bit `int`. -/
def wrapInt32 (x : Int) : Int := (x + 2147483648) % 4294967296 - 2147483648

/-- Reading `a[i]`. -/
def arrGet (a : List Int) (i : Int) : Int := a.getD i.toNat 0

/-- Writing `a[i] = x`. -/
def arrSet (a : List Int) (i : Int) (x : Int) : List Int := a.set i.toNat x

/-- The slots of a `-1`-terminated array that a loop `while (a[j] != -1)` walks through. -/
def upToMarker (a : List Int) : List Int := a.takeWhile (fun x => x != -1)

/-! ## C strings -/

/-- The test `strcmp(a, b) < 0` of string.h for the C strings with the bytes `a` and `b`:
the first position where they differ decides, by the bytes as `unsigned char`, and a
string is smaller than every string that it is a proper start of. `strcmp(a, b) == 0` is
`a = b`. -/
def strcmp_neg : List Nat → List Nat → Bool
  | [], [] => false
  | [], _ :: _ => true
  | _ :: _, [] => false
  | x :: a, y :: b => if x < y then true else if y < x then false else strcmp_neg a b

/-- The bytes of the C string literal with the text `s`: its UTF-8 encoding, without the
terminating zero byte. -/
def cstr (s : String) : List Nat := s.toUTF8.data.toList.map UInt8.toNat

/-- The four bytes of an `int` in memory, low-order byte first. -/
def intBytes (v : Int) : List Nat :=
  [(v % 256).toNat, (v / 256 % 256).toNat, (v / 65536 % 256).toNat,
    (v / 16777216 % 256).toNat]

/-! ## Collaborators that are not among the sources -/

/-- Modelled from the spec: `Insert` of the AVL tree (avl.c is not among the sources) as
the ordered index of §6, "insert(key, id)" with "exact string ordering by byte/codepoint
comparison"; rebalancing is not specified and the tree is left as the plain search tree.
A key that is already present is shadowed by the newer id (§9, open question). The
argument `word` is the C string in `value.Word`. -/
def Insert : AVLNode → List Nat → Int → AVLNode
  | .nil, word, v => .node word v 1 .nil .nil
  | .node w x h l r, word, v =>
    if word = w then .node w v h l r
    else if strcmp_neg word w then .node w x h (Insert l word v) r
    else .node w x h l (Insert r word v)

/-- Modelled from the spec: the FIFO queue of queue.h (not among the sources), §6
"enqueue, dequeue, is_empty, contains"; front of the queue first. `Dequeue` is the match
on the front element in the loop bodies, and `Elements[Front]` is the head. -/
abbrev Queue := List Int

/-- Modelled from the spec: `Enqueue` appends at the back and succeeds. -/
def Enqueue (q : Queue) (x : Int) : Queue := q ++ [x]

/-- Modelled from the spec: `isEmptyQueue`. -/
def isEmptyQueue (q : Queue) : Bool := q.isEmpty

/-- Modelled from the spec: `isElementInQueue`, the "contains" of §6. -/
def isElementInQueue (q : Queue) (x : Int) : Bool := decide (x ∈ q)

/-- Modelled from the spec: the LIFO stack of stack.h (not among the sources), §6
"push, pop, is_empty"; top of the stack first, `Pop` is the match on the top element. -/
abbrev Stack := List Int

/-- Modelled from the spec: what a `Push` that is not refused does to the stack. -/
def Push (s : Stack) (x : Int) : Stack := x :: s

/-- Modelled from the spec: `Push` on a stack created by `CreateStack(N)`, as the callers
that test its result use it: with all `N` slots in use it returns 0 (here `none`) and
leaves the stack alone, otherwise it pushes. -/
def Push_checked (N : Int) (s : Stack) (x : Int) : Option Stack :=
  if (s.length : Int) < N then some (Push s x) else none

/-- Modelled from the spec: `isEmptyStack`. -/
def isEmptyStack (s : Stack) : Bool := s.isEmpty

/-- Modelled from the spec: the set of set.h (not among the sources), §6 "add, contains",
kept as the list of its elements. -/
abbrev VSet := List Int

/-- Modelled from the spec: `AddToSet`. -/
def AddToSet (s : VSet) (x : Int) : VSet := x :: s

/-- Modelled from the spec: `isElementInSet`. -/
def isElementInSet (s : VSet) (x : Int) : Bool := decide (x ∈ s)

/-! ## Graph construction (graph.c, lines 32-354) -/

/-- `CreateGraph`: `NULL` when `N < 1`, otherwise the empty graph with `N` slots. -/
def CreateGraph (N : Int) : Option Graph :=
  if N < 1 then none
  else some
    { Vertices := List.replicate N.toNat []
      Names := List.replicate N.toNat none
      NumVertices := 0
      NumEdges := 0
      Capacity := N
      NamesTree := AVLNode.nil }

/-- The growth step of `AddVertex`: arrays of `2 * Capacity` slots that receive the first
`NumVertices` slots of the old arrays. -/
def AddVertex_grow (G : Graph) : Graph :=
  let N := 2 * G.Capacity
  { G with
    Names := G.Names.take G.NumVertices.toNat ++
      List.replicate (N.toNat - G.NumVertices.toNat) none
    Vertices := G.Vertices.take G.NumVertices.toNat ++
      List.replicate (N.toNat - G.NumVertices.toNat) []
    Capacity := N }

/-- The C string that `value.Word` holds after `strcpy(value.Word, name); value.Vertex = v;`
(lines 149-150), where `value` is an `AVLElementType`: `char Word[64]` followed by
`int Vertex`. A name of fewer than 64 bytes is copied with its terminator and `Word` holds
the name. A longer name overruns the array, which C leaves undefined; the model follows
the layout of the structure (`Vertex` right after `Word`, four bytes, low-order byte
first): `Word` keeps the first 64 bytes of the name, the assignment to `Vertex` replaces
what `strcpy` wrote there, and the string that starts at `Word` runs on through the bytes
of `Vertex` up to the first zero byte among them (an id below 16777216 has one; the model
ends the string after the four bytes otherwise). -/
def AddVertex_word (name : List Nat) (v : Int) : List Nat :=
  if name.length < 64 then name
  else name.take 64 ++ (intBytes v).takeWhile (fun b => b != 0)

/-- `AddVertex`: the new graph and the returned vertex id. The names tree receives the
string of `value.Word` (`AddVertex_word`), the array `Names` a copy of the whole name
(lines 209-216). -/
def AddVertex (G : Graph) (name : List Nat) : Graph × Int :=
  let v := G.NumVertices
  let tree := Insert G.NamesTree (AddVertex_word name v) v
  let G1 := if G.NumVertices = G.Capacity then AddVertex_grow G else G
  ({ G1 with
      Vertices := G1.Vertices.set v.toNat []
      Names := G1.Names.set v.toNat (some name)
      NumVertices := G.NumVertices + 1
      NamesTree := tree }, v)

/-- `Name2Vertex`: the search of the names tree; `-1` when the name is absent. -/
def Name2Vertex_walk : AVLNode → List Nat → Int
  | .nil, _ => -1
  | .node w x _ l r, name =>
    if name = w then x
    else if strcmp_neg name w then Name2Vertex_walk l name
    else Name2Vertex_walk r name

/-- `Name2Vertex`. -/
def Name2Vertex (G : Graph) (Name : List Nat) : Int := Name2Vertex_walk G.NamesTree Name

/-- `Vertex2Name`: `NULL` for an invalid id. -/
def Vertex2Name (G : Graph) (v : Int) : Option (List Nat) :=
  if v < 0 ∨ v ≥ G.NumVertices then none else (G.Names.getD v.toNat none)

/-- The linking loop of `AddEdge` (lines 324-346): walk `cur` down the list while
`dest > cur->dest` and link the new edge in front of `cur`. -/
def AddEdge_link (edge : Edge) : List Edge → List Edge
  | [] => [edge]
  | cur :: rest =>
    if edge.dest ≤ cur.dest then edge :: cur :: rest
    else cur :: AddEdge_link edge rest

/-- `AddEdge`: the new graph and the returned flag (1 success, 0 invalid vertex id). -/
def AddEdge (G : Graph) (src dest : Int) (weight : Int) : Graph × Int :=
  if src < 0 ∨ src ≥ G.NumVertices then (G, 0)
  else if dest < 0 ∨ dest ≥ G.NumVertices then (G, 0)
  else
    ({ G with
        Vertices := G.Vertices.set src.toNat
          (AddEdge_link { src := src, dest := dest, weight := weight }
            (G.Vertices.getD src.toNat []))
        NumEdges := G.NumEdges + 1 }, 1)

/-- The edge list `G->Vertices[v]`. -/
def edgesOf (G : Graph) (v : Int) : List Edge := G.Vertices.getD v.toNat []

/-! ## Neighbors (graph.c, lines 370-429) -/

/-- The copying loop of `Neighbors`: `acc` is `neighbors[0..i)`; an edge is copied when
`i == 0` or when `neighbors[i-1] != cur->dest`. -/
def Neighbors_loop : List Edge → List Int → List Int
  | [], acc => acc
  | cur :: rest, acc =>
    if acc.length = 0 then Neighbors_loop rest (acc ++ [cur.dest])
    else if acc.getLastD 0 ≠ cur.dest then Neighbors_loop rest (acc ++ [cur.dest])
    else Neighbors_loop rest acc

/-- `Neighbors`: `NULL` for an invalid id, otherwise the array of neighbors followed
by `-1`. -/
def Neighbors (G : Graph) (v : Int) : Option (List Int) :=
  if v < 0 ∨ v ≥ G.NumVertices then none
  else some (Neighbors_loop (edgesOf G v) [] ++ [-1])

/-! ## Histories of construction calls -/

/-- A call that changes a graph. -/
inductive Op where
  | addVertex (name : List Nat)
  | addEdge (src dest : Int) (weight : Int)
deriving DecidableEq, Repr

/-- The graph after one call. -/
def applyOp (G : Graph) : Op → Graph
  | .addVertex name => (AddVertex G name).1
  | .addEdge s d w => (AddEdge G s d w).1

/-- The graph after a sequence of calls, first call first. -/
def applyOps (G : Graph) (ops : List Op) : Graph := ops.foldl applyOp G

/-- The edges whose `AddEdge` call returned 1 during a sequence of calls, in call order. -/
def addedEdges : Graph → List Op → List Edge
  | _, [] => []
  | G, .addVertex name :: ops => addedEdges (AddVertex G name).1 ops
  | G, .addEdge s d w :: ops =>
    if (AddEdge G s d w).2 = 1 then
      { src := s, dest := d, weight := w } :: addedEdges (AddEdge G s d w).1 ops
    else addedEdges (AddEdge G s d w).1 ops

/-- The graphs that `CreateGraph`, `AddVertex` and `AddEdge` can produce. -/
inductive Built : Graph → Prop where
  | create (N : Int) (G : Graph) : CreateGraph N = some G → Built G
  | addVertex (G : Graph) (name : List Nat) : Built G → Built (AddVertex G name).1
  | addEdge (G : Graph) (s d : Int) (w : Int) : Built G → Built (AddEdge G s d w).1

/-! ## Loops -/

/-- A loop `while (cond) body` run for at most `fuel` iterations. -/
def whileLoop {σ : Type} (cond : σ → Bool) (body : σ → Except Fault σ) :
    Nat → σ → Except Fault σ
  | 0, s => if cond s then .error .outOfFuel else .ok s
  | fuel + 1, s =>
    if cond s then
      match body s with
      | .ok s1 => whileLoop cond body fuel s1
      | .error e => .error e
    else .ok s

/-! ## BFS (graph.c, lines 573-641) -/

/-- The variables of the loop of `BFS`; `visited` is `visited[0..i)`. -/
structure BFSState where
  frontierQ : Queue
  discoveredSet : VSet
  visited : List Int
deriving DecidableEq, Repr

/-- The loop over the neighbors (lines 615-627): a neighbor that is not in the
discovered set is enqueued and added to the set. -/
def BFS_discover : List Int → Queue × VSet → Queue × VSet
  | [], qs => qs
  | adjV :: rest, (q, s) =>
    if !isElementInSet s adjV then BFS_discover rest (Enqueue q adjV, AddToSet s adjV)
    else BFS_discover rest (q, s)

/-- One iteration of the loop of `BFS` (lines 607-629). -/
def BFS_body (G : Graph) (st : BFSState) : Except Fault BFSState :=
  match st.frontierQ with
  | [] => .error .exit
  | currentV :: restQ =>
    match Neighbors G currentV with
    | none => .error .exit
    | some neighbors =>
      let qs := BFS_discover (upToMarker neighbors) (restQ, st.discoveredSet)
      .ok { frontierQ := qs.1, discoveredSet := qs.2, visited := st.visited ++ [currentV] }

/-- `BFS`: `NULL` for an invalid id, otherwise the visited vertices followed by `-1`. -/
def BFS (fuel : Nat) (G : Graph) (v : Int) : Except Fault (Option (List Int)) :=
  if v < 0 ∨ v ≥ G.NumVertices then .ok none
  else
    match whileLoop (fun st => !isEmptyQueue st.frontierQ) (BFS_body G) fuel
        { frontierQ := Enqueue [] v, discoveredSet := AddToSet [] v, visited := [] } with
    | .ok st => .ok (some (st.visited ++ [-1]))
    | .error e => .error e

/-! ## BFSd (graph.c, lines 667-757) -/

/-- The variables of the loop of `BFSd`; `stop` records that the `break` was taken. -/
structure BFSdState where
  frontierQ : Queue
  discoveredSet : VSet
  visited : List Int
  distance : Int
  stop : Bool
deriving DecidableEq, Repr

/-- One iteration of the loop of `BFSd` (lines 707-744). -/
def BFSd_body (G : Graph) (st : BFSdState) : Except Fault BFSdState :=
  match st.frontierQ with
  | [] => .error .exit
  | front :: restQ =>
    if front = -1 then
      if st.distance - 1 < 0 then
        .ok { st with visited := st.visited ++ [-1], distance := st.distance - 1, stop := true }
      else
        .ok { st with
              frontierQ := Enqueue restQ (-1)
              visited := st.visited ++ [-1]
              distance := st.distance - 1 }
    else
      match Neighbors G front with
      | none => .error .exit
      | some neighbors =>
        let qs := BFS_discover (upToMarker neighbors) (restQ, st.discoveredSet)
        .ok { st with
              frontierQ := qs.1
              discoveredSet := qs.2
              visited := st.visited ++ [front] }

/-- `BFSd`: `NULL` for an invalid id or `distance < 1`, otherwise the visited vertices
with a `-1` marker after each level, followed by the final `-1`. -/
def BFSd (fuel : Nat) (G : Graph) (v : Int) (distance : Int) :
    Except Fault (Option (List Int)) :=
  if v < 0 ∨ v ≥ G.NumVertices then .ok none
  else if distance < 1 then .ok none
  else
    match whileLoop (fun st => !st.stop && !isEmptyQueue st.frontierQ) (BFSd_body G) fuel
        { frontierQ := Enqueue (Enqueue [] v) (-1)
          discoveredSet := AddToSet [] v
          visited := []
          distance := distance
          stop := false } with
    | .ok st => .ok (some (st.visited ++ [-1]))
    | .error e => .error e

/-! ## DFS (graph.c, lines 776-875) -/

/-- The variables of the loop of `DFS`. -/
structure DFSState where
  frontierStack : Stack
  visitedSet : VSet
  visitedQ : Queue
deriving DecidableEq, Repr

/-- The loop that pushes `neighbors[j]` for `j` from the last index down to 0
(lines 826-833) on the stack of `N` slots; a `Push` that fails is `exit(-1)` (line 830). -/
def DFS_pushBackwards (N : Int) (neighbors : List Int) (S : Stack) : Except Fault Stack :=
  neighbors.reverse.foldlM
    (fun S1 adjV =>
      match Push_checked N S1 adjV with
      | some S2 => .ok S2
      | none => .error .exit) S

/-- One iteration of the loop of `DFS` (lines 794-836); the stack has the
`N = NumVertices + 1` slots of `CreateStack(N)` (lines 784-786). The queue and the set are
created with `N` slots too and hold each vertex at most once. -/
def DFS_body (G : Graph) (st : DFSState) : Except Fault DFSState :=
  match st.frontierStack with
  | [] => .error .exit
  | currentV :: restS =>
    let visitedQ :=
      if !isElementInQueue st.visitedQ currentV then Enqueue st.visitedQ currentV
      else st.visitedQ
    if !isElementInSet st.visitedSet currentV then
      match Neighbors G currentV with
      | none => .error .exit
      | some neighbors =>
        match DFS_pushBackwards (G.NumVertices + 1) (upToMarker neighbors) restS with
        | .error e => .error e
        | .ok S =>
          .ok { frontierStack := S
                visitedSet := AddToSet st.visitedSet currentV
                visitedQ := visitedQ }
    else .ok { frontierStack := restS, visitedSet := st.visitedSet, visitedQ := visitedQ }

/-- `DFS`: `NULL` for an invalid id, otherwise the queue of visited vertices copied out
in order and followed by `-1`; `exit(-1)` when a `Push` finds the stack full. -/
def DFS (fuel : Nat) (G : Graph) (v : Int) : Except Fault (Option (List Int)) :=
  if v < 0 ∨ v ≥ G.NumVertices then .ok none
  else
    match Push_checked (G.NumVertices + 1) [] v with
    | none => .error .exit
    | some S =>
      match whileLoop (fun st => !isEmptyStack st.frontierStack) (DFS_body G) fuel
          { frontierStack := S, visitedSet := [], visitedQ := [] } with
      | .ok st => .ok (some (st.visitedQ ++ [-1]))
      | .error e => .error e

/-! ## getEdgeWeight, PopMin, Dijkstra (graph.c, lines 890-1167) -/

/-- The search loop of `getEdgeWeight` (lines 910-929); returns `(weight, haveEdge)`. -/
def getEdgeWeight_loop (dest : Int) : List Edge → Int → Bool → Int × Bool
  | [], weight, haveEdge => (weight, haveEdge)
  | cur :: rest, weight, haveEdge =>
    if dest = cur.dest then
      if !haveEdge then getEdgeWeight_loop dest rest cur.weight true
      else if cur.weight < weight then getEdgeWeight_loop dest rest cur.weight haveEdge
      else getEdgeWeight_loop dest rest weight haveEdge
    else if dest < cur.dest then (weight, haveEdge)
    else getEdgeWeight_loop dest rest weight haveEdge

/-- `getEdgeWeight`: exits for an invalid id and when no edge is found. The local
`weight` is read only after it was written, its initial value here is 0. -/
def getEdgeWeight (G : Graph) (src dest : Int) : Except Fault Int :=
  if src < 0 ∨ src ≥ G.NumVertices then .error .exit
  else if dest < 0 ∨ dest ≥ G.NumVertices then .error .exit
  else
    let r := getEdgeWeight_loop dest (edgesOf G src) 0 false
    if !r.2 then .error .exit else .ok r.1

/-- The scan of `PopMin` (lines 973-986): the rest of the queue is dequeued, the
smaller vertex is kept in `minV` and the other one is pushed on `S`. -/
def PopMin_scan (distance : List Int) : Queue → Int → Stack → Int × Stack
  | [], minV, S => (minV, S)
  | v :: rest, minV, S =>
    if arrGet distance v < arrGet distance minV then PopMin_scan distance rest v (Push S minV)
    else PopMin_scan distance rest minV (Push S v)

/-- The loop of `PopMin` that empties the stack back into the queue (lines 991-994). -/
def PopMin_refill : Stack → Queue → Queue
  | [], q => q
  | top :: S, q => PopMin_refill S (Enqueue q top)

/-- `PopMin`: the vertex removed and the queue afterwards; both asserts are checked. -/
def PopMin (unvisitedQ : Queue) (distance : List Int) : Except Fault (Int × Queue) :=
  match unvisitedQ with
  | [] => .error .exit
  | first :: rest =>
    let r := PopMin_scan distance rest first []
    let q := PopMin_refill r.2 []
    if q.length + 1 = unvisitedQ.length then .ok (r.1, q) else .error .exit

/-- The variables of the main loop of `Dijkstra`; `stop` records that the `break`
was taken. -/
structure DijkstraState where
  unvisitedQ : Queue
  distance : List Int
  predecessor : List Int
  stop : Bool
deriving DecidableEq, Repr

/-- The loop over the neighbors of `currentV` (lines 1080-1094). -/
def Dijkstra_relax (G : Graph) (currentV : Int) :
    List Int → List Int × List Int → Except Fault (List Int × List Int)
  | [], dp => .ok dp
  | adjV :: rest, (distance, predecessor) =>
    match getEdgeWeight G currentV adjV with
    | .error e => .error e
    | .ok edgeWeight =>
      let altDistance := wrapInt32 (arrGet distance currentV + edgeWeight)
      if altDistance < arrGet distance adjV then
        Dijkstra_relax G currentV rest
          (arrSet distance adjV altDistance, arrSet predecessor adjV currentV)
      else Dijkstra_relax G currentV rest (distance, predecessor)

/-- One iteration of the main loop of `Dijkstra` (lines 1066-1096). -/
def Dijkstra_body (G : Graph) (st : DijkstraState) : Except Fault DijkstraState :=
  match PopMin st.unvisitedQ st.distance with
  | .error e => .error e
  | .ok (currentV, q) =>
    if arrGet st.distance currentV = INT_MAX then
      .ok { st with unvisitedQ := q, stop := true }
    else
      match Neighbors G currentV with
      | none => .error .exit
      | some neighbors =>
        match Dijkstra_relax G currentV (upToMarker neighbors)
            (st.distance, st.predecessor) with
        | .error e => .error e
        | .ok dp => .ok { st with unvisitedQ := q, distance := dp.1, predecessor := dp.2 }

/-- One iteration of the predecessor walk (lines 1107-1111); the state is `(v, S)`. -/
def Dijkstra_walkBody (predecessor : List Int) (vs : Int × Stack) :
    Except Fault (Int × Stack) :=
  .ok (arrGet predecessor vs.1, Push vs.2 vs.1)

/-- `Dijkstra`: `NULL` for an invalid id, otherwise the path followed by `-1`, which is
the array holding only `-1` when just `src` is on the stack. -/
def Dijkstra (fuel : Nat) (G : Graph) (src dest : Int) :
    Except Fault (Option (List Int)) :=
  if src < 0 ∨ src ≥ G.NumVertices then .ok none
  else if dest < 0 ∨ dest ≥ G.NumVertices then .ok none
  else
    let N := G.NumVertices.toNat
    let init : DijkstraState :=
      { unvisitedQ := (List.range N).map Int.ofNat
        distance := arrSet (List.replicate N INT_MAX) src 0
        predecessor := List.replicate N (-1)
        stop := false }
    match whileLoop (fun st => !st.stop && !isEmptyQueue st.unvisitedQ) (Dijkstra_body G)
        fuel init with
    | .error e => .error e
    | .ok st =>
      match whileLoop (fun vs => arrGet st.predecessor vs.1 != -1)
          (Dijkstra_walkBody st.predecessor) fuel (dest, []) with
      | .error e => .error e
      | .ok vs =>
        let S := Push vs.2 src
        if S.length = 1 then .ok (some [-1])
        else .ok (some (S ++ [-1]))

/-! ## Invariant and specification vocabulary -/

/-- The structural invariant of the graphs under study. -/
structure WF (G : Graph) : Prop where
  cap_pos : 1 ≤ G.Capacity
  nv_nonneg : 0 ≤ G.NumVertices
  nv_le_cap : G.NumVertices ≤ G.Capacity
  len_vertices : G.Vertices.length = G.Capacity.toNat
  edge_ok : ∀ v : Int, 0 ≤ v → v < G.NumVertices → ∀ e ∈ edgesOf G v,
    e.src = v ∧ 0 ≤ e.dest ∧ e.dest < G.NumVertices
  sorted : ∀ v : Int, 0 ≤ v → v < G.NumVertices →
    (edgesOf G v).Pairwise (fun a b => a.dest ≤ b.dest)

/-- The neighbors array of `v` without its terminator. -/
def nbrs (G : Graph) (v : Int) : List Int := Neighbors_loop (edgesOf G v) []

/-- There is an edge `u -> w`. -/
def Adj (G : Graph) (u w : Int) : Prop :=
  0 ≤ u ∧ u < G.NumVertices ∧ ∃ e ∈ edgesOf G u, e.dest = w

/-- `x` can be reached from `s` along edges. -/
def Reach (G : Graph) (s x : Int) : Prop := Relation.ReflTransGen (Adj G) s x

/-- The invariant of the loop of `BFS` started at `v`. -/
structure BFSInv (G : Graph) (v : Int) (st : BFSState) : Prop where
  nodup : (st.visited ++ st.frontierQ).Nodup
  disc : ∀ x, x ∈ st.discoveredSet ↔ x ∈ st.visited ∨ x ∈ st.frontierQ
  reach : ∀ x ∈ st.discoveredSet, Reach G v x ∧ 0 ≤ x ∧ x < G.NumVertices
  closed : ∀ u ∈ st.visited, ∀ w, Adj G u w → w ∈ st.discoveredSet
  first : (st.visited ++ st.frontierQ).head? = some v

/-- The pushes of `DFS_pushBackwards` when none is refused. -/
def pushAllBackwards (neighbors : List Int) (S : Stack) : Stack :=
  neighbors.reverse.foldl Push S

/-- One iteration of the loop of `DFS` on a stack without a limit: what `DFS_body` does as
long as no `Push` is refused. It serves to count the entries the stack would have to hold
and to describe the search that `DFS` carries out while its stack has room. -/
def DFS_body_unbounded (G : Graph) (st : DFSState) : Except Fault DFSState :=
  match st.frontierStack with
  | [] => .error .exit
  | currentV :: restS =>
    let visitedQ :=
      if !isElementInQueue st.visitedQ currentV then Enqueue st.visitedQ currentV
      else st.visitedQ
    if !isElementInSet st.visitedSet currentV then
      match Neighbors G currentV with
      | none => .error .exit
      | some neighbors =>
        .ok { frontierStack := pushAllBackwards (upToMarker neighbors) restS
              visitedSet := AddToSet st.visitedSet currentV
              visitedQ := visitedQ }
    else .ok { frontierStack := restS, visitedSet := st.visitedSet, visitedQ := visitedQ }

/-- `DFS` on a stack without a limit. -/
def DFS_unbounded (fuel : Nat) (G : Graph) (v : Int) : Except Fault (Option (List Int)) :=
  if v < 0 ∨ v ≥ G.NumVertices then .ok none
  else
    match whileLoop (fun st => !isEmptyStack st.frontierStack) (DFS_body_unbounded G) fuel
        { frontierStack := Push [] v, visitedSet := [], visitedQ := [] } with
    | .ok st => .ok (some (st.visitedQ ++ [-1]))
    | .error e => .error e

/-- The invariant of the loop of `DFS` started at `v`. -/
structure DFSInv (G : Graph) (v : Int) (st : DFSState) : Prop where
  nodup : st.visitedQ.Nodup
  vset : ∀ x, x ∈ st.visitedSet ↔ x ∈ st.visitedQ
  reach : ∀ x, x ∈ st.frontierStack ∨ x ∈ st.visitedQ →
    Reach G v x ∧ 0 ≤ x ∧ x < G.NumVertices
  closed : ∀ u ∈ st.visitedQ, ∀ w, Adj G u w → w ∈ st.visitedQ ∨ w ∈ st.frontierStack
  first : (st.visitedQ ++ st.frontierStack).head? = some v

/-- The number of pushes still to come from the vertices that are not in `vs`. -/
def dfsCost (G : Graph) (vs : VSet) : Nat :=
  (((List.range G.NumVertices.toNat).filter (fun n : Nat => decide ((n : Int) ∉ vs))).map
    (fun n : Nat => (nbrs G (n : Int)).length)).sum

/-- A number of iterations that is enough for `DFS`: one for the start vertex and one
for each entry of each neighbors array. -/
def DFS_fuel (G : Graph) : Nat :=
  1 + ((List.range G.NumVertices.toNat).map (fun n : Nat => (nbrs G (n : Int)).length)).sum

/-- The loop `while (cond) body` goes from `s` to `t` in `k` iterations. -/
inductive Steps {σ : Type} (cond : σ → Bool) (body : σ → Except Fault σ) :
    Nat → σ → σ → Prop where
  | refl (s : σ) : Steps cond body 0 s s
  | step (k : Nat) (s s1 t : σ) : cond s = true → body s = .ok s1 →
      Steps cond body k s1 t → Steps cond body (k + 1) s t

/-- There is a walk of exactly `k` edges from `s` to `x`. -/
def ReachIn (G : Graph) : Nat → Int → Int → Prop
  | 0, s, x => s = x
  | k + 1, s, x => ∃ u, ReachIn G k s u ∧ Adj G u x

/-- The shortest walk from `s` to `x` has exactly `k` edges. -/
def HopDist (G : Graph) (s x : Int) (k : Nat) : Prop :=
  ReachIn G k s x ∧ ∀ j, j < k → ¬ ReachIn G j s x

/-- What the loop of `BFSd` does with one level: the vertices of `lv` are dequeued in order
and each one enqueues its neighbors that are not yet discovered. Returns the vertices
enqueued and the discovered set afterwards. -/
def expandLevel (G : Graph) : List Int → VSet → List Int × VSet
  | [], D => ([], D)
  | u :: rest, D =>
    let new := (nbrs G u).filter (fun x => decide (x ∉ D))
    let r := expandLevel G rest (new.reverse ++ D)
    (new ++ r.1, r.2)

/-- The level `lv` and the `n` levels after it. -/
def bfsLevels (G : Graph) : Nat → List Int → VSet → List (List Int)
  | 0, lv, _ => [lv]
  | n + 1, lv, D => lv :: bfsLevels G n (expandLevel G lv D).1 (expandLevel G lv D).2

/-- The output of `BFSd` for a list of levels: each level followed by a marker. -/
def withMarkers (groups : List (List Int)) : List Int :=
  (groups.map (fun g => g ++ [-1])).flatten

/-- The loop condition of `BFSd`. -/
def BFSd_cond (st : BFSdState) : Bool := !st.stop && !isEmptyQueue st.frontierQ

/-- What is known when the loop of `BFSd` starts on level `k`: `lv` holds the vertices
at distance `k` and `D` the vertices at distance at most `k`. -/
structure LevelInv (G : Graph) (start : Int) (k : Nat) (lv : List Int) (D : VSet) :
    Prop where
  mem_lv : ∀ x, x ∈ lv ↔ HopDist G start x k
  mem_D : ∀ x, x ∈ D ↔ ∃ j, j ≤ k ∧ ReachIn G j start x
  nodup : lv.Nodup

/-- The weight that `getEdgeWeight` returns for the hop `u -> w` (0 when it exits). -/
def wt (G : Graph) (u w : Int) : Int :=
  match getEdgeWeight G u w with
  | .ok x => x
  | .error _ => 0

/-- The total weight of a sequence of vertices: the sum of `getEdgeWeight` over its
consecutive hops. -/
def pathWeight (G : Graph) : List Int → Int
  | [] => 0
  | [_] => 0
  | u :: w :: rest => wt G u w + pathWeight G (w :: rest)

/-- Every hop of the sequence is an edge of the graph. -/
def IsPath (G : Graph) (p : List Int) : Prop := List.Chain' (Adj G) p

/-- One pass of the loop over the neighbors in `Dijkstra` for the neighbor `y` of `u`. -/
def relaxOne (G : Graph) (u : Int) (dp : List Int × List Int) (y : Int) :
    List Int × List Int :=
  if wrapInt32 (arrGet dp.1 u + wt G u y) < arrGet dp.1 y then
    (arrSet dp.1 y (wrapInt32 (arrGet dp.1 u + wt G u y)), arrSet dp.2 y u)
  else dp

/-- The loop condition of the main loop of `Dijkstra`. -/
def Dijkstra_cond (st : DijkstraState) : Bool := !st.stop && !isEmptyQueue st.unvisitedQ

/-- What holds in the main loop of `Dijkstra` whatever the weights are. -/
structure DijkW (G : Graph) (src : Int) (st : DijkstraState) : Prop where
  len_d : st.distance.length = G.NumVertices.toNat
  len_p : st.predecessor.length = G.NumVertices.toNat
  q_valid : ∀ x ∈ st.unvisitedQ, 0 ≤ x ∧ x < G.NumVertices
  reach : ∀ x, 0 ≤ x → x < G.NumVertices →
    (arrGet st.distance x ≠ INT_MAX ∨ arrGet st.predecessor x ≠ -1) → Reach G src x

/-- The part of `DijkW` that concerns the two arrays. -/
def ReachW (G : Graph) (src : Int) (dp : List Int × List Int) : Prop :=
  dp.1.length = G.NumVertices.toNat ∧ dp.2.length = G.NumVertices.toNat ∧
  ∀ x, 0 ≤ x → x < G.NumVertices →
    (arrGet dp.1 x ≠ INT_MAX ∨ arrGet dp.2 x ≠ -1) → Reach G src x

/-- The state of `Dijkstra` before the main loop. -/
def Dijkstra_init (G : Graph) (src : Int) : DijkstraState :=
  { unvisitedQ := (List.range G.NumVertices.toNat).map Int.ofNat
    distance := arrSet (List.replicate G.NumVertices.toNat INT_MAX) src 0
    predecessor := List.replicate G.NumVertices.toNat (-1)
    stop := false }

/-- The sequence `c` leads from `src` to `x` along predecessor links: each vertex but the
first has the vertex before it as predecessor, that vertex is no longer in the queue `Q`,
and the distance grows by the weight of the hop. -/
inductive PredChain (G : Graph) (d p : List Int) (Q : List Int) (src : Int) :
    Int → List Int → Prop where
  | root : PredChain G d p Q src src [src]
  | snoc (u x : Int) (c : List Int) : PredChain G d p Q src u c → u ∉ Q →
      arrGet p x = u → arrGet d x = arrGet d u + wt G u x → Adj G u x →
      PredChain G d p Q src x (c ++ [x])

/-- The invariant of `Dijkstra` for non-negative weights: `Q` is the queue, `u` the vertex
removed last and `rem` the neighbors of `u` that the loop over the neighbors has not yet
handled. -/
structure DijkInv (G : Graph) (src : Int) (Q : List Int) (u : Int) (rem : List Int)
    (d p : List Int) : Prop where
  nodupQ : Q.Nodup
  qvalid : ∀ z ∈ Q, 0 ≤ z ∧ z < G.NumVertices
  src0 : arrGet d src = 0
  psrc : arrGet p src = -1
  range : ∀ x, 0 ≤ x → x < G.NumVertices → 0 ≤ arrGet d x ∧ arrGet d x ≤ INT_MAX
  relaxed : ∀ x, 0 ≤ x → x < G.NumVertices → x ∉ Q → arrGet d x < INT_MAX →
    ∀ y, Adj G x y → (x = u → y ∉ rem) → arrGet d y ≤ arrGet d x + wt G x y
  below : ∀ x, 0 ≤ x → x < G.NumVertices → x ∉ Q → ∀ y ∈ Q, arrGet d x ≤ arrGet d y
  belowU : ∀ x, 0 ≤ x → x < G.NumVertices → x ∉ Q → arrGet d x ≤ arrGet d u
  chain : ∀ x, 0 ≤ x → x < G.NumVertices → arrGet d x < INT_MAX →
    ∃ c, PredChain G d p Q src x c ∧ c.length + Q.length ≤ G.NumVertices.toNat + 1 ∧
      (x ∉ Q → c.length + Q.length ≤ G.NumVertices.toNat)

/-- The hypothesis on the weights: every hop weighs at least 0. -/
def NonNegWeights (G : Graph) : Prop :=
  ∀ v : Int, 0 ≤ v → v < G.NumVertices → ∀ e ∈ edgesOf G v, 0 ≤ e.weight

/-- The hypothesis on the sums: every sequence of at most `NumVertices` hops from `src`
weighs less than `INT_MAX`. -/
def PathSumsBelowIntMax (G : Graph) (src : Int) : Prop :=
  ∀ q : List Int, IsPath G q → q.head? = some src →
    q.length ≤ G.NumVertices.toNat + 1 → pathWeight G q < INT_MAX

/-- The invariant of the main loop of `Dijkstra` for non-negative weights. -/
structure DijkFull (G : Graph) (src : Int) (st : DijkstraState) : Prop where
  weak : DijkW G src st
  inv : ∃ u, DijkInv G src st.unvisitedQ u [] st.distance st.predecessor
  stopped : st.stop = true → ∀ z ∈ st.unvisitedQ, arrGet st.distance z = INT_MAX

/-- The vertex reached from `x` by `k` predecessor links. -/
def predUp (p : List Int) : Nat → Int → Int
  | 0, x => x
  | k + 1, x => arrGet p (predUp p k x)

/-- The first `k` predecessor links from `x` exist: none of them is `-1`. -/
def Climbs (p : List Int) (k : Nat) (x : Int) : Prop :=
  ∀ j, j < k → arrGet p (predUp p j x) ≠ -1

/-- The hypothesis on cycles for weights of any sign: no cycle that can be reached from
`src` has a negative weight. -/
def NoNegCycle (G : Graph) (src : Int) : Prop :=
  ∀ q : List Int, IsPath G q → 2 ≤ q.length → q.head? = q.getLast? →
    (∀ x, q.head? = some x → Reach G src x) → 0 ≤ pathWeight G q

/-- The hypothesis on the sums for weights of any sign: every sequence of at most
`NumVertices` hops from `src` has a weight in the range of `int`. -/
def PathSumsInIntRange (G : Graph) (src : Int) : Prop :=
  ∀ q : List Int, IsPath G q → q.head? = some src →
    q.length ≤ G.NumVertices.toNat + 1 →
    -2147483648 ≤ pathWeight G q ∧ pathWeight G q ≤ INT_MAX

/-- What holds in `Dijkstra` for weights of any sign when no negative cycle is reachable and
the sums stay in range; `Q` is the queue. Every predecessor link is an edge along which the
distance does not drop by more than the weight, no vertex is reached from itself along
predecessor links, and the distance of a queued vertex is the weight of a path from `src`
through distinct vertices that have left the queue. -/
structure DijkAcyc (G : Graph) (src : Int) (Q : List Int) (d p : List Int) : Prop where
  len_d : d.length = G.NumVertices.toNat
  len_p : p.length = G.NumVertices.toNat
  nodupQ : Q.Nodup
  qvalid : ∀ z ∈ Q, 0 ≤ z ∧ z < G.NumVertices
  range : ∀ x, 0 ≤ x → x < G.NumVertices → arrGet d x ≤ INT_MAX
  pred : ∀ x, 0 ≤ x → x < G.NumVertices → arrGet p x ≠ -1 →
    (0 ≤ arrGet p x ∧ arrGet p x < G.NumVertices) ∧ Adj G (arrGet p x) x ∧
      Reach G src (arrGet p x) ∧ arrGet d (arrGet p x) + wt G (arrGet p x) x ≤ arrGet d x
  acyc : ∀ x, 0 ≤ x → x < G.NumVertices → ∀ k, 0 < k → Climbs p k x → predUp p k x ≠ x
  walk : ∀ x ∈ Q, arrGet d x < INT_MAX →
    ∃ q, IsPath G q ∧ q.head? = some src ∧ q.getLast? = some x ∧
      pathWeight G q = arrGet d x ∧ q.dropLast.Nodup ∧
      ∀ z ∈ q.dropLast, (0 ≤ z ∧ z < G.NumVertices) ∧ z ∉ Q

/-- The names given to `AddVertex` during a sequence of calls, in call order. -/
def addedNames : List Op → List (List Nat)
  | [] => []
  | .addVertex name :: ops => name :: addedNames ops
  | .addEdge _ _ _ :: ops => addedNames ops

/-- The names given to `AddVertex` during a sequence of calls, each with the id that the
call returned, in call order. -/
def addedVertices : Graph → List Op → List (List Nat × Int)
  | _, [] => []
  | G, .addVertex name :: ops =>
    (name, (AddVertex G name).2) :: addedVertices (AddVertex G name).1 ops
  | G, .addEdge s d w :: ops => addedVertices (AddEdge G s d w).1 ops

/-- The number of edge nodes in the lists of the vertices `0 .. NumVertices - 1`. -/
def edgeCount (G : Graph) : Int :=
  ((List.range G.NumVertices.toNat).map
    (fun n : Nat => ((edgesOf G (n : Int)).length : Int))).sum

/-- The `(src, dest)` pairs of the edges whose `AddEdge` call returned 1 during a sequence of
calls. -/
def edgePairs (G : Graph) (ops : List Op) : List (Int × Int) :=
  (addedEdges G ops).map (fun e => (e.src, e.dest))

/-- Spec side: the neighbors of `v` in ascending id order, the ids `w` of the graph for
which an edge `v -> w` exists. -/
def specNeighbors (G : Graph) (v : Int) : List Int :=
  ((List.range G.NumVertices.toNat).map (fun n : Nat => (n : Int))).filter
    (fun w => (edgesOf G v).any (fun e => decide (e.dest = w)))

/-- Spec side: the recursive depth-first search. `specDFS G fuel ws vis` visits the vertices
of `ws` one after the other, `vis` being the preorder so far: a vertex that was visited is
skipped, another one is appended to the preorder and the search recurses into its neighbors
in ascending order before it goes on with the rest of `ws`. The search from `start` is
`specDFS G fuel [start] []`; `fuel` bounds the depth of the calls. -/
def specDFS (G : Graph) : Nat → List Int → List Int → Option (List Int)
  | _, [], vis => some vis
  | 0, _ :: _, _ => none
  | f + 1, w :: ws, vis =>
    if w ∈ vis then specDFS G f ws vis
    else
      match specDFS G f (specNeighbors G w) (vis ++ [w]) with
      | none => none
      | some vis1 => specDFS G f ws vis1

/-! ## AddEdges (main.c, lines 76-117) -/

/-- The values `'a' .. 'z'` (97 .. 122) of `c` in the innermost loop of `AddEdges`. -/
def AddEdges_letters : List Nat := (List.range 26).map (fun k => 97 + k)

/-- One pass of the innermost loop of `AddEdges` (main.c, lines 99-111) for the string
`temp`: when `Name2Vertex` finds a vertex other than `v`, the edge of weight 1 is added, and
a failing `AddEdge` ends the program. -/
def AddEdges_try (v : Int) (G : Graph) (temp : List Nat) : Except Fault Graph :=
  if Name2Vertex G temp ≥ 0 ∧ Name2Vertex G temp ≠ v then
    if (AddEdge G v (Name2Vertex G temp) 1).2 = 0 then .error .exit
    else .ok (AddEdge G v (Name2Vertex G temp) 1).1
  else .ok G

/-- The loop over `c` for the byte position `i` of `word` (lines 94-112): `temp` is `word`
with the byte `c` at position `i`. -/
def AddEdges_position (v : Int) (word : List Nat) (G : Graph) (i : Nat) :
    Except Fault Graph :=
  AddEdges_letters.foldlM (fun G1 c => AddEdges_try v G1 (word.set i c)) G

/-- The body of the loop over the vertices (lines 87-115): the positions
`0 .. strlen(word) - 1` of the name of `v` are handled one after the other. A `NULL` name
ends the program. -/
def AddEdges_vertex (G : Graph) (v : Nat) : Except Fault Graph :=
  match G.Names.getD v none with
  | none => .error .exit
  | some word =>
    (List.range word.length).foldlM (fun G1 i => AddEdges_position (v : Int) word G1 i) G

/-- `AddEdges` (main.c, lines 76-117). The bound `G->NumVertices` of the loop is read once:
no call in the loop changes it. -/
def AddEdges (G : Graph) : Except Fault Graph :=
  (List.range G.NumVertices.toNat).foldlM AddEdges_vertex G

/-! ## Vocabulary for the result of AddEdges -/

/-- The two names have the same length and differ in exactly one position, where the second
one has a letter `'a' .. 'z'`. -/
def differInOneLetter (a b : List Nat) : Prop :=
  a.length = b.length ∧
  ∃ i, i < a.length ∧ a[i]? ≠ b[i]? ∧ (∀ j, j < a.length → j ≠ i → a[j]? = b[j]?) ∧
    ∃ c, c ∈ AddEdges_letters ∧ b[i]? = some c

/-- The edge that a pass of the innermost loop adds, if any. -/
def tryEdges (G : Graph) (v : Int) (temp : List Nat) : List Edge :=
  if Name2Vertex G temp ≥ 0 ∧ Name2Vertex G temp ≠ v then
    [{ src := v, dest := Name2Vertex G temp, weight := 1 }]
  else []

/-- The edges that `AddEdges` adds for the vertex `v` named `word`, in order. -/
def vertexEdges (G : Graph) (v : Int) (word : List Nat) : List Edge :=
  (List.range word.length).flatMap (fun i =>
    AddEdges_letters.flatMap (fun c => tryEdges G v (word.set i c)))

/-- The edges that `AddEdges` adds, in order. -/
def allEdges (G : Graph) : List Edge :=
  (List.range G.NumVertices.toNat).flatMap (fun v : Nat =>
    match G.Names.getD v none with
    | none => []
    | some word => vertexEdges G (v : Int) word)

/-- The calls of `AddEdge` for a list of edges. -/
def edgeOps (es : List Edge) : List Op := es.map (fun e => Op.addEdge e.src e.dest e.weight)

/-- The graph `G1` has the names, the name index and the number of vertices of `G`. -/
def SameNames (G G1 : Graph) : Prop :=
  G1.NamesTree = G.NamesTree ∧ G1.Names = G.Names ∧ G1.NumVertices = G.NumVertices

/-! ## Concrete graphs used as witnesses -/

/-- The empty graph of capacity 2. -/
def emptyGraph2 : Graph :=
  { Vertices := [[], []], Names := [none, none], NumVertices := 0, NumEdges := 0,
    Capacity := 2, NamesTree := AVLNode.nil }

/-- The history of the multi-edge scenario: vertices a, b, c, then the edges a->c (1),
a->b (5), a->b (2) in that order. -/
def historyABC : List Op :=
  [Op.addVertex (cstr "a"), Op.addVertex (cstr "b"), Op.addVertex (cstr "c"), Op.addEdge 0 2 1,
    Op.addEdge 0 1 5, Op.addEdge 0 1 2]

/-- The history of the example in the comment of `AddEdge`: three vertices, then the
edges (0,1,100) and (0,2,75). -/
def historyDoc : List Op :=
  [Op.addVertex (cstr "x"), Op.addVertex (cstr "y"), Op.addVertex (cstr "z"), Op.addEdge 0 1 100,
    Op.addEdge 0 2 75]

/-- The history of the scenario of the spec: the vertices cat, bat, bad and the isolated
zzz, then the edges cat -> bat (1) and bat -> bad (1). -/
def historyCat : List Op :=
  [Op.addVertex (cstr "cat"), Op.addVertex (cstr "bat"), Op.addVertex (cstr "bad"),
    Op.addVertex (cstr "zzz"), Op.addEdge 0 1 1, Op.addEdge 1 2 1]

/-- The graph of the scenario of the spec. -/
def catGraph : Graph := applyOps emptyGraph2 historyCat

/-- The history of a graph whose third level is discovered out of order: five vertices
and the edges 0 -> 1, 0 -> 2, 1 -> 4, 2 -> 3. -/
def historyCross : List Op :=
  [Op.addVertex (cstr "v0"), Op.addVertex (cstr "v1"), Op.addVertex (cstr "v2"),
    Op.addVertex (cstr "v3"), Op.addVertex (cstr "v4"), Op.addEdge 0 1 1, Op.addEdge 0 2 1,
    Op.addEdge 1 4 1, Op.addEdge 2 3 1]

/-- The graph of `historyCross`. -/
def crossGraph : Graph := applyOps emptyGraph2 historyCross

/-- The history of a graph with one edge of weight `INT_MAX`: two vertices and the edge
0 -> 1 of weight 2147483647. -/
def historyMax : List Op :=
  [Op.addVertex (cstr "a"), Op.addVertex (cstr "b"), Op.addEdge 0 1 2147483647]

/-- The graph of `historyMax`. -/
def maxGraph : Graph := applyOps emptyGraph2 historyMax

/-- The history of a graph on three vertices: the edges 0 -> 1, 0 -> 2, 1 -> 2. -/
def historyTriA : List Op :=
  [Op.addVertex (cstr "a"), Op.addVertex (cstr "b"), Op.addVertex (cstr "c"), Op.addEdge 0 1 5,
    Op.addEdge 0 2 1, Op.addEdge 1 2 3]

/-- A second history with the same pairs: other names, another order, other weights, the
edge 0 -> 1 twice and one rejected call. -/
def historyTriB : List Op :=
  [Op.addVertex (cstr "x"), Op.addVertex (cstr "y"), Op.addEdge 0 1 2, Op.addVertex (cstr "z"),
    Op.addEdge 1 2 7, Op.addEdge 0 2 9, Op.addEdge 0 5 1, Op.addEdge 0 1 1]

/-- The history of the graph with the single vertex a and no edge. -/
def historyOne : List Op := [Op.addVertex (cstr "a")]

/-- The graph of `historyOne`. -/
def oneGraph : Graph := applyOps emptyGraph2 historyOne

/-- The history of the complete directed graph on four vertices: every edge `u -> w` with
`u != w`, of weight 1. -/
def historyK4 : List Op :=
  [Op.addVertex (cstr "k0"), Op.addVertex (cstr "k1"), Op.addVertex (cstr "k2"),
    Op.addVertex (cstr "k3"), Op.addEdge 0 1 1, Op.addEdge 0 2 1, Op.addEdge 0 3 1,
    Op.addEdge 1 0 1, Op.addEdge 1 2 1, Op.addEdge 1 3 1, Op.addEdge 2 0 1, Op.addEdge 2 1 1,
    Op.addEdge 2 3 1, Op.addEdge 3 0 1, Op.addEdge 3 1 1, Op.addEdge 3 2 1]

/-- The graph of `historyK4`. -/
def k4Graph : Graph := applyOps emptyGraph2 historyK4

/-- The history of a graph with one vertex and the loop 0 -> 0 of weight -1. -/
def historyNegLoop : List Op := [Op.addVertex (cstr "a"), Op.addEdge 0 0 (-1)]

/-- The graph of `historyNegLoop`. -/
def negLoopGraph : Graph := applyOps emptyGraph2 historyNegLoop

/-- The history of the scenario of the word ladder: the words cat, bat, bad, dog and no
edge. -/
def historyWords : List Op :=
  [Op.addVertex (cstr "cat"), Op.addVertex (cstr "bat"), Op.addVertex (cstr "bad"),
    Op.addVertex (cstr "dog")]

/-- A name of 64 bytes: the letter a 64 times. -/
def name64a : List Nat := List.replicate 64 97

/-- A name of 64 bytes that differs from `name64a` in the first byte: the letter b, then the
letter a 63 times. -/
def name64b : List Nat := 98 :: List.replicate 63 97

/-- The history of the graph with the two vertices `name64a` and `name64b` and no edge. -/
def historyLongWords : List Op := [Op.addVertex name64a, Op.addVertex name64b]

/-- The history of a graph with a negative edge and no cycle: three vertices and the edges
0 -> 1 of weight 2, 0 -> 2 of weight 5 and 2 -> 1 of weight -4. -/
def historyNegEdge : List Op :=
  [Op.addVertex (cstr "a"), Op.addVertex (cstr "b"), Op.addVertex (cstr "c"), Op.addEdge 0 1 2,
    Op.addEdge 0 2 5, Op.addEdge 2 1 (-4)]

/-- The graph of `historyNegEdge`. -/
def negEdgeGraph : Graph := applyOps emptyGraph2 historyNegEdge

/-- The history of a graph whose sums leave the range of `int`: two vertices and the edges
0 -> 1 and 1 -> 0 of weight 1073741824 each. -/
def historyWrap : List Op :=
  [Op.addVertex (cstr "a"), Op.addVertex (cstr "b"), Op.addEdge 0 1 1073741824,
    Op.addEdge 1 0 1073741824]

/-- The graph of `historyWrap`. -/
def wrapGraph : Graph := applyOps emptyGraph2 historyWrap

/-! ## Graph construction keeps the invariant -/

theorem edgesOf_eq (G : Graph) (v : Int) : edgesOf G v = (G.Vertices[v.toNat]?).getD [] := by
  simp [edgesOf, List.getD_eq_getElem?_getD]

theorem AddEdge_link_mem (e : Edge) (l : List Edge) (x : Edge) :
    x ∈ AddEdge_link e l ↔ x = e ∨ x ∈ l := by
  induction l with
  | nil => simp [AddEdge_link]
  | cons c r ih =>
    simp only [AddEdge_link]
    split
    · simp
    · simp [ih]; tauto

theorem AddEdge_link_sorted (e : Edge) (l : List Edge)
    (h : l.Pairwise (fun a b => a.dest ≤ b.dest)) :
    (AddEdge_link e l).Pairwise (fun a b => a.dest ≤ b.dest) := by
  induction l with
  | nil => simp [AddEdge_link]
  | cons c r ih =>
    simp only [AddEdge_link]
    rw [List.pairwise_cons] at h
    split
    · rename_i hle
      refine List.Pairwise.cons ?_ (List.Pairwise.cons h.1 h.2)
      intro a ha
      rcases List.mem_cons.1 ha with rfl | ha
      · exact hle
      · exact le_trans hle (h.1 a ha)
    · rename_i hle
      refine List.Pairwise.cons ?_ (ih h.2)
      intro a ha
      rcases (AddEdge_link_mem e r a).1 ha with h1 | h1
      · subst h1
        show c.dest ≤ a.dest
        omega
      · exact h.1 a h1

theorem edgesOf_AddEdge (G : Graph) (s d w : Int) (v : Int) (hv : 0 ≤ v)
    (hs : 0 ≤ s) (hs2 : s < G.NumVertices) (hd : 0 ≤ d) (hd2 : d < G.NumVertices)
    (hlen : G.NumVertices.toNat ≤ G.Vertices.length) :
    edgesOf (AddEdge G s d w).1 v =
      if v = s then AddEdge_link { src := s, dest := d, weight := w } (edgesOf G s)
      else edgesOf G v := by
  have h1 : ¬ (s < 0 ∨ s ≥ G.NumVertices) := by omega
  have h2 : ¬ (d < 0 ∨ d ≥ G.NumVertices) := by omega
  simp only [AddEdge, h1, h2, if_false, edgesOf_eq]
  rw [List.getElem?_set]
  by_cases hvs : v = s
  · subst hvs
    have : v.toNat < G.Vertices.length := by omega
    simp [this]
  · have : s.toNat ≠ v.toNat := by omega
    simp [this, hvs]

theorem AddEdge_invalid (G : Graph) (s d w : Int)
    (h : ¬ (0 ≤ s ∧ s < G.NumVertices ∧ 0 ≤ d ∧ d < G.NumVertices)) :
    AddEdge G s d w = (G, 0) := by
  unfold AddEdge
  by_cases h1 : s < 0 ∨ s ≥ G.NumVertices
  · simp only [h1, if_true]
  · by_cases h2 : d < 0 ∨ d ≥ G.NumVertices
    · simp only [h1, h2, if_true, if_false]
    · exfalso; apply h; omega

theorem AddEdge_NumVertices (G : Graph) (s d w : Int) :
    (AddEdge G s d w).1.NumVertices = G.NumVertices := by
  unfold AddEdge
  split
  · rfl
  · split <;> rfl

theorem WF_AddEdge (G : Graph) (s d w : Int) (h : WF G) : WF (AddEdge G s d w).1 := by
  by_cases hv : 0 ≤ s ∧ s < G.NumVertices ∧ 0 ≤ d ∧ d < G.NumVertices
  · obtain ⟨hs, hs2, hd, hd2⟩ := hv
    have hlen : G.NumVertices.toNat ≤ G.Vertices.length := by
      have := h.len_vertices; have := h.nv_le_cap; omega
    have hnv := AddEdge_NumVertices G s d w
    have hE := fun v hv => edgesOf_AddEdge G s d w v hv hs hs2 hd hd2 hlen
    have h1 : ¬ (s < 0 ∨ s ≥ G.NumVertices) := by omega
    have h2 : ¬ (d < 0 ∨ d ≥ G.NumVertices) := by omega
    refine ⟨?_, ?_, ?_, ?_, ?_, ?_⟩
    · simpa [AddEdge, h1, h2] using h.cap_pos
    · rw [hnv]; exact h.nv_nonneg
    · simpa [AddEdge, h1, h2] using h.nv_le_cap
    · simpa [AddEdge, h1, h2] using h.len_vertices
    · intro v hv0 hv1 e he
      rw [hnv] at hv1 ⊢
      rw [hE v hv0] at he
      split at he
      · rename_i hvs
        subst hvs
        rcases (AddEdge_link_mem _ _ _).1 he with rfl | he
        · exact ⟨rfl, hd, hd2⟩
        · exact h.edge_ok v hv0 hv1 e he
      · exact h.edge_ok v hv0 hv1 e he
    · intro v hv0 hv1
      rw [hnv] at hv1
      rw [hE v hv0]
      split
      · exact AddEdge_link_sorted _ _ (h.sorted s hs hs2)
      · exact h.sorted v hv0 hv1
  · rw [AddEdge_invalid G s d w hv]; exact h

theorem AddVertex_NumVertices (G : Graph) (name : List Nat) :
    (AddVertex G name).1.NumVertices = G.NumVertices + 1 := rfl

theorem AddVertex_Capacity (G : Graph) (name : List Nat) :
    (AddVertex G name).1.Capacity =
      if G.NumVertices = G.Capacity then 2 * G.Capacity else G.Capacity := by
  unfold AddVertex
  by_cases h : G.NumVertices = G.Capacity <;> simp [h, AddVertex_grow]

theorem AddVertex_length (G : Graph) (name : List Nat) (h : WF G) :
    (AddVertex G name).1.Vertices.length = (AddVertex G name).1.Capacity.toNat := by
  have h1 := h.len_vertices
  have h2 := h.nv_le_cap
  have h3 := h.nv_nonneg
  rw [AddVertex_Capacity]
  unfold AddVertex
  by_cases hc : G.NumVertices = G.Capacity
  · simp only [hc, if_true, AddVertex_grow, List.length_set, List.length_append,
      List.length_take, List.length_replicate]
    omega
  · simp only [hc, if_false, List.length_set]
    exact h1

theorem edgesOf_AddVertex (G : Graph) (name : List Nat) (h : WF G) (v : Int) (hv : 0 ≤ v)
    (hv2 : v < G.NumVertices + 1) :
    edgesOf (AddVertex G name).1 v = if v = G.NumVertices then [] else edgesOf G v := by
  have h1 := h.len_vertices
  have h2 := h.nv_le_cap
  have h3 := h.nv_nonneg
  have h4 := h.cap_pos
  simp only [edgesOf_eq]
  unfold AddVertex
  by_cases hc : G.NumVertices = G.Capacity
  · simp only [hc, if_true, AddVertex_grow]
    rw [List.getElem?_set]
    by_cases hvn : v = G.Capacity
    · rw [hvn]
      simp only [if_true, List.length_append, List.length_take, List.length_replicate]
      have : G.Capacity.toNat <
          min G.Capacity.toNat G.Vertices.length +
            ((2 * G.Capacity).toNat - G.Capacity.toNat) := by omega
      simp [this]
    · have hne : ¬ G.Capacity.toNat = v.toNat := by omega
      simp only [hne, hvn, if_false]
      rw [List.getElem?_append_left (by simp only [List.length_take]; omega)]
      rw [List.getElem?_take_of_lt (by omega)]
  · simp only [hc, if_false]
    rw [List.getElem?_set]
    by_cases hvn : v = G.NumVertices
    · rw [hvn]
      have : G.NumVertices.toNat < G.Vertices.length := by omega
      simp [this]
    · have hne : ¬ G.NumVertices.toNat = v.toNat := by omega
      simp only [hne, hvn, if_false]

theorem WF_AddVertex (G : Graph) (name : List Nat) (h : WF G) : WF (AddVertex G name).1 := by
  have h2 := h.nv_le_cap
  have h3 := h.nv_nonneg
  have h4 := h.cap_pos
  refine ⟨?_, ?_, ?_, AddVertex_length G name h, ?_, ?_⟩
  · rw [AddVertex_Capacity]; split <;> omega
  · rw [AddVertex_NumVertices]; omega
  · rw [AddVertex_Capacity, AddVertex_NumVertices]; split <;> omega
  · intro v hv0 hv1 e he
    rw [AddVertex_NumVertices] at hv1 ⊢
    rw [edgesOf_AddVertex G name h v hv0 hv1] at he
    split at he
    · simp at he
    · have := h.edge_ok v hv0 (by omega) e he
      omega
  · intro v hv0 hv1
    rw [AddVertex_NumVertices] at hv1
    rw [edgesOf_AddVertex G name h v hv0 hv1]
    split
    · exact List.Pairwise.nil
    · exact h.sorted v hv0 (by omega)

theorem WF_CreateGraph (N : Int) (G : Graph) (h : CreateGraph N = some G) : WF G := by
  unfold CreateGraph at h
  split at h
  · simp at h
  · simp only [Option.some.injEq] at h
    subst h
    refine ⟨by simp only; omega, by simp, by simp only; omega, by simp, ?_, ?_⟩
    · intro v hv0 hv1; simp only at hv1; omega
    · intro v hv0 hv1; simp only at hv1; omega

theorem Built.wf {G : Graph} (h : Built G) : WF G := by
  induction h with
  | create N G h => exact WF_CreateGraph N G h
  | addVertex G name _ ih => exact WF_AddVertex G name ih
  | addEdge G s d w _ ih => exact WF_AddEdge G s d w ih

/-! ## Neighbors -/

theorem Neighbors_loop_spec (l : List Edge) : ∀ acc : List Int,
    l.Pairwise (fun a b => a.dest ≤ b.dest) →
    acc.Pairwise (fun a b => a < b) →
    (∀ a ∈ acc, ∀ e ∈ l, a ≤ e.dest) →
    (Neighbors_loop l acc).Pairwise (fun a b => a < b) ∧
      ∀ x, x ∈ Neighbors_loop l acc ↔ x ∈ acc ∨ ∃ e ∈ l, e.dest = x := by
  induction l with
  | nil => intro acc _ h2 _; simp [Neighbors_loop, h2]
  | cons c r ih =>
    intro acc h1 h2 h3
    rw [List.pairwise_cons] at h1
    have happ : ∀ acc1 : List Int, acc1 = acc ++ [c.dest] →
        (∀ a ∈ acc, a < c.dest) →
        (Neighbors_loop r acc1).Pairwise (fun a b => a < b) ∧
          ∀ x, x ∈ Neighbors_loop r acc1 ↔ x ∈ acc ∨ ∃ e ∈ c :: r, e.dest = x := by
      intro acc1 hacc hlt
      subst hacc
      have := ih (acc ++ [c.dest]) h1.2
        (by
          rw [List.pairwise_append]
          refine ⟨h2, List.pairwise_singleton _ _, ?_⟩
          intro a ha b hb
          simp only [List.mem_singleton] at hb
          subst hb
          exact hlt a ha)
        (by
          intro a ha e he
          rcases List.mem_append.1 ha with ha | ha
          · exact h3 a ha e (List.mem_cons_of_mem _ he)
          · simp only [List.mem_singleton] at ha
            subst ha
            exact h1.1 e he)
      refine ⟨this.1, ?_⟩
      intro x
      rw [this.2 x]
      have e1 : c.dest = x ↔ x = c.dest := eq_comm
      simp only [List.mem_append, List.mem_cons, exists_eq_or_imp, List.not_mem_nil,
        or_false, e1]
      tauto
    rcases List.eq_nil_or_concat acc with hnil | ⟨init, m, hacc⟩
    · subst hnil
      simp only [Neighbors_loop, List.length_nil, if_true]
      exact happ _ rfl (by simp)
    · rw [List.concat_eq_append] at hacc
      have hlen : ¬ acc.length = 0 := by subst hacc; simp
      have hlast : acc.getLastD 0 = m := by subst hacc; exact List.getLastD_concat _ _ _
      have hm : m ∈ acc := by subst hacc; simp
      have hmax : ∀ a ∈ acc, a ≤ m := by
        subst hacc
        intro a ha
        rw [List.pairwise_append] at h2
        rcases List.mem_append.1 ha with ha | ha
        · exact le_of_lt (h2.2.2 a ha m (by simp))
        · simp only [List.mem_singleton] at ha
          omega
      simp only [Neighbors_loop, hlen, if_false, hlast]
      by_cases hne : m = c.dest
      · simp only [hne, ne_eq, not_true_eq_false, if_false]
        have := ih acc h1.2 h2 (fun a ha e he => h3 a ha e (List.mem_cons_of_mem _ he))
        refine ⟨this.1, ?_⟩
        intro x
        rw [this.2 x]
        simp only [List.mem_cons, exists_eq_or_imp]
        constructor
        · rintro (h | h)
          · exact Or.inl h
          · exact Or.inr (Or.inr h)
        · rintro (h | h | h)
          · exact Or.inl h
          · left; rw [← h, ← hne]; exact hm
          · exact Or.inr h
      · simp only [ne_eq, hne, not_false_eq_true, if_true]
        apply happ _ rfl
        intro a ha
        have h4 := hmax a ha
        have h5 := h3 m hm c (List.mem_cons_self _ _)
        omega

theorem Neighbors_valid (G : Graph) (v : Int) (h0 : 0 ≤ v) (h1 : v < G.NumVertices) :
    Neighbors G v = some (nbrs G v ++ [-1]) := by
  have : ¬ (v < 0 ∨ v ≥ G.NumVertices) := by omega
  simp [Neighbors, this, nbrs]

theorem Neighbors_none_iff (G : Graph) (v : Int) :
    Neighbors G v = none ↔ (v < 0 ∨ v ≥ G.NumVertices) := by
  unfold Neighbors
  split <;> simp_all

theorem nbrs_sorted {G : Graph} (h : WF G) (v : Int) (h0 : 0 ≤ v) (h1 : v < G.NumVertices) :
    (nbrs G v).Pairwise (fun a b => a < b) :=
  (Neighbors_loop_spec (edgesOf G v) [] (h.sorted v h0 h1) List.Pairwise.nil
    (by simp)).1

theorem mem_nbrs {G : Graph} (h : WF G) (v : Int) (h0 : 0 ≤ v) (h1 : v < G.NumVertices)
    (x : Int) : x ∈ nbrs G v ↔ ∃ e ∈ edgesOf G v, e.dest = x := by
  have := (Neighbors_loop_spec (edgesOf G v) [] (h.sorted v h0 h1) List.Pairwise.nil
    (by simp)).2 x
  simpa using this

theorem mem_nbrs_iff_Adj {G : Graph} (h : WF G) (v : Int) (h0 : 0 ≤ v)
    (h1 : v < G.NumVertices) (x : Int) : x ∈ nbrs G v ↔ Adj G v x := by
  rw [mem_nbrs h v h0 h1]
  simp [Adj, h0, h1]

theorem nbrs_valid {G : Graph} (h : WF G) (v : Int) (h0 : 0 ≤ v) (h1 : v < G.NumVertices)
    (x : Int) (hx : x ∈ nbrs G v) : 0 ≤ x ∧ x < G.NumVertices := by
  obtain ⟨e, he, rfl⟩ := (mem_nbrs h v h0 h1 x).1 hx
  exact (h.edge_ok v h0 h1 e he).2

theorem nbrs_nodup {G : Graph} (h : WF G) (v : Int) (h0 : 0 ≤ v) (h1 : v < G.NumVertices) :
    (nbrs G v).Nodup :=
  (nbrs_sorted h v h0 h1).imp (fun hab => ne_of_lt hab)

theorem upToMarker_append (l : List Int) (h : ∀ x ∈ l, x ≠ -1) (r : List Int) :
    upToMarker (l ++ -1 :: r) = l := by
  induction l with
  | nil => simp [upToMarker]
  | cons a t ih =>
    have ha : a ≠ -1 := h a (List.mem_cons_self _ _)
    have := ih (fun x hx => h x (List.mem_cons_of_mem _ hx))
    simp only [upToMarker] at this ⊢
    simp [List.takeWhile_cons, ha, this]

theorem upToMarker_nbrs {G : Graph} (h : WF G) (v : Int) (h0 : 0 ≤ v)
    (h1 : v < G.NumVertices) : upToMarker (nbrs G v ++ [-1]) = nbrs G v := by
  apply upToMarker_append
  intro x hx
  have := nbrs_valid h v h0 h1 x hx
  omega

theorem Adj.valid {G : Graph} (h : WF G) {u w : Int} (ha : Adj G u w) :
    0 ≤ w ∧ w < G.NumVertices := by
  obtain ⟨h0, h1, e, he, rfl⟩ := ha
  exact (h.edge_ok u h0 h1 e he).2

/-! ### Histories -/

theorem applyOps_cons (G : Graph) (op : Op) (ops : List Op) :
    applyOps G (op :: ops) = applyOps (applyOp G op) ops := rfl

theorem WF_applyOps (ops : List Op) : ∀ G : Graph, WF G → WF (applyOps G ops) := by
  induction ops with
  | nil => intro G h; exact h
  | cons op ops ih =>
    intro G h
    rw [applyOps_cons]
    apply ih
    cases op with
    | addVertex name => exact WF_AddVertex G name h
    | addEdge s d w => exact WF_AddEdge G s d w h

theorem Built_applyOps (ops : List Op) : ∀ G : Graph, Built G → Built (applyOps G ops) := by
  induction ops with
  | nil => intro G h; exact h
  | cons op ops ih =>
    intro G h
    rw [applyOps_cons]
    apply ih
    cases op with
    | addVertex name => exact Built.addVertex G name h
    | addEdge s d w => exact Built.addEdge G s d w h

theorem Built_iff (G : Graph) :
    Built G ↔ ∃ N G0 ops, CreateGraph N = some G0 ∧ G = applyOps G0 ops := by
  constructor
  · intro h
    induction h with
    | create N G h => exact ⟨N, G, [], h, rfl⟩
    | addVertex G name _ ih =>
      obtain ⟨N, G0, ops, h1, h2⟩ := ih
      subst h2
      refine ⟨N, G0, ops ++ [Op.addVertex name], h1, ?_⟩
      simp [applyOps, List.foldl_append, applyOp]
    | addEdge G s d w _ ih =>
      obtain ⟨N, G0, ops, h1, h2⟩ := ih
      subst h2
      refine ⟨N, G0, ops ++ [Op.addEdge s d w], h1, ?_⟩
      simp [applyOps, List.foldl_append, applyOp]
  · rintro ⟨N, G0, ops, h1, rfl⟩
    exact Built_applyOps ops G0 (Built.create N G0 h1)

theorem NumVertices_le_applyOps (ops : List Op) :
    ∀ G : Graph, G.NumVertices ≤ (applyOps G ops).NumVertices := by
  induction ops with
  | nil => intro G; exact le_refl _
  | cons op ops ih =>
    intro G
    rw [applyOps_cons]
    refine le_trans ?_ (ih _)
    cases op with
    | addVertex name => simp only [applyOp, AddVertex_NumVertices]; omega
    | addEdge s d w => simp only [applyOp, AddEdge_NumVertices]; exact le_refl _

theorem AddEdge_valid_snd (G : Graph) (s d w : Int)
    (hs : 0 ≤ s) (hs2 : s < G.NumVertices) (hd : 0 ≤ d) (hd2 : d < G.NumVertices) :
    (AddEdge G s d w).2 = 1 := by
  have h1 : ¬ (s < 0 ∨ s ≥ G.NumVertices) := by omega
  have h2 : ¬ (d < 0 ∨ d ≥ G.NumVertices) := by omega
  simp [AddEdge, h1, h2]

/-- The edge lists after a history: the edges present at the start and the edges added. -/
theorem mem_edgesOf_applyOps (ops : List Op) : ∀ G : Graph, WF G → ∀ (v : Int) (e : Edge),
    0 ≤ v → v < (applyOps G ops).NumVertices →
    (e ∈ edgesOf (applyOps G ops) v ↔
      (v < G.NumVertices ∧ e ∈ edgesOf G v) ∨ (e ∈ addedEdges G ops ∧ e.src = v)) := by
  induction ops with
  | nil =>
    intro G _ v e _ hv1
    simp only [applyOps, List.foldl_nil] at hv1
    simp [applyOps, addedEdges, hv1]
  | cons op ops ih =>
    intro G h v e hv0 hv1
    rw [applyOps_cons] at hv1 ⊢
    cases op with
    | addVertex name =>
      simp only [applyOp] at hv1 ⊢
      rw [ih _ (WF_AddVertex G name h) v e hv0 hv1]
      simp only [addedEdges, AddVertex_NumVertices]
      have hn := h.nv_nonneg
      constructor
      · rintro (⟨h1, h2⟩ | h2)
        · rw [edgesOf_AddVertex G name h v hv0 h1] at h2
          split at h2
          · simp at h2
          · exact Or.inl ⟨by omega, h2⟩
        · exact Or.inr h2
      · rintro (⟨h1, h2⟩ | h2)
        · left
          refine ⟨by omega, ?_⟩
          rw [edgesOf_AddVertex G name h v hv0 (by omega)]
          have : ¬ v = G.NumVertices := by omega
          simp [this, h2]
        · exact Or.inr h2
    | addEdge s d w =>
      simp only [applyOp] at hv1 ⊢
      rw [ih _ (WF_AddEdge G s d w h) v e hv0 hv1]
      by_cases hval : 0 ≤ s ∧ s < G.NumVertices ∧ 0 ≤ d ∧ d < G.NumVertices
      · obtain ⟨hs, hs2, hd, hd2⟩ := hval
        have hlen : G.NumVertices.toNat ≤ G.Vertices.length := by
          have := h.len_vertices; have := h.nv_le_cap; omega
        rw [edgesOf_AddEdge G s d w v hv0 hs hs2 hd hd2 hlen]
        simp only [addedEdges, AddEdge_valid_snd G s d w hs hs2 hd hd2, if_true,
          AddEdge_NumVertices, List.mem_cons]
        by_cases hvs : v = s
        · subst hvs
          simp only [if_true, AddEdge_link_mem]
          have hsrc : e = { src := v, dest := d, weight := w } → e.src = v := by
            intro h; rw [h]
          tauto
        · simp only [hvs, if_false]
          have hsrc : e = { src := s, dest := d, weight := w } → ¬ e.src = v := by
            intro h; rw [h]; exact fun h => hvs h.symm
          tauto
      · rw [AddEdge_invalid G s d w hval]
        simp [addedEdges, AddEdge_invalid G s d w hval]

theorem NumVertices_CreateGraph (N : Int) (G : Graph) (h : CreateGraph N = some G) :
    G.NumVertices = 0 := by
  unfold CreateGraph at h
  split at h
  · simp at h
  · simp only [Option.some.injEq] at h
    subst h
    rfl

theorem Built_catGraph : Built catGraph :=
  Built_applyOps historyCat emptyGraph2 (Built.create 2 emptyGraph2 (by decide))

/-! ## AddEdge -/

theorem AddEdge_link_eq (e : Edge) (l : List Edge) :
    AddEdge_link e l =
      l.takeWhile (fun c => decide (c.dest < e.dest)) ++
        e :: l.dropWhile (fun c => decide (c.dest < e.dest)) := by
  induction l with
  | nil => simp [AddEdge_link]
  | cons c r ih =>
    simp only [AddEdge_link]
    by_cases h : e.dest ≤ c.dest
    · have : ¬ c.dest < e.dest := by omega
      simp [h, List.takeWhile_cons, List.dropWhile_cons, this]
    · have : c.dest < e.dest := by omega
      simp [h, List.takeWhile_cons, List.dropWhile_cons, this, ih]

theorem filter_AddEdge_link (e : Edge) (l : List Edge) (d : Int) :
    (AddEdge_link e l).filter (fun c => decide (c.dest = d)) =
      if e.dest = d then e :: l.filter (fun c => decide (c.dest = d))
      else l.filter (fun c => decide (c.dest = d)) := by
  induction l with
  | nil => by_cases h : e.dest = d <;> simp [AddEdge_link, h]
  | cons c r ih =>
    simp only [AddEdge_link]
    by_cases h : e.dest ≤ c.dest
    · simp only [h, if_true]
      by_cases hd : e.dest = d <;> simp [List.filter_cons, hd]
    · simp only [h, if_false, List.filter_cons, ih]
      by_cases hd : e.dest = d
      · have : ¬ c.dest = d := by omega
        simp [hd, this]
      · by_cases hc : c.dest = d <;> simp [hd, hc]

/-- The edges to `d` in the list of `v` after a history: the added ones, newest first,
in front of the ones present at the start. -/
theorem filter_edgesOf_applyOps (ops : List Op) : ∀ G : Graph, WF G → ∀ (v d : Int),
    0 ≤ v → v < (applyOps G ops).NumVertices →
    (edgesOf (applyOps G ops) v).filter (fun c => decide (c.dest = d)) =
      ((addedEdges G ops).filter (fun c => decide (c.src = v ∧ c.dest = d))).reverse ++
        (if v < G.NumVertices then (edgesOf G v).filter (fun c => decide (c.dest = d))
         else []) := by
  induction ops with
  | nil =>
    intro G _ v d _ hv1
    simp only [applyOps, List.foldl_nil] at hv1
    simp [applyOps, addedEdges, hv1]
  | cons op ops ih =>
    intro G h v d hv0 hv1
    rw [applyOps_cons] at hv1 ⊢
    cases op with
    | addVertex name =>
      simp only [applyOp] at hv1 ⊢
      rw [ih _ (WF_AddVertex G name h) v d hv0 hv1]
      simp only [addedEdges, AddVertex_NumVertices]
      congr 1
      by_cases h1 : v < G.NumVertices
      · have h2 : v < G.NumVertices + 1 := by omega
        have h3 : ¬ v = G.NumVertices := by omega
        simp [h1, h2, edgesOf_AddVertex G name h v hv0 h2, h3]
      · by_cases h2 : v < G.NumVertices + 1
        · have h3 : v = G.NumVertices := by omega
          have h4 := edgesOf_AddVertex G name h v hv0 h2
          rw [if_pos h3] at h4
          simp [h1, h2, h4]
        · simp [h1, h2]
    | addEdge s d1 w =>
      simp only [applyOp] at hv1 ⊢
      rw [ih _ (WF_AddEdge G s d1 w h) v d hv0 hv1]
      by_cases hval : 0 ≤ s ∧ s < G.NumVertices ∧ 0 ≤ d1 ∧ d1 < G.NumVertices
      · obtain ⟨hs, hs2, hd, hd2⟩ := hval
        have hlen : G.NumVertices.toNat ≤ G.Vertices.length := by
          have := h.len_vertices; have := h.nv_le_cap; omega
        rw [edgesOf_AddEdge G s d1 w v hv0 hs hs2 hd hd2 hlen]
        simp only [addedEdges, AddEdge_valid_snd G s d1 w hs hs2 hd hd2, if_true,
          AddEdge_NumVertices, List.filter_cons]
        by_cases hvs : v = s
        · subst hvs
          simp only [if_true, hs2, filter_AddEdge_link, true_and]
          by_cases hdd : d1 = d <;> simp [hdd]
        · have : ¬ s = v := fun h => hvs h.symm
          simp [hvs, this]
      · rw [AddEdge_invalid G s d1 w hval]
        simp [addedEdges, AddEdge_invalid G s d1 w hval]

/-! ## Loops and the discovery step of the searches -/

theorem whileLoop_done {σ : Type} (cond : σ → Bool) (body : σ → Except Fault σ)
    (n : Nat) (s : σ) (h : cond s = false) : whileLoop cond body n s = .ok s := by
  cases n <;> simp [whileLoop, h]

theorem whileLoop_step {σ : Type} (cond : σ → Bool) (body : σ → Except Fault σ)
    (n : Nat) (s s1 : σ) (h : cond s = true) (hb : body s = .ok s1) :
    whileLoop cond body (n + 1) s = whileLoop cond body n s1 := by
  simp [whileLoop, h, hb]

theorem whileLoop_mono {σ : Type} (cond : σ → Bool) (body : σ → Except Fault σ)
    (n : Nat) : ∀ (s t : σ), whileLoop cond body n s = .ok t →
      ∀ m, n ≤ m → whileLoop cond body m s = .ok t := by
  induction n with
  | zero =>
    intro s t h m _
    by_cases hc : cond s = true
    · simp [whileLoop, hc] at h
    · have hc2 : cond s = false := by simpa using hc
      rw [whileLoop_done cond body 0 s hc2] at h
      rw [whileLoop_done cond body m s hc2]
      exact h
  | succ n ih =>
    intro s t h m hm
    by_cases hc : cond s = true
    · obtain ⟨k, rfl⟩ : ∃ k, m = k + 1 := ⟨m - 1, by omega⟩
      cases hb : body s with
      | error e => simp [whileLoop, hc, hb] at h
      | ok s1 =>
        rw [whileLoop_step cond body n s s1 hc hb] at h
        rw [whileLoop_step cond body k s s1 hc hb]
        exact ih s1 t h k (by omega)
    · have hc2 : cond s = false := by simpa using hc
      rw [whileLoop_done cond body _ s hc2] at h
      rw [whileLoop_done cond body m s hc2]
      exact h

/-- Total correctness of a loop from an invariant and a measure. -/
theorem whileLoop_total {σ : Type} (cond : σ → Bool) (body : σ → Except Fault σ)
    (I : σ → Prop) (μ : σ → Nat)
    (hstep : ∀ s, I s → cond s = true → ∃ s1, body s = .ok s1 ∧ I s1 ∧ μ s1 < μ s)
    (n : Nat) : ∀ s, I s → μ s ≤ n →
      ∃ t, whileLoop cond body n s = .ok t ∧ I t ∧ cond t = false := by
  induction n with
  | zero =>
    intro s hI hμ
    by_cases hc : cond s = true
    · obtain ⟨s1, _, _, h3⟩ := hstep s hI hc
      omega
    · have hc2 : cond s = false := by simpa using hc
      exact ⟨s, whileLoop_done cond body 0 s hc2, hI, hc2⟩
  | succ n ih =>
    intro s hI hμ
    by_cases hc : cond s = true
    · obtain ⟨s1, h1, h2, h3⟩ := hstep s hI hc
      obtain ⟨t, ht⟩ := ih s1 h2 (by omega)
      exact ⟨t, by rw [whileLoop_step cond body n s s1 hc h1]; exact ht.1, ht.2⟩
    · have hc2 : cond s = false := by simpa using hc
      exact ⟨s, whileLoop_done cond body _ s hc2, hI, hc2⟩

theorem length_le_of_nodup_range (l : List Int) (N : Int) (hnd : l.Nodup)
    (h : ∀ x ∈ l, 0 ≤ x ∧ x < N) : l.length ≤ N.toNat := by
  have h1 : (l.map Int.toNat).Nodup := by
    rw [List.nodup_map_iff_inj_on hnd]
    intro x hx y hy hxy
    have := h x hx
    have := h y hy
    omega
  have h2 : l.map Int.toNat ⊆ List.range N.toNat := by
    intro n hn
    obtain ⟨x, hx, rfl⟩ := List.mem_map.1 hn
    have := h x hx
    rw [List.mem_range]
    omega
  have := (List.subperm_of_subset h1 h2).length_le
  simpa using this

theorem BFS_discover_eq (ns : List Int) : ∀ (q : Queue) (s : VSet), ns.Nodup →
    BFS_discover ns (q, s) =
      (q ++ ns.filter (fun x => decide (x ∉ s)),
        (ns.filter (fun x => decide (x ∉ s))).reverse ++ s) := by
  induction ns with
  | nil => intro q s _; simp [BFS_discover]
  | cons a r ih =>
    intro q s hnd
    rw [List.nodup_cons] at hnd
    simp only [BFS_discover, isElementInSet]
    by_cases ha : a ∈ s
    · simp only [ha, decide_True, Bool.not_true, Bool.false_eq_true, if_false]
      rw [ih q s hnd.2]
      simp [List.filter_cons, ha]
    · simp only [ha, decide_False, Bool.not_false, if_true]
      rw [ih _ _ hnd.2]
      have hf : r.filter (fun x => decide (x ∉ AddToSet s a)) =
          r.filter (fun x => decide (x ∉ s)) := by
        apply List.filter_congr
        intro x hx
        have : x ≠ a := fun h => hnd.1 (h ▸ hx)
        simp [AddToSet, this]
      rw [hf]
      simp [List.filter_cons, ha, Enqueue, AddToSet]

/-! ## BFS -/

theorem BFS_body_eq {G : Graph} (hwf : WF G) (st : BFSState) (u : Int) (rest : List Int)
    (hq : st.frontierQ = u :: rest) (h0 : 0 ≤ u) (h1 : u < G.NumVertices) :
    BFS_body G st = .ok
      { frontierQ := rest ++ (nbrs G u).filter (fun x => decide (x ∉ st.discoveredSet))
        discoveredSet :=
          ((nbrs G u).filter (fun x => decide (x ∉ st.discoveredSet))).reverse ++
            st.discoveredSet
        visited := st.visited ++ [u] } := by
  unfold BFS_body
  rw [hq]
  simp only [Neighbors_valid G u h0 h1, upToMarker_nbrs hwf u h0 h1,
    BFS_discover_eq _ _ _ (nbrs_nodup hwf u h0 h1)]

theorem BFSInv_init (G : Graph) (v : Int) (h0 : 0 ≤ v) (h1 : v < G.NumVertices) :
    BFSInv G v { frontierQ := Enqueue [] v, discoveredSet := AddToSet [] v, visited := [] } := by
  refine ⟨by simp [Enqueue], by simp [Enqueue, AddToSet], ?_, by simp, by simp [Enqueue]⟩
  intro x hx
  simp only [AddToSet, List.mem_singleton] at hx
  subst hx
  exact ⟨Relation.ReflTransGen.refl, h0, h1⟩

theorem BFSInv_step {G : Graph} (hwf : WF G) (v : Int) (st : BFSState)
    (hI : BFSInv G v st) (hc : (!isEmptyQueue st.frontierQ) = true) :
    ∃ s1, BFS_body G st = .ok s1 ∧ BFSInv G v s1 ∧
      G.NumVertices.toNat - s1.visited.length < G.NumVertices.toNat - st.visited.length := by
  obtain ⟨q, d, vis⟩ := st
  cases q with
  | nil => simp [isEmptyQueue] at hc
  | cons u rest =>
    have hu : u ∈ d := (hI.disc u).2 (Or.inr (List.mem_cons_self _ _))
    obtain ⟨hru, h0, h1⟩ := hI.reach u hu
    refine ⟨_, BFS_body_eq hwf _ u rest rfl h0 h1, ?_, ?_⟩
    · have hnew : ∀ x, x ∈ (nbrs G u).filter (fun x => decide (x ∉ d)) ↔
          x ∈ nbrs G u ∧ x ∉ d := by
        intro x; simp [List.mem_filter]
      refine ⟨?_, ?_, ?_, ?_, ?_⟩
      · have h := hI.nodup
        simp only at h ⊢
        have e : vis ++ [u] ++ (rest ++ (nbrs G u).filter (fun x => decide (x ∉ d))) =
            (vis ++ u :: rest) ++ (nbrs G u).filter (fun x => decide (x ∉ d)) := by simp
        rw [e, List.nodup_append]
        refine ⟨h, (nbrs_nodup hwf u h0 h1).filter _, ?_⟩
        intro x hx hx2
        have := (hI.disc x).2 (by simpa using hx)
        exact ((hnew x).1 hx2).2 this
      · intro x
        have := hI.disc x
        simp only at this ⊢
        simp only [List.mem_append, List.mem_reverse, List.mem_singleton, this, List.mem_cons]
        tauto
      · intro x hx
        simp only [List.mem_append, List.mem_reverse] at hx
        rcases hx with hx | hx
        · have hxn := ((hnew x).1 hx).1
          exact ⟨Relation.ReflTransGen.tail hru ((mem_nbrs_iff_Adj hwf u h0 h1 x).1 hxn),
            nbrs_valid hwf u h0 h1 x hxn⟩
        · exact hI.reach x hx
      · intro u1 hu1 w hw
        simp only [List.mem_append, List.mem_singleton] at hu1
        simp only [List.mem_append, List.mem_reverse]
        rcases hu1 with hu1 | hu1
        · exact Or.inr (hI.closed u1 hu1 w hw)
        · subst hu1
          have hwn := (mem_nbrs_iff_Adj hwf u1 h0 h1 w).2 hw
          by_cases hwd : w ∈ d
          · exact Or.inr hwd
          · exact Or.inl ((hnew w).2 ⟨hwn, hwd⟩)
      · have h := hI.first
        simp only at h ⊢
        cases vis with
        | nil => simpa using h
        | cons a t => simpa using h
    · have h := hI.nodup
      simp only at h
      have hlen := length_le_of_nodup_range _ G.NumVertices h (by
        intro x hx
        exact (hI.reach x ((hI.disc x).2 (by simpa using hx))).2)
      simp only [List.length_append, List.length_cons, List.length_singleton] at hlen ⊢
      omega

theorem BFS_run {G : Graph} (hwf : WF G) (v : Int) (h0 : 0 ≤ v) (h1 : v < G.NumVertices)
    (fuel : Nat) (hf : G.NumVertices.toNat ≤ fuel) :
    ∃ t, whileLoop (fun st => !isEmptyQueue st.frontierQ) (BFS_body G) fuel
        { frontierQ := Enqueue [] v, discoveredSet := AddToSet [] v, visited := [] } = .ok t ∧
      BFSInv G v t ∧ t.frontierQ = [] := by
  obtain ⟨t, h1, h2, h3⟩ := whileLoop_total (fun st => !isEmptyQueue st.frontierQ) (BFS_body G)
    (BFSInv G v) (fun st => G.NumVertices.toNat - st.visited.length)
    (fun s hI hc => BFSInv_step hwf v s hI hc) fuel _ (BFSInv_init G v h0 h1)
    (by simp only [List.length_nil]; omega)
  refine ⟨t, h1, h2, ?_⟩
  simpa [isEmptyQueue] using h3

theorem BFSInv_final {G : Graph} (v : Int) (t : BFSState) (hI : BFSInv G v t)
    (hq : t.frontierQ = []) :
    t.visited.head? = some v ∧ t.visited.Nodup ∧ ∀ x, x ∈ t.visited ↔ Reach G v x := by
  have hn := hI.nodup
  have hf := hI.first
  rw [hq, List.append_nil] at hn hf
  refine ⟨hf, hn, ?_⟩
  have hd : ∀ x, x ∈ t.discoveredSet ↔ x ∈ t.visited := by
    intro x; rw [hI.disc x, hq]; simp
  intro x
  constructor
  · intro hx
    exact (hI.reach x ((hd x).2 hx)).1
  · intro hx
    induction hx with
    | refl => exact List.mem_of_mem_head? hf
    | tail _ hbc ih => exact (hd _).1 (hI.closed _ ih _ hbc)

theorem BFS_null_iff (fuel : Nat) (G : Graph) (v : Int) :
    BFS fuel G v = .ok none ↔ (v < 0 ∨ v ≥ G.NumVertices) := by
  unfold BFS
  by_cases h : v < 0 ∨ v ≥ G.NumVertices
  · simp [h]
  · simp only [h, if_false, iff_false]
    split <;> simp

/-! ## DFS -/

theorem pushAllBackwards_eq (ns : List Int) (S : Stack) :
    pushAllBackwards ns S = ns ++ S := by
  unfold pushAllBackwards
  induction ns generalizing S with
  | nil => rfl
  | cons a r ih =>
    rw [List.reverse_cons, List.foldl_append]
    simp [ih, Push]

theorem sum_filter_remove (f : Nat → Nat) (l : List Nat) (hnd : l.Nodup) (n : Nat)
    (hn : n ∈ l) (p q : Nat → Bool) (hpn : p n = true)
    (hq : ∀ m, q m = (p m && decide (m ≠ n))) :
    ((l.filter q).map f).sum + f n = ((l.filter p).map f).sum := by
  induction l with
  | nil => simp at hn
  | cons a r ih =>
    rw [List.nodup_cons] at hnd
    by_cases han : a = n
    · subst han
      have hqa : q a = false := by rw [hq]; simp
      have hfe : r.filter q = r.filter p := by
        apply List.filter_congr
        intro m hm
        have : m ≠ a := fun h => hnd.1 (h ▸ hm)
        rw [hq]; simp [this]
      simp only [List.filter_cons, hqa, hpn, if_true, hfe, List.map_cons, List.sum_cons]
      simp only [Bool.false_eq_true, if_false]
      omega
    · have hnr : n ∈ r := by
        rcases List.mem_cons.1 hn with h | h
        · exact absurd h.symm han
        · exact h
      have ih2 := ih hnd.2 hnr
      have hqa : q a = p a := by rw [hq]; simp [han]
      simp only [List.filter_cons, hqa]
      by_cases hpa : p a = true
      · simp only [hpa, if_true, List.map_cons, List.sum_cons]
        omega
      · simp only [hpa, if_false]
        exact ih2

theorem dfsCost_add (G : Graph) (vs : VSet) (u : Int) (h0 : 0 ≤ u) (h1 : u < G.NumVertices)
    (hu : u ∉ vs) : dfsCost G (AddToSet vs u) + (nbrs G u).length = dfsCost G vs := by
  have := sum_filter_remove (fun n => (nbrs G (n : Int)).length)
    (List.range G.NumVertices.toNat) (List.nodup_range _) u.toNat
    (by rw [List.mem_range]; omega)
    (fun n => decide ((n : Int) ∉ vs)) (fun n => decide ((n : Int) ∉ AddToSet vs u))
    (by
      have : ((u.toNat : Nat) : Int) = u := by omega
      simp [this, hu])
    (by
      intro m
      have : ((m : Int) = u) ↔ m = u.toNat := by omega
      simp only [AddToSet, List.mem_cons, this, not_or, ne_eq, Bool.decide_and,
        decide_not]
      exact Bool.and_comm _ _)
  have e : ((u.toNat : Nat) : Int) = u := by omega
  simp only [e] at this
  unfold dfsCost
  exact this

theorem dfsCost_nil (G : Graph) : 1 + dfsCost G [] = DFS_fuel G := by
  simp [dfsCost, DFS_fuel]

theorem DFSInv_init (G : Graph) (v : Int) (h0 : 0 ≤ v) (h1 : v < G.NumVertices) :
    DFSInv G v { frontierStack := Push [] v, visitedSet := [], visitedQ := [] } := by
  refine ⟨by simp, by simp, ?_, by simp, by simp [Push]⟩
  intro x hx
  simp only [Push, List.mem_singleton, List.not_mem_nil, or_false] at hx
  subst hx
  exact ⟨Relation.ReflTransGen.refl, h0, h1⟩

theorem DFSInv_step {G : Graph} (hwf : WF G) (v : Int) (st : DFSState)
    (hI : DFSInv G v st) (hc : (!isEmptyStack st.frontierStack) = true) :
    ∃ s1, DFS_body_unbounded G st = .ok s1 ∧ DFSInv G v s1 ∧
      s1.frontierStack.length + dfsCost G s1.visitedSet <
        st.frontierStack.length + dfsCost G st.visitedSet := by
  obtain ⟨stk, vs, vq⟩ := st
  cases stk with
  | nil => simp [isEmptyStack] at hc
  | cons u rest =>
    obtain ⟨hru, h0, h1⟩ := hI.reach u (Or.inl (List.mem_cons_self _ _))
    have hvs := hI.vset
    simp only at hvs
    by_cases hu : u ∈ vq
    · have hu2 : u ∈ vs := (hvs u).2 hu
      refine ⟨{ frontierStack := rest, visitedSet := vs, visitedQ := vq }, ?_, ?_, ?_⟩
      · simp [DFS_body_unbounded, isElementInQueue, isElementInSet, hu, hu2]
      · refine ⟨hI.nodup, hI.vset, ?_, ?_, ?_⟩
        · intro x hx
          apply hI.reach x
          rcases hx with hx | hx
          · exact Or.inl (List.mem_cons_of_mem _ hx)
          · exact Or.inr hx
        · intro u1 hu1 w hw
          rcases hI.closed u1 hu1 w hw with h | h
          · exact Or.inl h
          · simp only [List.mem_cons] at h
            rcases h with h | h
            · subst h; exact Or.inl hu
            · exact Or.inr h
        · have h := hI.first
          simp only at h ⊢
          cases vq with
          | nil => simp at hu
          | cons a t => simpa using h
      · simp only [List.length_cons]; omega
    · have hu2 : u ∉ vs := fun h => hu ((hvs u).1 h)
      refine ⟨{ frontierStack := nbrs G u ++ rest, visitedSet := AddToSet vs u,
                visitedQ := vq ++ [u] }, ?_, ?_, ?_⟩
      · simp [DFS_body_unbounded, isElementInQueue, isElementInSet, hu, hu2,
          Neighbors_valid G u h0 h1, upToMarker_nbrs hwf u h0 h1, pushAllBackwards_eq, Enqueue]
      · refine ⟨?_, ?_, ?_, ?_, ?_⟩
        · have h := hI.nodup
          simp only at h ⊢
          rw [List.nodup_append]
          refine ⟨h, List.nodup_singleton _, ?_⟩
          intro x hx hx2
          simp only [List.mem_singleton] at hx2
          subst hx2
          exact hu hx
        · intro x
          simp only [AddToSet, List.mem_cons, List.mem_append, List.mem_singleton, hvs x]
          tauto
        · intro x hx
          simp only [List.mem_append, List.mem_singleton] at hx
          rcases hx with (hx | hx) | (hx | hx)
          · exact ⟨Relation.ReflTransGen.tail hru ((mem_nbrs_iff_Adj hwf u h0 h1 x).1 hx),
              nbrs_valid hwf u h0 h1 x hx⟩
          · exact hI.reach x (Or.inl (List.mem_cons_of_mem _ hx))
          · exact hI.reach x (Or.inr hx)
          · subst hx; exact ⟨hru, h0, h1⟩
        · intro u1 hu1 w hw
          simp only [List.mem_append, List.mem_singleton] at hu1 ⊢
          rcases hu1 with hu1 | hu1
          · rcases hI.closed u1 hu1 w hw with h | h
            · exact Or.inl (Or.inl h)
            · simp only [List.mem_cons] at h
              rcases h with h | h
              · exact Or.inl (Or.inr h)
              · exact Or.inr (Or.inr h)
          · subst hu1
            exact Or.inr (Or.inl ((mem_nbrs_iff_Adj hwf u1 h0 h1 w).2 hw))
        · have h := hI.first
          simp only at h ⊢
          cases vq with
          | nil => simpa using h
          | cons a t => simpa using h
      · have := dfsCost_add G vs u h0 h1 hu2
        simp only [List.length_append, List.length_cons]
        omega

theorem DFS_run {G : Graph} (hwf : WF G) (v : Int) (h0 : 0 ≤ v) (h1 : v < G.NumVertices)
    (fuel : Nat) (hf : DFS_fuel G ≤ fuel) :
    ∃ t, whileLoop (fun st => !isEmptyStack st.frontierStack) (DFS_body_unbounded G) fuel
        { frontierStack := Push [] v, visitedSet := [], visitedQ := [] } = .ok t ∧
      DFSInv G v t ∧ t.frontierStack = [] := by
  obtain ⟨t, h1, h2, h3⟩ := whileLoop_total (fun st => !isEmptyStack st.frontierStack)
    (DFS_body_unbounded G) (DFSInv G v)
    (fun st => st.frontierStack.length + dfsCost G st.visitedSet)
    (fun s hI hc => DFSInv_step hwf v s hI hc) fuel _ (DFSInv_init G v h0 h1)
    (by
      have := dfsCost_nil G
      simp only [Push, List.length_singleton]
      omega)
  refine ⟨t, h1, h2, ?_⟩
  simpa [isEmptyStack] using h3

theorem DFSInv_final {G : Graph} (v : Int) (t : DFSState) (hI : DFSInv G v t)
    (hq : t.frontierStack = []) :
    t.visitedQ.head? = some v ∧ t.visitedQ.Nodup ∧ ∀ x, x ∈ t.visitedQ ↔ Reach G v x := by
  have hf := hI.first
  rw [hq, List.append_nil] at hf
  refine ⟨hf, hI.nodup, ?_⟩
  intro x
  constructor
  · intro hx
    exact (hI.reach x (Or.inr hx)).1
  · intro hx
    induction hx with
    | refl => exact List.mem_of_mem_head? hf
    | tail _ hbc ih =>
      rcases hI.closed _ ih _ hbc with h | h
      · exact h
      · rw [hq] at h; simp at h

theorem DFS_null_iff (fuel : Nat) (G : Graph) (v : Int) :
    DFS fuel G v = .ok none ↔ (v < 0 ∨ v ≥ G.NumVertices) := by
  unfold DFS
  by_cases h : v < 0 ∨ v ≥ G.NumVertices
  · simp [h]
  · simp only [h, if_false, iff_false]
    split
    · simp
    · split <;> simp

/-! ## BFSd -/

theorem Steps.trans {σ : Type} {cond : σ → Bool} {body : σ → Except Fault σ}
    {a b : Nat} {s t u : σ} (h1 : Steps cond body a s t) (h2 : Steps cond body b t u) :
    Steps cond body (a + b) s u := by
  induction h1 with
  | refl s => simpa using h2
  | step k s s1 t hc hb _ ih =>
    have := Steps.step (k + b) s s1 u hc hb (ih h2)
    have e : k + 1 + b = k + b + 1 := by omega
    rw [e]; exact this

theorem Steps.one {σ : Type} {cond : σ → Bool} {body : σ → Except Fault σ}
    {s t : σ} (hc : cond s = true) (hb : body s = .ok t) : Steps cond body 1 s t :=
  Steps.step 0 s t t hc hb (Steps.refl t)

theorem Steps.whileLoop {σ : Type} {cond : σ → Bool} {body : σ → Except Fault σ}
    {k : Nat} {s t : σ} (h : Steps cond body k s t) (hc : cond t = false) :
    ∀ fuel, k ≤ fuel → WordLadder.whileLoop cond body fuel s = .ok t := by
  induction h with
  | refl s => intro fuel _; exact whileLoop_done cond body fuel s hc
  | step k s s1 t hcs hb _ ih =>
    intro fuel hf
    obtain ⟨m, rfl⟩ : ∃ m, fuel = m + 1 := ⟨fuel - 1, by omega⟩
    rw [whileLoop_step cond body m s s1 hcs hb]
    exact ih hc m (by omega)

theorem expandLevel_spec {G : Graph} (hwf : WF G) (lv : List Int) : ∀ D : VSet,
    (∀ u ∈ lv, 0 ≤ u ∧ u < G.NumVertices) →
    (∀ x, x ∈ (expandLevel G lv D).1 ↔ (∃ u ∈ lv, x ∈ nbrs G u) ∧ x ∉ D) ∧
    (expandLevel G lv D).1.Nodup ∧
    (∀ x, x ∈ (expandLevel G lv D).2 ↔ x ∈ D ∨ x ∈ (expandLevel G lv D).1) := by
  induction lv with
  | nil => intro D _; simp [expandLevel]
  | cons u rest ih =>
    intro D hv
    obtain ⟨h0, h1⟩ := hv u (List.mem_cons_self _ _)
    obtain ⟨i1, i2, i3⟩ := ih ((((nbrs G u).filter (fun x => decide (x ∉ D)))).reverse ++ D)
      (fun x hx => hv x (List.mem_cons_of_mem _ hx))
    have hnew : ∀ x, x ∈ (nbrs G u).filter (fun x => decide (x ∉ D)) ↔
        x ∈ nbrs G u ∧ x ∉ D := by
      intro x; simp [List.mem_filter]
    simp only [expandLevel]
    refine ⟨?_, ?_, ?_⟩
    · intro x
      rw [List.mem_append, i1 x, hnew x]
      simp only [List.mem_append, List.mem_reverse, hnew x, List.mem_cons, exists_eq_or_imp]
      tauto
    · rw [List.nodup_append]
      refine ⟨(nbrs_nodup hwf u h0 h1).filter _, i2, ?_⟩
      intro x hx hx2
      have := ((i1 x).1 hx2).2
      simp only [List.mem_append, List.mem_reverse] at this
      exact this (Or.inl hx)
    · intro x
      rw [i3 x]
      simp only [List.mem_append, List.mem_reverse]
      tauto

theorem expandLevel_valid {G : Graph} (hwf : WF G) (lv : List Int) (D : VSet)
    (hv : ∀ u ∈ lv, 0 ≤ u ∧ u < G.NumVertices) :
    ∀ x ∈ (expandLevel G lv D).1, 0 ≤ x ∧ x < G.NumVertices := by
  intro x hx
  obtain ⟨⟨u, hu, hxu⟩, _⟩ := ((expandLevel_spec hwf lv D hv).1 x).1 hx
  exact nbrs_valid hwf u (hv u hu).1 (hv u hu).2 x hxu

theorem BFSd_level_run {G : Graph} (hwf : WF G) (lv : List Int) :
    ∀ (acc : List Int) (D : VSet) (vis : List Int) (dist : Int),
    (∀ u ∈ lv, 0 ≤ u ∧ u < G.NumVertices) →
    Steps BFSd_cond (BFSd_body G) lv.length
      { frontierQ := lv ++ -1 :: acc, discoveredSet := D, visited := vis,
        distance := dist, stop := false }
      { frontierQ := -1 :: acc ++ (expandLevel G lv D).1,
        discoveredSet := (expandLevel G lv D).2, visited := vis ++ lv,
        distance := dist, stop := false } := by
  induction lv with
  | nil =>
    intro acc D vis dist _
    simp only [expandLevel, List.nil_append, List.append_nil, List.length_nil]
    exact Steps.refl _
  | cons u rest ih =>
    intro acc D vis dist hv
    obtain ⟨h0, h1⟩ := hv u (List.mem_cons_self _ _)
    have hne : ¬ u = -1 := by omega
    have hstep := ih (acc ++ (nbrs G u).filter (fun x => decide (x ∉ D)))
      (((nbrs G u).filter (fun x => decide (x ∉ D))).reverse ++ D) (vis ++ [u]) dist
      (fun x hx => hv x (List.mem_cons_of_mem _ hx))
    refine Steps.step _ _
        { frontierQ := rest ++ -1 :: (acc ++ (nbrs G u).filter (fun x => decide (x ∉ D)))
          discoveredSet := ((nbrs G u).filter (fun x => decide (x ∉ D))).reverse ++ D
          visited := vis ++ [u], distance := dist, stop := false }
        _ (by simp [BFSd_cond, isEmptyQueue]) ?_ ?_
    · simp [BFSd_body, hne, Neighbors_valid G u h0 h1, upToMarker_nbrs hwf u h0 h1,
        BFS_discover_eq _ _ _ (nbrs_nodup hwf u h0 h1)]
    · simp only [expandLevel]
      have e1 : -1 :: (acc ++ (nbrs G u).filter (fun x => decide (x ∉ D))) ++
          (expandLevel G rest (((nbrs G u).filter
            (fun x => decide (x ∉ D))).reverse ++ D)).1 =
          -1 :: acc ++ ((nbrs G u).filter (fun x => decide (x ∉ D)) ++
            (expandLevel G rest (((nbrs G u).filter
              (fun x => decide (x ∉ D))).reverse ++ D)).1) := by simp
      have e2 : vis ++ [u] ++ rest = vis ++ u :: rest := by simp
      rw [e1, e2] at hstep
      exact hstep

theorem withMarkers_cons (g : List Int) (gs : List (List Int)) :
    withMarkers (g :: gs) = g ++ -1 :: withMarkers gs := by
  simp [withMarkers]

theorem BFSd_full_run {G : Graph} (hwf : WF G) (n : Nat) :
    ∀ (lv : List Int) (D : VSet) (vis : List Int),
    (∀ u ∈ lv, 0 ≤ u ∧ u < G.NumVertices) →
    ∃ t, Steps BFSd_cond (BFSd_body G) (withMarkers (bfsLevels G n lv D)).length
      { frontierQ := lv ++ [-1], discoveredSet := D, visited := vis,
        distance := (n : Int), stop := false } t ∧
      t.stop = true ∧ t.visited = vis ++ withMarkers (bfsLevels G n lv D) := by
  induction n with
  | zero =>
    intro lv D vis hv
    have h1 := BFSd_level_run hwf lv [] D vis ((0 : Nat) : Int) hv
    refine ⟨{ frontierQ := -1 :: [] ++ (expandLevel G lv D).1,
              discoveredSet := (expandLevel G lv D).2, visited := vis ++ lv ++ [-1],
              distance := ((0 : Nat) : Int) - 1, stop := true }, ?_, rfl, ?_⟩
    · have h2 : Steps BFSd_cond (BFSd_body G) 1
          { frontierQ := -1 :: [] ++ (expandLevel G lv D).1,
            discoveredSet := (expandLevel G lv D).2, visited := vis ++ lv,
            distance := ((0 : Nat) : Int), stop := false }
          { frontierQ := -1 :: [] ++ (expandLevel G lv D).1,
            discoveredSet := (expandLevel G lv D).2, visited := vis ++ lv ++ [-1],
            distance := ((0 : Nat) : Int) - 1, stop := true } := by
        apply Steps.one
        · simp [BFSd_cond, isEmptyQueue]
        · simp [BFSd_body]
      have := Steps.trans h1 h2
      simpa [bfsLevels, withMarkers] using this
    · simp [bfsLevels, withMarkers]
  | succ n ih =>
    intro lv D vis hv
    have h1 := BFSd_level_run hwf lv [] D vis ((n + 1 : Nat) : Int) hv
    have h2 : Steps BFSd_cond (BFSd_body G) 1
        { frontierQ := -1 :: [] ++ (expandLevel G lv D).1,
          discoveredSet := (expandLevel G lv D).2, visited := vis ++ lv,
          distance := ((n + 1 : Nat) : Int), stop := false }
        { frontierQ := (expandLevel G lv D).1 ++ [-1],
          discoveredSet := (expandLevel G lv D).2, visited := vis ++ lv ++ [-1],
          distance := (n : Int), stop := false } := by
      apply Steps.one
      · simp [BFSd_cond, isEmptyQueue]
      · have : ¬ ((n : Int) + 1 - 1 < 0) := by omega
        simp [BFSd_body, Enqueue, this]
    obtain ⟨t, h3, h4, h5⟩ := ih (expandLevel G lv D).1 (expandLevel G lv D).2
      (vis ++ lv ++ [-1]) (expandLevel_valid hwf lv D hv)
    refine ⟨t, ?_, h4, ?_⟩
    · have := Steps.trans (Steps.trans h1 h2) h3
      simp only [bfsLevels, withMarkers_cons, List.length_append, List.length_cons]
      have e : lv.length + 1 + (withMarkers (bfsLevels G n (expandLevel G lv D).1
            (expandLevel G lv D).2)).length =
          lv.length + ((withMarkers (bfsLevels G n (expandLevel G lv D).1
            (expandLevel G lv D).2)).length + 1) := by omega
      rw [← e]
      exact this
    · rw [h5]
      simp [bfsLevels, withMarkers_cons]

theorem ReachIn.end_valid {G : Graph} (hwf : WF G) {start : Int} (h0 : 0 ≤ start)
    (h1 : start < G.NumVertices) : ∀ (k : Nat) (x : Int), ReachIn G k start x →
      0 ≤ x ∧ x < G.NumVertices := by
  intro k
  cases k with
  | zero => intro x hx; simp only [ReachIn] at hx; subst hx; exact ⟨h0, h1⟩
  | succ k =>
    intro x hx
    obtain ⟨u, _, hu⟩ := hx
    exact hu.valid hwf

theorem HopDist.unique {G : Graph} {s x : Int} {a b : Nat} (ha : HopDist G s x a)
    (hb : HopDist G s x b) : a = b := by
  rcases Nat.lt_trichotomy a b with h | h | h
  · exact absurd ha.1 (hb.2 a h)
  · exact h
  · exact absurd hb.1 (ha.2 b h)

theorem LevelInv_init (G : Graph) (start : Int) : LevelInv G start 0 [start] [start] := by
  refine ⟨?_, ?_, List.nodup_singleton _⟩
  · intro x
    simp only [List.mem_singleton, HopDist, ReachIn]
    constructor
    · intro h; exact ⟨h.symm, fun j hj => absurd hj (Nat.not_lt_zero j)⟩
    · intro h; exact h.1.symm
  · intro x
    simp only [List.mem_singleton]
    constructor
    · intro h; exact ⟨0, le_refl _, h.symm⟩
    · rintro ⟨j, hj, h⟩
      obtain rfl : j = 0 := by omega
      exact h.symm

theorem LevelInv.level_valid {G : Graph} (hwf : WF G) {start : Int} (h0 : 0 ≤ start)
    (h1 : start < G.NumVertices) {k : Nat} {lv : List Int} {D : VSet}
    (h : LevelInv G start k lv D) : ∀ u ∈ lv, 0 ≤ u ∧ u < G.NumVertices :=
  fun u hu => ReachIn.end_valid hwf h0 h1 k u ((h.mem_lv u).1 hu).1

theorem LevelInv_next {G : Graph} (hwf : WF G) {start : Int} (h0 : 0 ≤ start)
    (h1 : start < G.NumVertices) {k : Nat} {lv : List Int} {D : VSet}
    (h : LevelInv G start k lv D) :
    LevelInv G start (k + 1) (expandLevel G lv D).1 (expandLevel G lv D).2 := by
  have hv := h.level_valid hwf h0 h1
  obtain ⟨e1, e2, e3⟩ := expandLevel_spec hwf lv D hv
  have key : ∀ x, x ∈ (expandLevel G lv D).1 ↔ HopDist G start x (k + 1) := by
    intro x
    rw [e1 x]
    constructor
    · rintro ⟨⟨u, hu, hxu⟩, hxD⟩
      have hu2 := (h.mem_lv u).1 hu
      have hadj := (mem_nbrs_iff_Adj hwf u (hv u hu).1 (hv u hu).2 x).1 hxu
      refine ⟨⟨u, hu2.1, hadj⟩, ?_⟩
      intro j hj hr
      exact hxD ((h.mem_D x).2 ⟨j, by omega, hr⟩)
    · rintro ⟨⟨u, hru, hadj⟩, hmin⟩
      have hvu := ReachIn.end_valid hwf h0 h1 k u hru
      refine ⟨⟨u, ?_, (mem_nbrs_iff_Adj hwf u hvu.1 hvu.2 x).2 hadj⟩, ?_⟩
      · rw [h.mem_lv u]
        refine ⟨hru, ?_⟩
        intro j hj hr
        exact hmin (j + 1) (by omega) ⟨u, hr, hadj⟩
      · intro hxD
        obtain ⟨j, hj, hr⟩ := (h.mem_D x).1 hxD
        exact hmin j (by omega) hr
  refine ⟨key, ?_, e2⟩
  intro x
  rw [e3 x, key x, h.mem_D x]
  constructor
  · rintro (⟨j, hj, hr⟩ | hx)
    · exact ⟨j, by omega, hr⟩
    · exact ⟨k + 1, le_refl _, hx.1⟩
  · rintro ⟨j, hj, hr⟩
    by_cases hw : ∃ i, i ≤ k ∧ ReachIn G i start x
    · exact Or.inl hw
    · right
      have hjk : j = k + 1 := by
        by_contra hne
        exact hw ⟨j, by omega, hr⟩
      subst hjk
      exact ⟨hr, fun i hi hri => hw ⟨i, by omega, hri⟩⟩

theorem bfsLevels_length (G : Graph) (n : Nat) : ∀ (lv : List Int) (D : VSet),
    (bfsLevels G n lv D).length = n + 1 := by
  induction n with
  | zero => intro lv D; rfl
  | succ n ih => intro lv D; simp [bfsLevels, ih]

theorem bfsLevels_spec {G : Graph} (hwf : WF G) {start : Int} (h0 : 0 ≤ start)
    (h1 : start < G.NumVertices) (n : Nat) : ∀ (k : Nat) (lv : List Int) (D : VSet),
    LevelInv G start k lv D → ∀ i, i ≤ n →
      ((bfsLevels G n lv D).getD i []).Nodup ∧
      ∀ x, x ∈ (bfsLevels G n lv D).getD i [] ↔ HopDist G start x (k + i) := by
  induction n with
  | zero =>
    intro k lv D h i hi
    obtain rfl : i = 0 := by omega
    simpa [bfsLevels] using ⟨h.nodup, h.mem_lv⟩
  | succ n ih =>
    intro k lv D h i hi
    cases i with
    | zero => simpa [bfsLevels] using ⟨h.nodup, h.mem_lv⟩
    | succ i =>
      have := ih (k + 1) _ _ (LevelInv_next hwf h0 h1 h) i (by omega)
      have e : k + 1 + i = k + (i + 1) := by omega
      rw [e] at this
      simpa [bfsLevels] using this

theorem bfsLevels_flatten {G : Graph} (hwf : WF G) {start : Int} (h0 : 0 ≤ start)
    (h1 : start < G.NumVertices) (n : Nat) : ∀ (k : Nat) (lv : List Int) (D : VSet),
    LevelInv G start k lv D →
      (bfsLevels G n lv D).flatten.Nodup ∧
      ∀ x ∈ (bfsLevels G n lv D).flatten, ∃ j, k ≤ j ∧ HopDist G start x j := by
  induction n with
  | zero =>
    intro k lv D h
    simp only [bfsLevels, List.flatten_cons, List.flatten_nil, List.append_nil]
    exact ⟨h.nodup, fun x hx => ⟨k, le_refl _, (h.mem_lv x).1 hx⟩⟩
  | succ n ih =>
    intro k lv D h
    obtain ⟨i1, i2⟩ := ih (k + 1) _ _ (LevelInv_next hwf h0 h1 h)
    simp only [bfsLevels, List.flatten_cons]
    refine ⟨?_, ?_⟩
    · rw [List.nodup_append]
      refine ⟨h.nodup, i1, ?_⟩
      intro x hx hx2
      obtain ⟨j, hj, hd⟩ := i2 x hx2
      have := HopDist.unique ((h.mem_lv x).1 hx) hd
      omega
    · intro x hx
      rcases List.mem_append.1 hx with hx | hx
      · exact ⟨k, le_refl _, (h.mem_lv x).1 hx⟩
      · obtain ⟨j, hj, hd⟩ := i2 x hx
        exact ⟨j, by omega, hd⟩

theorem withMarkers_length (gs : List (List Int)) :
    (withMarkers gs).length = gs.flatten.length + gs.length := by
  induction gs with
  | nil => rfl
  | cons g gs ih =>
    rw [withMarkers_cons]
    simp only [List.length_append, List.length_cons, List.flatten_cons, ih]
    omega

theorem expandLevel_runs {G : Graph} (hwf : WF G) (lv : List Int) : ∀ D : VSet,
    (∀ u ∈ lv, 0 ≤ u ∧ u < G.NumVertices) →
    ∃ runs : List (List Int),
      List.Forall₂ (fun u run => run.Pairwise (fun a b => a < b) ∧ ∀ x ∈ run, Adj G u x)
        lv runs ∧
      (expandLevel G lv D).1 = runs.flatten := by
  induction lv with
  | nil => intro D _; exact ⟨[], List.Forall₂.nil, rfl⟩
  | cons u rest ih =>
    intro D hv
    obtain ⟨h0, h1⟩ := hv u (List.mem_cons_self _ _)
    obtain ⟨runs, r1, r2⟩ := ih (((nbrs G u).filter (fun x => decide (x ∉ D))).reverse ++ D)
      (fun x hx => hv x (List.mem_cons_of_mem _ hx))
    refine ⟨(nbrs G u).filter (fun x => decide (x ∉ D)) :: runs,
      List.Forall₂.cons ⟨?_, ?_⟩ r1, ?_⟩
    · exact (nbrs_sorted hwf u h0 h1).filter _
    · intro x hx
      exact (mem_nbrs_iff_Adj hwf u h0 h1 x).1 (List.mem_filter.1 hx).1
    · simp only [expandLevel, List.flatten_cons, r2]

theorem bfsLevels_getD_zero (G : Graph) (n : Nat) (lv : List Int) (D : VSet) :
    (bfsLevels G n lv D).getD 0 [] = lv := by
  cases n <;> simp [bfsLevels]

theorem bfsLevels_runs {G : Graph} (hwf : WF G) {start : Int} (h0 : 0 ≤ start)
    (h1 : start < G.NumVertices) (n : Nat) : ∀ (k : Nat) (lv : List Int) (D : VSet),
    LevelInv G start k lv D → ∀ i, i < n →
      ∃ runs : List (List Int),
        List.Forall₂ (fun u run => run.Pairwise (fun a b => a < b) ∧ ∀ x ∈ run, Adj G u x)
          ((bfsLevels G n lv D).getD i []) runs ∧
        (bfsLevels G n lv D).getD (i + 1) [] = runs.flatten := by
  induction n with
  | zero => intro k lv D _ i hi; omega
  | succ n ih =>
    intro k lv D h i hi
    cases i with
    | zero =>
      obtain ⟨runs, r1, r2⟩ := expandLevel_runs hwf lv D (h.level_valid hwf h0 h1)
      refine ⟨runs, by simpa [bfsLevels] using r1, ?_⟩
      simp only [bfsLevels, List.getD_cons_succ, bfsLevels_getD_zero, r2]
    | succ i =>
      obtain ⟨runs, r1, r2⟩ := ih (k + 1) _ _ (LevelInv_next hwf h0 h1 h) i (by omega)
      exact ⟨runs, by simpa [bfsLevels] using r1, by simpa [bfsLevels] using r2⟩

theorem bfsLevels_valid {G : Graph} (hwf : WF G) {start : Int} (h0 : 0 ≤ start)
    (h1 : start < G.NumVertices) (n : Nat) (x : Int)
    (hx : x ∈ (bfsLevels G n [start] [start]).flatten) : 0 ≤ x ∧ x < G.NumVertices := by
  obtain ⟨j, _, hd⟩ := (bfsLevels_flatten hwf h0 h1 n 0 _ _ (LevelInv_init G start)).2 x hx
  exact ReachIn.end_valid hwf h0 h1 j x hd.1

/-- The output of `BFSd` is the list of levels with their markers and the final `-1`. -/
theorem BFSd_eq {G : Graph} (hwf : WF G) (start d : Int) (h0 : 0 ≤ start)
    (h1 : start < G.NumVertices) (hd : 1 ≤ d) (fuel : Nat)
    (hf : G.NumVertices.toNat + d.toNat + 1 ≤ fuel) :
    BFSd fuel G start d =
      .ok (some (withMarkers (bfsLevels G d.toNat [start] [start]) ++ [-1])) := by
  obtain ⟨t, ht, hstop, hvis⟩ := BFSd_full_run hwf d.toNat [start] [start] []
    (by intro u hu; simp only [List.mem_singleton] at hu; subst hu; exact ⟨h0, h1⟩)
  have hlen : (withMarkers (bfsLevels G d.toNat [start] [start])).length ≤ fuel := by
    rw [withMarkers_length, bfsLevels_length]
    have := length_le_of_nodup_range _ G.NumVertices
      (bfsLevels_flatten hwf h0 h1 d.toNat 0 _ _ (LevelInv_init G start)).1
      (fun x hx => bfsLevels_valid hwf h0 h1 d.toNat x hx)
    omega
  have hrun := ht.whileLoop (by simp [BFSd_cond, hstop]) fuel hlen
  have hv : ¬ (start < 0 ∨ start ≥ G.NumVertices) := by omega
  have hd2 : ¬ d < 1 := by omega
  have e : ((d.toNat : Nat) : Int) = d := by omega
  simp only [e] at hrun
  have hc : (fun st : BFSdState => !st.stop && !isEmptyQueue st.frontierQ) = BFSd_cond := rfl
  have hrun2 : whileLoop BFSd_cond (BFSd_body G) fuel
      { frontierQ := [start, -1], discoveredSet := [start], visited := [], distance := d,
        stop := false } = Except.ok t := hrun
  simp only [BFSd, hv, hd2, if_false, hc, Enqueue, AddToSet, List.nil_append,
    List.singleton_append]
  rw [hrun2]
  simp only [hvis, List.nil_append]

theorem Built_crossGraph : Built crossGraph :=
  Built_applyOps historyCross emptyGraph2 (Built.create 2 emptyGraph2 (by decide))

/-! ## getEdgeWeight and PopMin -/

theorem arrGet_arrSet_eq (a : List Int) (i x : Int) (hi : i.toNat < a.length) :
    arrGet (arrSet a i x) i = x := by
  simp [arrGet, arrSet, List.getD_eq_getElem?_getD, List.getElem?_set, hi]

theorem arrGet_arrSet_ne (a : List Int) (i j x : Int) (hi : 0 ≤ i) (hj : 0 ≤ j)
    (hij : i ≠ j) : arrGet (arrSet a i x) j = arrGet a j := by
  have : i.toNat ≠ j.toNat := by omega
  simp [arrGet, arrSet, List.getD_eq_getElem?_getD, List.getElem?_set, this]

theorem length_arrSet (a : List Int) (i x : Int) : (arrSet a i x).length = a.length := by
  simp [arrSet]

theorem arrGet_replicate (n : Nat) (c i : Int) (hi : i.toNat < n) :
    arrGet (List.replicate n c) i = c := by
  simp [arrGet, List.getD_eq_getElem?_getD, List.getElem?_replicate, hi]

/-! ### getEdgeWeight -/

theorem getEdgeWeight_loop_true (dest : Int) (l : List Edge) : ∀ w : Int,
    (getEdgeWeight_loop dest l w true).2 = true ∧
    (getEdgeWeight_loop dest l w true).1 ≤ w ∧
    ((getEdgeWeight_loop dest l w true).1 = w ∨
      ∃ e ∈ l, e.dest = dest ∧ e.weight = (getEdgeWeight_loop dest l w true).1) ∧
    (l.Pairwise (fun a b => a.dest ≤ b.dest) →
      ∀ e ∈ l, e.dest = dest → (getEdgeWeight_loop dest l w true).1 ≤ e.weight) := by
  induction l with
  | nil => intro w; simp [getEdgeWeight_loop]
  | cons c r ih =>
    intro w
    simp only [getEdgeWeight_loop]
    by_cases hd : dest = c.dest
    · simp only [hd, if_true, Bool.not_true, Bool.false_eq_true, if_false]
      by_cases hlt : c.weight < w
      · simp only [hlt, if_true]
        obtain ⟨i1, i2, i3, i4⟩ := ih c.weight
        rw [← hd]
        refine ⟨i1, by omega, ?_, ?_⟩
        · right
          rcases i3 with h | ⟨e, he, h1, h2⟩
          · exact ⟨c, List.mem_cons_self _ _, hd.symm, h.symm⟩
          · exact ⟨e, List.mem_cons_of_mem _ he, h1, h2⟩
        · intro hs e he hed
          rw [List.pairwise_cons] at hs
          rcases List.mem_cons.1 he with h | h
          · subst h; exact i2
          · exact i4 hs.2 e h hed
      · simp only [hlt, if_false]
        obtain ⟨i1, i2, i3, i4⟩ := ih w
        rw [← hd]
        refine ⟨i1, i2, ?_, ?_⟩
        · rcases i3 with h | ⟨e, he, h1, h2⟩
          · exact Or.inl h
          · exact Or.inr ⟨e, List.mem_cons_of_mem _ he, h1, h2⟩
        · intro hs e he hed
          rw [List.pairwise_cons] at hs
          rcases List.mem_cons.1 he with h | h
          · subst h; omega
          · exact i4 hs.2 e h hed
    · simp only [hd, if_false]
      by_cases hlt : dest < c.dest
      · simp only [hlt, if_true, le_refl, true_and, true_or]
        intro hs e he hed
        rw [List.pairwise_cons] at hs
        rcases List.mem_cons.1 he with h | h
        · subst h; exact absurd hed.symm hd
        · have := hs.1 e h; omega
      · simp only [hlt, if_false]
        obtain ⟨i1, i2, i3, i4⟩ := ih w
        refine ⟨i1, i2, ?_, ?_⟩
        · rcases i3 with h | ⟨e, he, h1, h2⟩
          · exact Or.inl h
          · exact Or.inr ⟨e, List.mem_cons_of_mem _ he, h1, h2⟩
        · intro hs e he hed
          rw [List.pairwise_cons] at hs
          rcases List.mem_cons.1 he with h | h
          · subst h; exact absurd hed.symm hd
          · exact i4 hs.2 e h hed

theorem getEdgeWeight_loop_false (dest : Int) (l : List Edge) : ∀ w : Int,
    l.Pairwise (fun a b => a.dest ≤ b.dest) → (∃ e ∈ l, e.dest = dest) →
    (getEdgeWeight_loop dest l w false).2 = true ∧
    (∃ e ∈ l, e.dest = dest ∧ e.weight = (getEdgeWeight_loop dest l w false).1) ∧
    ∀ e ∈ l, e.dest = dest → (getEdgeWeight_loop dest l w false).1 ≤ e.weight := by
  induction l with
  | nil => intro w _ h; simp at h
  | cons c r ih =>
    intro w hs hex
    simp only [getEdgeWeight_loop]
    have hs2 := hs
    rw [List.pairwise_cons] at hs
    by_cases hd : dest = c.dest
    · simp only [hd, if_true, Bool.not_false]
      obtain ⟨i1, i2, i3, i4⟩ := getEdgeWeight_loop_true c.dest r c.weight
      refine ⟨i1, ?_, ?_⟩
      · rcases i3 with h | ⟨e, he, h1, h2⟩
        · exact ⟨c, List.mem_cons_self _ _, rfl, h.symm⟩
        · exact ⟨e, List.mem_cons_of_mem _ he, h1, h2⟩
      · intro e he hed
        rcases List.mem_cons.1 he with h | h
        · subst h; exact i2
        · exact i4 hs.2 e h hed
    · simp only [hd, if_false]
      obtain ⟨e0, he0, hed0⟩ := hex
      have he0r : e0 ∈ r := by
        rcases List.mem_cons.1 he0 with h | h
        · subst h; exact absurd hed0.symm hd
        · exact h
      have hlt : ¬ dest < c.dest := by
        have := hs.1 e0 he0r; omega
      simp only [hlt, if_false]
      obtain ⟨i1, i2, i3⟩ := ih w hs.2 ⟨e0, he0r, hed0⟩
      refine ⟨i1, ?_, ?_⟩
      · obtain ⟨e, he, h1, h2⟩ := i2
        exact ⟨e, List.mem_cons_of_mem _ he, h1, h2⟩
      · intro e he hed
        rcases List.mem_cons.1 he with h | h
        · subst h; exact absurd hed.symm hd
        · exact i3 e h hed

/-- On an existing edge `getEdgeWeight` returns the weight of one of the parallel edges
and no parallel edge is lighter. -/
theorem getEdgeWeight_Adj {G : Graph} (hwf : WF G) {u w : Int} (h : Adj G u w) :
    getEdgeWeight G u w = .ok (wt G u w) ∧
    (∃ e ∈ edgesOf G u, e.dest = w ∧ e.weight = wt G u w) ∧
    ∀ e ∈ edgesOf G u, e.dest = w → wt G u w ≤ e.weight := by
  obtain ⟨h0, h1, hex⟩ := h
  have hw := Adj.valid hwf ⟨h0, h1, hex⟩
  obtain ⟨i1, i2, i3⟩ := getEdgeWeight_loop_false w (edgesOf G u) 0 (hwf.sorted u h0 h1) hex
  have e1 : ¬ (u < 0 ∨ u ≥ G.NumVertices) := by omega
  have e2 : ¬ (w < 0 ∨ w ≥ G.NumVertices) := by omega
  have hg : getEdgeWeight G u w = .ok (getEdgeWeight_loop w (edgesOf G u) 0 false).1 := by
    simp [getEdgeWeight, e1, e2, i1]
  have hwt : wt G u w = (getEdgeWeight_loop w (edgesOf G u) 0 false).1 := by
    simp [wt, hg]
  rw [hwt]
  exact ⟨hg, i2, i3⟩

/-! ### PopMin -/

theorem PopMin_refill_eq (S : Stack) : ∀ q : Queue, PopMin_refill S q = q ++ S := by
  induction S with
  | nil => intro q; simp [PopMin_refill]
  | cons a r ih => intro q; simp [PopMin_refill, ih, Enqueue]

theorem PopMin_scan_spec (distance : List Int) (rest : Queue) : ∀ (minV : Int) (S : Stack),
    (∀ x ∈ S, arrGet distance minV ≤ arrGet distance x) →
    List.Perm ((PopMin_scan distance rest minV S).1 :: (PopMin_scan distance rest minV S).2)
      (minV :: (rest ++ S)) ∧
    (∀ x ∈ minV :: (rest ++ S),
      arrGet distance (PopMin_scan distance rest minV S).1 ≤ arrGet distance x) := by
  induction rest with
  | nil =>
    intro minV S hS
    simp only [PopMin_scan, List.nil_append]
    refine ⟨List.Perm.refl _, ?_⟩
    intro x hx
    rcases List.mem_cons.1 hx with h | h
    · subst h; exact le_refl _
    · exact hS x h
  | cons v r ih =>
    intro minV S hS
    simp only [PopMin_scan]
    by_cases hlt : arrGet distance v < arrGet distance minV
    · simp only [hlt, if_true]
      obtain ⟨i1, i2⟩ := ih v (Push S minV) (by
        intro x hx
        simp only [Push, List.mem_cons] at hx
        rcases hx with h | h
        · subst h; omega
        · have := hS x h; omega)
      refine ⟨?_, ?_⟩
      · refine i1.trans ?_
        simp only [Push]
        have : List.Perm (v :: (r ++ minV :: S)) (minV :: (v :: r ++ S)) := by
          rw [List.perm_iff_count]
          intro a
          simp only [List.count_cons, List.count_append, List.cons_append]
          omega
        exact this
      · intro x hx
        apply i2
        simp only [Push, List.mem_cons, List.mem_append] at hx ⊢
        tauto
    · simp only [hlt, if_false]
      obtain ⟨i1, i2⟩ := ih minV (Push S v) (by
        intro x hx
        simp only [Push, List.mem_cons] at hx
        rcases hx with h | h
        · subst h; omega
        · exact hS x h)
      refine ⟨?_, ?_⟩
      · refine i1.trans ?_
        simp only [Push]
        have : List.Perm (minV :: (r ++ v :: S)) (minV :: (v :: r ++ S)) := by
          rw [List.perm_iff_count]
          intro a
          simp only [List.count_cons, List.count_append, List.cons_append]
          omega
        exact this
      · intro x hx
        apply i2
        simp only [Push, List.mem_cons, List.mem_append] at hx ⊢
        tauto

/-- `PopMin` on a non-empty queue: the vertex returned has the least distance and the
queue keeps the other entries. -/
theorem PopMin_spec (Q : Queue) (distance : List Int) (hQ : Q ≠ []) :
    ∃ m Q1, PopMin Q distance = .ok (m, Q1) ∧ List.Perm (m :: Q1) Q ∧
      ∀ x ∈ Q, arrGet distance m ≤ arrGet distance x := by
  cases Q with
  | nil => exact absurd rfl hQ
  | cons first rest =>
    obtain ⟨i1, i2⟩ := PopMin_scan_spec distance rest first [] (by simp)
    simp only [List.append_nil] at i1 i2
    refine ⟨(PopMin_scan distance rest first []).1, (PopMin_scan distance rest first []).2,
      ?_, i1, i2⟩
    have hlen := i1.length_eq
    simp only [List.length_cons] at hlen
    simp [PopMin, PopMin_refill_eq, hlen]

/-! ## Dijkstra: what holds for all weights -/

theorem Dijkstra_relax_eq {G : Graph} (hwf : WF G) (u : Int) (rem : List Int) :
    ∀ dp : List Int × List Int, (∀ y ∈ rem, Adj G u y) →
      Dijkstra_relax G u rem dp = .ok (rem.foldl (relaxOne G u) dp) := by
  induction rem with
  | nil => intro dp _; rfl
  | cons y r ih =>
    intro dp h
    obtain ⟨d, p⟩ := dp
    have hy := (getEdgeWeight_Adj hwf (h y (List.mem_cons_self _ _))).1
    simp only [Dijkstra_relax, hy, List.foldl_cons]
    by_cases hlt : wrapInt32 (arrGet d u + wt G u y) < arrGet d y
    · simp only [hlt, if_true]
      rw [ih _ (fun z hz => h z (List.mem_cons_of_mem _ hz))]
      simp [relaxOne, hlt]
    · simp only [hlt, if_false]
      rw [ih _ (fun z hz => h z (List.mem_cons_of_mem _ hz))]
      simp [relaxOne, hlt]

/-- The main loop body of `Dijkstra` on a non-empty queue of valid vertices. -/
theorem Dijkstra_body_eq {G : Graph} (hwf : WF G) (st : DijkstraState)
    (hq : st.unvisitedQ ≠ []) (hv : ∀ x ∈ st.unvisitedQ, 0 ≤ x ∧ x < G.NumVertices) :
    ∃ u Q1, List.Perm (u :: Q1) st.unvisitedQ ∧
      (∀ x ∈ st.unvisitedQ, arrGet st.distance u ≤ arrGet st.distance x) ∧
      Dijkstra_body G st = .ok
        (if arrGet st.distance u = INT_MAX then { st with unvisitedQ := Q1, stop := true }
         else
          { st with
            unvisitedQ := Q1
            distance := ((nbrs G u).foldl (relaxOne G u) (st.distance, st.predecessor)).1
            predecessor :=
              ((nbrs G u).foldl (relaxOne G u) (st.distance, st.predecessor)).2 }) := by
  obtain ⟨u, Q1, h1, h2, h3⟩ := PopMin_spec st.unvisitedQ st.distance hq
  refine ⟨u, Q1, h2, h3, ?_⟩
  have hu := hv u (h2.subset (List.mem_cons_self _ _))
  simp only [Dijkstra_body, h1]
  by_cases hinf : arrGet st.distance u = INT_MAX
  · simp [hinf]
  · simp only [hinf, if_false, Neighbors_valid G u hu.1 hu.2, upToMarker_nbrs hwf u hu.1 hu.2]
    rw [Dijkstra_relax_eq hwf u (nbrs G u) _
      (fun y hy => (mem_nbrs_iff_Adj hwf u hu.1 hu.2 y).1 hy)]

theorem relaxOne_length (G : Graph) (u : Int) (dp : List Int × List Int) (y : Int) :
    (relaxOne G u dp y).1.length = dp.1.length ∧ (relaxOne G u dp y).2.length = dp.2.length := by
  unfold relaxOne
  split <;> simp [length_arrSet]

theorem relaxOne_ReachW {G : Graph} (hwf : WF G) (src u : Int) (dp : List Int × List Int)
    (y : Int) (h : ReachW G src dp) (hu : Reach G src u) (hy : Adj G u y) :
    ReachW G src (relaxOne G u dp y) := by
  obtain ⟨l1, l2, hr⟩ := h
  have hl := relaxOne_length G u dp y
  refine ⟨by rw [hl.1, l1], by rw [hl.2, l2], ?_⟩
  have hyv := hy.valid hwf
  intro x hx0 hx1 hx
  unfold relaxOne at hx
  split at hx
  · by_cases hxy : x = y
    · subst hxy
      exact Relation.ReflTransGen.tail hu hy
    · have hne : y ≠ x := fun h => hxy h.symm
      simp only [arrGet_arrSet_ne _ y x _ hyv.1 hx0 hne] at hx
      exact hr x hx0 hx1 hx
  · exact hr x hx0 hx1 hx

theorem foldl_relaxOne_ReachW {G : Graph} (hwf : WF G) (src u : Int) (rem : List Int) :
    ∀ dp : List Int × List Int, ReachW G src dp → Reach G src u → (∀ y ∈ rem, Adj G u y) →
      ReachW G src (rem.foldl (relaxOne G u) dp) := by
  induction rem with
  | nil => intro dp h _ _; exact h
  | cons y r ih =>
    intro dp h hu hadj
    rw [List.foldl_cons]
    exact ih _ (relaxOne_ReachW hwf src u dp y h hu (hadj y (List.mem_cons_self _ _))) hu
      (fun z hz => hadj z (List.mem_cons_of_mem _ hz))

theorem DijkW_step {G : Graph} (hwf : WF G) (src : Int) (st : DijkstraState)
    (hI : DijkW G src st) (hc : Dijkstra_cond st = true) :
    ∃ s1, Dijkstra_body G st = .ok s1 ∧ DijkW G src s1 ∧
      s1.unvisitedQ.length < st.unvisitedQ.length := by
  have hq : st.unvisitedQ ≠ [] := by
    intro h
    simp [Dijkstra_cond, isEmptyQueue, h] at hc
  obtain ⟨u, Q1, h1, h2, h3⟩ := Dijkstra_body_eq hwf st hq hI.q_valid
  have hu := hI.q_valid u (h1.subset (List.mem_cons_self _ _))
  have hlen := h1.length_eq
  simp only [List.length_cons] at hlen
  have hq1 : ∀ x ∈ Q1, 0 ≤ x ∧ x < G.NumVertices :=
    fun x hx => hI.q_valid x (h1.subset (List.mem_cons_of_mem _ hx))
  refine ⟨_, h3, ?_, ?_⟩
  · by_cases hinf : arrGet st.distance u = INT_MAX
    · simp only [hinf, if_true]
      exact ⟨hI.len_d, hI.len_p, hq1, hI.reach⟩
    · simp only [hinf, if_false]
      have := foldl_relaxOne_ReachW hwf src u (nbrs G u) (st.distance, st.predecessor)
        ⟨hI.len_d, hI.len_p, hI.reach⟩ (hI.reach u hu.1 hu.2 (Or.inl hinf))
        (fun y hy => (mem_nbrs_iff_Adj hwf u hu.1 hu.2 y).1 hy)
      exact ⟨this.1, this.2.1, hq1, this.2.2⟩
  · by_cases hinf : arrGet st.distance u = INT_MAX
    · simp only [hinf, if_true]; omega
    · simp only [hinf, if_false]; omega

theorem mem_range_map_ofNat (n : Nat) (x : Int) :
    x ∈ (List.range n).map Int.ofNat ↔ 0 ≤ x ∧ x.toNat < n := by
  simp only [List.mem_map, List.mem_range]
  constructor
  · rintro ⟨a, ha, rfl⟩
    simp only [Int.ofNat_eq_coe]
    omega
  · rintro ⟨h0, h1⟩
    exact ⟨x.toNat, h1, by simp only [Int.ofNat_eq_coe]; omega⟩

theorem DijkW_init (G : Graph) (src : Int) (h0 : 0 ≤ src) (h1 : src < G.NumVertices) :
    DijkW G src (Dijkstra_init G src) := by
  refine ⟨by simp [Dijkstra_init, length_arrSet], by simp [Dijkstra_init], ?_, ?_⟩
  · intro x hx
    have := (mem_range_map_ofNat _ x).1 hx
    omega
  · intro x hx0 hx1 hx
    by_cases hxs : x = src
    · subst hxs; exact Relation.ReflTransGen.refl
    · exfalso
      have hne : src ≠ x := fun h => hxs h.symm
      simp only [Dijkstra_init, arrGet_arrSet_ne _ src x _ h0 hx0 hne] at hx
      rw [arrGet_replicate _ _ _ (by omega), arrGet_replicate _ _ _ (by omega)] at hx
      simp at hx

theorem Dijkstra_main_W {G : Graph} (hwf : WF G) (src : Int) (h0 : 0 ≤ src)
    (h1 : src < G.NumVertices) (fuel : Nat) (hf : G.NumVertices.toNat ≤ fuel) :
    ∃ t, whileLoop Dijkstra_cond (Dijkstra_body G) fuel (Dijkstra_init G src) = .ok t ∧
      DijkW G src t := by
  obtain ⟨t, h1, h2, _⟩ := whileLoop_total Dijkstra_cond (Dijkstra_body G) (DijkW G src)
    (fun st => st.unvisitedQ.length) (fun s hI hc => DijkW_step hwf src s hI hc) fuel _
    (DijkW_init G src h0 h1) (by simp [Dijkstra_init]; omega)
  exact ⟨t, h1, h2⟩

/-- `Dijkstra` in terms of its two loops. -/
theorem Dijkstra_unfold (fuel : Nat) (G : Graph) (src dest : Int) (h0 : 0 ≤ src)
    (h1 : src < G.NumVertices) (h2 : 0 ≤ dest) (h3 : dest < G.NumVertices) :
    Dijkstra fuel G src dest =
      match whileLoop Dijkstra_cond (Dijkstra_body G) fuel (Dijkstra_init G src) with
      | .error e => .error e
      | .ok st =>
        match whileLoop (fun vs : Int × Stack => arrGet st.predecessor vs.1 != -1)
            (Dijkstra_walkBody st.predecessor) fuel (dest, []) with
        | .error e => .error e
        | .ok vs =>
          if (Push vs.2 src).length = 1 then .ok (some [-1])
          else .ok (some (Push vs.2 src ++ [-1])) := by
  have e1 : ¬ (src < 0 ∨ src ≥ G.NumVertices) := by omega
  have e2 : ¬ (dest < 0 ∨ dest ≥ G.NumVertices) := by omega
  simp only [Dijkstra, e1, e2, if_false]
  rfl

theorem Dijkstra_null_iff (fuel : Nat) (G : Graph) (src dest : Int) :
    Dijkstra fuel G src dest = .ok none ↔
      (src < 0 ∨ src ≥ G.NumVertices ∨ dest < 0 ∨ dest ≥ G.NumVertices) := by
  by_cases hv : 0 ≤ src ∧ src < G.NumVertices ∧ 0 ≤ dest ∧ dest < G.NumVertices
  · obtain ⟨h0, h1, h2, h3⟩ := hv
    rw [Dijkstra_unfold fuel G src dest h0 h1 h2 h3]
    have : ¬ (src < 0 ∨ src ≥ G.NumVertices ∨ dest < 0 ∨ dest ≥ G.NumVertices) := by omega
    simp only [this, iff_false]
    split
    · simp
    · split
      · simp
      · split <;> simp
  · have : (src < 0 ∨ src ≥ G.NumVertices ∨ dest < 0 ∨ dest ≥ G.NumVertices) := by omega
    simp only [this, iff_true]
    unfold Dijkstra
    by_cases e1 : src < 0 ∨ src ≥ G.NumVertices
    · simp [e1]
    · have e2 : dest < 0 ∨ dest ≥ G.NumVertices := by omega
      simp [e1, e2]

/-- Reachability read off the output of `BFS`. -/
theorem BFS_reach {G : Graph} (hwf : WF G) (start : Int) (h0 : 0 ≤ start)
    (h1 : start < G.NumVertices) (fuel : Nat) (hf : G.NumVertices.toNat ≤ fuel)
    (out : List Int) (h : BFS fuel G start = .ok (some (out ++ [-1]))) (x : Int) :
    Reach G start x ↔ x ∈ out := by
  obtain ⟨t, ht, hI, hq⟩ := BFS_run hwf start h0 h1 fuel hf
  have hv : ¬ (start < 0 ∨ start ≥ G.NumVertices) := by omega
  simp only [BFS, hv, if_false, ht, Except.ok.injEq, Option.some.injEq] at h
  have : t.visited = out := List.append_cancel_right h
  rw [← this]
  exact ((BFSInv_final start t hI hq).2.2 x).symm

theorem not_Reach_catGraph_zzz : ¬ Reach catGraph 0 3 := by
  rw [BFS_reach Built_catGraph.wf 0 (by decide) (by decide) 4 (by decide) [0, 1, 2]
    (by decide) 3]
  decide

theorem Reach_catGraph_bad : Reach catGraph 0 2 := by
  rw [BFS_reach Built_catGraph.wf 0 (by decide) (by decide) 4 (by decide) [0, 1, 2]
    (by decide) 2]
  decide

/-! ## Dijkstra for non-negative weights -/

theorem wrapInt32_id (x : Int) (h0 : 0 ≤ x) (h1 : x < INT_MAX) : wrapInt32 x = x := by
  unfold wrapInt32
  unfold INT_MAX at h1
  omega

theorem pathWeight_snoc (G : Graph) (c : List Int) (u x : Int) (h : c.getLast? = some u) :
    pathWeight G (c ++ [x]) = pathWeight G c + wt G u x := by
  induction c with
  | nil => simp at h
  | cons a r ih =>
    cases r with
    | nil =>
      simp only [List.getLast?_singleton, Option.some.injEq] at h
      subst h
      simp [pathWeight]
    | cons b t =>
      have h2 : (b :: t).getLast? = some u := by
        rw [List.getLast?_cons_cons] at h; exact h
      have := ih h2
      show wt G a b + pathWeight G (b :: t ++ [x]) = wt G a b + pathWeight G (b :: t) + wt G u x
      rw [this]
      ring

theorem IsPath_snoc (G : Graph) (c : List Int) (u x : Int) (hc : IsPath G c)
    (h : c.getLast? = some u) (hadj : Adj G u x) : IsPath G (c ++ [x]) := by
  unfold IsPath at hc ⊢
  rw [List.chain'_append]
  refine ⟨hc, List.chain'_singleton _, ?_⟩
  intro a ha b hb
  rw [h] at ha
  simp only [Option.mem_def, Option.some.injEq, List.head?_cons] at ha hb
  subst ha; subst hb
  exact hadj

theorem PredChain.last {G : Graph} {d p Q : List Int} {src x : Int} {c : List Int}
    (h : PredChain G d p Q src x c) : c.getLast? = some x := by
  cases h with
  | root => rfl
  | snoc u x c _ _ _ _ _ => simp

theorem PredChain.head {G : Graph} {d p Q : List Int} {src x : Int} {c : List Int}
    (h : PredChain G d p Q src x c) : c.head? = some src := by
  induction h with
  | root => rfl
  | snoc u x c _ _ _ _ _ ih =>
    cases c with
    | nil => simp at ih
    | cons a t => simpa using ih

theorem PredChain.isPath {G : Graph} {d p Q : List Int} {src x : Int} {c : List Int}
    (h : PredChain G d p Q src x c) : IsPath G c := by
  induction h with
  | root => exact List.chain'_singleton _
  | snoc u x c hc _ _ _ hadj ih => exact IsPath_snoc G c u x ih hc.last hadj

theorem PredChain.weight {G : Graph} {d p Q : List Int} {src x : Int} {c : List Int}
    (h : PredChain G d p Q src x c) (h0 : arrGet d src = 0) :
    pathWeight G c = arrGet d x := by
  induction h with
  | root => simp [pathWeight, h0]
  | snoc u x c hc _ _ hd _ ih => rw [pathWeight_snoc G c u x hc.last, ih, hd]

theorem PredChain.mem {G : Graph} {d p Q : List Int} {src x : Int} {c : List Int}
    (h : PredChain G d p Q src x c) : ∀ z ∈ c, z = x ∨ z ∉ Q := by
  induction h with
  | root => intro z hz; left; simpa using hz
  | snoc u x c _ hu _ _ _ ih =>
    intro z hz
    rcases List.mem_append.1 hz with hz | hz
    · right
      rcases ih z hz with h | h
      · rw [h]; exact hu
      · exact h
    · left; simpa using hz

theorem PredChain.nonneg {G : Graph} (hwf : WF G) {d p Q : List Int} {src x : Int}
    {c : List Int} (h : PredChain G d p Q src x c) (h0 : 0 ≤ src) : ∀ z ∈ c, 0 ≤ z := by
  induction h with
  | root => intro z hz; simp only [List.mem_singleton] at hz; omega
  | snoc u x c _ _ _ _ hadj ih =>
    intro z hz
    rcases List.mem_append.1 hz with hz | hz
    · exact ih z hz
    · simp only [List.mem_singleton] at hz
      have := hadj.valid hwf
      omega

theorem PredChain.congr {G : Graph} {d p Q d1 p1 Q1 : List Int} {src x : Int}
    {c : List Int} (h : PredChain G d p Q src x c)
    (hd : ∀ z ∈ c, arrGet d1 z = arrGet d z ∧ arrGet p1 z = arrGet p z)
    (hQ : ∀ z, z ∉ Q → z ∉ Q1) : PredChain G d1 p1 Q1 src x c := by
  induction h with
  | root => exact PredChain.root
  | snoc u x c hc hu hp hdx hadj ih =>
    have hxm : x ∈ c ++ [x] := by simp
    have hum : u ∈ c ++ [x] :=
      List.mem_append_left _ (List.mem_of_mem_getLast? hc.last)
    refine PredChain.snoc u x c (ih (fun z hz => hd z (List.mem_append_left _ hz)))
      (hQ u hu) ?_ ?_ hadj
    · rw [(hd x hxm).2, hp]
    · rw [(hd x hxm).1, (hd u hum).1, hdx]

/-- The predecessor walk of `Dijkstra` along a chain pushes the chain without its root. -/
theorem PredChain.walk {G : Graph} {d p Q : List Int} {src x : Int}
    {c : List Int} (h : PredChain G d p Q src x c) (hp : arrGet p src = -1) :
    ∀ (S : Stack) (fuel : Nat), c.length ≤ fuel →
      whileLoop (fun vs : Int × Stack => arrGet p vs.1 != -1) (Dijkstra_walkBody p) fuel
        (x, S) = .ok (src, c.tail ++ S) := by
  induction h with
  | root =>
    intro S fuel _
    rw [whileLoop_done _ _ _ _ (by simp [hp])]
    rfl
  | snoc u x c hc _ hpx _ hadj ih =>
    intro S fuel hf
    obtain ⟨m, rfl⟩ : ∃ m, fuel = m + 1 := ⟨fuel - 1, by simp at hf; omega⟩
    have hu0 := hadj.1
    have hcond : (fun vs : Int × Stack => arrGet p vs.1 != -1) (x, S) = true := by
      simp only [hpx, bne_iff_ne, ne_eq]
      omega
    rw [whileLoop_step _ _ m (x, S) (u, Push S x) hcond (by simp [Dijkstra_walkBody, hpx])]
    rw [ih (Push S x) m (by simp at hf; omega)]
    have hne : c ≠ [] := by
      intro h; rw [h] at hc; have := hc.last; simp at this
    simp [Push, List.tail_append_of_ne_nil hne]

theorem wt_nonneg {G : Graph} (hwf : WF G) (hnn : NonNegWeights G) {u w : Int}
    (h : Adj G u w) : 0 ≤ wt G u w := by
  obtain ⟨e, he, _, hw⟩ := (getEdgeWeight_Adj hwf h).2.1
  rw [← hw]
  exact hnn u h.1 h.2.1 e he

/-- The sum computed for the hop `u -> y` is in range and is the weight of a path. -/
theorem alt_bounds {G : Graph} (hwf : WF G) (hnn : NonNegWeights G) {src : Int}
    (hb : PathSumsBelowIntMax G src) {Q : List Int} {u : Int} {rem d p : List Int}
    (hI : DijkInv G src Q u rem d p) (x y : Int) (hx0 : 0 ≤ x) (hx1 : x < G.NumVertices)
    (hxQ : x ∉ Q) (hdx : arrGet d x < INT_MAX) (hadj : Adj G x y) :
    0 ≤ arrGet d x + wt G x y ∧ arrGet d x + wt G x y < INT_MAX := by
  obtain ⟨c, hc, _, hlen⟩ := hI.chain x hx0 hx1 hdx
  have hw := wt_nonneg hwf hnn hadj
  refine ⟨by have := (hI.range x hx0 hx1).1; omega, ?_⟩
  have := hb (c ++ [y]) (IsPath_snoc G c x y hc.isPath hc.last hadj)
    (by
      have := hc.head
      cases c with
      | nil => simp at this
      | cons a t => simpa using this)
    (by have := hlen hxQ; simp only [List.length_append, List.length_singleton]; omega)
  rw [pathWeight_snoc G c x y hc.last, hc.weight hI.src0] at this
  exact this

theorem relaxOne_inv {G : Graph} (hwf : WF G) (hnn : NonNegWeights G) {src : Int}
    (h0 : 0 ≤ src) (hb : PathSumsBelowIntMax G src) {Q : List Int} {u y : Int}
    {rem d p : List Int} (hI : DijkInv G src Q u (y :: rem) d p)
    (hld : d.length = G.NumVertices.toNat) (hlp : p.length = G.NumVertices.toNat)
    (hu0 : 0 ≤ u) (hu1 : u < G.NumVertices) (huQ : u ∉ Q) (hdu : arrGet d u < INT_MAX)
    (hadj : Adj G u y) :
    DijkInv G src Q u rem (relaxOne G u (d, p) y).1 (relaxOne G u (d, p) y).2 := by
  have hyv := hadj.valid hwf
  have halt := alt_bounds hwf hnn hb hI u y hu0 hu1 huQ hdu hadj
  have hwrap := wrapInt32_id _ halt.1 halt.2
  unfold relaxOne
  simp only [hwrap]
  by_cases hlt : arrGet d u + wt G u y < arrGet d y
  · simp only [hlt, if_true]
    have hyQ : y ∈ Q := by
      by_contra hyQ
      have := hI.belowU y hyv.1 hyv.2 hyQ
      have := wt_nonneg hwf hnn hadj
      omega
    have hyu : y ≠ u := fun h => huQ (h ▸ hyQ)
    have hys : y ≠ src := by
      intro h
      have h1 := halt.1
      rw [h] at hlt h1
      rw [hI.src0] at hlt
      omega
    have hdne : ∀ z, 0 ≤ z → z ≠ y →
        arrGet (arrSet d y (arrGet d u + wt G u y)) z = arrGet d z :=
      fun z hz hzy => arrGet_arrSet_ne d y z _ hyv.1 hz (fun h => hzy h.symm)
    have hpne : ∀ z, 0 ≤ z → z ≠ y → arrGet (arrSet p y u) z = arrGet p z :=
      fun z hz hzy => arrGet_arrSet_ne p y z _ hyv.1 hz (fun h => hzy h.symm)
    have hdy : arrGet (arrSet d y (arrGet d u + wt G u y)) y = arrGet d u + wt G u y :=
      arrGet_arrSet_eq d y _ (by omega)
    have hpy : arrGet (arrSet p y u) y = u := arrGet_arrSet_eq p y _ (by omega)
    have hnotQ : ∀ z, z ∉ Q → z ≠ y := fun z hz h => hz (h ▸ hyQ)
    refine ⟨hI.nodupQ, hI.qvalid, ?_, ?_, ?_, ?_, ?_, ?_, ?_⟩
    · rw [hdne src h0 (fun h => hys h.symm)]; exact hI.src0
    · rw [hpne src h0 (fun h => hys h.symm)]; exact hI.psrc
    · intro x hx0 hx1
      by_cases hxy : x = y
      · subst hxy; rw [hdy]; omega
      · rw [hdne x hx0 hxy]; exact hI.range x hx0 hx1
    · intro x hx0 hx1 hxQ hdx z hz hrem
      have hxy := hnotQ x hxQ
      rw [hdne x hx0 hxy] at hdx ⊢
      by_cases hzy : z = y
      · subst hzy
        rw [hdy]
        by_cases hxu : x = u
        · subst hxu; exact le_refl _
        · have := hI.relaxed x hx0 hx1 hxQ hdx z hz (fun h => absurd h hxu)
          omega
      · rw [hdne z (hz.valid hwf).1 hzy]
        apply hI.relaxed x hx0 hx1 hxQ hdx z hz
        intro hxu hmem
        rcases List.mem_cons.1 hmem with h | h
        · exact hzy h
        · exact hrem hxu h
    · intro x hx0 hx1 hxQ z hzQ
      rw [hdne x hx0 (hnotQ x hxQ)]
      by_cases hzy : z = y
      · subst hzy
        rw [hdy]
        have := hI.belowU x hx0 hx1 hxQ
        have := wt_nonneg hwf hnn hadj
        omega
      · rw [hdne z (hI.qvalid z hzQ).1 hzy]
        exact hI.below x hx0 hx1 hxQ z hzQ
    · intro x hx0 hx1 hxQ
      rw [hdne x hx0 (hnotQ x hxQ), hdne u hu0 (fun h => hyu h.symm)]
      exact hI.belowU x hx0 hx1 hxQ
    · intro x hx0 hx1 hdx
      by_cases hxy : x = y
      · subst hxy
        obtain ⟨c, hc, _, hlen⟩ := hI.chain u hu0 hu1 hdu
        have hcQ : ∀ z ∈ c, z ∉ Q := by
          intro z hz
          rcases hc.mem z hz with h | h
          · rw [h]; exact huQ
          · exact h
        refine ⟨c ++ [x], ?_, ?_, fun h => absurd hyQ h⟩
        · refine PredChain.snoc u x c (hc.congr ?_ (fun z hz => hz)) huQ hpy ?_ hadj
          · intro z hz
            have hzy := hnotQ z (hcQ z hz)
            have hz0 := hc.nonneg hwf h0 z hz
            exact ⟨hdne z hz0 hzy, hpne z hz0 hzy⟩
          · rw [hdy, hdne u hu0 (fun h => hyu h.symm)]
        · have := hlen huQ
          simp only [List.length_append, List.length_singleton]
          omega
      · rw [hdne x hx0 hxy] at hdx
        obtain ⟨c, hc, hl1, hl2⟩ := hI.chain x hx0 hx1 hdx
        refine ⟨c, hc.congr ?_ (fun z hz => hz), hl1, hl2⟩
        intro z hz
        have hzy : z ≠ y := by
          rcases hc.mem z hz with h | h
          · rw [h]; exact hxy
          · exact hnotQ z h
        have hz0 := hc.nonneg hwf h0 z hz
        exact ⟨hdne z hz0 hzy, hpne z hz0 hzy⟩
  · simp only [hlt, if_false]
    refine ⟨hI.nodupQ, hI.qvalid, hI.src0, hI.psrc, hI.range, ?_, hI.below, hI.belowU,
      hI.chain⟩
    intro x hx0 hx1 hxQ hdx z hz hrem
    by_cases hc : x = u ∧ z = y
    · obtain ⟨hxu, hzy⟩ := hc
      subst hxu; subst hzy
      omega
    · apply hI.relaxed x hx0 hx1 hxQ hdx z hz
      intro hxu hmem
      rcases List.mem_cons.1 hmem with h | h
      · exact hc ⟨hxu, h⟩
      · exact hrem hxu h

theorem relaxOne_le {G : Graph} (hwf : WF G) (u y : Int) (d p : List Int)
    (hld : d.length = G.NumVertices.toNat) (hadj : Adj G u y) (z : Int) (hz : 0 ≤ z) :
    arrGet (relaxOne G u (d, p) y).1 z ≤ arrGet d z := by
  have hyv := hadj.valid hwf
  unfold relaxOne
  simp only
  split
  · rename_i hlt
    by_cases hzy : z = y
    · subst hzy
      rw [arrGet_arrSet_eq d z _ (by omega)]
      omega
    · rw [arrGet_arrSet_ne d y z _ hyv.1 hz (fun h => hzy h.symm)]
  · exact le_refl _

theorem foldl_relaxOne_inv {G : Graph} (hwf : WF G) (hnn : NonNegWeights G) {src : Int}
    (h0 : 0 ≤ src) (hb : PathSumsBelowIntMax G src) {Q : List Int} {u : Int}
    (hu0 : 0 ≤ u) (hu1 : u < G.NumVertices) (huQ : u ∉ Q) (rem : List Int) :
    ∀ d p : List Int, DijkInv G src Q u rem d p →
      d.length = G.NumVertices.toNat → p.length = G.NumVertices.toNat →
      arrGet d u < INT_MAX → (∀ y ∈ rem, Adj G u y) →
      DijkInv G src Q u [] (rem.foldl (relaxOne G u) (d, p)).1
        (rem.foldl (relaxOne G u) (d, p)).2 := by
  induction rem with
  | nil => intro d p hI _ _ _ _; exact hI
  | cons y r ih =>
    intro d p hI hld hlp hdu hadj
    have hy := hadj y (List.mem_cons_self _ _)
    rw [List.foldl_cons]
    have hlen := relaxOne_length G u (d, p) y
    exact ih _ _ (relaxOne_inv hwf hnn h0 hb hI hld hlp hu0 hu1 huQ hdu hy)
      (hlen.1.trans hld) (hlen.2.trans hlp)
      (lt_of_le_of_lt (relaxOne_le hwf u y d p hld hy u hu0) hdu)
      (fun z hz => hadj z (List.mem_cons_of_mem _ hz))

theorem DijkInv_pop {G : Graph} (hwf : WF G) {src : Int} {Q Q1 : List Int} {u0 u : Int}
    {d p : List Int} (hI : DijkInv G src Q u0 [] d p) (hperm : List.Perm (u :: Q1) Q)
    (hmin : ∀ x ∈ Q, arrGet d u ≤ arrGet d x) :
    DijkInv G src Q1 u (nbrs G u) d p ∧ u ∉ Q1 := by
  have hnd : (u :: Q1).Nodup := hperm.nodup_iff.2 hI.nodupQ
  rw [List.nodup_cons] at hnd
  have huQ : u ∈ Q := hperm.subset (List.mem_cons_self _ _)
  have hsub : ∀ z, z ∈ Q1 → z ∈ Q := fun z hz => hperm.subset (List.mem_cons_of_mem _ hz)
  have hcase : ∀ z, z ∉ Q1 → z = u ∨ z ∉ Q := by
    intro z hz
    by_cases hzu : z = u
    · exact Or.inl hzu
    · right
      intro hzQ
      have := hperm.symm.subset hzQ
      rcases List.mem_cons.1 this with h | h
      · exact hzu h
      · exact hz h
  have hlen := hperm.length_eq
  simp only [List.length_cons] at hlen
  have huv := hI.qvalid u huQ
  refine ⟨⟨hnd.2, fun z hz => hI.qvalid z (hsub z hz), hI.src0, hI.psrc, hI.range, ?_, ?_, ?_,
    ?_⟩, hnd.1⟩
  · intro x hx0 hx1 hxQ hdx y hy hrem
    rcases hcase x hxQ with h | h
    · exfalso
      subst h
      exact hrem rfl ((mem_nbrs_iff_Adj hwf x hx0 hx1 y).2 hy)
    · exact hI.relaxed x hx0 hx1 h hdx y hy (fun _ hm => by simp at hm)
  · intro x hx0 hx1 hxQ y hy
    rcases hcase x hxQ with h | h
    · subst h; exact hmin y (hsub y hy)
    · exact hI.below x hx0 hx1 h y (hsub y hy)
  · intro x hx0 hx1 hxQ
    rcases hcase x hxQ with h | h
    · subst h; exact le_refl _
    · exact hI.below x hx0 hx1 h u huQ
  · intro x hx0 hx1 hdx
    obtain ⟨c, hc, hl1, hl2⟩ := hI.chain x hx0 hx1 hdx
    refine ⟨c, hc.congr (fun z _ => ⟨rfl, rfl⟩) (fun z hz hz1 => hz (hsub z hz1)), by omega,
      ?_⟩
    intro hxQ
    rcases hcase x hxQ with h | h
    · omega
    · have := hl2 h; omega

theorem DijkInv_weaken {G : Graph} {src : Int} {Q : List Int} {u : Int} {rem d p : List Int}
    (hI : DijkInv G src Q u rem d p) (hinf : arrGet d u = INT_MAX) :
    DijkInv G src Q u [] d p := by
  refine ⟨hI.nodupQ, hI.qvalid, hI.src0, hI.psrc, hI.range, ?_, hI.below, hI.belowU,
    hI.chain⟩
  intro x hx0 hx1 hxQ hdx y hy _
  apply hI.relaxed x hx0 hx1 hxQ hdx y hy
  intro hxu
  rw [hxu, hinf] at hdx
  exact absurd hdx (lt_irrefl _)

theorem DijkFull_step {G : Graph} (hwf : WF G) (hnn : NonNegWeights G) {src : Int}
    (h0 : 0 ≤ src) (hb : PathSumsBelowIntMax G src) (st : DijkstraState)
    (hI : DijkFull G src st) (hc : Dijkstra_cond st = true) :
    ∃ s1, Dijkstra_body G st = .ok s1 ∧ DijkFull G src s1 ∧
      s1.unvisitedQ.length < st.unvisitedQ.length := by
  obtain ⟨s1, hb1, hW1, hlt⟩ := DijkW_step hwf src st hI.weak hc
  refine ⟨s1, hb1, ⟨hW1, ?_, ?_⟩, hlt⟩
  all_goals
    have hq : st.unvisitedQ ≠ [] := by
      intro h
      simp [Dijkstra_cond, isEmptyQueue, h] at hc
    have hstop : st.stop = false := by
      cases hs : st.stop
      · rfl
      · simp [Dijkstra_cond, hs] at hc
    obtain ⟨u, Q1, h1, h2, h3⟩ := Dijkstra_body_eq hwf st hq hI.weak.q_valid
    rw [hb1] at h3
    simp only [Except.ok.injEq] at h3
    obtain ⟨u0, hinv⟩ := hI.inv
    obtain ⟨hpop, huQ1⟩ := DijkInv_pop hwf hinv h1 h2
    have huv := hI.weak.q_valid u (h1.subset (List.mem_cons_self _ _))
  · by_cases hinf : arrGet st.distance u = INT_MAX
    · simp only [hinf, if_true] at h3
      subst h3
      exact ⟨u, DijkInv_weaken hpop hinf⟩
    · simp only [hinf, if_false] at h3
      subst h3
      have hdu : arrGet st.distance u < INT_MAX := by
        have := (hinv.range u huv.1 huv.2).2
        omega
      exact ⟨u, foldl_relaxOne_inv hwf hnn h0 hb huv.1 huv.2 huQ1 (nbrs G u) _ _ hpop
        hI.weak.len_d hI.weak.len_p hdu
        (fun y hy => (mem_nbrs_iff_Adj hwf u huv.1 huv.2 y).1 hy)⟩
  · by_cases hinf : arrGet st.distance u = INT_MAX
    · simp only [hinf, if_true] at h3
      subst h3
      intro _ z hz
      have hzQ := h1.subset (List.mem_cons_of_mem _ hz)
      have := h2 z hzQ
      have := (hinv.range z (hI.weak.q_valid z hzQ).1 (hI.weak.q_valid z hzQ).2).2
      simp only at *
      omega
    · simp only [hinf, if_false] at h3
      subst h3
      intro hs
      simp only [hstop] at hs
      exact absurd hs (by simp)

theorem DijkFull_init (G : Graph) (src : Int) (h0 : 0 ≤ src) (h1 : src < G.NumVertices) :
    DijkFull G src (Dijkstra_init G src) := by
  have hmem : ∀ x, 0 ≤ x → x < G.NumVertices →
      x ∈ (List.range G.NumVertices.toNat).map Int.ofNat :=
    fun x hx0 hx1 => (mem_range_map_ofNat _ x).2 ⟨hx0, by omega⟩
  have hsrc : arrGet (arrSet (List.replicate G.NumVertices.toNat INT_MAX) src 0) src = 0 :=
    arrGet_arrSet_eq _ _ _ (by simp; omega)
  have hother : ∀ x, 0 ≤ x → x < G.NumVertices → x ≠ src →
      arrGet (arrSet (List.replicate G.NumVertices.toNat INT_MAX) src 0) x = INT_MAX := by
    intro x hx0 hx1 hxs
    rw [arrGet_arrSet_ne _ src x _ h0 hx0 (fun h => hxs h.symm),
      arrGet_replicate _ _ _ (by omega)]
  refine ⟨DijkW_init G src h0 h1, ⟨src, ?_⟩, by simp [Dijkstra_init]⟩
  simp only [Dijkstra_init]
  refine ⟨?_, ?_, hsrc, arrGet_replicate _ _ _ (by omega), ?_, ?_, ?_, ?_, ?_⟩
  · exact (List.nodup_range _).map (fun a b h => by simpa using h)
  · intro z hz
    have := (mem_range_map_ofNat _ z).1 hz
    omega
  · intro x hx0 hx1
    by_cases hxs : x = src
    · rw [hxs, hsrc]; unfold INT_MAX; omega
    · rw [hother x hx0 hx1 hxs]; unfold INT_MAX; omega
  · intro x hx0 hx1 hxQ; exact absurd (hmem x hx0 hx1) hxQ
  · intro x hx0 hx1 hxQ; exact absurd (hmem x hx0 hx1) hxQ
  · intro x hx0 hx1 hxQ; exact absurd (hmem x hx0 hx1) hxQ
  · intro x hx0 hx1 hdx
    have hxs : x = src := by
      by_contra hxs
      rw [hother x hx0 hx1 hxs] at hdx
      exact absurd hdx (lt_irrefl _)
    subst hxs
    refine ⟨[x], PredChain.root, ?_, fun h => absurd (hmem x hx0 hx1) h⟩
    simp
    omega

theorem Dijkstra_main_full {G : Graph} (hwf : WF G) (hnn : NonNegWeights G) {src : Int}
    (h0 : 0 ≤ src) (h1 : src < G.NumVertices) (hb : PathSumsBelowIntMax G src)
    (fuel : Nat) (hf : G.NumVertices.toNat ≤ fuel) :
    ∃ t, whileLoop Dijkstra_cond (Dijkstra_body G) fuel (Dijkstra_init G src) = .ok t ∧
      DijkFull G src t ∧ Dijkstra_cond t = false := by
  exact whileLoop_total Dijkstra_cond (Dijkstra_body G) (DijkFull G src)
    (fun st => st.unvisitedQ.length) (fun s hI hc => DijkFull_step hwf hnn h0 hb s hI hc)
    fuel _ (DijkFull_init G src h0 h1) (by simp [Dijkstra_init]; omega)

theorem DijkFull.notQ {G : Graph} {src : Int} {t : DijkstraState} (hI : DijkFull G src t)
    (hc : Dijkstra_cond t = false) (x : Int) (hdx : arrGet t.distance x < INT_MAX) :
    x ∉ t.unvisitedQ := by
  intro hx
  cases hs : t.stop
  · have : t.unvisitedQ = [] := by
      simpa [Dijkstra_cond, hs, isEmptyQueue] using hc
    rw [this] at hx
    simp at hx
  · have := hI.stopped hs x hx
    omega

theorem Reach.end_in_range {G : Graph} (hwf : WF G) {src x : Int} (h0 : 0 ≤ src)
    (h1 : src < G.NumVertices) (h : Reach G src x) : 0 ≤ x ∧ x < G.NumVertices := by
  induction h with
  | refl => exact ⟨h0, h1⟩
  | tail _ hadj _ => exact hadj.valid hwf

/-- After the main loop every relaxation is done: a hop out of a reached vertex cannot
improve a distance, and its end is reached as well. -/
theorem DijkFull.hop {G : Graph} (hwf : WF G) (hnn : NonNegWeights G) {src : Int}
    (hb : PathSumsBelowIntMax G src) {t : DijkstraState} (hI : DijkFull G src t)
    (hc : Dijkstra_cond t = false) (x y : Int) (hdx : arrGet t.distance x < INT_MAX)
    (hadj : Adj G x y) :
    arrGet t.distance y ≤ arrGet t.distance x + wt G x y ∧ arrGet t.distance y < INT_MAX := by
  obtain ⟨u, hinv⟩ := hI.inv
  have hxQ := hI.notQ hc x hdx
  have h1 := hinv.relaxed x hadj.1 hadj.2.1 hxQ hdx y hadj (fun _ hm => by simp at hm)
  have h2 := alt_bounds hwf hnn hb hinv x y hadj.1 hadj.2.1 hxQ hdx hadj
  exact ⟨h1, by omega⟩

theorem DijkFull.reach_finite {G : Graph} (hwf : WF G) (hnn : NonNegWeights G) {src : Int}
    (hb : PathSumsBelowIntMax G src) {t : DijkstraState} (hI : DijkFull G src t)
    (hc : Dijkstra_cond t = false) (x : Int) (h : Reach G src x) :
    arrGet t.distance x < INT_MAX := by
  induction h with
  | refl =>
    obtain ⟨u, hinv⟩ := hI.inv
    rw [hinv.src0]; unfold INT_MAX; omega
  | tail _ hadj ih => exact (hI.hop hwf hnn hb hc _ _ ih hadj).2

theorem DijkFull.lower_bound {G : Graph} (hwf : WF G) (hnn : NonNegWeights G) {src : Int}
    (hb : PathSumsBelowIntMax G src) {t : DijkstraState} (hI : DijkFull G src t)
    (hc : Dijkstra_cond t = false) (q : List Int) :
    IsPath G q → q.head? = some src → ∀ x, q.getLast? = some x →
      arrGet t.distance x < INT_MAX ∧ arrGet t.distance x ≤ pathWeight G q := by
  induction q using List.reverseRecOn with
  | nil => intro _ h; simp at h
  | append_singleton r y ih =>
    intro hp hh x hx
    rw [List.getLast?_append, List.getLast?_singleton] at hx
    have hx2 : y = x := by simpa [Option.or] using hx
    subst hx2
    cases hr : r.getLast? with
    | none =>
      have hnil : r = [] := List.getLast?_eq_none_iff.1 hr
      subst hnil
      simp only [List.nil_append, List.head?_cons, Option.some.injEq] at hh
      subst hh
      obtain ⟨u, hinv⟩ := hI.inv
      rw [hinv.src0]
      simp only [List.nil_append, pathWeight, le_refl, and_true]
      unfold INT_MAX; omega
    | some x =>
      unfold IsPath at hp
      rw [List.chain'_append] at hp
      have hadj : Adj G x y := hp.2.2 x (by rw [hr]; rfl) y (by simp)
      have hh2 : r.head? = some src := by
        cases r with
        | nil => simp at hr
        | cons a t => simpa using hh
      obtain ⟨i1, i2⟩ := ih hp.1 hh2 x hr
      have := hI.hop hwf hnn hb hc x y i1 hadj
      rw [pathWeight_snoc G r x y hr]
      exact ⟨this.2, by omega⟩

/-- The result of `Dijkstra` for non-negative weights and sums below `INT_MAX`. -/
theorem Dijkstra_correct {G : Graph} (hwf : WF G) (hnn : NonNegWeights G) {src dest : Int}
    (h0 : 0 ≤ src) (h1 : src < G.NumVertices) (h2 : 0 ≤ dest) (h3 : dest < G.NumVertices)
    (hb : PathSumsBelowIntMax G src) (hr : Reach G src dest) :
    ∃ path : List Int,
      (∀ fuel, G.NumVertices.toNat + 1 ≤ fuel → Dijkstra fuel G src dest =
        if path.length = 1 then .ok (some [-1]) else .ok (some (path ++ [-1]))) ∧
      IsPath G path ∧ path.head? = some src ∧ path.getLast? = some dest ∧
      ∀ q, IsPath G q → q.head? = some src → q.getLast? = some dest →
        pathWeight G path ≤ pathWeight G q := by
  obtain ⟨t, ht, hI, hc⟩ := Dijkstra_main_full hwf hnn h0 h1 hb _ (le_refl _)
  have hfin := hI.reach_finite hwf hnn hb hc dest hr
  obtain ⟨u, hinv⟩ := hI.inv
  obtain ⟨c, hch, hlen, _⟩ := hinv.chain dest h2 h3 hfin
  refine ⟨c, ?_, hch.isPath, hch.head, hch.last, ?_⟩
  · intro fuel hf
    rw [Dijkstra_unfold fuel G src dest h0 h1 h2 h3,
      whileLoop_mono _ _ _ _ _ ht fuel (by omega)]
    simp only
    rw [hch.walk hinv.psrc [] fuel (by omega)]
    have hhead := hch.head
    cases c with
    | nil => simp at hhead
    | cons a r =>
      simp only [List.head?_cons, Option.some.injEq] at hhead
      subst hhead
      simp [Push]
  · intro q hq hh hl
    rw [hch.weight hinv.src0]
    exact (hI.lower_bound hwf hnn hb hc q hq hh dest hl).2

/-- For non-negative weights and sums below `INT_MAX`, `Dijkstra(G, src, src)` finds only
`src` on the stack and returns the array that holds only `-1`. -/
theorem Dijkstra_src_src {G : Graph} (hwf : WF G) (hnn : NonNegWeights G) {src : Int}
    (h0 : 0 ≤ src) (h1 : src < G.NumVertices) (hb : PathSumsBelowIntMax G src)
    (fuel : Nat) (hf : G.NumVertices.toNat ≤ fuel) :
    Dijkstra fuel G src src = .ok (some [-1]) := by
  obtain ⟨t, ht, hI, _⟩ := Dijkstra_main_full hwf hnn h0 h1 hb fuel hf
  obtain ⟨u, hinv⟩ := hI.inv
  rw [Dijkstra_unfold fuel G src src h0 h1 h0 h1, ht]
  simp only
  rw [whileLoop_done _ _ _ _ (by simp [hinv.psrc])]
  simp [Push]

theorem edges_check (G : Graph) (P : Edge → Bool)
    (h : ((List.range G.NumVertices.toNat).all
      (fun n : Nat => (edgesOf G (n : Int)).all P)) = true) :
    ∀ v : Int, 0 ≤ v → v < G.NumVertices → ∀ e ∈ edgesOf G v, P e = true := by
  intro v hv0 hv1 e he
  rw [List.all_eq_true] at h
  have := h v.toNat (by rw [List.mem_range]; omega)
  rw [List.all_eq_true] at this
  have e1 : ((v.toNat : Nat) : Int) = v := by omega
  rw [e1] at this
  exact this e he

theorem NonNegWeights_of_check (G : Graph)
    (h : ((List.range G.NumVertices.toNat).all
      (fun n : Nat => (edgesOf G (n : Int)).all (fun e => decide (0 ≤ e.weight)))) = true) :
    NonNegWeights G := by
  intro v hv0 hv1 e he
  simpa using edges_check G _ h v hv0 hv1 e he

theorem pathWeight_le_length (G : Graph) (W : Int) (hW : 0 ≤ W)
    (hmax : ∀ u w, Adj G u w → wt G u w ≤ W) (q : List Int) :
    IsPath G q → pathWeight G q ≤ (q.length : Int) * W := by
  induction q with
  | nil => intro _; simp [pathWeight]
  | cons a r ih =>
    intro hp
    cases r with
    | nil => simp [pathWeight, hW]
    | cons b t =>
      unfold IsPath at hp
      rw [List.chain'_cons] at hp
      have h1 := hmax a b hp.1
      have h2 := ih hp.2
      simp only [pathWeight, List.length_cons, Nat.cast_add, Nat.cast_one] at h2 ⊢
      nlinarith

theorem PathSumsBelowIntMax_of_maxWeight {G : Graph} (hwf : WF G) (src W : Int)
    (hW : 0 ≤ W)
    (hmax : ((List.range G.NumVertices.toNat).all
      (fun n : Nat => (edgesOf G (n : Int)).all (fun e => decide (e.weight ≤ W)))) = true)
    (hN : (G.NumVertices + 1) * W < INT_MAX) : PathSumsBelowIntMax G src := by
  intro q hq _ hlen
  have hwt : ∀ u w, Adj G u w → wt G u w ≤ W := by
    intro u w hadj
    obtain ⟨e, he, _, hw⟩ := (getEdgeWeight_Adj hwf hadj).2.1
    rw [← hw]
    simpa using edges_check G _ hmax u hadj.1 hadj.2.1 e he
  have h1 := pathWeight_le_length G W hW hwt q hq
  have h2 : (q.length : Int) ≤ G.NumVertices + 1 := by
    have := hwf.nv_nonneg
    omega
  have h3 : (q.length : Int) * W ≤ (G.NumVertices + 1) * W :=
    mul_le_mul_of_nonneg_right h2 hW
  omega

theorem NonNegWeights_catGraph : NonNegWeights catGraph :=
  NonNegWeights_of_check catGraph (by decide)

theorem PathSums_catGraph (src : Int) : PathSumsBelowIntMax catGraph src :=
  PathSumsBelowIntMax_of_maxWeight Built_catGraph.wf src 1 (by decide) (by decide)
    (by decide)

theorem Built_maxGraph : Built maxGraph :=
  Built_applyOps historyMax emptyGraph2 (Built.create 2 emptyGraph2 (by decide))

/-! ## Graph construction: results, counters and names -/

theorem AddEdge_snd (G : Graph) (s d w : Int) :
    (AddEdge G s d w).2 = if (s < 0 ∨ s ≥ G.NumVertices ∨ d < 0 ∨ d ≥ G.NumVertices)
      then 0 else 1 := by
  unfold AddEdge
  by_cases h1 : s < 0 ∨ s ≥ G.NumVertices
  · have : s < 0 ∨ s ≥ G.NumVertices ∨ d < 0 ∨ d ≥ G.NumVertices := by omega
    simp [h1, this]
  · by_cases h2 : d < 0 ∨ d ≥ G.NumVertices
    · have : s < 0 ∨ s ≥ G.NumVertices ∨ d < 0 ∨ d ≥ G.NumVertices := by omega
      simp [h1, h2, this]
    · have : ¬ (s < 0 ∨ s ≥ G.NumVertices ∨ d < 0 ∨ d ≥ G.NumVertices) := by omega
      simp [h1, h2, this]

theorem AddEdge_fields (G : Graph) (s d w : Int) :
    (AddEdge G s d w).1.Names = G.Names ∧ (AddEdge G s d w).1.Capacity = G.Capacity ∧
    (AddEdge G s d w).1.NamesTree = G.NamesTree ∧
    (AddEdge G s d w).1.NumEdges = G.NumEdges + (AddEdge G s d w).2 := by
  unfold AddEdge
  by_cases h1 : s < 0 ∨ s ≥ G.NumVertices
  · simp [h1]
  · by_cases h2 : d < 0 ∨ d ≥ G.NumVertices
    · simp [h1, h2]
    · simp [h1, h2]

theorem AddVertex_fields (G : Graph) (name : List Nat) :
    (AddVertex G name).2 = G.NumVertices ∧
    (AddVertex G name).1.NumEdges = G.NumEdges ∧
    (AddVertex G name).1.NamesTree =
      Insert G.NamesTree (AddVertex_word name G.NumVertices) G.NumVertices := by
  unfold AddVertex
  by_cases h : G.NumVertices = G.Capacity <;> simp [h, AddVertex_grow]

/-- The names array has `Capacity` slots. -/
theorem Built.len_names {G : Graph} (h : Built G) : G.Names.length = G.Capacity.toNat := by
  induction h with
  | create N G h =>
    unfold CreateGraph at h
    split at h
    · simp at h
    · simp only [Option.some.injEq] at h
      subst h
      simp
  | addVertex G name hB ih =>
    have hwf := hB.wf
    have h2 := hwf.nv_le_cap
    have h3 := hwf.nv_nonneg
    rw [AddVertex_Capacity]
    unfold AddVertex
    by_cases hc : G.NumVertices = G.Capacity
    · simp only [hc, if_true, AddVertex_grow, List.length_set, List.length_append,
        List.length_take, List.length_replicate]
      omega
    · simp only [hc, if_false, List.length_set]
      exact ih
  | addEdge G s d w _ ih =>
    rw [(AddEdge_fields G s d w).1, (AddEdge_fields G s d w).2.1]
    exact ih

theorem Vertex2Name_eq (G : Graph) (v : Int) (h0 : 0 ≤ v) (h1 : v < G.NumVertices) :
    Vertex2Name G v = (G.Names[v.toNat]?).getD none := by
  have : ¬ (v < 0 ∨ v ≥ G.NumVertices) := by omega
  simp [Vertex2Name, this, List.getD_eq_getElem?_getD]

theorem Vertex2Name_none_iff_invalid (G : Graph) (v : Int)
    (h : v < 0 ∨ v ≥ G.NumVertices) : Vertex2Name G v = none := by
  simp [Vertex2Name, h]

/-- The names of the vertices after `AddVertex`. -/
theorem Vertex2Name_AddVertex {G : Graph} (hG : Built G) (name : List Nat) (v : Int)
    (hv : 0 ≤ v) (hv2 : v < G.NumVertices + 1) :
    Vertex2Name (AddVertex G name).1 v =
      if v = G.NumVertices then some name else Vertex2Name G v := by
  have hwf := hG.wf
  have h1 := hG.len_names
  have h2 := hwf.nv_le_cap
  have h3 := hwf.nv_nonneg
  have h4 := hwf.cap_pos
  rw [Vertex2Name_eq _ v hv (by rw [AddVertex_NumVertices]; exact hv2)]
  unfold AddVertex
  by_cases hc : G.NumVertices = G.Capacity
  · simp only [hc, if_true, AddVertex_grow]
    rw [List.getElem?_set]
    by_cases hvn : v = G.Capacity
    · rw [hvn]
      simp only [if_true, List.length_append, List.length_take, List.length_replicate]
      have : G.Capacity.toNat <
          min G.Capacity.toNat G.Names.length +
            ((2 * G.Capacity).toNat - G.Capacity.toNat) := by omega
      simp [this]
    · have hne : ¬ G.Capacity.toNat = v.toNat := by omega
      simp only [hne, hvn, if_false]
      rw [List.getElem?_append_left (by simp only [List.length_take]; omega)]
      rw [List.getElem?_take_of_lt (by omega)]
      rw [Vertex2Name_eq G v hv (by omega)]
  · simp only [hc, if_false]
    rw [List.getElem?_set]
    by_cases hvn : v = G.NumVertices
    · rw [hvn]
      have : G.NumVertices.toNat < G.Names.length := by omega
      simp [this]
    · have hne : ¬ G.NumVertices.toNat = v.toNat := by omega
      simp only [hne, hvn, if_false]
      rw [Vertex2Name_eq G v hv (by omega)]

theorem addedVertices_spec (ops : List Op) : ∀ G : Graph,
    (addedVertices G ops).map Prod.fst = addedNames ops ∧
    (addedVertices G ops).map Prod.snd =
      (List.range (addedNames ops).length).map (fun k : Nat => G.NumVertices + (k : Int)) := by
  induction ops with
  | nil => intro G; simp [addedVertices, addedNames]
  | cons op ops ih =>
    intro G
    cases op with
    | addVertex name =>
      obtain ⟨i1, i2⟩ := ih (AddVertex G name).1
      refine ⟨by simp [addedVertices, addedNames, i1], ?_⟩
      simp only [addedVertices, addedNames, List.map_cons, i2, List.length_cons,
        List.range_succ_eq_map, (AddVertex_fields G name).1, AddVertex_NumVertices,
        List.map_map]
      simp only [Nat.cast_zero, add_zero, List.cons.injEq, true_and]
      apply List.map_congr_left
      intro k _
      simp only [Function.comp, Nat.cast_succ]
      omega
    | addEdge s d w =>
      obtain ⟨i1, i2⟩ := ih (AddEdge G s d w).1
      rw [AddEdge_NumVertices] at i2
      exact ⟨by simp [addedVertices, addedNames, i1], by simp [addedVertices, addedNames, i2]⟩

theorem AddEdge_link_length (e : Edge) (l : List Edge) :
    (AddEdge_link e l).length = l.length + 1 := by
  induction l with
  | nil => rfl
  | cons c r ih =>
    simp only [AddEdge_link]
    split
    · simp
    · simp [ih]

theorem sum_range_update (f g : Nat → Int) (s : Nat) (hg : ∀ m, m ≠ s → g m = f m)
    (hgs : g s = f s + 1) : ∀ n, s < n →
      ((List.range n).map g).sum = ((List.range n).map f).sum + 1 := by
  intro n
  induction n with
  | zero => intro h; omega
  | succ n ih =>
    intro h
    rw [List.range_succ, List.map_append, List.map_append, List.sum_append, List.sum_append]
    simp only [List.map_cons, List.map_nil, List.sum_cons, List.sum_nil, add_zero]
    by_cases hs : s = n
    · subst hs
      have : (List.range s).map g = (List.range s).map f := by
        apply List.map_congr_left
        intro m hm
        rw [List.mem_range] at hm
        exact hg m (by omega)
      rw [this, hgs]
      ring
    · rw [ih (by omega), hg n (fun h => hs h.symm)]
      ring

/-- `NumEdges` counts the edge nodes of the lists. -/
theorem Built.numEdges {G : Graph} (h : Built G) : G.NumEdges = edgeCount G := by
  induction h with
  | create N G h =>
    have hz := NumVertices_CreateGraph N G h
    unfold CreateGraph at h
    split at h
    · simp at h
    · simp only [Option.some.injEq] at h
      subst h
      simp [edgeCount]
  | addVertex G name hB ih =>
    have hwf := hB.wf
    have h3 := hwf.nv_nonneg
    rw [(AddVertex_fields G name).2.1, ih]
    unfold edgeCount
    rw [AddVertex_NumVertices]
    have e : (G.NumVertices + 1).toNat = G.NumVertices.toNat + 1 := by omega
    rw [e, List.range_succ, List.map_append, List.sum_append]
    have e2 : ((G.NumVertices.toNat : Nat) : Int) = G.NumVertices := by omega
    have hlast : edgesOf (AddVertex G name).1 ((G.NumVertices.toNat : Nat) : Int) = [] := by
      rw [e2, edgesOf_AddVertex G name hwf _ h3 (by omega)]
      simp
    simp only [List.map_cons, List.map_nil, List.sum_cons, List.sum_nil, hlast,
      List.length_nil, Nat.cast_zero, add_zero]
    congr 1
    apply List.map_congr_left
    intro m hm
    rw [List.mem_range] at hm
    rw [edgesOf_AddVertex G name hwf _ (by omega) (by omega)]
    have : ¬ ((m : Int) = G.NumVertices) := by omega
    simp [this]
  | addEdge G s d w hB ih =>
    have hwf := hB.wf
    by_cases hval : 0 ≤ s ∧ s < G.NumVertices ∧ 0 ≤ d ∧ d < G.NumVertices
    · obtain ⟨hs, hs2, hd, hd2⟩ := hval
      have hlen : G.NumVertices.toNat ≤ G.Vertices.length := by
        have := hwf.len_vertices; have := hwf.nv_le_cap; omega
      rw [(AddEdge_fields G s d w).2.2.2, AddEdge_valid_snd G s d w hs hs2 hd hd2, ih]
      unfold edgeCount
      rw [AddEdge_NumVertices]
      symm
      apply sum_range_update _ _ s.toNat ?_ ?_ _ (by omega)
      · intro m hm
        rw [edgesOf_AddEdge G s d w _ (by omega) hs hs2 hd hd2 hlen]
        have : ¬ ((m : Int) = s) := by omega
        simp [this]
      · have e2 : ((s.toNat : Nat) : Int) = s := by omega
        rw [e2, edgesOf_AddEdge G s d w _ hs hs hs2 hd hd2 hlen]
        simp [AddEdge_link_length]
    · rw [AddEdge_invalid G s d w hval]
      exact ih

/-- In a list ordered by `dest` the edges to one destination are contiguous: the list is
the edges to smaller destinations, then the edges to `d`, then the rest. -/
theorem sorted_three_parts (d : Int) (l : List Edge)
    (h : l.Pairwise (fun a b => a.dest ≤ b.dest)) :
    l = l.filter (fun c => decide (c.dest < d)) ++ l.filter (fun c => decide (c.dest = d)) ++
      l.filter (fun c => decide (d < c.dest)) := by
  induction l with
  | nil => rfl
  | cons a r ih =>
    rw [List.pairwise_cons] at h
    have ih2 := ih h.2
    rcases lt_trichotomy a.dest d with hlt | heq | hgt
    · have e1 : ¬ a.dest = d := by omega
      have e2 : ¬ d < a.dest := by omega
      simp only [List.filter_cons, hlt, e1, e2, decide_True, decide_False, if_true,
        Bool.false_eq_true, if_false, List.cons_append]
      rw [← ih2]
    · have e1 : ¬ a.dest < d := by omega
      have e2 : ¬ d < a.dest := by omega
      have e3 : r.filter (fun c => decide (c.dest < d)) = [] := by
        rw [List.filter_eq_nil_iff]
        intro c hc
        have := h.1 c hc
        simp only [decide_eq_true_eq]
        omega
      simp only [List.filter_cons, heq, lt_irrefl, decide_True, decide_False, if_true,
        Bool.false_eq_true, if_false, e3, List.nil_append, List.cons_append]
      rw [e3] at ih2
      simp only [List.nil_append] at ih2
      rw [← ih2]
    · have e1 : ¬ a.dest < d := by omega
      have e2 : ¬ a.dest = d := by omega
      have e3 : r.filter (fun c => decide (c.dest < d)) = [] := by
        rw [List.filter_eq_nil_iff]
        intro c hc
        have := h.1 c hc
        simp only [decide_eq_true_eq]
        omega
      have e4 : r.filter (fun c => decide (c.dest = d)) = [] := by
        rw [List.filter_eq_nil_iff]
        intro c hc
        have := h.1 c hc
        simp only [decide_eq_true_eq]
        omega
      simp only [List.filter_cons, hgt, e1, e2, decide_True, decide_False, if_true,
        Bool.false_eq_true, if_false, e3, e4, List.nil_append]
      rw [e3, e4] at ih2
      simp only [List.nil_append] at ih2
      rw [← ih2]

theorem NumVertices_applyOps_count (ops : List Op) : ∀ G : Graph,
    (applyOps G ops).NumVertices = G.NumVertices + ((addedNames ops).length : Int) := by
  induction ops with
  | nil => intro G; simp [applyOps, addedNames]
  | cons op ops ih =>
    intro G
    rw [applyOps_cons, ih]
    cases op with
    | addVertex name =>
      simp only [applyOp, AddVertex_NumVertices, addedNames, List.length_cons, Nat.cast_succ]
      omega
    | addEdge s d w =>
      simp only [applyOp, AddEdge_NumVertices, addedNames]

/-! ## getEdgeWeight on built graphs -/

/-- Without an edge to `dest` in the list the scan of `getEdgeWeight` finds nothing. -/
theorem getEdgeWeight_loop_none (dest : Int) (l : List Edge) (w : Int)
    (h : ∀ e ∈ l, e.dest ≠ dest) : getEdgeWeight_loop dest l w false = (w, false) := by
  induction l with
  | nil => simp [getEdgeWeight_loop]
  | cons c r ih =>
    have hc : ¬ dest = c.dest := fun e => h c (List.mem_cons_self _ _) e.symm
    simp only [getEdgeWeight_loop, hc, if_false]
    split
    · rfl
    · exact ih (fun e he => h e (List.mem_cons_of_mem _ he))

/-- The edge list of a valid vertex of a graph built from `CreateGraph` holds exactly the
edges that were added from that vertex. -/
theorem mem_edgesOf_history (N : Int) (G0 : Graph) (ops : List Op)
    (hc : CreateGraph N = some G0) (v : Int) (hv0 : 0 ≤ v)
    (hv1 : v < (applyOps G0 ops).NumVertices) (e : Edge) :
    e ∈ edgesOf (applyOps G0 ops) v ↔ e ∈ addedEdges G0 ops ∧ e.src = v := by
  rw [mem_edgesOf_applyOps ops G0 (WF_CreateGraph N G0 hc) v e hv0 hv1]
  have hz := NumVertices_CreateGraph N G0 hc
  have : ¬ v < G0.NumVertices := by omega
  simp [this]

/-! ## BFS and the set of added pairs -/

theorem mem_edgePairs (G : Graph) (ops : List Op) (s d : Int) :
    (s, d) ∈ edgePairs G ops ↔ ∃ e ∈ addedEdges G ops, e.src = s ∧ e.dest = d := by
  simp [edgePairs]

/-- The neighbors of a valid vertex of a built graph are the destinations of the pairs added
from it. -/
theorem mem_nbrs_history (N : Int) (G0 : Graph) (ops : List Op)
    (hc : CreateGraph N = some G0) (v : Int) (hv0 : 0 ≤ v)
    (hv1 : v < (applyOps G0 ops).NumVertices) (x : Int) :
    x ∈ nbrs (applyOps G0 ops) v ↔ (v, x) ∈ edgePairs G0 ops := by
  have hwf : WF (applyOps G0 ops) := WF_applyOps ops G0 (WF_CreateGraph N G0 hc)
  rw [mem_nbrs hwf v hv0 hv1, mem_edgePairs]
  constructor
  · rintro ⟨e, he, hd⟩
    have := (mem_edgesOf_history N G0 ops hc v hv0 hv1 e).1 he
    exact ⟨e, this.1, this.2, hd⟩
  · rintro ⟨e, he, hs, hd⟩
    exact ⟨e, (mem_edgesOf_history N G0 ops hc v hv0 hv1 e).2 ⟨he, hs⟩, hd⟩

/-- Two strictly ascending lists with the same members are equal. -/
theorem ascending_ext (l1 l2 : List Int) (h1 : l1.Pairwise (fun a b => a < b))
    (h2 : l2.Pairwise (fun a b => a < b)) (h : ∀ x, x ∈ l1 ↔ x ∈ l2) : l1 = l2 := by
  have n1 : l1.Nodup := h1.imp (fun hab => ne_of_lt hab)
  have n2 : l2.Nodup := h2.imp (fun hab => ne_of_lt hab)
  have hp : l1.Perm l2 := (List.perm_ext_iff_of_nodup n1 n2).2 h
  exact List.eq_of_perm_of_sorted hp (h1.imp (fun hab => le_of_lt hab))
    (h2.imp (fun hab => le_of_lt hab))

/-- Two built graphs with the same number of vertices and the same set of pairs have the
same `Neighbors` arrays. -/
theorem Neighbors_history_ext (N1 N2 : Int) (A B : Graph) (ops1 ops2 : List Op)
    (hc1 : CreateGraph N1 = some A) (hc2 : CreateGraph N2 = some B)
    (hnv : (applyOps A ops1).NumVertices = (applyOps B ops2).NumVertices)
    (h12 : ∀ p ∈ edgePairs A ops1, p ∈ edgePairs B ops2)
    (h21 : ∀ p ∈ edgePairs B ops2, p ∈ edgePairs A ops1) (v : Int) :
    Neighbors (applyOps A ops1) v = Neighbors (applyOps B ops2) v := by
  by_cases hv : v < 0 ∨ v ≥ (applyOps A ops1).NumVertices
  · rw [(Neighbors_none_iff _ v).2 hv, (Neighbors_none_iff _ v).2 (hnv ▸ hv)]
  · have hv0 : 0 ≤ v := by omega
    have hv1 : v < (applyOps A ops1).NumVertices := by omega
    have hv2 : v < (applyOps B ops2).NumVertices := by omega
    have w1 : WF (applyOps A ops1) := WF_applyOps ops1 A (WF_CreateGraph N1 A hc1)
    have w2 : WF (applyOps B ops2) := WF_applyOps ops2 B (WF_CreateGraph N2 B hc2)
    rw [Neighbors_valid _ v hv0 hv1, Neighbors_valid _ v hv0 hv2]
    congr 2
    apply ascending_ext _ _ (nbrs_sorted w1 v hv0 hv1) (nbrs_sorted w2 v hv0 hv2)
    intro x
    rw [mem_nbrs_history N1 A ops1 hc1 v hv0 hv1, mem_nbrs_history N2 B ops2 hc2 v hv0 hv2]
    exact ⟨h12 _, h21 _⟩

theorem BFS_body_congr (G1 G2 : Graph) (h : ∀ v, Neighbors G1 v = Neighbors G2 v) :
    BFS_body G1 = BFS_body G2 := by
  funext st
  unfold BFS_body
  cases st.frontierQ with
  | nil => rfl
  | cons c r => simp only [h c]

/-! ## The name index -/

/-- The search finds the id that `Insert` has just stored for a name. -/
theorem Name2Vertex_walk_Insert_same (t : AVLNode) (name : List Nat) (v : Int) :
    Name2Vertex_walk (Insert t name v) name = v := by
  induction t with
  | nil => simp [Insert, Name2Vertex_walk]
  | node w x h l r ihl ihr =>
    unfold Insert
    by_cases h1 : name = w
    · simp [h1, Name2Vertex_walk]
    · by_cases h2 : strcmp_neg name w = true
      · simp only [h1, h2, if_true, if_false, Name2Vertex_walk]
        exact ihl
      · simp only [h1, h2, if_false, Name2Vertex_walk]
        exact ihr

/-- The search for another name is not changed by `Insert`. -/
theorem Name2Vertex_walk_Insert_other (t : AVLNode) (name other : List Nat) (v : Int)
    (hne : other ≠ name) :
    Name2Vertex_walk (Insert t name v) other = Name2Vertex_walk t other := by
  induction t with
  | nil =>
    simp [Insert, Name2Vertex_walk, hne]
  | node w x h l r ihl ihr =>
    unfold Insert
    by_cases h1 : name = w
    · have h3 : ¬ other = w := by rw [← h1]; exact hne
      simp [h1, Name2Vertex_walk, h3]
    · by_cases h2 : strcmp_neg name w = true
      · simp only [h1, h2, if_true, if_false, Name2Vertex_walk, ihl]
      · simp only [h1, h2, if_false, Name2Vertex_walk, ihr]

/-- A name of fewer than 64 bytes is what `value.Word` holds. -/
theorem AddVertex_word_fit (name : List Nat) (v : Int) (h : name.length < 64) :
    AddVertex_word name v = name := by
  unfold AddVertex_word
  rw [if_pos h]

theorem Name2Vertex_AddVertex (G : Graph) (name other : List Nat) :
    Name2Vertex (AddVertex G name).1 other =
      if other = AddVertex_word name G.NumVertices then G.NumVertices
      else Name2Vertex G other := by
  unfold Name2Vertex
  rw [(AddVertex_fields G name).2.2]
  by_cases h : other = AddVertex_word name G.NumVertices
  · rw [if_pos h, h, Name2Vertex_walk_Insert_same]
  · rw [if_neg h, Name2Vertex_walk_Insert_other _ _ _ _ h]

theorem Name2Vertex_AddEdge (G : Graph) (s d w : Int) (other : List Nat) :
    Name2Vertex (AddEdge G s d w).1 other = Name2Vertex G other := by
  unfold Name2Vertex
  rw [(AddEdge_fields G s d w).2.2.1]

theorem Vertex2Name_AddEdge (G : Graph) (s d w : Int) (v : Int) :
    Vertex2Name (AddEdge G s d w).1 v = Vertex2Name G v := by
  unfold Vertex2Name
  rw [(AddEdge_fields G s d w).1, AddEdge_NumVertices]

theorem applyOps_append (G : Graph) (l1 l2 : List Op) :
    applyOps G (l1 ++ l2) = applyOps (applyOps G l1) l2 := by
  simp [applyOps, List.foldl_append]

theorem addedNames_append (l1 l2 : List Op) :
    addedNames (l1 ++ l2) = addedNames l1 ++ addedNames l2 := by
  induction l1 with
  | nil => rfl
  | cons op r ih => cases op <;> simp [addedNames, ih]

theorem addedVertices_append (l1 l2 : List Op) : ∀ G : Graph,
    addedVertices G (l1 ++ l2) = addedVertices G l1 ++ addedVertices (applyOps G l1) l2 := by
  induction l1 with
  | nil => intro G; rfl
  | cons op r ih =>
    intro G
    cases op with
    | addVertex name =>
      show (name, (AddVertex G name).2) :: addedVertices (AddVertex G name).1 (r ++ l2) =
        (name, (AddVertex G name).2) :: addedVertices (AddVertex G name).1 r ++
          addedVertices (applyOps (AddVertex G name).1 r) l2
      rw [ih, List.cons_append]
    | addEdge s d w =>
      show addedVertices (AddEdge G s d w).1 (r ++ l2) =
        addedVertices (AddEdge G s d w).1 r ++ addedVertices (applyOps (AddEdge G s d w).1 r) l2
      rw [ih]

/-- The ids returned along a history that starts at a fresh graph are valid afterwards. -/
theorem addedVertices_valid (N : Int) (G0 : Graph) (ops : List Op)
    (hc : CreateGraph N = some G0) (p : List Nat × Int) (hp : p ∈ addedVertices G0 ops) :
    p.1 ∈ addedNames ops ∧ 0 ≤ p.2 ∧ p.2 < (applyOps G0 ops).NumVertices := by
  obtain ⟨s1, s2⟩ := addedVertices_spec ops G0
  have hz := NumVertices_CreateGraph N G0 hc
  have h1 : p.1 ∈ (addedVertices G0 ops).map Prod.fst := List.mem_map_of_mem _ hp
  have h2 : p.2 ∈ (addedVertices G0 ops).map Prod.snd := List.mem_map_of_mem _ hp
  rw [s1] at h1
  rw [s2, List.mem_map] at h2
  obtain ⟨k, hk, hk2⟩ := h2
  rw [List.mem_range] at hk
  rw [NumVertices_applyOps_count, hz]
  refine ⟨h1, ?_, ?_⟩ <;> omega

/-- With pairwise distinct names of fewer than 64 bytes, every recorded pair is resolved in
both directions and every valid id is recorded. -/
theorem names_roundtrip (N : Int) (G0 : Graph) (hc : CreateGraph N = some G0)
    (ops : List Op) : (addedNames ops).Nodup → (∀ name ∈ addedNames ops, name.length < 64) →
    (∀ p ∈ addedVertices G0 ops, Name2Vertex (applyOps G0 ops) p.1 = p.2 ∧
      Vertex2Name (applyOps G0 ops) p.2 = some p.1) ∧
    (∀ v : Int, 0 ≤ v → v < (applyOps G0 ops).NumVertices →
      ∃ name, (name, v) ∈ addedVertices G0 ops) := by
  induction ops using List.reverseRecOn with
  | nil =>
    intro _ _
    have hz := NumVertices_CreateGraph N G0 hc
    refine ⟨by simp [addedVertices], ?_⟩
    intro v h0 h1
    simp only [applyOps, List.foldl_nil] at h1
    omega
  | append_singleton ops op ih =>
    intro hnd hfit
    rw [addedNames_append] at hnd hfit
    have hnd1 : (addedNames ops).Nodup := (List.nodup_append.1 hnd).1
    obtain ⟨ih1, ih2⟩ := ih hnd1 (fun name hn => hfit name (List.mem_append_left _ hn))
    have hB : Built (applyOps G0 ops) := Built_applyOps ops G0 (Built.create N G0 hc)
    have hnn := hB.wf.nv_nonneg
    rw [applyOps_append, addedVertices_append]
    cases op with
    | addEdge s d w =>
      have e1 : applyOps (applyOps G0 ops) [Op.addEdge s d w] =
          (AddEdge (applyOps G0 ops) s d w).1 := rfl
      have e2 : addedVertices (applyOps G0 ops) [Op.addEdge s d w] = [] := rfl
      rw [e1, e2, List.append_nil]
      refine ⟨?_, ?_⟩
      · intro p hp
        rw [Name2Vertex_AddEdge, Vertex2Name_AddEdge]
        exact ih1 p hp
      · intro v h0 h1
        rw [AddEdge_NumVertices] at h1
        exact ih2 v h0 h1
    | addVertex name =>
      have hfresh : name ∉ addedNames ops := by
        intro hin
        exact (List.nodup_append.1 hnd).2.2 hin (by simp [addedNames])
      have hword : AddVertex_word name (applyOps G0 ops).NumVertices = name :=
        AddVertex_word_fit name _
          (hfit name (List.mem_append_right _ (by simp [addedNames])))
      have e1 : applyOps (applyOps G0 ops) [Op.addVertex name] =
          (AddVertex (applyOps G0 ops) name).1 := rfl
      have e2 : addedVertices (applyOps G0 ops) [Op.addVertex name] =
          [(name, (applyOps G0 ops).NumVertices)] := by
        simp [addedVertices, (AddVertex_fields _ name).1]
      rw [e1, e2]
      refine ⟨?_, ?_⟩
      · intro p hp
        rw [List.mem_append, List.mem_singleton] at hp
        rcases hp with hp | hp
        · obtain ⟨v1, v2, v3⟩ := addedVertices_valid N G0 ops hc p hp
          have hne : p.1 ≠ name := fun e => hfresh (e ▸ v1)
          have hne2 : ¬ p.2 = (applyOps G0 ops).NumVertices := by omega
          rw [Name2Vertex_AddVertex, hword, if_neg hne,
            Vertex2Name_AddVertex hB name p.2 v2 (by omega), if_neg hne2]
          exact ih1 p hp
        · subst hp
          simp only
          rw [Name2Vertex_AddVertex, hword, if_pos rfl,
            Vertex2Name_AddVertex hB name _ hnn (by omega), if_pos rfl]
          exact ⟨rfl, rfl⟩
      · intro v h0 h1
        rw [AddVertex_NumVertices] at h1
        by_cases hv : v = (applyOps G0 ops).NumVertices
        · exact ⟨name, by rw [hv]; simp⟩
        · obtain ⟨nm, hnm⟩ := ih2 v h0 (by omega)
          exact ⟨nm, List.mem_append_left _ hnm⟩

/-! ## DFS and the recursive search -/

theorem specNeighbors_sorted (G : Graph) (v : Int) :
    (specNeighbors G v).Pairwise (fun a b => a < b) := by
  unfold specNeighbors
  apply List.Pairwise.filter
  rw [List.pairwise_map]
  exact (List.pairwise_lt_range _).imp (fun h => by exact_mod_cast h)

theorem mem_specNeighbors (G : Graph) (v w : Int) :
    w ∈ specNeighbors G v ↔
      (0 ≤ w ∧ w < G.NumVertices) ∧ ∃ e ∈ edgesOf G v, e.dest = w := by
  unfold specNeighbors
  rw [List.mem_filter, List.mem_map, List.any_eq_true]
  simp only [List.mem_range, decide_eq_true_eq]
  constructor
  · rintro ⟨⟨n, hn, rfl⟩, hex⟩
    exact ⟨by omega, hex⟩
  · rintro ⟨⟨h0, h1⟩, hex⟩
    exact ⟨⟨w.toNat, by omega, by omega⟩, hex⟩

/-- The array of `Neighbors` holds the neighbors of the spec side. -/
theorem nbrs_eq_specNeighbors {G : Graph} (hwf : WF G) (v : Int) (h0 : 0 ≤ v)
    (h1 : v < G.NumVertices) : nbrs G v = specNeighbors G v := by
  apply ascending_ext _ _ (nbrs_sorted hwf v h0 h1) (specNeighbors_sorted G v)
  intro x
  rw [mem_nbrs hwf v h0 h1, mem_specNeighbors]
  constructor
  · rintro ⟨e, he, hd⟩
    exact ⟨hd ▸ (hwf.edge_ok v h0 h1 e he).2, e, he, hd⟩
  · rintro ⟨_, hex⟩
    exact hex

theorem specDFS_mono (G : Graph) (f : Nat) : ∀ (ws vis r : List Int),
    specDFS G f ws vis = some r → ∀ f2, f ≤ f2 → specDFS G f2 ws vis = some r := by
  induction f with
  | zero =>
    intro ws vis r h f2 _
    cases ws with
    | nil => cases f2 <;> simpa [specDFS] using h
    | cons w ws => simp [specDFS] at h
  | succ f ih =>
    intro ws vis r h f2 hf
    cases ws with
    | nil => cases f2 <;> simpa [specDFS] using h
    | cons w ws =>
      obtain ⟨g, rfl⟩ : ∃ g, f2 = g + 1 := ⟨f2 - 1, by omega⟩
      simp only [specDFS] at h ⊢
      by_cases hw : w ∈ vis
      · simp only [hw, if_true] at h ⊢
        exact ih _ _ _ h g (by omega)
      · simp only [hw, if_false] at h ⊢
        cases h1 : specDFS G f (specNeighbors G w) (vis ++ [w]) with
        | none => simp [h1] at h
        | some vis1 =>
          rw [h1] at h
          simp only at h
          rw [ih _ _ _ h1 g (by omega)]
          simp only
          exact ih _ _ _ h g (by omega)

/-- A run of a loop that ends within its fuel is a sequence of iterations. -/
theorem whileLoop_ok_Steps {σ : Type} (cond : σ → Bool) (body : σ → Except Fault σ)
    (n : Nat) : ∀ (s t : σ), whileLoop cond body n s = .ok t →
      ∃ k, k ≤ n ∧ Steps cond body k s t ∧ cond t = false := by
  induction n with
  | zero =>
    intro s t h
    by_cases hc : cond s = true
    · simp [whileLoop, hc] at h
    · have hc2 : cond s = false := by simpa using hc
      rw [whileLoop_done cond body 0 s hc2] at h
      cases h
      exact ⟨0, le_refl _, Steps.refl s, hc2⟩
  | succ n ih =>
    intro s t h
    by_cases hc : cond s = true
    · cases hb : body s with
      | error e => simp [whileLoop, hc, hb] at h
      | ok s1 =>
        rw [whileLoop_step cond body n s s1 hc hb] at h
        obtain ⟨k, hk, hs, hct⟩ := ih s1 t h
        exact ⟨k + 1, by omega, Steps.step k s s1 t hc hb hs, hct⟩
    · have hc2 : cond s = false := by simpa using hc
      rw [whileLoop_done cond body (n + 1) s hc2] at h
      cases h
      exact ⟨0, Nat.zero_le _, Steps.refl s, hc2⟩

/-- The iterations of the loop of `DFS` that work off the part `ws` of the stack compute the
recursive search of `ws`: from a stack `ws ++ rest`, a run to an empty stack passes through
the stack `rest` with the preorder that `specDFS` gives for `ws`. -/
theorem DFS_loop_refines_specDFS {G : Graph} (hwf : WF G) (t : DFSState)
    (ht : t.frontierStack = []) (k : Nat) :
    ∀ (ws rest : List Int) (vset : VSet) (vq : Queue),
      (∀ x, x ∈ vset ↔ x ∈ vq) →
      Steps (fun st : DFSState => !isEmptyStack st.frontierStack) (DFS_body_unbounded G) k
        { frontierStack := ws ++ rest, visitedSet := vset, visitedQ := vq } t →
      ∃ (c k2 : Nat) (vset2 : VSet) (vq2 : Queue), c + k2 = k ∧
        specDFS G c ws vq = some vq2 ∧ (∀ x, x ∈ vset2 ↔ x ∈ vq2) ∧
        Steps (fun st : DFSState => !isEmptyStack st.frontierStack) (DFS_body_unbounded G) k2
          { frontierStack := rest, visitedSet := vset2, visitedQ := vq2 } t := by
  induction k using Nat.strong_induction_on with
  | _ k ih =>
    intro ws rest vset vq hinv hsteps
    cases ws with
    | nil => exact ⟨0, k, vset, vq, by omega, by simp [specDFS], hinv, hsteps⟩
    | cons w ws =>
      cases hsteps with
      | refl s => simp at ht
      | step k1 s s1 t2 hc hb hrest =>
        by_cases hw : w ∈ vq
        · have hw2 : w ∈ vset := (hinv w).2 hw
          have hs1 : s1 =
              { frontierStack := ws ++ rest, visitedSet := vset, visitedQ := vq } := by
            simp [DFS_body_unbounded, isElementInQueue, isElementInSet, hw, hw2] at hb
            exact hb.symm
          rw [hs1] at hrest
          obtain ⟨c, k2, vset2, vq2, e1, e2, e3, e4⟩ :=
            ih k1 (by omega) ws rest vset vq hinv hrest
          refine ⟨c + 1, k2, vset2, vq2, by omega, ?_, e3, e4⟩
          simp only [specDFS, hw, if_true]
          exact e2
        · have hw2 : w ∉ vset := fun h => hw ((hinv w).1 h)
          have hvalid : ¬ (w < 0 ∨ w ≥ G.NumVertices) := by
            intro hv
            have hn := (Neighbors_none_iff G w).2 hv
            simp [DFS_body_unbounded, isElementInQueue, isElementInSet, hw, hw2, hn] at hb
          have h0 : 0 ≤ w := by omega
          have h1 : w < G.NumVertices := by omega
          have hs1 : s1 =
              { frontierStack := specNeighbors G w ++ (ws ++ rest)
                visitedSet := w :: vset
                visitedQ := vq ++ [w] } := by
            rw [← nbrs_eq_specNeighbors hwf w h0 h1]
            simp [DFS_body_unbounded, isElementInQueue, isElementInSet, hw, hw2,
              Neighbors_valid G w h0 h1, upToMarker_nbrs hwf w h0 h1, pushAllBackwards_eq,
              Enqueue, AddToSet] at hb
            exact hb.symm
          rw [hs1] at hrest
          have hinv1 : ∀ x, x ∈ w :: vset ↔ x ∈ vq ++ [w] := by
            intro x
            simp only [List.mem_cons, List.mem_append, List.mem_singleton, List.not_mem_nil,
              or_false, hinv x]
            tauto
          obtain ⟨c1, k2, vset2, vq2, e1, e2, e3, e4⟩ :=
            ih k1 (by omega) (specNeighbors G w) (ws ++ rest) (w :: vset) (vq ++ [w]) hinv1 hrest
          obtain ⟨c2, k3, vset3, vq3, g1, g2, g3, g4⟩ :=
            ih k2 (by omega) ws rest vset2 vq2 e3 e4
          refine ⟨c1 + c2 + 1, k3, vset3, vq3, by omega, ?_, g3, g4⟩
          simp only [specDFS, hw, if_false]
          rw [specDFS_mono G c1 _ _ _ e2 (c1 + c2) (by omega)]
          simp only
          exact specDFS_mono G c2 _ _ _ g2 (c1 + c2) (by omega)

/-! ## BFS level by level -/

/-- The loop of `BFS` works off one level: the vertices of `lv` are dequeued in order and
the vertices they discover are enqueued behind `acc`. -/
theorem BFS_level_run {G : Graph} (hwf : WF G) (lv : List Int) :
    ∀ (acc : List Int) (D : VSet) (vis : List Int),
    (∀ u ∈ lv, 0 ≤ u ∧ u < G.NumVertices) →
    Steps (fun st : BFSState => !isEmptyQueue st.frontierQ) (BFS_body G) lv.length
      { frontierQ := lv ++ acc, discoveredSet := D, visited := vis }
      { frontierQ := acc ++ (expandLevel G lv D).1,
        discoveredSet := (expandLevel G lv D).2, visited := vis ++ lv } := by
  induction lv with
  | nil =>
    intro acc D vis _
    simp only [expandLevel, List.nil_append, List.append_nil, List.length_nil]
    exact Steps.refl _
  | cons u rest ih =>
    intro acc D vis hv
    obtain ⟨h0, h1⟩ := hv u (List.mem_cons_self _ _)
    have hstep := ih (acc ++ (nbrs G u).filter (fun x => decide (x ∉ D)))
      (((nbrs G u).filter (fun x => decide (x ∉ D))).reverse ++ D) (vis ++ [u])
      (fun x hx => hv x (List.mem_cons_of_mem _ hx))
    refine Steps.step _ _
        { frontierQ := rest ++ (acc ++ (nbrs G u).filter (fun x => decide (x ∉ D)))
          discoveredSet := ((nbrs G u).filter (fun x => decide (x ∉ D))).reverse ++ D
          visited := vis ++ [u] }
        _ (by simp [isEmptyQueue]) ?_ ?_
    · rw [BFS_body_eq hwf _ u (rest ++ acc) rfl h0 h1]
      simp
    · simp only [expandLevel]
      have e1 : acc ++ (nbrs G u).filter (fun x => decide (x ∉ D)) ++
          (expandLevel G rest (((nbrs G u).filter
            (fun x => decide (x ∉ D))).reverse ++ D)).1 =
          acc ++ ((nbrs G u).filter (fun x => decide (x ∉ D)) ++
            (expandLevel G rest (((nbrs G u).filter
              (fun x => decide (x ∉ D))).reverse ++ D)).1) := by simp
      have e2 : vis ++ [u] ++ rest = vis ++ u :: rest := by simp
      rw [e1, e2] at hstep
      exact hstep

/-- After an empty level every level is empty. -/
theorem bfsLevels_nil (G : Graph) (n : Nat) : ∀ (D : VSet),
    ∀ l ∈ bfsLevels G n [] D, l = [] := by
  induction n with
  | zero => intro D l hl; simpa [bfsLevels] using hl
  | succ n ih =>
    intro D l hl
    simp only [bfsLevels, expandLevel, List.mem_cons] at hl
    rcases hl with h | h
    · exact h
    · exact ih D l h

/-- When the last of the levels is not empty, no level is empty. -/
theorem bfsLevels_length_flatten (G : Graph) (n : Nat) : ∀ (lv : List Int) (D : VSet),
    (bfsLevels G n lv D).getD n [] ≠ [] → n + 1 ≤ (bfsLevels G n lv D).flatten.length := by
  induction n with
  | zero =>
    intro lv D h
    simp only [bfsLevels, List.getD_cons_zero] at h
    cases lv with
    | nil => exact absurd rfl h
    | cons a r => simp [bfsLevels]
  | succ n ih =>
    intro lv D h
    simp only [bfsLevels, List.getD_cons_succ] at h
    cases lv with
    | nil =>
      exfalso
      apply h
      simp only [expandLevel]
      cases hg : (bfsLevels G n [] D)[n]? with
      | none => simp [List.getD, hg]
      | some l =>
        have hl : l ∈ bfsLevels G n [] D := List.getElem?_mem hg
        simp [List.getD, hg, bfsLevels_nil G n D l hl]
    | cons a r =>
      have := ih _ _ h
      simp only [bfsLevels, List.flatten_cons, List.length_append, List.length_cons]
      omega

/-- With at least `NumVertices` levels after the first, the last level is empty. -/
theorem bfsLevels_last_empty {G : Graph} (hwf : WF G) {start : Int} (h0 : 0 ≤ start)
    (h1 : start < G.NumVertices) (m : Nat) (hm : G.NumVertices.toNat ≤ m) :
    (bfsLevels G m [start] [start]).getD m [] = [] := by
  by_contra hne
  have h2 := bfsLevels_length_flatten G m _ _ hne
  have h3 := length_le_of_nodup_range _ G.NumVertices
    (bfsLevels_flatten hwf h0 h1 m 0 _ _ (LevelInv_init G start)).1
    (fun x hx => bfsLevels_valid hwf h0 h1 m x hx)
  omega

/-- The loop of `BFS` from a whole level `lv` ends, when the level `n` after it is empty,
with the levels appended to the visited vertices. -/
theorem BFS_levels_run {G : Graph} (hwf : WF G) (n : Nat) :
    ∀ (lv : List Int) (D : VSet) (vis : List Int),
    (∀ u ∈ lv, 0 ≤ u ∧ u < G.NumVertices) →
    (bfsLevels G n lv D).getD n [] = [] →
    ∃ t, Steps (fun st : BFSState => !isEmptyQueue st.frontierQ) (BFS_body G)
        (bfsLevels G n lv D).flatten.length
        { frontierQ := lv, discoveredSet := D, visited := vis } t ∧
      t.frontierQ = [] ∧ t.visited = vis ++ (bfsLevels G n lv D).flatten := by
  induction n with
  | zero =>
    intro lv D vis _ hl
    simp only [bfsLevels, List.getD_cons_zero] at hl
    subst hl
    exact ⟨_, Steps.refl _, rfl, by simp [bfsLevels]⟩
  | succ n ih =>
    intro lv D vis hv hl
    simp only [bfsLevels, List.getD_cons_succ] at hl
    have hrun := BFS_level_run hwf lv [] D vis hv
    simp only [List.append_nil, List.nil_append] at hrun
    obtain ⟨t, h3, h4, h5⟩ := ih (expandLevel G lv D).1 (expandLevel G lv D).2 (vis ++ lv)
      (expandLevel_valid hwf lv D hv) hl
    refine ⟨t, ?_, h4, ?_⟩
    · simp only [bfsLevels, List.flatten_cons, List.length_append]
      exact Steps.trans hrun h3
    · rw [h5]
      simp [bfsLevels]

/-- The output of `BFS` is the sequence of the levels, one after the other. -/
theorem BFS_eq_levels {G : Graph} (hwf : WF G) (start : Int) (h0 : 0 ≤ start)
    (h1 : start < G.NumVertices) (m : Nat) (hm : G.NumVertices.toNat ≤ m) (fuel : Nat)
    (hf : G.NumVertices.toNat ≤ fuel) :
    BFS fuel G start = .ok (some ((bfsLevels G m [start] [start]).flatten ++ [-1])) := by
  obtain ⟨t, ht, hq, hvis⟩ := BFS_levels_run hwf m [start] [start] []
    (by intro u hu; simp only [List.mem_singleton] at hu; subst hu; exact ⟨h0, h1⟩)
    (bfsLevels_last_empty hwf h0 h1 m hm)
  have hlen := length_le_of_nodup_range _ G.NumVertices
    (bfsLevels_flatten hwf h0 h1 m 0 _ _ (LevelInv_init G start)).1
    (fun x hx => bfsLevels_valid hwf h0 h1 m x hx)
  have hrun := ht.whileLoop (by simp [hq, isEmptyQueue]) fuel (by omega)
  have hv : ¬ (start < 0 ∨ start ≥ G.NumVertices) := by omega
  have hrun2 : whileLoop (fun st : BFSState => !isEmptyQueue st.frontierQ) (BFS_body G) fuel
      { frontierQ := Enqueue [] start, discoveredSet := AddToSet [] start, visited := [] } =
      Except.ok t := hrun
  simp only [BFS, hv, if_false, hrun2, hvis, List.nil_append]

/-- The first levels of a longer list of levels. -/
theorem bfsLevels_take (G : Graph) (n : Nat) : ∀ (m : Nat) (lv : List Int) (D : VSet),
    n ≤ m → bfsLevels G n lv D = (bfsLevels G m lv D).take (n + 1) := by
  induction n with
  | zero =>
    intro m lv D _
    cases m <;> simp [bfsLevels]
  | succ n ih =>
    intro m lv D h
    obtain ⟨k, rfl⟩ : ∃ k, m = k + 1 := ⟨m - 1, by omega⟩
    simp only [bfsLevels, List.take_succ_cons, List.cons.injEq, true_and]
    exact ih k _ _ (by omega)

/-- The levels list the vertices by distance: a vertex comes before the vertices that are
farther from the start, and the vertices of one level are at the same distance. -/
theorem bfsLevels_pairwise {G : Graph} (hwf : WF G) {start : Int} (h0 : 0 ≤ start)
    (h1 : start < G.NumVertices) (n : Nat) : ∀ (k : Nat) (lv : List Int) (D : VSet),
    LevelInv G start k lv D →
      (bfsLevels G n lv D).flatten.Pairwise
        (fun u w => ∀ a b, HopDist G start u a → HopDist G start w b → a ≤ b) := by
  have hsame : ∀ (k : Nat) (lv : List Int) (D : VSet), LevelInv G start k lv D →
      lv.Pairwise (fun u w => ∀ a b, HopDist G start u a → HopDist G start w b → a ≤ b) := by
    intro k lv D h
    apply List.Pairwise.imp_of_mem _ (List.pairwise_of_forall (R := fun _ _ => True)
      (fun _ _ => trivial))
    intro u w hu hw _ a b ha hb
    have e1 := HopDist.unique ha ((h.mem_lv u).1 hu)
    have e2 := HopDist.unique hb ((h.mem_lv w).1 hw)
    omega
  induction n with
  | zero =>
    intro k lv D h
    simpa [bfsLevels] using hsame k lv D h
  | succ n ih =>
    intro k lv D h
    have hnext := LevelInv_next hwf h0 h1 h
    simp only [bfsLevels, List.flatten_cons]
    rw [List.pairwise_append]
    refine ⟨hsame k lv D h, ih (k + 1) _ _ hnext, ?_⟩
    intro u hu w hw a b ha hb
    obtain ⟨j, hj, hd⟩ := (bfsLevels_flatten hwf h0 h1 n (k + 1) _ _ hnext).2 w hw
    have e1 := HopDist.unique ha ((h.mem_lv u).1 hu)
    have e2 := HopDist.unique hb hd
    omega

/-- Removing the markers from the output of `BFSd` leaves the levels. -/
theorem filter_withMarkers (gs : List (List Int)) (h : ∀ g ∈ gs, -1 ∉ g) :
    (withMarkers gs ++ [-1]).filter (fun x => decide (x ≠ -1)) = gs.flatten := by
  have key : (withMarkers gs).filter (fun x => decide (x ≠ -1)) = gs.flatten := by
    induction gs with
    | nil => simp [withMarkers]
    | cons g gs ih =>
      have hg : g.filter (fun x => decide (x ≠ -1)) = g := by
        rw [List.filter_eq_self]
        intro x hx
        have : x ≠ -1 := fun e => h g (List.mem_cons_self _ _) (e ▸ hx)
        simpa using this
      have ih2 := ih (fun g2 hg2 => h g2 (List.mem_cons_of_mem _ hg2))
      have e : g ++ -1 :: withMarkers gs = g ++ ([-1] ++ withMarkers gs) := rfl
      rw [withMarkers_cons, e, List.filter_append, List.filter_append, hg, ih2]
      simp
  rw [List.filter_append, key]
  simp

theorem flatten_take_prefix (L : List (List Int)) (k : Nat) :
    (L.take k).flatten <+: L.flatten := by
  refine ⟨(L.drop k).flatten, ?_⟩
  rw [← List.flatten_append, List.take_append_drop]

/-- The runs of one level, exactly: the run of the `i`-th vertex `u` of the level holds the
neighbors of `u` that are neither discovered before the level is expanded nor in the run of
a vertex that comes before `u` in the level. -/
theorem expandLevel_runs_exact {G : Graph} (hwf : WF G) (lv : List Int) : ∀ D : VSet,
    (∀ u ∈ lv, 0 ≤ u ∧ u < G.NumVertices) →
    ∃ runs : List (List Int),
      List.Forall₂ (fun u run => run.Pairwise (fun a b => a < b) ∧ ∀ x ∈ run, Adj G u x)
        lv runs ∧
      (expandLevel G lv D).1 = runs.flatten ∧
      ∀ i x, x ∈ runs.getD i [] ↔
        (∃ u, lv[i]? = some u ∧ Adj G u x) ∧ x ∉ D ∧ x ∉ (runs.take i).flatten := by
  induction lv with
  | nil =>
    intro D _
    refine ⟨[], List.Forall₂.nil, rfl, ?_⟩
    intro i x
    simp
  | cons u rest ih =>
    intro D hv
    obtain ⟨h0, h1⟩ := hv u (List.mem_cons_self _ _)
    obtain ⟨runs, r1, r2, r3⟩ :=
      ih (((nbrs G u).filter (fun x => decide (x ∉ D))).reverse ++ D)
        (fun x hx => hv x (List.mem_cons_of_mem _ hx))
    have hnew : ∀ x, x ∈ (nbrs G u).filter (fun x => decide (x ∉ D)) ↔
        Adj G u x ∧ x ∉ D := by
      intro x
      rw [List.mem_filter, mem_nbrs_iff_Adj hwf u h0 h1 x]
      simp
    refine ⟨(nbrs G u).filter (fun x => decide (x ∉ D)) :: runs,
      List.Forall₂.cons ⟨?_, ?_⟩ r1, ?_, ?_⟩
    · exact (nbrs_sorted hwf u h0 h1).filter _
    · intro x hx
      exact ((hnew x).1 hx).1
    · simp only [expandLevel, List.flatten_cons, r2]
    · intro i x
      cases i with
      | zero =>
        simp only [List.getD_cons_zero, hnew x, List.getElem?_cons_zero, Option.some.injEq,
          exists_eq_left', List.take_zero, List.flatten_nil, List.not_mem_nil,
          not_false_eq_true, and_true]
      | succ i =>
        simp only [List.getD_cons_succ, r3 i x, List.getElem?_cons_succ, List.mem_append,
          List.mem_reverse, hnew x, List.take_succ_cons, List.flatten_cons]
        tauto

/-- The runs of every level of `bfsLevels`, exactly; `P` holds the vertices of the levels
before `lv`. -/
theorem bfsLevels_runs_exact {G : Graph} (hwf : WF G) {start : Int} (h0 : 0 ≤ start)
    (h1 : start < G.NumVertices) (n : Nat) : ∀ (k : Nat) (lv : List Int) (D : VSet)
    (P : List Int), LevelInv G start k lv D → (∀ x, x ∈ D ↔ x ∈ P ∨ x ∈ lv) → ∀ i, i < n →
      ∃ runs : List (List Int),
        List.Forall₂ (fun u run => run.Pairwise (fun a b => a < b) ∧ ∀ x ∈ run, Adj G u x)
          ((bfsLevels G n lv D).getD i []) runs ∧
        (bfsLevels G n lv D).getD (i + 1) [] = runs.flatten ∧
        ∀ j x, x ∈ runs.getD j [] ↔
          (∃ u, ((bfsLevels G n lv D).getD i [])[j]? = some u ∧ Adj G u x) ∧
          x ∉ P ∧ x ∉ ((bfsLevels G n lv D).take (i + 1)).flatten ∧
          x ∉ (runs.take j).flatten := by
  induction n with
  | zero => intro k lv D P _ _ i hi; omega
  | succ n ih =>
    intro k lv D P h hD i hi
    cases i with
    | zero =>
      obtain ⟨runs, r1, r2, r3⟩ := expandLevel_runs_exact hwf lv D (h.level_valid hwf h0 h1)
      refine ⟨runs, by simpa [bfsLevels] using r1, ?_, ?_⟩
      · simp only [bfsLevels, List.getD_cons_succ, bfsLevels_getD_zero, r2]
      · intro j x
        rw [r3 j x, hD x]
        simp only [bfsLevels, List.getD_cons_zero, List.take_succ_cons, List.take_zero,
          List.flatten_cons, List.flatten_nil, List.append_nil]
        tauto
    | succ i =>
      have hD1 : ∀ x, x ∈ (expandLevel G lv D).2 ↔
          x ∈ P ++ lv ∨ x ∈ (expandLevel G lv D).1 := by
        intro x
        rw [(expandLevel_spec hwf lv D (h.level_valid hwf h0 h1)).2.2 x, hD x,
          List.mem_append]
      obtain ⟨runs, r1, r2, r3⟩ :=
        ih (k + 1) _ _ (P ++ lv) (LevelInv_next hwf h0 h1 h) hD1 i (by omega)
      refine ⟨runs, by simpa [bfsLevels] using r1, by simpa [bfsLevels] using r2, ?_⟩
      intro j x
      rw [r3 j x]
      simp only [bfsLevels, List.getD_cons_succ, List.take_succ_cons, List.flatten_cons,
        List.mem_append]
      tauto

/-! ## The size of the output of BFSd -/

theorem Built_oneGraph : Built oneGraph :=
  Built_applyOps _ _ (Built.create 2 emptyGraph2 (by decide))

/-- The length of the output of `BFSd`: the vertices of the levels, `d + 1` markers and the
final `-1`. -/
theorem BFSd_output_length (G : Graph) (start d : Int) (hd : 1 ≤ d) :
    ((withMarkers (bfsLevels G d.toNat [start] [start]) ++ [-1]).length : Int) =
      ((bfsLevels G d.toNat [start] [start]).flatten.length : Int) + d + 2 := by
  rw [List.length_append, withMarkers_length, bfsLevels_length]
  simp only [List.length_singleton, Nat.cast_add, Nat.cast_one]
  have e : ((d.toNat : Nat) : Int) = d := by omega
  rw [e]
  ring

/-- A duplicate-free list of vertex ids that holds every id of the graph has `NumVertices`
entries. -/
theorem length_eq_of_all_ids (l : List Int) (N : Int) (hN : 0 ≤ N) (hnd : l.Nodup)
    (hv : ∀ x ∈ l, 0 ≤ x ∧ x < N) (hall : ∀ x : Int, 0 ≤ x → x < N → x ∈ l) :
    l.length = N.toNat := by
  apply le_antisymm (length_le_of_nodup_range l N hnd hv)
  have hnd2 : ((List.range N.toNat).map (fun n : Nat => (n : Int))).Nodup := by
    rw [List.nodup_map_iff_inj_on (List.nodup_range _)]
    intro a _ b _ hab
    exact_mod_cast hab
  have hsub : ∀ x ∈ (List.range N.toNat).map (fun n : Nat => (n : Int)), x ∈ l := by
    intro x hx
    rw [List.mem_map] at hx
    obtain ⟨n, hn, rfl⟩ := hx
    rw [List.mem_range] at hn
    exact hall _ (by omega) (by omega)
  have := (List.subperm_of_subset hnd2 hsub).length_le
  simpa using this

/-- A duplicate-free list of vertex ids that misses an id of the graph has fewer than
`NumVertices` entries. -/
theorem length_lt_of_missing_id (l : List Int) (N : Int) (hnd : l.Nodup)
    (hv : ∀ x ∈ l, 0 ≤ x ∧ x < N) (v : Int) (hv0 : 0 ≤ v) (hv1 : v < N) (hmiss : v ∉ l) :
    l.length < N.toNat := by
  have h1 : (v :: l).Nodup := List.nodup_cons.2 ⟨hmiss, hnd⟩
  have h2 := length_le_of_nodup_range (v :: l) N h1 (by
    intro x hx
    rcases List.mem_cons.1 hx with h | h
    · subst h; exact ⟨hv0, hv1⟩
    · exact hv x h)
  simp only [List.length_cons] at h2
  omega

/-- The vertices in the levels `0 .. n` are the vertices at hop-distance at most `n`. -/
theorem mem_bfsLevels_flatten {G : Graph} (hwf : WF G) {start : Int} (h0 : 0 ≤ start)
    (h1 : start < G.NumVertices) (n : Nat) (x : Int) :
    x ∈ (bfsLevels G n [start] [start]).flatten ↔ ∃ k, k ≤ n ∧ HopDist G start x k := by
  have hspec := bfsLevels_spec hwf h0 h1 n 0 [start] [start] (LevelInv_init G start)
  have hlen := bfsLevels_length G n [start] [start]
  rw [List.mem_flatten]
  constructor
  · rintro ⟨l, hl, hx⟩
    obtain ⟨i, hi, hli⟩ := List.mem_iff_getElem.1 hl
    refine ⟨i, by omega, ?_⟩
    have := (hspec i (by omega)).2 x
    rw [List.getD_eq_getElem _ _ hi, hli, Nat.zero_add] at this
    exact this.1 hx
  · rintro ⟨k, hk, hd⟩
    have hk2 : k < (bfsLevels G n [start] [start]).length := by omega
    refine ⟨(bfsLevels G n [start] [start])[k], List.getElem_mem _, ?_⟩
    have := (hspec k hk).2 x
    rw [List.getD_eq_getElem _ _ hk2, Nat.zero_add] at this
    exact this.2 hd

/-! ## The size of the stack of DFS -/

theorem Built_k4Graph : Built k4Graph :=
  Built_applyOps _ _ (Built.create 2 emptyGraph2 (by decide))

/-- Along the loop of `DFS` the invariant holds and the stack never holds more entries than
`DFS_fuel G`: one for the start and one for each entry of each neighbors array. -/
theorem DFS_stack_bound {G : Graph} (hwf : WF G) (v : Int) (k : Nat) (s t : DFSState)
    (hsteps : Steps (fun st : DFSState => !isEmptyStack st.frontierStack)
      (DFS_body_unbounded G) k s t)
    (hI : DFSInv G v s) :
    DFSInv G v t ∧
    t.frontierStack.length + dfsCost G t.visitedSet ≤
      s.frontierStack.length + dfsCost G s.visitedSet := by
  induction hsteps with
  | refl s => exact ⟨hI, le_refl _⟩
  | step k s s1 t hc hb _ ih =>
    obtain ⟨s2, e1, e2, e3⟩ := DFSInv_step hwf v s hI hc
    rw [hb] at e1
    cases e1
    obtain ⟨i1, i2⟩ := ih e2
    exact ⟨i1, by omega⟩

/-! ## The stack of DFS with its capacity -/

theorem Steps.whileLoop_exit {σ : Type} {cond : σ → Bool} {body : σ → Except Fault σ}
    {k : Nat} {s t : σ} (h : Steps cond body k s t) (hc : cond t = true) (e : Fault)
    (hb : body t = .error e) :
    ∀ fuel, k + 1 ≤ fuel → WordLadder.whileLoop cond body fuel s = .error e := by
  induction h with
  | refl s =>
    intro fuel hf
    obtain ⟨m, rfl⟩ : ∃ m, fuel = m + 1 := ⟨fuel - 1, by omega⟩
    simp [WordLadder.whileLoop, hc, hb]
  | step k s s1 t hcs hbs _ ih =>
    intro fuel hf
    obtain ⟨m, rfl⟩ : ∃ m, fuel = m + 1 := ⟨fuel - 1, by omega⟩
    rw [whileLoop_step cond body m s s1 hcs hbs]
    exact ih hc hb m (by omega)

theorem DFS_pushBackwards_foldlM (N : Int) (l : List Int) : ∀ S : Stack,
    (S.length : Int) ≤ N →
    l.foldlM
      (fun S1 adjV =>
        match Push_checked N S1 adjV with
        | some S2 => Except.ok S2
        | none => Except.error Fault.exit) S =
      if ((l.reverse ++ S).length : Int) ≤ N then .ok (l.reverse ++ S) else .error .exit := by
  induction l with
  | nil => intro S hS; simp [hS]; rfl
  | cons a l ih =>
    intro S hS
    rw [List.foldlM_cons]
    by_cases h : (S.length : Int) < N
    · have e1 : Push_checked N S a = some (a :: S) := by simp [Push_checked, Push, h]
      simp only [e1]
      have := ih (a :: S) (by simp only [List.length_cons]; push_cast; omega)
      simp only [List.reverse_cons, List.append_assoc, List.singleton_append]
      exact this
    · have e1 : Push_checked N S a = none := by simp [Push_checked, h]
      simp only [e1]
      have : ¬ (((a :: l).reverse ++ S).length : Int) ≤ N := by
        simp only [List.length_append, List.length_reverse, List.length_cons]
        push_cast
        omega
      rw [if_neg this]
      rfl

theorem DFS_pushBackwards_eq (N : Int) (ns : List Int) (S : Stack)
    (hS : (S.length : Int) ≤ N) :
    DFS_pushBackwards N ns S =
      if ((ns ++ S).length : Int) ≤ N then .ok (ns ++ S) else .error .exit := by
  unfold DFS_pushBackwards
  exact (DFS_pushBackwards_foldlM N ns.reverse S hS).trans (by rw [List.reverse_reverse])

/-- An iteration of `DFS` does what the iteration on a stack without a limit does, and
exits when that leaves more entries than the stack has slots. -/
theorem DFS_body_eq (G : Graph) (st s1 : DFSState)
    (hS : (st.frontierStack.length : Int) ≤ G.NumVertices + 1)
    (hb : DFS_body_unbounded G st = .ok s1) :
    DFS_body G st =
      if (s1.frontierStack.length : Int) ≤ G.NumVertices + 1 then .ok s1
      else .error .exit := by
  unfold DFS_body_unbounded at hb
  unfold DFS_body
  cases hst : st.frontierStack with
  | nil => rw [hst] at hb; simp at hb
  | cons c rest =>
    rw [hst] at hb hS
    simp only at hb ⊢
    have hrest : (rest.length : Int) ≤ G.NumVertices + 1 := by
      simp only [List.length_cons] at hS
      push_cast at hS
      omega
    by_cases hv : (!isElementInSet st.visitedSet c) = true
    · rw [if_pos hv] at hb ⊢
      cases hn : Neighbors G c with
      | none => rw [hn] at hb; simp at hb
      | some ns =>
        rw [hn] at hb
        simp only [Except.ok.injEq] at hb
        simp only
        rw [DFS_pushBackwards_eq _ _ _ hrest, ← hb, pushAllBackwards_eq]
        simp only
        by_cases hl : ((upToMarker ns ++ rest).length : Int) ≤ G.NumVertices + 1
        · rw [if_pos hl, if_pos hl]
        · rw [if_neg hl, if_neg hl]
    · rw [if_neg hv] at hb ⊢
      simp only [Except.ok.injEq] at hb
      rw [← hb]
      simp only [hrest, if_true]

/-- As long as the search on a stack without a limit never holds more entries than the
stack of `DFS` has slots, `DFS` makes the same iterations. -/
theorem DFS_steps_within_capacity {G : Graph} {k : Nat} {s t : DFSState}
    (hsteps : Steps (fun st : DFSState => !isEmptyStack st.frontierStack)
      (DFS_body_unbounded G) k s t)
    (hS : (s.frontierStack.length : Int) ≤ G.NumVertices + 1)
    (hall : ∀ j s1, Steps (fun st : DFSState => !isEmptyStack st.frontierStack)
      (DFS_body_unbounded G) j s s1 → (s1.frontierStack.length : Int) ≤ G.NumVertices + 1) :
    Steps (fun st : DFSState => !isEmptyStack st.frontierStack) (DFS_body G) k s t := by
  induction hsteps with
  | refl s => exact Steps.refl s
  | step k s s1 t hc hb _ ih =>
    have h1 := hall 1 s1 (Steps.one hc hb)
    have hb2 := DFS_body_eq G s s1 hS hb
    rw [if_pos h1] at hb2
    exact Steps.step k s s1 t hc hb2
      (ih h1 (fun j s2 hj => hall (j + 1) s2 (Steps.step j s s1 s2 hc hb hj)))

/-- The iterations of `DFS` follow the search on a stack without a limit to its end, or up
to an iteration in which a `Push` finds the stack full. -/
theorem DFS_steps_or_exit {G : Graph} {k : Nat} {s t : DFSState}
    (hsteps : Steps (fun st : DFSState => !isEmptyStack st.frontierStack)
      (DFS_body_unbounded G) k s t)
    (hS : (s.frontierStack.length : Int) ≤ G.NumVertices + 1) :
    Steps (fun st : DFSState => !isEmptyStack st.frontierStack) (DFS_body G) k s t ∨
    ∃ j s1, j < k ∧
      Steps (fun st : DFSState => !isEmptyStack st.frontierStack) (DFS_body G) j s s1 ∧
      (!isEmptyStack s1.frontierStack) = true ∧ DFS_body G s1 = .error .exit := by
  induction hsteps with
  | refl s => exact Or.inl (Steps.refl s)
  | step k s s1 t hc hb _ ih =>
    have hb2 := DFS_body_eq G s s1 hS hb
    by_cases h1 : (s1.frontierStack.length : Int) ≤ G.NumVertices + 1
    · rw [if_pos h1] at hb2
      rcases ih h1 with h | ⟨j, s2, hj, h2, h3, h4⟩
      · exact Or.inl (Steps.step k s s1 t hc hb2 h)
      · exact Or.inr ⟨j + 1, s2, by omega, Steps.step j s s1 s2 hc hb2 h2, h3, h4⟩
    · rw [if_neg h1] at hb2
      exact Or.inr ⟨0, s, by omega, Steps.refl s, hc, hb2⟩

theorem DFS_unfold (fuel : Nat) (G : Graph) (v : Int) (h0 : 0 ≤ v) (h1 : v < G.NumVertices) :
    DFS fuel G v =
      match whileLoop (fun st => !isEmptyStack st.frontierStack) (DFS_body G) fuel
          { frontierStack := Push [] v, visitedSet := [], visitedQ := [] } with
      | .ok st => .ok (some (st.visitedQ ++ [-1]))
      | .error e => .error e := by
  have hv : ¬ (v < 0 ∨ v ≥ G.NumVertices) := by omega
  have hp : Push_checked (G.NumVertices + 1) [] v = some (Push [] v) := by
    unfold Push_checked
    rw [if_pos]
    simp only [List.length_nil]
    push_cast
    omega
  simp only [DFS, hv, if_false, hp]

/-- The result of `DFS` for a valid start: the search on a stack without a limit ends
within `DFS_fuel G` iterations with the invariant, and `DFS` either exits because a `Push`
found the stack full or returns what that search has visited. -/
theorem DFS_exit_or_result {G : Graph} (hwf : WF G) (v : Int) (h0 : 0 ≤ v)
    (h1 : v < G.NumVertices) :
    ∃ (k : Nat) (t : DFSState), k ≤ DFS_fuel G ∧
      Steps (fun st : DFSState => !isEmptyStack st.frontierStack) (DFS_body_unbounded G) k
        { frontierStack := Push [] v, visitedSet := [], visitedQ := [] } t ∧
      DFSInv G v t ∧ t.frontierStack = [] ∧
      ((∀ fuel, DFS_fuel G ≤ fuel → DFS fuel G v = .error .exit) ∨
        (∀ fuel, DFS_fuel G ≤ fuel → DFS fuel G v = .ok (some (t.visitedQ ++ [-1])))) ∧
      (DFS_fuel G ≤ G.NumVertices.toNat + 1 →
        ∀ fuel, DFS_fuel G ≤ fuel → DFS fuel G v = .ok (some (t.visitedQ ++ [-1]))) := by
  obtain ⟨t, ht, hI, hq⟩ := DFS_run hwf v h0 h1 _ (le_refl _)
  obtain ⟨k, hk, hsteps, hct⟩ := whileLoop_ok_Steps _ _ _ _ _ ht
  have hS : ((Push [] v).length : Int) ≤ G.NumVertices + 1 := by
    simp only [Push, List.length_singleton]
    push_cast
    omega
  refine ⟨k, t, hk, hsteps, hI, hq, ?_, ?_⟩
  · rcases DFS_steps_or_exit hsteps hS with h | ⟨j, s1, hj, h2, h3, h4⟩
    · right
      intro fuel hf
      rw [DFS_unfold fuel G v h0 h1, h.whileLoop hct fuel (by omega)]
    · left
      intro fuel hf
      rw [DFS_unfold fuel G v h0 h1, h2.whileLoop_exit h3 _ h4 fuel (by omega)]
  · intro hsmall fuel hf
    have hb := DFS_steps_within_capacity hsteps hS (by
      intro j s1 hj
      have := (DFS_stack_bound hwf v j _ s1 hj (DFSInv_init G v h0 h1)).2
      have h2 := dfsCost_nil G
      simp only [Push, List.length_singleton] at this
      omega)
    rw [DFS_unfold fuel G v h0 h1, hb.whileLoop hct fuel (by omega)]

/-- On the complete directed graph on four vertices the fourth iteration of `DFS(G, 0)`
pops 2 from the stack 2, 3, 2, 3 and pushes 3 and 1; the push of 0 finds the five slots in
use. -/
theorem DFS_k4Graph_third_state :
    Steps (fun st : DFSState => !isEmptyStack st.frontierStack) (DFS_body k4Graph) 3
      { frontierStack := Push [] 0, visitedSet := [], visitedQ := [] }
      { frontierStack := [2, 3, 2, 3], visitedSet := [1, 0], visitedQ := [0, 1] } :=
  Steps.step 2 _
      { frontierStack := [1, 2, 3], visitedSet := [0], visitedQ := [0] } _
      (by decide) (by decide)
    (Steps.step 1 _
      { frontierStack := [0, 2, 3, 2, 3], visitedSet := [1, 0], visitedQ := [0, 1] } _
      (by decide) (by decide)
    (Steps.step 0 _
      { frontierStack := [2, 3, 2, 3], visitedSet := [1, 0], visitedQ := [0, 1] } _
      (by decide) (by decide) (Steps.refl _)))

theorem DFS_k4Graph_exits (fuel : Nat) (hf : 4 ≤ fuel) :
    DFS fuel k4Graph 0 = .error .exit := by
  rw [DFS_unfold fuel k4Graph 0 (by decide) (by decide),
    DFS_k4Graph_third_state.whileLoop_exit (by decide) Fault.exit (by decide) fuel hf]

theorem Reach_k4Graph (x : Int) (h0 : 0 ≤ x) (h1 : x < 4) : Reach k4Graph 0 x := by
  by_cases hx : x = 0
  · rw [hx]; exact Relation.ReflTransGen.refl
  · refine Relation.ReflTransGen.single ⟨by decide, by decide, ?_⟩
    have h : x = 1 ∨ x = 2 ∨ x = 3 := by omega
    rcases h with h | h | h <;> subst h
    · exact ⟨{ src := 0, dest := 1, weight := 1 }, by decide, rfl⟩
    · exact ⟨{ src := 0, dest := 2, weight := 1 }, by decide, rfl⟩
    · exact ⟨{ src := 0, dest := 3, weight := 1 }, by decide, rfl⟩

/-! ## PopMin -/

/-- The vertex kept by the scan of `PopMin` is not farther than the one it started with. -/
theorem PopMin_scan_le (distance : List Int) (rest : Queue) : ∀ (minV : Int) (S : Stack),
    arrGet distance (PopMin_scan distance rest minV S).1 ≤ arrGet distance minV := by
  induction rest with
  | nil => intro minV S; simp [PopMin_scan]
  | cons v r ih =>
    intro minV S
    simp only [PopMin_scan]
    by_cases hlt : arrGet distance v < arrGet distance minV
    · simp only [hlt, if_true]
      have := ih v (Push S minV)
      omega
    · simp only [hlt, if_false]
      exact ih minV (Push S v)

/-- The vertex kept by the scan of `PopMin` is the first one of least distance: every vertex
dequeued before it is strictly farther. -/
theorem PopMin_scan_first (distance : List Int) (rest : Queue) : ∀ (minV : Int) (S : Stack),
    ∃ pre post : List Int,
      minV :: rest = pre ++ (PopMin_scan distance rest minV S).1 :: post ∧
      ∀ x ∈ pre, arrGet distance (PopMin_scan distance rest minV S).1 < arrGet distance x := by
  induction rest with
  | nil =>
    intro minV S
    exact ⟨[], [], by simp [PopMin_scan], by simp⟩
  | cons v r ih =>
    intro minV S
    simp only [PopMin_scan]
    by_cases hlt : arrGet distance v < arrGet distance minV
    · simp only [hlt, if_true]
      obtain ⟨pre, post, e1, e2⟩ := ih v (Push S minV)
      have hle := PopMin_scan_le distance r v (Push S minV)
      generalize (PopMin_scan distance r v (Push S minV)).1 = mm at e1 e2 hle ⊢
      refine ⟨minV :: pre, post, by rw [e1]; rfl, ?_⟩
      intro x hx
      rcases List.mem_cons.1 hx with h | h
      · subst h; omega
      · exact e2 x h
    · simp only [hlt, if_false]
      obtain ⟨pre, post, e1, e2⟩ := ih minV (Push S v)
      generalize (PopMin_scan distance r minV (Push S v)).1 = mm at e1 e2 ⊢
      cases pre with
      | nil =>
        simp only [List.nil_append, List.cons.injEq] at e1
        refine ⟨[], v :: r, ?_, by simp⟩
        rw [← e1.1]
        rfl
      | cons a p =>
        simp only [List.cons_append, List.cons.injEq] at e1
        obtain ⟨ea, er⟩ := e1
        subst ea
        refine ⟨minV :: v :: p, post, by rw [er]; rfl, ?_⟩
        intro x hx
        have hm := e2 minV (List.mem_cons_self _ _)
        rcases List.mem_cons.1 hx with h | h
        · subst h; exact hm
        · rcases List.mem_cons.1 h with h2 | h2
          · subst h2; omega
          · exact e2 x (List.mem_cons_of_mem _ h2)

/-! ## Termination of Dijkstra -/

theorem Built_negLoopGraph : Built negLoopGraph :=
  Built_applyOps _ _ (Built.create 2 emptyGraph2 (by decide))

/-- A walk along predecessors in which the current vertex is its own predecessor has no
end. -/
theorem walk_self_predecessor (p : List Int) (v : Int) (hp : arrGet p v = v) (hv : v ≠ -1)
    (fuel : Nat) : ∀ S : Stack,
    whileLoop (fun vs : Int × Stack => arrGet p vs.1 != -1) (Dijkstra_walkBody p) fuel
      (v, S) = .error .outOfFuel := by
  have hcond : ∀ S : Stack,
      (fun vs : Int × Stack => arrGet p vs.1 != -1) (v, S) = true := by
    intro S
    simp only [hp, bne_iff_ne, ne_eq]
    exact hv
  induction fuel with
  | zero =>
    intro S
    simp only [whileLoop, hcond S, if_true]
  | succ n ih =>
    intro S
    rw [whileLoop_step _ _ n (v, S) (v, Push S v) (hcond S) (by simp [Dijkstra_walkBody, hp])]
    exact ih _

/-! ## Dijkstra with weights of any sign: the predecessor links form no cycle -/

theorem wrapInt32_in_range (x : Int) (h0 : -2147483648 ≤ x) (h1 : x ≤ INT_MAX) :
    wrapInt32 x = x := by
  unfold wrapInt32
  unfold INT_MAX at h1
  omega

theorem predUp_add (p : List Int) (a b : Nat) (x : Int) :
    predUp p (a + b) x = predUp p a (predUp p b x) := by
  induction a with
  | zero => simp [predUp]
  | succ a ih =>
    have e : a + 1 + b = (a + b) + 1 := by omega
    rw [e]
    simp only [predUp, ih]

theorem Climbs.mono {p : List Int} {k : Nat} {x : Int} (h : Climbs p k x) {j : Nat}
    (hj : j ≤ k) : Climbs p j x :=
  fun i hi => h i (by omega)

theorem Climbs.shift {p : List Int} {a b : Nat} {x : Int} (h : Climbs p (a + b) x) :
    Climbs p a (predUp p b x) := by
  intro j hj
  rw [← predUp_add]
  exact h (j + b) (by omega)

/-- Along existing predecessor links every vertex met is a vertex of the graph. -/
theorem Climbs.vertices_valid {p : List Int} {N : Int}
    (hp : ∀ x, 0 ≤ x → x < N → arrGet p x ≠ -1 → 0 ≤ arrGet p x ∧ arrGet p x < N)
    {k : Nat} {x : Int} (h0 : 0 ≤ x) (h1 : x < N) (h : Climbs p k x) :
    ∀ j, j ≤ k → 0 ≤ predUp p j x ∧ predUp p j x < N := by
  intro j
  induction j with
  | zero => intro _; exact ⟨h0, h1⟩
  | succ j ih =>
    intro hj
    obtain ⟨i0, i1⟩ := ih (by omega)
    exact hp _ i0 i1 (h j (by omega))

/-- A vertex that comes back to itself along predecessor links has links without end. -/
theorem Climbs.periodic {p : List Int} {k : Nat} {x : Int} (hk : 0 < k)
    (hx : predUp p k x = x) (h : Climbs p k x) : ∀ n, Climbs p n x := by
  have key : ∀ m, arrGet p (predUp p m x) ≠ -1 := by
    intro m
    induction m using Nat.strong_induction_on with
    | _ m ih =>
      by_cases hm : m < k
      · exact h m hm
      · have e : m = (m - k) + k := by omega
        rw [e, predUp_add, hx]
        exact ih (m - k) (by omega)
  intro n j _
  exact key j

/-- Following `n` predecessor links from `z` runs backwards along a path of the graph from
the vertex reached to `z`, and the distance of the vertex reached plus the weight of that
path is at most the distance of `z`. -/
theorem predUp_path {G : Graph} {src : Int} {Q d p : List Int} (hI : DijkAcyc G src Q d p)
    (z : Int) (h0 : 0 ≤ z) (h1 : z < G.NumVertices) :
    ∀ n, Climbs p n z →
      ∃ q, IsPath G q ∧ q.head? = some (predUp p n z) ∧ q.getLast? = some z ∧
        q.length = n + 1 ∧ arrGet d (predUp p n z) + pathWeight G q ≤ arrGet d z := by
  intro n
  induction n with
  | zero =>
    intro _
    exact ⟨[z], List.chain'_singleton _, rfl, rfl, rfl, by simp [predUp, pathWeight]⟩
  | succ n ih =>
    intro hc
    obtain ⟨q, q1, q2, q3, q4, q5⟩ := ih (hc.mono (by omega))
    obtain ⟨a0, a1⟩ := Climbs.vertices_valid (fun x x0 x1 hx => (hI.pred x x0 x1 hx).1) h0 h1 hc n
      (by omega)
    obtain ⟨_, p2, _, p4⟩ := hI.pred _ a0 a1 (hc n (by omega))
    cases q with
    | nil => simp at q2
    | cons a rest =>
      simp only [List.head?_cons, Option.some.injEq] at q2
      subst q2
      refine ⟨arrGet p (predUp p n z) :: predUp p n z :: rest, ?_, rfl, ?_, ?_, ?_⟩
      · unfold IsPath at q1 ⊢
        rw [List.chain'_cons]
        exact ⟨p2, q1⟩
      · rw [List.getLast?_cons_cons]
        exact q3
      · simp only [List.length_cons] at q4 ⊢
        omega
      · have e : pathWeight G (arrGet p (predUp p n z) :: predUp p n z :: rest) =
            wt G (arrGet p (predUp p n z)) (predUp p n z) +
              pathWeight G (predUp p n z :: rest) := rfl
        rw [e]
        show arrGet d (arrGet p (predUp p n z)) + _ ≤ _
        omega

/-- Making `u` the predecessor of `y` upon a strict improvement of the distance of `y`
creates no cycle of predecessor links: a cycle would pass through `y`, and the old links
from `u` back to `y` together with the hop `u -> y` would be a cycle of negative weight. -/
theorem acyc_update {G : Graph} (hwf : WF G) {src : Int} (hnc : NoNegCycle G src)
    {Q d p : List Int} (hI : DijkAcyc G src Q d p) (u y : Int) (hu0 : 0 ≤ u)
    (hu1 : u < G.NumVertices) (hru : Reach G src u) (hadj : Adj G u y)
    (hlt : arrGet d u + wt G u y < arrGet d y) :
    ∀ x, 0 ≤ x → x < G.NumVertices → ∀ k, 0 < k → Climbs (arrSet p y u) k x →
      predUp (arrSet p y u) k x ≠ x := by
  have hy := hadj.valid hwf
  have hyl : y.toNat < p.length := by rw [hI.len_p]; omega
  have hgy : arrGet (arrSet p y u) y = u := arrGet_arrSet_eq p y u hyl
  have hget : ∀ z, 0 ≤ z → z ≠ y → arrGet (arrSet p y u) z = arrGet p z :=
    fun z hz hne => arrGet_arrSet_ne p y z u hy.1 hz (fun e => hne e.symm)
  have hp2 : ∀ x, 0 ≤ x → x < G.NumVertices → arrGet (arrSet p y u) x ≠ -1 →
      0 ≤ arrGet (arrSet p y u) x ∧ arrGet (arrSet p y u) x < G.NumVertices := by
    intro x x0 x1 hx
    by_cases hxy : x = y
    · rw [hxy, hgy]; exact ⟨hu0, hu1⟩
    · rw [hget x x0 hxy] at hx ⊢
      exact (hI.pred x x0 x1 hx).1
  intro x hx0 hx1 k hk hc hcyc
  by_cases hex : ∃ j, j < k ∧ predUp (arrSet p y u) j x = y
  · obtain ⟨j, hj, hjy⟩ := hex
    -- the cycle passes through y: move its base to y
    have hall := Climbs.periodic hk hcyc hc
    have e1 : predUp (arrSet p y u) (k + j) x = predUp (arrSet p y u) k y := by
      rw [predUp_add, hjy]
    have e2 : predUp (arrSet p y u) (k + j) x = y := by
      rw [Nat.add_comm, predUp_add, hcyc, hjy]
    have hcy : predUp (arrSet p y u) k y = y := e1.symm.trans e2
    have hcl : Climbs (arrSet p y u) k y := by
      have h3 := (hall (k + j)).shift
      rw [hjy] at h3
      exact h3
    have hP : ∃ m, 0 < m ∧ predUp (arrSet p y u) m y = y := ⟨k, hk, hcy⟩
    have hm := Nat.find_spec hP
    have hmk : Nat.find hP ≤ k := Nat.find_min' hP ⟨hk, hcy⟩
    have hmin : ∀ i, 0 < i → i < Nat.find hP → predUp (arrSet p y u) i y ≠ y :=
      fun i hi0 hi h => Nat.find_min hP hi ⟨hi0, h⟩
    have hval := Climbs.vertices_valid hp2 hy.1 hy.2 hcl
    have B1 : ∀ i, i < Nat.find hP → predUp (arrSet p y u) (i + 1) y = predUp p i u := by
      intro i
      induction i with
      | zero => intro _; simp only [predUp, hgy]
      | succ i ih =>
        intro hi
        have e1 := ih (by omega)
        have hne := hmin (i + 1) (by omega) (by omega)
        have hv := hval (i + 1) (by omega)
        show arrGet (arrSet p y u) (predUp (arrSet p y u) (i + 1) y) = predUp p (i + 1) u
        rw [hget _ hv.1 hne, e1]
        rfl
    have B2 : Climbs p (Nat.find hP - 1) u := by
      intro i hi
      have e1 := B1 i (by omega)
      have hne := hmin (i + 1) (by omega) (by omega)
      have hv := hval (i + 1) (by omega)
      have h3 := hcl (i + 1) (by omega)
      rw [hget _ hv.1 hne, e1] at h3
      exact h3
    have B3 : predUp p (Nat.find hP - 1) u = y := by
      have e1 := B1 (Nat.find hP - 1) (by omega)
      have e2 : Nat.find hP - 1 + 1 = Nat.find hP := by omega
      rw [e2, hm.2] at e1
      exact e1.symm
    obtain ⟨q, q1, q2, q3, q4, q5⟩ := predUp_path hI u hu0 hu1 _ B2
    rw [B3] at q2 q5
    have hne : q ≠ [] := by
      intro h; rw [h] at q2; simp at q2
    have hw := pathWeight_snoc G q u y q3
    have hcycle := hnc (q ++ [y]) (IsPath_snoc G q u y q1 q3 hadj)
      (by simp only [List.length_append, List.length_singleton]; omega)
      (by rw [List.head?_append_of_ne_nil _ hne, q2]; simp)
      (by
        intro z hz
        rw [List.head?_append_of_ne_nil _ hne, q2] at hz
        rw [← Option.some.inj hz]
        exact Relation.ReflTransGen.tail hru hadj)
    omega
  · -- the cycle does not pass through y: it is a cycle of the old links
    have hno : ∀ j, j < k → predUp (arrSet p y u) j x ≠ y :=
      fun j hj h => hex ⟨j, hj, h⟩
    have hval := Climbs.vertices_valid hp2 hx0 hx1 hc
    have same : ∀ j, j ≤ k → predUp (arrSet p y u) j x = predUp p j x := by
      intro j
      induction j with
      | zero => intro _; rfl
      | succ j ih =>
        intro hj
        show arrGet (arrSet p y u) (predUp (arrSet p y u) j x) = arrGet p (predUp p j x)
        rw [hget _ (hval j (by omega)).1 (hno j (by omega)), ih (by omega)]
    have hcold : Climbs p k x := by
      intro j hj
      have h3 := hc j hj
      rw [hget _ (hval j (by omega)).1 (hno j hj), same j (by omega)] at h3
      exact h3
    rw [same k (le_refl _)] at hcyc
    exact hI.acyc x hx0 hx1 k hk hcold hcyc

/-- One pass of the loop over the neighbors keeps the invariant `DijkAcyc` and the distance
of the current vertex `u`; `qu` is the path whose weight is the distance of `u`. -/
theorem relaxOne_acyc {G : Graph} (hwf : WF G) {src : Int} (hnc : NoNegCycle G src)
    (hb : PathSumsInIntRange G src) {Q d p : List Int} (hI : DijkAcyc G src Q d p)
    (u : Int) (hu0 : 0 ≤ u) (hu1 : u < G.NumVertices) (hru : Reach G src u)
    (qu : List Int) (hq1 : IsPath G qu) (hq2 : qu.head? = some src)
    (hq3 : qu.getLast? = some u) (hq4 : pathWeight G qu = arrGet d u) (hq5 : qu.Nodup)
    (hq6 : ∀ z ∈ qu, (0 ≤ z ∧ z < G.NumVertices) ∧ z ∉ Q) (y : Int) (hadj : Adj G u y) :
    DijkAcyc G src Q (relaxOne G u (d, p) y).1 (relaxOne G u (d, p) y).2 ∧
      arrGet (relaxOne G u (d, p) y).1 u = arrGet d u := by
  have hy := hadj.valid hwf
  have hne : qu ≠ [] := by
    intro h; rw [h] at hq2; simp at hq2
  have hpath := IsPath_snoc G qu u y hq1 hq3 hadj
  have hw := pathWeight_snoc G qu u y hq3
  have hlen : (qu ++ [y]).length ≤ G.NumVertices.toNat + 1 := by
    have := length_le_of_nodup_range qu G.NumVertices hq5 (fun z hz => (hq6 z hz).1)
    simp only [List.length_append, List.length_singleton]
    omega
  have hrange := hb (qu ++ [y]) hpath (by rw [List.head?_append_of_ne_nil _ hne, hq2]) hlen
  rw [hw, hq4] at hrange
  have hwrap := wrapInt32_in_range _ hrange.1 hrange.2
  unfold relaxOne
  simp only [hwrap]
  by_cases hlt : arrGet d u + wt G u y < arrGet d y
  · rw [if_pos hlt]
    simp only
    have hyu : y ≠ u := by
      intro h
      rw [h] at hlt hadj
      have hloop := hnc [u, u]
        (by unfold IsPath; rw [List.chain'_cons]; exact ⟨hadj, List.chain'_singleton _⟩)
        (by simp) (by simp)
        (by intro z hz; simp only [List.head?_cons, Option.some.injEq] at hz; rw [← hz]
            exact hru)
      simp only [pathWeight] at hloop
      omega
    have hyd : y.toNat < d.length := by rw [hI.len_d]; omega
    have hdy : arrGet (arrSet d y (arrGet d u + wt G u y)) y = arrGet d u + wt G u y :=
      arrGet_arrSet_eq d y _ hyd
    have hdz : ∀ z, 0 ≤ z → z ≠ y →
        arrGet (arrSet d y (arrGet d u + wt G u y)) z = arrGet d z :=
      fun z hz hzy => arrGet_arrSet_ne d y z _ hy.1 hz (fun e => hzy e.symm)
    have hyl : y.toNat < p.length := by rw [hI.len_p]; omega
    have hgy : arrGet (arrSet p y u) y = u := arrGet_arrSet_eq p y u hyl
    have hget : ∀ z, 0 ≤ z → z ≠ y → arrGet (arrSet p y u) z = arrGet p z :=
      fun z hz hzy => arrGet_arrSet_ne p y z u hy.1 hz (fun e => hzy e.symm)
    have hdle : ∀ z, 0 ≤ z → z < G.NumVertices →
        arrGet (arrSet d y (arrGet d u + wt G u y)) z ≤ arrGet d z := by
      intro z hz0 _
      by_cases hzy : z = y
      · rw [hzy, hdy]; omega
      · rw [hdz z hz0 hzy]
    refine ⟨⟨by rw [length_arrSet]; exact hI.len_d, by rw [length_arrSet]; exact hI.len_p,
      hI.nodupQ, hI.qvalid, ?_, ?_, ?_, ?_⟩, hdz u hu0 (fun e => hyu e.symm)⟩
    · intro x x0 x1
      exact le_trans (hdle x x0 x1) (hI.range x x0 x1)
    · intro x x0 x1 hx
      by_cases hxy : x = y
      · subst hxy
        rw [hgy, hdy, hdz u hu0 (fun e => hyu e.symm)]
        exact ⟨⟨hu0, hu1⟩, hadj, hru, le_refl _⟩
      · rw [hget x x0 hxy] at hx ⊢
        obtain ⟨a1, a2, a3, a4⟩ := hI.pred x x0 x1 hx
        refine ⟨a1, a2, a3, ?_⟩
        rw [hdz x x0 hxy]
        have := hdle _ a1.1 a1.2
        omega
    · exact acyc_update hwf hnc hI u y hu0 hu1 hru hadj hlt
    · intro x hxQ hx
      by_cases hxy : x = y
      · subst hxy
        refine ⟨qu ++ [x], hpath, by rw [List.head?_append_of_ne_nil _ hne, hq2], by simp,
          ?_, ?_, ?_⟩
        · rw [hw, hq4, hdy]
        · rw [List.dropLast_concat]; exact hq5
        · rw [List.dropLast_concat]; exact hq6
      · have hx0 := (hI.qvalid x hxQ).1
        rw [hdz x hx0 hxy] at hx ⊢
        exact hI.walk x hxQ hx
  · rw [if_neg hlt]
    exact ⟨hI, rfl⟩

/-- The loop over the neighbors keeps the invariant `DijkAcyc`. -/
theorem foldl_relaxOne_acyc {G : Graph} (hwf : WF G) {src : Int} (hnc : NoNegCycle G src)
    (hb : PathSumsInIntRange G src) {Q : List Int} (u : Int) (hu0 : 0 ≤ u)
    (hu1 : u < G.NumVertices) (hru : Reach G src u) (qu : List Int) (hq1 : IsPath G qu)
    (hq2 : qu.head? = some src) (hq3 : qu.getLast? = some u) (hq5 : qu.Nodup)
    (hq6 : ∀ z ∈ qu, (0 ≤ z ∧ z < G.NumVertices) ∧ z ∉ Q) (rem : List Int) :
    ∀ dp : List Int × List Int, DijkAcyc G src Q dp.1 dp.2 →
      pathWeight G qu = arrGet dp.1 u → (∀ y ∈ rem, Adj G u y) →
      DijkAcyc G src Q (rem.foldl (relaxOne G u) dp).1 (rem.foldl (relaxOne G u) dp).2 := by
  induction rem with
  | nil => intro dp h _ _; exact h
  | cons y r ih =>
    intro dp h hq4 hadj
    obtain ⟨d, p⟩ := dp
    rw [List.foldl_cons]
    obtain ⟨i1, i2⟩ := relaxOne_acyc hwf hnc hb h u hu0 hu1 hru qu hq1 hq2 hq3 hq4 hq5 hq6 y
      (hadj y (List.mem_cons_self _ _))
    exact ih _ i1 (by rw [i2]; exact hq4) (fun z hz => hadj z (List.mem_cons_of_mem _ hz))

/-- Taking a vertex out of the queue keeps the invariant `DijkAcyc`. -/
theorem DijkAcyc.pop {G : Graph} {src : Int} {Q d p : List Int} (hI : DijkAcyc G src Q d p)
    (u : Int) (Q1 : List Int) (hperm : List.Perm (u :: Q1) Q) : DijkAcyc G src Q1 d p := by
  have hnd : (u :: Q1).Nodup := hperm.nodup_iff.2 hI.nodupQ
  have hsub : ∀ z ∈ Q1, z ∈ Q := fun z hz => hperm.subset (List.mem_cons_of_mem _ hz)
  refine ⟨hI.len_d, hI.len_p, (List.nodup_cons.1 hnd).2, fun z hz => hI.qvalid z (hsub z hz),
    hI.range, hI.pred, hI.acyc, ?_⟩
  intro x hx hfin
  obtain ⟨q, q1, q2, q3, q4, q5, q6⟩ := hI.walk x (hsub x hx) hfin
  exact ⟨q, q1, q2, q3, q4, q5, fun z hz => ⟨(q6 z hz).1, fun h => (q6 z hz).2 (hsub z h)⟩⟩

theorem DijkAcyc_init (G : Graph) (src : Int) (h0 : 0 ≤ src) (h1 : src < G.NumVertices) :
    DijkAcyc G src (Dijkstra_init G src).unvisitedQ (Dijkstra_init G src).distance
      (Dijkstra_init G src).predecessor := by
  have hW := DijkW_init G src h0 h1
  have hp : ∀ x, 0 ≤ x → x < G.NumVertices →
      arrGet (Dijkstra_init G src).predecessor x = -1 := by
    intro x x0 x1
    simp only [Dijkstra_init]
    rw [arrGet_replicate _ _ _ (by omega)]
  have hd : ∀ x, 0 ≤ x → x < G.NumVertices → x ≠ src →
      arrGet (Dijkstra_init G src).distance x = INT_MAX := by
    intro x x0 x1 hne
    simp only [Dijkstra_init]
    rw [arrGet_arrSet_ne _ src x _ h0 x0 (fun e => hne e.symm),
      arrGet_replicate _ _ _ (by omega)]
  have hs : arrGet (Dijkstra_init G src).distance src = 0 := by
    simp only [Dijkstra_init]
    rw [arrGet_arrSet_eq _ _ _ (by simp only [List.length_replicate]; omega)]
  refine ⟨hW.len_d, hW.len_p, ?_, hW.q_valid, ?_, ?_, ?_, ?_⟩
  · simp only [Dijkstra_init]
    rw [List.nodup_map_iff_inj_on (List.nodup_range _)]
    intro a _ b _ hab
    simpa using hab
  · intro x x0 x1
    by_cases hx : x = src
    · rw [hx, hs]; decide
    · rw [hd x x0 x1 hx]
  · intro x x0 x1 hx
    exact absurd (hp x x0 x1) hx
  · intro x x0 x1 k hk hc
    exact absurd (hp x x0 x1) (hc 0 hk)
  · intro x hx hfin
    have hxv := hW.q_valid x hx
    have hxs : x = src := by
      by_contra hne
      rw [hd x hxv.1 hxv.2 hne] at hfin
      exact absurd hfin (lt_irrefl _)
    subst hxs
    exact ⟨[x], List.chain'_singleton _, rfl, rfl, by rw [hs]; rfl, List.nodup_nil,
      by intro z hz; simp at hz⟩

/-- An iteration of the main loop keeps `DijkW` and `DijkAcyc` and shortens the queue. -/
theorem DijkAcyc_step {G : Graph} (hwf : WF G) {src : Int} (hnc : NoNegCycle G src)
    (hb : PathSumsInIntRange G src) (st : DijkstraState)
    (hI : DijkW G src st ∧ DijkAcyc G src st.unvisitedQ st.distance st.predecessor)
    (hc : Dijkstra_cond st = true) :
    ∃ s1, Dijkstra_body G st = .ok s1 ∧
      (DijkW G src s1 ∧ DijkAcyc G src s1.unvisitedQ s1.distance s1.predecessor) ∧
      s1.unvisitedQ.length < st.unvisitedQ.length := by
  obtain ⟨hW, hA⟩ := hI
  obtain ⟨s1, e1, e2, e3⟩ := DijkW_step hwf src st hW hc
  refine ⟨s1, e1, ⟨e2, ?_⟩, e3⟩
  have hq : st.unvisitedQ ≠ [] := by
    intro h
    simp [Dijkstra_cond, isEmptyQueue, h] at hc
  obtain ⟨u, Q1, h1, _, h3⟩ := Dijkstra_body_eq hwf st hq hW.q_valid
  rw [e1] at h3
  simp only [Except.ok.injEq] at h3
  have huQ : u ∈ st.unvisitedQ := h1.subset (List.mem_cons_self _ _)
  have hu := hW.q_valid u huQ
  have hpop := hA.pop u Q1 h1
  have hnd : (u :: Q1).Nodup := h1.nodup_iff.2 hA.nodupQ
  by_cases hinf : arrGet st.distance u = INT_MAX
  · rw [if_pos hinf] at h3
    rw [h3]
    exact hpop
  · rw [if_neg hinf] at h3
    rw [h3]
    simp only
    have hfin : arrGet st.distance u < INT_MAX :=
      lt_of_le_of_ne (hA.range u hu.1 hu.2) hinf
    obtain ⟨q, q1, q2, q3, q4, q5, q6⟩ := hA.walk u huQ hfin
    have hq : q.dropLast ++ [u] = q := List.dropLast_append_getLast? u q3
    have hnq : q.Nodup := by
      rw [← hq, List.nodup_append]
      refine ⟨q5, List.nodup_singleton _, ?_⟩
      intro z hz hz2
      rw [List.mem_singleton] at hz2
      rw [hz2] at hz
      exact (q6 u hz).2 huQ
    have hq6 : ∀ z ∈ q, (0 ≤ z ∧ z < G.NumVertices) ∧ z ∉ Q1 := by
      intro z hz
      rw [← hq, List.mem_append, List.mem_singleton] at hz
      rcases hz with hz | hz
      · exact ⟨(q6 z hz).1,
          fun h => (q6 z hz).2 (h1.subset (List.mem_cons_of_mem _ h))⟩
      · rw [hz]
        exact ⟨hu, (List.nodup_cons.1 hnd).1⟩
    exact foldl_relaxOne_acyc hwf hnc hb u hu.1 hu.2 (hW.reach u hu.1 hu.2 (Or.inl hinf)) q
      q1 q2 q3 hnq hq6 (nbrs G u) (st.distance, st.predecessor) hpop q4
      (fun y hy => (mem_nbrs_iff_Adj hwf u hu.1 hu.2 y).1 hy)

/-- The main loop of `Dijkstra` ends within `NumVertices` iterations in a state with the
invariant `DijkAcyc`. -/
theorem Dijkstra_main_acyc {G : Graph} (hwf : WF G) {src : Int} (hnc : NoNegCycle G src)
    (hb : PathSumsInIntRange G src) (h0 : 0 ≤ src) (h1 : src < G.NumVertices) (fuel : Nat)
    (hf : G.NumVertices.toNat ≤ fuel) :
    ∃ t, whileLoop Dijkstra_cond (Dijkstra_body G) fuel (Dijkstra_init G src) = .ok t ∧
      DijkAcyc G src t.unvisitedQ t.distance t.predecessor := by
  obtain ⟨t, h1, h2, _⟩ := whileLoop_total Dijkstra_cond (Dijkstra_body G)
    (fun st => DijkW G src st ∧ DijkAcyc G src st.unvisitedQ st.distance st.predecessor)
    (fun st => st.unvisitedQ.length) (fun s hI hc => DijkAcyc_step hwf hnc hb s hI hc) fuel _
    ⟨DijkW_init G src h0 h1, DijkAcyc_init G src h0 h1⟩ (by simp [Dijkstra_init]; omega)
  exact ⟨t, h1, h2.2⟩

/-- Without a cycle of predecessor links, the links from a vertex end at a vertex whose
predecessor is `-1` after fewer than `NumVertices` links. -/
theorem DijkAcyc.root {G : Graph} {src : Int} {Q d p : List Int} (hI : DijkAcyc G src Q d p)
    (x : Int) (h0 : 0 ≤ x) (h1 : x < G.NumVertices) :
    ∃ j, j < G.NumVertices.toNat ∧ Climbs p j x ∧ arrGet p (predUp p j x) = -1 := by
  have hex : ∃ j, j < G.NumVertices.toNat ∧ arrGet p (predUp p j x) = -1 := by
    by_contra hno
    have hc : Climbs p G.NumVertices.toNat x := fun j hj h => hno ⟨j, hj, h⟩
    have hval := Climbs.vertices_valid (fun z z0 z1 hz => (hI.pred z z0 z1 hz).1) h0 h1 hc
    have hnd : ¬ ((List.range (G.NumVertices.toNat + 1)).map
        (fun i => predUp p i x)).Nodup := by
      intro hnd
      have := length_le_of_nodup_range _ G.NumVertices hnd (by
        intro z hz
        rw [List.mem_map] at hz
        obtain ⟨i, hi, rfl⟩ := hz
        rw [List.mem_range] at hi
        exact hval i (by omega))
      simp only [List.length_map, List.length_range] at this
      omega
    rw [List.nodup_map_iff_inj_on (List.nodup_range _)] at hnd
    push_neg at hnd
    obtain ⟨a, ha, b, hb, hab, hne⟩ := hnd
    rw [List.mem_range] at ha hb
    have key : ∀ a b : Nat, a < b → b ≤ G.NumVertices.toNat →
        predUp p a x = predUp p b x → False := by
      intro a b hlt hb hab
      have e : b = (b - a) + a := by omega
      have hc2 : Climbs p ((b - a) + a) x := hc.mono (by omega)
      have hcyc : predUp p (b - a) (predUp p a x) = predUp p a x := by
        rw [← predUp_add, ← e, hab]
      obtain ⟨v0, v1⟩ := hval a (by omega)
      exact hI.acyc _ v0 v1 (b - a) (by omega) hc2.shift hcyc
    rcases Nat.lt_or_gt_of_ne hne with h | h
    · exact key a b h (by omega) hab
    · exact key b a h (by omega) hab.symm
  have hP : ∃ j, arrGet p (predUp p j x) = -1 := by
    obtain ⟨j, _, hj⟩ := hex
    exact ⟨j, hj⟩
  obtain ⟨j, hj1, hj2⟩ := hex
  refine ⟨Nat.find hP, lt_of_le_of_lt (Nat.find_min' hP hj2) hj1, ?_, Nat.find_spec hP⟩
  intro i hi
  exact Nat.find_min hP hi

/-- The walk along the predecessor links makes one step per link. -/
theorem walk_run (p : List Int) (dest : Int) : ∀ k, Climbs p k dest →
    ∃ S : Stack, S.length = k ∧
      Steps (fun vs : Int × Stack => arrGet p vs.1 != -1) (Dijkstra_walkBody p) k
        (dest, []) (predUp p k dest, S) := by
  intro k
  induction k with
  | zero => intro _; exact ⟨[], rfl, Steps.refl _⟩
  | succ k ih =>
    intro hc
    obtain ⟨S, hS, hsteps⟩ := ih (hc.mono (by omega))
    refine ⟨Push S (predUp p k dest), by simp [Push, hS], ?_⟩
    exact hsteps.trans (Steps.one (by simpa using hc k (by omega)) rfl)

/-- Termination of `Dijkstra` when no negative cycle can be reached from `src` and the sums
stay in the range of `int`: after the main loop the walk from `dest` ends after fewer than
`NumVertices` steps, and `Dijkstra` returns an array. -/
theorem Dijkstra_walk_ends {G : Graph} (hwf : WF G) {src dest : Int}
    (hnc : NoNegCycle G src) (hb : PathSumsInIntRange G src) (h0 : 0 ≤ src)
    (h1 : src < G.NumVertices) (h2 : 0 ≤ dest) (h3 : dest < G.NumVertices)
    (t : DijkstraState)
    (ht : whileLoop Dijkstra_cond (Dijkstra_body G) G.NumVertices.toNat
      (Dijkstra_init G src) = .ok t) :
    ∃ (j : Nat) (vs : Int × Stack),
      j ≤ G.NumVertices.toNat ∧
      Steps (fun vs : Int × Stack => arrGet t.predecessor vs.1 != -1)
        (Dijkstra_walkBody t.predecessor) j (dest, []) vs ∧
      arrGet t.predecessor vs.1 = -1 ∧
      (Push vs.2 src).length ≤ G.NumVertices.toNat ∧
      ∀ fuel, G.NumVertices.toNat ≤ fuel →
        ∃ r, Dijkstra fuel G src dest = .ok (some r) := by
  obtain ⟨t2, ht2, hI⟩ := Dijkstra_main_acyc hwf hnc hb h0 h1 _ (le_refl _)
  rw [ht] at ht2
  cases ht2
  obtain ⟨j, hj, hc, hroot⟩ := hI.root dest h2 h3
  obtain ⟨S, hS, hsteps⟩ := walk_run t.predecessor dest j hc
  refine ⟨j, (predUp t.predecessor j dest, S), by omega, hsteps, hroot, ?_, ?_⟩
  · simp only [Push, List.length_cons, hS]
    omega
  · intro fuel hf
    rw [Dijkstra_unfold fuel G src dest h0 h1 h2 h3,
      whileLoop_mono _ _ _ _ _ ht fuel hf]
    simp only
    rw [hsteps.whileLoop (by simp [hroot]) fuel (by omega)]
    simp only
    split
    · exact ⟨_, rfl⟩
    · exact ⟨_, rfl⟩

/-! ### Discharging the hypotheses on a given graph -/

/-- With non-negative weights no sequence of hops has a negative weight. -/
theorem pathWeight_nonneg {G : Graph} (hwf : WF G) (hnn : NonNegWeights G) (q : List Int) :
    IsPath G q → 0 ≤ pathWeight G q := by
  induction q with
  | nil => intro _; simp [pathWeight]
  | cons a r ih =>
    intro hp
    cases r with
    | nil => simp [pathWeight]
    | cons b t =>
      unfold IsPath at hp
      rw [List.chain'_cons] at hp
      have h1 := wt_nonneg hwf hnn hp.1
      have h2 := ih hp.2
      simp only [pathWeight] at h2 ⊢
      omega

/-- With non-negative weights no cycle has a negative weight. -/
theorem NoNegCycle_of_NonNegWeights {G : Graph} (hwf : WF G) (hnn : NonNegWeights G)
    (src : Int) : NoNegCycle G src :=
  fun q hq _ _ _ => pathWeight_nonneg hwf hnn q hq

/-- With non-negative weights, sums below `INT_MAX` are sums in the range of `int`. -/
theorem PathSumsInIntRange_of_NonNegWeights {G : Graph} (hwf : WF G)
    (hnn : NonNegWeights G) {src : Int} (hb : PathSumsBelowIntMax G src) :
    PathSumsInIntRange G src := by
  intro q hq hh hl
  have h2 := pathWeight_nonneg hwf hnn q hq
  have h3 := hb q hq hh hl
  exact ⟨by omega, le_of_lt h3⟩

/-- A graph whose edges all go up in a ranking of the vertices has no cycle. -/
theorem NoNegCycle_of_rank {G : Graph} (hwf : WF G) (src : Int) (r : Int → Nat)
    (hcheck : ((List.range G.NumVertices.toNat).all
      (fun n : Nat => (edgesOf G (n : Int)).all
        (fun e => decide (r e.src < r e.dest)))) = true) :
    NoNegCycle G src := by
  have hadj : ∀ u w, Adj G u w → r u < r w := by
    intro u w h
    obtain ⟨u0, u1, e, he, hd⟩ := h
    have h1 := edges_check G _ hcheck u u0 u1 e he
    rw [(hwf.edge_ok u u0 u1 e he).1, hd] at h1
    simpa using h1
  have key : ∀ (q : List Int) (a b : Int), IsPath G (a :: q) → q ≠ [] →
      (a :: q).getLast? = some b → r a < r b := by
    intro q
    induction q with
    | nil => intro a b _ h; exact absurd rfl h
    | cons c t ih =>
      intro a b hp _ hl
      unfold IsPath at hp
      rw [List.chain'_cons] at hp
      rw [List.getLast?_cons_cons] at hl
      have h1 := hadj a c hp.1
      cases t with
      | nil =>
        simp only [List.getLast?_singleton, Option.some.injEq] at hl
        rw [← hl]; exact h1
      | cons e t2 =>
        have h2 := ih c b hp.2 (by simp) hl
        omega
  intro q hq hlen hhl _
  exfalso
  cases q with
  | nil => simp at hlen
  | cons a t =>
    cases t with
    | nil => simp at hlen
    | cons c t2 =>
      have hl : (a :: c :: t2).getLast? = some a := by
        rw [← hhl]; rfl
      have := key (c :: t2) a a hq (by simp) hl
      omega

/-- The weight of a path is bounded, in both directions, by its length times a bound on the
weights of the hops. -/
theorem pathWeight_abs_le_length (G : Graph) (W : Int) (hW : 0 ≤ W)
    (hmax : ∀ u w, Adj G u w → -W ≤ wt G u w ∧ wt G u w ≤ W) (q : List Int) :
    IsPath G q → -((q.length : Int) * W) ≤ pathWeight G q ∧
      pathWeight G q ≤ (q.length : Int) * W := by
  induction q with
  | nil => intro _; simp [pathWeight]
  | cons a r ih =>
    intro hp
    cases r with
    | nil => simp [pathWeight, hW]
    | cons b t =>
      unfold IsPath at hp
      rw [List.chain'_cons] at hp
      have h1 := hmax a b hp.1
      have h2 := ih hp.2
      simp only [pathWeight, List.length_cons, Nat.cast_add, Nat.cast_one] at h2 ⊢
      constructor <;> nlinarith

theorem PathSumsInIntRange_of_bound {G : Graph} (hwf : WF G) (src W : Int) (hW : 0 ≤ W)
    (hmax : ((List.range G.NumVertices.toNat).all
      (fun n : Nat => (edgesOf G (n : Int)).all
        (fun e => decide (-W ≤ e.weight ∧ e.weight ≤ W)))) = true)
    (hN : (G.NumVertices + 1) * W ≤ INT_MAX) : PathSumsInIntRange G src := by
  intro q hq _ hlen
  have hwt : ∀ u w, Adj G u w → -W ≤ wt G u w ∧ wt G u w ≤ W := by
    intro u w hadj
    obtain ⟨e, he, _, hw⟩ := (getEdgeWeight_Adj hwf hadj).2.1
    rw [← hw]
    simpa using edges_check G _ hmax u hadj.1 hadj.2.1 e he
  have h1 := pathWeight_abs_le_length G W hW hwt q hq
  have h2 : (q.length : Int) ≤ G.NumVertices + 1 := by
    have := hwf.nv_nonneg
    omega
  have h3 : (q.length : Int) * W ≤ (G.NumVertices + 1) * W :=
    mul_le_mul_of_nonneg_right h2 hW
  unfold INT_MAX at hN ⊢
  constructor <;> omega

theorem Built_negEdgeGraph : Built negEdgeGraph :=
  Built_applyOps _ _ (Built.create 2 emptyGraph2 (by decide))

theorem NoNegCycle_negEdgeGraph : NoNegCycle negEdgeGraph 0 :=
  NoNegCycle_of_rank Built_negEdgeGraph.wf 0
    (fun v => if v = 0 then 0 else if v = 2 then 1 else 2) (by decide)

theorem PathSums_negEdgeGraph : PathSumsInIntRange negEdgeGraph 0 :=
  PathSumsInIntRange_of_bound Built_negEdgeGraph.wf 0 5 (by decide) (by decide) (by decide)

theorem Built_wrapGraph : Built wrapGraph :=
  Built_applyOps _ _ (Built.create 2 emptyGraph2 (by decide))

/-- A walk along predecessors that never meets `-1` has no end. -/
theorem walk_without_root (p : List Int) (N : Int)
    (hp : ∀ v, 0 ≤ v → v < N → 0 ≤ arrGet p v ∧ arrGet p v < N) (fuel : Nat) :
    ∀ (v : Int) (S : Stack), 0 ≤ v → v < N →
    whileLoop (fun vs : Int × Stack => arrGet p vs.1 != -1) (Dijkstra_walkBody p) fuel
      (v, S) = .error .outOfFuel := by
  induction fuel with
  | zero =>
    intro v S v0 v1
    have := hp v v0 v1
    have hc : (arrGet p v != -1) = true := by
      simp only [bne_iff_ne, ne_eq]; omega
    simp only [whileLoop, hc, if_true]
  | succ n ih =>
    intro v S v0 v1
    have h := hp v v0 v1
    have hc : (arrGet p v != -1) = true := by
      simp only [bne_iff_ne, ne_eq]; omega
    rw [whileLoop_step _ _ n (v, S) (arrGet p v, Push S v) hc rfl]
    exact ih _ _ h.1 h.2

/-! ## AddEdges (main.c) -/

theorem SameNames.addEdge {G G1 : Graph} (h : SameNames G G1) (s d w : Int) :
    SameNames G (AddEdge G1 s d w).1 := by
  obtain ⟨h1, h2, h3⟩ := h
  have hf := AddEdge_fields G1 s d w
  exact ⟨hf.2.2.1.trans h1, hf.1.trans h2, (AddEdge_NumVertices G1 s d w).trans h3⟩

theorem edgeOps_append (a b : List Edge) : edgeOps (a ++ b) = edgeOps a ++ edgeOps b := by
  simp [edgeOps]

/-- In a graph built by `CreateGraph`, `AddVertex` and `AddEdge`, every vertex has a name. -/
theorem Built.vertex_named {G : Graph} (hG : Built G) (v : Int) (h0 : 0 ≤ v)
    (h1 : v < G.NumVertices) : ∃ name, Vertex2Name G v = some name := by
  induction hG with
  | create N G h =>
    have := NumVertices_CreateGraph N G h
    omega
  | addVertex G name hB ih =>
    rw [AddVertex_NumVertices] at h1
    rw [Vertex2Name_AddVertex hB name v h0 h1]
    by_cases hv : v = G.NumVertices
    · exact ⟨name, by rw [if_pos hv]⟩
    · rw [if_neg hv]
      exact ih (by omega)
  | addEdge G s d w _ ih =>
    rw [Vertex2Name_AddEdge]
    rw [AddEdge_NumVertices] at h1
    exact ih h1

/-- In a graph built by `CreateGraph`, `AddVertex` and `AddEdge`, `Name2Vertex` returns `-1`
or the id of a vertex, and the string looked up is what `value.Word` held when that vertex
was added. -/
theorem Name2Vertex_valid {G : Graph} (hG : Built G) (x : List Nat) :
    Name2Vertex G x = -1 ∨
      (0 ≤ Name2Vertex G x ∧ Name2Vertex G x < G.NumVertices ∧
        ∃ name, Vertex2Name G (Name2Vertex G x) = some name ∧
          AddVertex_word name (Name2Vertex G x) = x) := by
  induction hG with
  | create N G h =>
    left
    unfold CreateGraph at h
    split at h
    · simp at h
    · simp only [Option.some.injEq] at h
      subst h
      rfl
  | addVertex G name hB ih =>
    have hnn := hB.wf.nv_nonneg
    rw [Name2Vertex_AddVertex, AddVertex_NumVertices]
    by_cases hx : x = AddVertex_word name G.NumVertices
    · right
      rw [if_pos hx, Vertex2Name_AddVertex hB name _ hnn (by omega), if_pos rfl]
      exact ⟨hnn, by omega, name, rfl, hx.symm⟩
    · rw [if_neg hx]
      rcases ih with h | ⟨h0, h1, h2⟩
      · exact Or.inl h
      · right
        have hne : ¬ Name2Vertex G x = G.NumVertices := by omega
        rw [Vertex2Name_AddVertex hB name _ h0 (by omega), if_neg hne]
        exact ⟨h0, by omega, h2⟩
  | addEdge G s d w _ ih =>
    rw [Name2Vertex_AddEdge, AddEdge_NumVertices, Vertex2Name_AddEdge]
    exact ih

/-- A pass of the innermost loop of `AddEdges` is the call of `AddEdge` for its edge. -/
theorem AddEdges_try_run {G : Graph} (hG : Built G) (v : Int) (hv0 : 0 ≤ v)
    (hv1 : v < G.NumVertices) (temp : List Nat) (G1 : Graph) (hs : SameNames G G1) :
    AddEdges_try v G1 temp = .ok (applyOps G1 (edgeOps (tryEdges G v temp))) ∧
      SameNames G (applyOps G1 (edgeOps (tryEdges G v temp))) := by
  have hn : Name2Vertex G1 temp = Name2Vertex G temp := by
    unfold Name2Vertex; rw [hs.1]
  unfold AddEdges_try tryEdges
  rw [hn]
  by_cases hc : Name2Vertex G temp ≥ 0 ∧ Name2Vertex G temp ≠ v
  · rw [if_pos hc, if_pos hc]
    have hval : 0 ≤ Name2Vertex G temp ∧ Name2Vertex G temp < G.NumVertices := by
      rcases Name2Vertex_valid hG temp with h | h
      · omega
      · exact ⟨h.1, h.2.1⟩
    have h1 := AddEdge_valid_snd G1 v (Name2Vertex G temp) 1 hv0 (by rw [hs.2.2]; exact hv1)
      hval.1 (by rw [hs.2.2]; exact hval.2)
    have e : applyOps G1 (edgeOps [{ src := v, dest := Name2Vertex G temp, weight := 1 }]) =
        (AddEdge G1 v (Name2Vertex G temp) 1).1 := rfl
    rw [e, h1]
    exact ⟨by simp, hs.addEdge _ _ _⟩
  · rw [if_neg hc, if_neg hc]
    exact ⟨rfl, hs⟩

/-- A loop whose passes are sequences of `AddEdge` calls is the sequence of all these
calls. -/
theorem foldlM_applyOps {α : Type} (Inv : Graph → Prop) (f : Graph → α → Except Fault Graph)
    (g : α → List Edge) (xs : List α)
    (hf : ∀ G1 x, x ∈ xs → Inv G1 →
      f G1 x = .ok (applyOps G1 (edgeOps (g x))) ∧ Inv (applyOps G1 (edgeOps (g x)))) :
    ∀ G1, Inv G1 →
      xs.foldlM f G1 = .ok (applyOps G1 (edgeOps (xs.flatMap g))) ∧
        Inv (applyOps G1 (edgeOps (xs.flatMap g))) := by
  induction xs with
  | nil =>
    intro G1 h
    exact ⟨rfl, h⟩
  | cons x r ih =>
    intro G1 h
    obtain ⟨e1, e2⟩ := hf G1 x (List.mem_cons_self _ _) h
    obtain ⟨e3, e4⟩ := ih (fun G2 y hy hI => hf G2 y (List.mem_cons_of_mem _ hy) hI) _ e2
    rw [List.foldlM_cons, e1, List.flatMap_cons, edgeOps_append, applyOps_append]
    exact ⟨e3, e4⟩

theorem AddEdges_position_run {G : Graph} (hG : Built G) (v : Int) (hv0 : 0 ≤ v)
    (hv1 : v < G.NumVertices) (word : List Nat) (i : Nat) (G1 : Graph)
    (hs : SameNames G G1) :
    AddEdges_position v word G1 i = .ok (applyOps G1 (edgeOps
        (AddEdges_letters.flatMap (fun c => tryEdges G v (word.set i c))))) ∧
      SameNames G (applyOps G1 (edgeOps
        (AddEdges_letters.flatMap (fun c => tryEdges G v (word.set i c))))) :=
  foldlM_applyOps (SameNames G) (fun G1 c => AddEdges_try v G1 (word.set i c))
    (fun c => tryEdges G v (word.set i c)) AddEdges_letters
    (fun G2 _ _ hI => AddEdges_try_run hG v hv0 hv1 _ G2 hI) G1 hs

theorem AddEdges_vertex_run {G : Graph} (hG : Built G) (v : Nat)
    (hv1 : (v : Int) < G.NumVertices) (word : List Nat)
    (hw : G.Names.getD v none = some word) (G1 : Graph) (hs : SameNames G G1) :
    AddEdges_vertex G1 v = .ok (applyOps G1 (edgeOps (vertexEdges G (v : Int) word))) ∧
      SameNames G (applyOps G1 (edgeOps (vertexEdges G (v : Int) word))) := by
  unfold AddEdges_vertex
  rw [hs.2.1, hw]
  exact foldlM_applyOps (SameNames G)
    (fun G1 i => AddEdges_position (v : Int) word G1 i)
    (fun i => AddEdges_letters.flatMap
      (fun c => tryEdges G (v : Int) (word.set i c)))
    (List.range word.length)
    (fun G2 i _ hI => AddEdges_position_run hG (v : Int) (by omega) hv1 word i G2 hI)
    G1 hs

/-- `AddEdges` is the sequence of the calls of `AddEdge` for the edges of `allEdges`, when
every vertex has a name. -/
theorem AddEdges_run {G : Graph} (hG : Built G)
    (hnames : ∀ v : Nat, (v : Int) < G.NumVertices → ∃ word, G.Names.getD v none = some word) :
    AddEdges G = .ok (applyOps G (edgeOps (allEdges G))) ∧
      SameNames G (applyOps G (edgeOps (allEdges G))) := by
  unfold AddEdges allEdges
  apply foldlM_applyOps (SameNames G) AddEdges_vertex _ _ _ G ⟨rfl, rfl, rfl⟩
  intro G1 v hv hI
  rw [List.mem_range] at hv
  have hv1 : (v : Int) < G.NumVertices := by omega
  obtain ⟨word, hw⟩ := hnames v hv1
  simp only [hw]
  exact AddEdges_vertex_run hG v hv1 word hw G1 hI

/-- A `flatMap` in which only the element `u` of a duplicate-free list contributes. -/
theorem flatMap_single {α β : Type} (l : List α) (g : α → List β) (u : α) (hnd : l.Nodup)
    (hu : u ∈ l) (hg : ∀ x ∈ l, x ≠ u → g x = []) : l.flatMap g = g u := by
  induction l with
  | nil => simp at hu
  | cons a r ih =>
    rw [List.nodup_cons] at hnd
    rw [List.flatMap_cons]
    rcases List.mem_cons.1 hu with h | h
    · subst h
      have : r.flatMap g = [] := by
        rw [List.flatMap_eq_nil_iff]
        intro x hx
        exact hg x (List.mem_cons_of_mem _ hx) (fun e => hnd.1 (e ▸ hx))
      rw [this, List.append_nil]
    · have hne : a ≠ u := fun e => hnd.1 (e ▸ h)
      rw [hg a (List.mem_cons_self _ _) hne, List.nil_append]
      exact ih hnd.2 h (fun x hx => hg x (List.mem_cons_of_mem _ hx))

/-- Writing `c` at position `i` of `a` gives `b` exactly when `b` has the length of `a`, has
`c` at position `i` and agrees with `a` elsewhere. -/
theorem set_eq_iff (a b : List Nat) (i : Nat) (c : Nat) (hi : i < a.length) :
    a.set i c = b ↔
      a.length = b.length ∧ b[i]? = some c ∧ ∀ j, j < a.length → j ≠ i → a[j]? = b[j]? := by
  constructor
  · intro h
    subst h
    refine ⟨by simp, by simp [List.getElem?_set, hi], ?_⟩
    intro j _ hj
    rw [List.getElem?_set_ne (fun e => hj e.symm)]
  · rintro ⟨hlen, hc, hrest⟩
    apply List.ext_getElem?
    intro j
    by_cases hj : j = i
    · subst hj
      rw [hc]
      simp [List.getElem?_set, hi]
    · rw [List.getElem?_set_ne (fun e => hj e.symm)]
      by_cases hjl : j < a.length
      · exact hrest j hjl hj
      · rw [List.getElem?_eq_none (by omega), List.getElem?_eq_none (by omega)]

/-- The passes of the two inner loops of `AddEdges` that produce the name `b` from another
name `a`: exactly one when the names differ in one letter, none otherwise. -/
theorem passes_for_name {β : Type} (a b : List Nat) (hab : a ≠ b) (e : β) :
    (differInOneLetter a b →
      (List.range a.length).flatMap (fun i =>
        AddEdges_letters.flatMap (fun c => if a.set i c = b then [e] else [])) = [e]) ∧
    (¬ differInOneLetter a b →
      (List.range a.length).flatMap (fun i =>
        AddEdges_letters.flatMap (fun c => if a.set i c = b then [e] else [])) = []) := by
  constructor
  · intro hd
    obtain ⟨hlen, i0, hi0, hne, hrest, c0, hc0, hb0⟩ := hd
    have key : ∀ i c, i < a.length → (a.set i c = b ↔ i = i0 ∧ c = c0) := by
      intro i c hi
      rw [set_eq_iff a b i c hi]
      constructor
      · rintro ⟨_, hc, hr⟩
        have hii : i = i0 := by
          by_contra hx
          exact hne (hr i0 hi0 (fun e => hx e.symm))
        subst hii
        rw [hb0] at hc
        exact ⟨rfl, (Option.some.inj hc).symm⟩
      · rintro ⟨rfl, rfl⟩
        exact ⟨hlen, hb0, hrest⟩
    rw [flatMap_single (List.range a.length) _ i0 (List.nodup_range _)
      (List.mem_range.2 hi0)]
    · rw [flatMap_single AddEdges_letters _ c0 (by decide) hc0]
      · rw [if_pos ((key i0 c0 hi0).2 ⟨rfl, rfl⟩)]
      · intro c _ hc
        rw [if_neg (fun h => hc ((key i0 c hi0).1 h).2)]
    · intro i hi hii
      rw [List.mem_range] at hi
      rw [List.flatMap_eq_nil_iff]
      intro c _
      rw [if_neg (fun h => hii ((key i c hi).1 h).1)]
  · intro hd
    rw [List.flatMap_eq_nil_iff]
    intro i hi
    rw [List.mem_range] at hi
    rw [List.flatMap_eq_nil_iff]
    intro c hc
    rw [if_neg]
    intro h
    apply hd
    obtain ⟨h1, h2, h3⟩ := (set_eq_iff a b i c hi).1 h
    refine ⟨h1, i, hi, ?_, h3, c, hc, h2⟩
    intro heq
    apply hab
    apply List.ext_getElem?
    intro j
    by_cases hj : j = i
    · rw [hj]; exact heq
    · by_cases hjl : j < a.length
      · exact h3 j hjl hj
      · rw [List.getElem?_eq_none (by omega), List.getElem?_eq_none (by omega)]

/-- Differing in one letter goes both ways when the first name is made of letters
`'a' .. 'z'`. -/
theorem differInOneLetter_symm (a b : List Nat) (ha : ∀ c ∈ a, c ∈ AddEdges_letters)
    (h : differInOneLetter a b) : differInOneLetter b a := by
  obtain ⟨hlen, i, hi, hne, hrest, _⟩ := h
  refine ⟨hlen.symm, i, by omega, fun e => hne e.symm,
    fun j hj hji => (hrest j (by omega) hji).symm, a[i], ha _ (List.getElem_mem _), ?_⟩
  exact List.getElem?_eq_getElem hi

theorem addedEdges_edgeOps (es : List Edge) : ∀ G : Graph,
    (∀ e ∈ es, (0 ≤ e.src ∧ e.src < G.NumVertices) ∧ 0 ≤ e.dest ∧ e.dest < G.NumVertices) →
    addedEdges G (edgeOps es) = es := by
  induction es with
  | nil => intro G _; rfl
  | cons e r ih =>
    intro G h
    obtain ⟨⟨h1, h2⟩, h3, h4⟩ := h e (List.mem_cons_self _ _)
    have hok := AddEdge_valid_snd G e.src e.dest e.weight h1 h2 h3 h4
    have hr := ih (AddEdge G e.src e.dest e.weight).1 (by
      intro x hx
      rw [AddEdge_NumVertices]
      exact h x (List.mem_cons_of_mem _ hx))
    show addedEdges G (Op.addEdge e.src e.dest e.weight :: edgeOps r) = e :: r
    simp only [addedEdges, hok, if_true, hr]

/-- What the edges of `tryEdges` look like. -/
theorem mem_tryEdges {G : Graph} (hG : Built G) (v : Int) (temp : List Nat) (e : Edge)
    (he : e ∈ tryEdges G v temp) :
    e.src = v ∧ e.dest = Name2Vertex G temp ∧ e.weight = 1 ∧ e.dest ≠ v ∧
      0 ≤ e.dest ∧ e.dest < G.NumVertices ∧
      ∃ name, Vertex2Name G e.dest = some name ∧ AddVertex_word name e.dest = temp := by
  unfold tryEdges at he
  split at he
  · rename_i hc
    simp only [List.mem_singleton] at he
    subst he
    rcases Name2Vertex_valid hG temp with h | h
    · simp only at hc ⊢; omega
    · exact ⟨rfl, rfl, rfl, hc.2, h.1, h.2.1, h.2.2⟩
  · simp at he

theorem mem_vertexEdges {G : Graph} (hG : Built G) (v : Int) (word : List Nat) (e : Edge)
    (he : e ∈ vertexEdges G v word) :
    e.src = v ∧ e.weight = 1 ∧ e.dest ≠ v ∧ 0 ≤ e.dest ∧ e.dest < G.NumVertices := by
  unfold vertexEdges at he
  rw [List.mem_flatMap] at he
  obtain ⟨i, _, he⟩ := he
  rw [List.mem_flatMap] at he
  obtain ⟨c, _, he⟩ := he
  obtain ⟨h1, _, h3, h4, h5, h6, _⟩ := mem_tryEdges hG v _ e he
  exact ⟨h1, h3, h4, h5, h6⟩

theorem mem_allEdges {G : Graph} (hG : Built G) (e : Edge) (he : e ∈ allEdges G) :
    (0 ≤ e.src ∧ e.src < G.NumVertices) ∧ 0 ≤ e.dest ∧ e.dest < G.NumVertices := by
  unfold allEdges at he
  rw [List.mem_flatMap] at he
  obtain ⟨v, hv, he⟩ := he
  rw [List.mem_range] at hv
  split at he
  · simp at he
  · obtain ⟨h1, _, _, h4, h5⟩ := mem_vertexEdges hG _ _ e he
    exact ⟨by rw [h1]; omega, h4, h5⟩

/-- The edges `u -> d` that `AddEdges` adds are those of the passes for the name of `u`. -/
theorem filter_allEdges {G : Graph} (hG : Built G) (u : Nat) (hu : (u : Int) < G.NumVertices)
    (word : List Nat) (hw : G.Names.getD u none = some word) (d : Int) :
    (allEdges G).filter (fun c => decide (c.src = (u : Int) ∧ c.dest = d)) =
      (vertexEdges G (u : Int) word).filter (fun c => decide (c.dest = d)) := by
  unfold allEdges
  rw [List.filter_flatMap, flatMap_single (List.range G.NumVertices.toNat) _ u
    (List.nodup_range _) (List.mem_range.2 (by omega))]
  · simp only [hw]
    apply List.filter_congr
    intro e he
    have := (mem_vertexEdges hG _ _ e he).1
    simp [this]
  · intro v _ hvu
    rw [List.filter_eq_nil_iff]
    intro e he
    split at he
    · simp at he
    · have := (mem_vertexEdges hG _ _ e he).1
      have hne : ¬ ((v : Int) = (u : Int)) := by omega
      simp [this, hne]

/-- The edges to `d` among the edges of the passes for the vertex `u` named `a`, when `d`
is another vertex and `b` is the one name that `Name2Vertex` resolves to `d`. -/
theorem filter_vertexEdges (G : Graph) (u d : Int) (hud : d ≠ u)
    (hd0 : 0 ≤ d) (a b : List Nat)
    (hb : ∀ temp : List Nat, Name2Vertex G temp = d ↔ temp = b) :
    (vertexEdges G u a).filter (fun c => decide (c.dest = d)) =
      (List.range a.length).flatMap (fun i => AddEdges_letters.flatMap (fun c =>
        if a.set i c = b then [({ src := u, dest := d, weight := 1 } : Edge)] else [])) := by
  unfold vertexEdges
  rw [List.filter_flatMap]
  congr 1
  funext i
  rw [List.filter_flatMap]
  congr 1
  funext c
  by_cases hc : a.set i c = b
  · have hn : Name2Vertex G (a.set i c) = d := (hb _).2 hc
    have hcond : Name2Vertex G (a.set i c) ≥ 0 ∧
        Name2Vertex G (a.set i c) ≠ u := by
      rw [hn]; exact ⟨hd0, hud⟩
    rw [if_pos hc]
    unfold tryEdges
    rw [if_pos hcond, hn]
    simp
  · have hn : ¬ Name2Vertex G (a.set i c) = d := fun h => hc ((hb _).1 h)
    rw [if_neg hc]
    unfold tryEdges
    split
    · simp [hn]
    · rfl

/-- In a graph built from `CreateGraph` with pairwise distinct names of fewer than 64 bytes
every vertex has a name, which is one of the names added and which `Name2Vertex` resolves to
the vertex and to no other name. -/
theorem vertex_name (N : Int) (E : Graph) (ops0 : List Op) (hc : CreateGraph N = some E)
    (hnd : (addedNames ops0).Nodup) (hfit : ∀ name ∈ addedNames ops0, name.length < 64)
    (v : Int) (hv0 : 0 ≤ v) (hv1 : v < (applyOps E ops0).NumVertices) :
    ∃ name : List Nat, name ∈ addedNames ops0 ∧
      Vertex2Name (applyOps E ops0) v = some name ∧
      (applyOps E ops0).Names.getD v.toNat none = some name ∧
      ∀ temp : List Nat, Name2Vertex (applyOps E ops0) temp = v ↔ temp = name := by
  have hB : Built (applyOps E ops0) := Built_applyOps ops0 E (Built.create N E hc)
  obtain ⟨r1, r2⟩ := names_roundtrip N E hc ops0 hnd hfit
  obtain ⟨name, hn⟩ := r2 v hv0 hv1
  obtain ⟨e1, e2⟩ := r1 _ hn
  simp only at e1 e2
  have hmem := (addedVertices_valid N E ops0 hc _ hn).1
  refine ⟨name, hmem, e2, ?_, ?_⟩
  · rw [Vertex2Name_eq _ v hv0 hv1] at e2
    rw [List.getD_eq_getElem?_getD]
    exact e2
  · intro temp
    constructor
    · intro h
      rcases Name2Vertex_valid hB temp with h2 | ⟨_, _, nm, h2, h3⟩
      · omega
      · rw [h, e2] at h2
        rw [← Option.some.inj h2, h, AddVertex_word_fit name v (hfit name hmem)] at h3
        exact h3.symm
    · intro h
      rw [h]
      exact e1

/-- After `AddEdges` on a graph built from `CreateGraph` without an edge, the edges `u -> d`
are the edges to `d` of the passes for the name of `u`. -/
theorem AddEdges_result (N : Int) (E : Graph) (ops0 : List Op) (hc : CreateGraph N = some E)
    (hno : addedEdges E ops0 = []) :
    AddEdges (applyOps E ops0) =
      .ok (applyOps (applyOps E ops0) (edgeOps (allEdges (applyOps E ops0)))) ∧
    SameNames (applyOps E ops0)
      (applyOps (applyOps E ops0) (edgeOps (allEdges (applyOps E ops0)))) ∧
    ∀ (u d : Int) (nu : List Nat), 0 ≤ u → u < (applyOps E ops0).NumVertices →
      Vertex2Name (applyOps E ops0) u = some nu →
      (edgesOf (applyOps (applyOps E ops0) (edgeOps (allEdges (applyOps E ops0)))) u).filter
          (fun c => decide (c.dest = d)) =
        ((vertexEdges (applyOps E ops0) u nu).filter
          (fun c => decide (c.dest = d))).reverse := by
  have hB : Built (applyOps E ops0) := Built_applyOps ops0 E (Built.create N E hc)
  have hwf := hB.wf
  have hget : ∀ (v : Int) (name : List Nat), 0 ≤ v → v < (applyOps E ops0).NumVertices →
      Vertex2Name (applyOps E ops0) v = some name →
      (applyOps E ops0).Names.getD v.toNat none = some name := by
    intro v name h0 h1 h
    rw [Vertex2Name_eq _ v h0 h1] at h
    rw [List.getD_eq_getElem?_getD]
    exact h
  have hnames : ∀ v : Nat, (v : Int) < (applyOps E ops0).NumVertices →
      ∃ word, (applyOps E ops0).Names.getD v none = some word := by
    intro v hv
    obtain ⟨name, h3⟩ := hB.vertex_named (v : Int) (by omega) hv
    exact ⟨name, by simpa using hget (v : Int) name (by omega) hv h3⟩
  obtain ⟨hrun, hsame⟩ := AddEdges_run hB hnames
  refine ⟨hrun, hsame, ?_⟩
  intro u d nu hu0 hu1 hnu
  have hu1b : u < (applyOps (applyOps E ops0)
      (edgeOps (allEdges (applyOps E ops0)))).NumVertices := by
    rw [hsame.2.2]; exact hu1
  rw [filter_edgesOf_applyOps _ _ hwf u d hu0 hu1b,
    addedEdges_edgeOps _ _ (fun e he => mem_allEdges hB e he), if_pos hu1]
  have hempty : edgesOf (applyOps E ops0) u = [] := by
    apply List.eq_nil_iff_forall_not_mem.2
    intro e he
    have := ((mem_edgesOf_history N E ops0 hc u hu0 hu1 e).1 he).1
    rw [hno] at this
    simp at this
  rw [hempty, List.filter_nil, List.append_nil]
  have h3 := hget u nu hu0 hu1 hnu
  have hcast : ((u.toNat : Nat) : Int) = u := by omega
  have := filter_allEdges hB u.toNat (by omega) nu h3 d
  rw [hcast] at this
  rw [this]
/-! ## The claims -/

/-- C1: for a graph built by `CreateGraph`, `AddVertex` and `AddEdge` whose weights are
non-negative and whose path sums from `src` stay below `INT_MAX`, valid `src != dest` and
`dest` reachable from `src`, `Dijkstra(G, src, dest)` returns (with fuel at least
`NumVertices + 1`) a sequence followed by `-1` that is a path of `G` from `src` to `dest`
(it starts with `src`, ends with `dest`, and every hop is an edge) and whose weight, the
sum of `getEdgeWeight` over its hops, is at most the weight of every path from `src` to
`dest`. -/
theorem C1_Dijkstra_returns_lightest_path (G : Graph) (hG : Built G) (src dest : Int)
    (h0 : 0 ≤ src) (h1 : src < G.NumVertices) (h2 : 0 ≤ dest) (h3 : dest < G.NumVertices)
    (hne : src ≠ dest) (hnn : NonNegWeights G) (hb : PathSumsBelowIntMax G src)
    (hr : Reach G src dest) :
    ∃ path : List Int,
      (∀ fuel, G.NumVertices.toNat + 1 ≤ fuel →
        Dijkstra fuel G src dest = .ok (some (path ++ [-1]))) ∧
      IsPath G path ∧ path.head? = some src ∧ path.getLast? = some dest ∧
      ∀ q, IsPath G q → q.head? = some src → q.getLast? = some dest →
        pathWeight G path ≤ pathWeight G q := by
  obtain ⟨path, hres, hp, hh, hl, hmin⟩ :=
    Dijkstra_correct hG.wf hnn h0 h1 h2 h3 hb hr
  refine ⟨path, ?_, hp, hh, hl, hmin⟩
  intro fuel hf
  rw [hres fuel hf]
  have : ¬ path.length = 1 := by
    intro hlen
    obtain ⟨a, ha⟩ := List.length_eq_one.1 hlen
    rw [ha] at hh hl
    simp only [List.head?_cons, List.getLast?_singleton, Option.some.injEq] at hh hl
    exact hne (hh.symm.trans hl)
  simp [this]

/-- Witness of C1: cat -> bat -> bad, from cat to bad. -/
theorem C1_witness :
    Built catGraph ∧ NonNegWeights catGraph ∧ PathSumsBelowIntMax catGraph 0 ∧
    Reach catGraph 0 2 ∧
    Dijkstra 5 catGraph 0 2 = .ok (some [0, 1, 2, -1]) ∧
    ∃ path : List Int,
      (∀ fuel, catGraph.NumVertices.toNat + 1 ≤ fuel →
        Dijkstra fuel catGraph 0 2 = .ok (some (path ++ [-1]))) ∧
      IsPath catGraph path ∧ path.head? = some 0 ∧ path.getLast? = some 2 ∧
      ∀ q, IsPath catGraph q → q.head? = some 0 → q.getLast? = some 2 →
        pathWeight catGraph path ≤ pathWeight catGraph q :=
  ⟨Built_catGraph, NonNegWeights_catGraph, PathSums_catGraph 0, Reach_catGraph_bad,
    by decide,
    C1_Dijkstra_returns_lightest_path catGraph Built_catGraph 0 2 (by decide) (by decide)
      (by decide) (by decide) (by decide) NonNegWeights_catGraph (PathSums_catGraph 0)
      Reach_catGraph_bad⟩

/-- C2, as stated, fails: with the single edge 0 -> 1 of weight `INT_MAX` (non-negative),
vertex 1 is reachable from 0 but `Dijkstra(G, 0, 1)` returns the array that holds only
`-1`, an empty sequence. -/
theorem C2_counterexample :
    Built maxGraph ∧ NonNegWeights maxGraph ∧ Adj maxGraph 0 1 ∧ Reach maxGraph 0 1 ∧
    Dijkstra 2 maxGraph 0 1 = .ok (some [-1]) ∧
    Dijkstra 100 maxGraph 0 1 = .ok (some [-1]) :=
  ⟨Built_maxGraph, NonNegWeights_of_check maxGraph (by decide),
    ⟨by decide, by decide, ⟨{ src := 0, dest := 1, weight := 2147483647 }, by decide, rfl⟩⟩,
    Relation.ReflTransGen.single
      ⟨by decide, by decide, ⟨{ src := 0, dest := 1, weight := 2147483647 }, by decide, rfl⟩⟩,
    by decide, by decide⟩

/-- C2, amended: for a graph built by `CreateGraph`, `AddVertex` and `AddEdge` whose
weights are non-negative and whose path sums from `src` stay below `INT_MAX`, valid
`src != dest` and `dest` reachable from `src`, `Dijkstra(G, src, dest)` returns a
non-empty sequence followed by `-1` that starts with `src`, ends with `dest`, and in
which every hop `u, w` is an edge `u -> w`, with `w` in `Neighbors(G, u)`. -/
theorem C2_Dijkstra_returns_a_path (G : Graph) (hG : Built G) (src dest : Int)
    (h0 : 0 ≤ src) (h1 : src < G.NumVertices) (h2 : 0 ≤ dest) (h3 : dest < G.NumVertices)
    (hne : src ≠ dest) (hnn : NonNegWeights G) (hb : PathSumsBelowIntMax G src)
    (hr : Reach G src dest) :
    ∃ path : List Int,
      (∀ fuel, G.NumVertices.toNat + 1 ≤ fuel →
        Dijkstra fuel G src dest = .ok (some (path ++ [-1]))) ∧
      path ≠ [] ∧ path.head? = some src ∧ path.getLast? = some dest ∧
      List.Chain' (fun u w => Adj G u w ∧
        ∃ ns, Neighbors G u = some (ns ++ [-1]) ∧ w ∈ ns) path := by
  have hwf := hG.wf
  obtain ⟨path, hres, hp, hh, hl, _⟩ := Dijkstra_correct hwf hnn h0 h1 h2 h3 hb hr
  refine ⟨path, ?_, ?_, hh, hl, ?_⟩
  · intro fuel hf
    rw [hres fuel hf]
    have : ¬ path.length = 1 := by
      intro hlen
      obtain ⟨a, ha⟩ := List.length_eq_one.1 hlen
      rw [ha] at hh hl
      simp only [List.head?_cons, List.getLast?_singleton, Option.some.injEq] at hh hl
      exact hne (hh.symm.trans hl)
    simp [this]
  · intro h; rw [h] at hh; simp at hh
  · refine List.Chain'.imp ?_ hp
    intro u w hadj
    exact ⟨hadj, nbrs G u, Neighbors_valid G u hadj.1 hadj.2.1,
      (mem_nbrs_iff_Adj hwf u hadj.1 hadj.2.1 w).2 hadj⟩

/-- Witness of the amended C2: cat -> bat -> bad gives [cat, bat, bad]. -/
theorem C2_witness :
    Built catGraph ∧ NonNegWeights catGraph ∧ PathSumsBelowIntMax catGraph 0 ∧
    Reach catGraph 0 2 ∧
    Dijkstra 5 catGraph 0 2 = .ok (some [0, 1, 2, -1]) ∧
    ∃ path : List Int,
      (∀ fuel, catGraph.NumVertices.toNat + 1 ≤ fuel →
        Dijkstra fuel catGraph 0 2 = .ok (some (path ++ [-1]))) ∧
      path ≠ [] ∧ path.head? = some 0 ∧ path.getLast? = some 2 ∧
      List.Chain' (fun u w => Adj catGraph u w ∧
        ∃ ns, Neighbors catGraph u = some (ns ++ [-1]) ∧ w ∈ ns) path :=
  ⟨Built_catGraph, NonNegWeights_catGraph, PathSums_catGraph 0, Reach_catGraph_bad,
    by decide,
    C2_Dijkstra_returns_a_path catGraph Built_catGraph 0 2 (by decide) (by decide)
      (by decide) (by decide) (by decide) NonNegWeights_catGraph (PathSums_catGraph 0)
      Reach_catGraph_bad⟩

/-- C3, on the code: `Dijkstra(G, cat, cat)` in the graph cat -> bat -> bad returns the
array that holds only `-1`, the answer for "no path", and not the single-vertex path
`[cat, -1]`. -/
theorem C3_Dijkstra_same_endpoints_returns_no_path :
    Built catGraph ∧
    (∀ fuel, catGraph.NumVertices.toNat ≤ fuel →
      Dijkstra fuel catGraph 0 0 = .ok (some [-1])) ∧
    Dijkstra 4 catGraph 0 0 ≠ .ok (some [0, -1]) :=
  ⟨Built_catGraph,
    fun fuel hf => Dijkstra_src_src Built_catGraph.wf NonNegWeights_catGraph (by decide)
      (by decide) (PathSums_catGraph 0) fuel hf,
    by decide⟩

/-- C4: for a graph built by `CreateGraph`, `AddVertex` and `AddEdge` (any weights),
`Dijkstra(G, src, dest)` is `NULL` exactly when `src` or `dest` is invalid, and for valid
`src` and `dest` with `dest` not reachable from `src` it returns (with fuel at least
`NumVertices`) the array that holds only `-1`, which is not `NULL`. -/
theorem C4_Dijkstra_null_and_unreachable (G : Graph) (hG : Built G) (src dest : Int) :
    (∀ fuel, Dijkstra fuel G src dest = .ok none ↔
      (src < 0 ∨ src ≥ G.NumVertices ∨ dest < 0 ∨ dest ≥ G.NumVertices)) ∧
    (0 ≤ src → src < G.NumVertices → 0 ≤ dest → dest < G.NumVertices →
      ¬ Reach G src dest →
      ∀ fuel, G.NumVertices.toNat ≤ fuel →
        Dijkstra fuel G src dest = .ok (some [-1]) ∧
        Dijkstra fuel G src dest ≠ .ok none) := by
  have hwf := hG.wf
  refine ⟨fun fuel => Dijkstra_null_iff fuel G src dest, ?_⟩
  intro h0 h1 h2 h3 hnr fuel hf
  obtain ⟨t, ht, hW⟩ := Dijkstra_main_W hwf src h0 h1 fuel hf
  have hp : arrGet t.predecessor dest = -1 := by
    by_contra hne
    exact hnr (hW.reach dest h2 h3 (Or.inr hne))
  have hres : Dijkstra fuel G src dest = .ok (some [-1]) := by
    rw [Dijkstra_unfold fuel G src dest h0 h1 h2 h3, ht]
    simp only
    rw [whileLoop_done _ _ _ _ (by simp [hp])]
    simp [Push]
  refine ⟨hres, ?_⟩
  rw [hres]
  simp

/-- Witness of C4: in the graph cat -> bat -> bad with the isolated vertex zzz there is
no path from cat to zzz. -/
theorem C4_witness :
    Built catGraph ∧
    ¬ Reach catGraph 0 3 ∧
    ∀ fuel, catGraph.NumVertices.toNat ≤ fuel →
      Dijkstra fuel catGraph 0 3 = .ok (some [-1]) ∧
      Dijkstra fuel catGraph 0 3 ≠ .ok none :=
  ⟨Built_catGraph, not_Reach_catGraph_zzz,
    (C4_Dijkstra_null_and_unreachable catGraph Built_catGraph 0 3).2 (by decide) (by decide)
      (by decide) (by decide) not_Reach_catGraph_zzz⟩

/-- C5: for a graph built by `CreateGraph`, `AddVertex` and `AddEdge`, `BFS(G, start)`
is `NULL` exactly for an invalid `start`; for a valid `start` it returns (with fuel at
least `NumVertices`) an array `out` followed by `-1` where `out` begins with `start`,
has no vertex twice, and holds exactly the vertices reachable from `start`. -/
theorem C5_BFS_visits_reachable_once (G : Graph) (hG : Built G) (start : Int) :
    (∀ fuel, BFS fuel G start = .ok none ↔ (start < 0 ∨ start ≥ G.NumVertices)) ∧
    (0 ≤ start → start < G.NumVertices →
      ∃ out : List Int,
        (∀ fuel, G.NumVertices.toNat ≤ fuel → BFS fuel G start = .ok (some (out ++ [-1]))) ∧
        out.head? = some start ∧ out.Nodup ∧ ∀ x, x ∈ out ↔ Reach G start x) := by
  have hwf := hG.wf
  refine ⟨fun fuel => BFS_null_iff fuel G start, ?_⟩
  intro h0 h1
  obtain ⟨t, ht, hI, hq⟩ := BFS_run hwf start h0 h1 _ (le_refl _)
  refine ⟨t.visited, ?_, BFSInv_final start t hI hq⟩
  intro fuel hf
  have := whileLoop_mono _ _ _ _ _ ht fuel hf
  have hv : ¬ (start < 0 ∨ start ≥ G.NumVertices) := by omega
  simp only [BFS, hv, if_false, this]

/-- Witness of C5 on the graph cat -> bat -> bad with the isolated vertex zzz. -/
theorem C5_witness :
    Built catGraph ∧
    BFS 4 catGraph 0 = .ok (some [0, 1, 2, -1]) ∧
    BFS 4 catGraph 3 = .ok (some [3, -1]) ∧
    ∃ out : List Int,
      (∀ fuel, catGraph.NumVertices.toNat ≤ fuel →
        BFS fuel catGraph 0 = .ok (some (out ++ [-1]))) ∧
      out.head? = some 0 ∧ out.Nodup ∧ ∀ x, x ∈ out ↔ Reach catGraph 0 x :=
  ⟨Built_catGraph, by decide, by decide,
    (C5_BFS_visits_reachable_once catGraph Built_catGraph 0).2 (by decide) (by decide)⟩

/-- C6: for a graph built by `CreateGraph`, `AddVertex` and `AddEdge`, a valid `start`
and `d >= 1`, the output of `BFSd(G, start, d)` (with fuel at least
`NumVertices + d + 1`) is `d + 1` groups, each followed by a `-1` marker, and the final
`-1`; no group contains `-1`; group 0 is `[start]`; for every `k` in `0..d` group `k` has
no vertex twice and holds exactly the vertices at hop-distance `k` from `start`, so a
group for a distance that no vertex has is empty. -/
theorem C6_BFSd_groups_are_distance_levels (G : Graph) (hG : Built G) (start d : Int)
    (h0 : 0 ≤ start) (h1 : start < G.NumVertices) (hd : 1 ≤ d) :
    ∃ groups : List (List Int),
      groups.length = d.toNat + 1 ∧
      (∀ fuel, G.NumVertices.toNat + d.toNat + 1 ≤ fuel →
        BFSd fuel G start d = .ok (some (withMarkers groups ++ [-1]))) ∧
      (∀ g ∈ groups, -1 ∉ g) ∧
      groups.head? = some [start] ∧
      (∀ k, k ≤ d.toNat →
        (groups.getD k []).Nodup ∧ ∀ x, x ∈ groups.getD k [] ↔ HopDist G start x k) ∧
      (∀ k, k ≤ d.toNat → (∀ x, ¬ HopDist G start x k) → groups.getD k [] = []) := by
  have hwf := hG.wf
  have hspec := bfsLevels_spec hwf h0 h1 d.toNat 0 [start] [start] (LevelInv_init G start)
  refine ⟨bfsLevels G d.toNat [start] [start], bfsLevels_length G _ _ _,
    fun fuel hf => BFSd_eq hwf start d h0 h1 hd fuel hf, ?_, ?_, ?_, ?_⟩
  · intro g hg hm
    have := bfsLevels_valid hwf h0 h1 d.toNat (-1) (List.mem_flatten.2 ⟨g, hg, hm⟩)
    omega
  · cases h : d.toNat <;> simp [bfsLevels]
  · intro k hk
    simpa using hspec k hk
  · intro k hk hnone
    apply List.eq_nil_iff_forall_not_mem.2
    intro x hx
    have := ((hspec k hk).2 x).1 hx
    rw [Nat.zero_add] at this
    exact hnone x this

/-- Witness of C6 on the graph cat -> bat -> bad with the isolated vertex zzz and d = 3:
the groups are [cat], [bat], [bad] and an empty one. -/
theorem C6_witness :
    Built catGraph ∧
    BFSd 8 catGraph 0 3 = .ok (some [0, -1, 1, -1, 2, -1, -1, -1]) ∧
    ∃ groups : List (List Int),
      groups.length = (3 : Int).toNat + 1 ∧
      (∀ fuel, catGraph.NumVertices.toNat + (3 : Int).toNat + 1 ≤ fuel →
        BFSd fuel catGraph 0 3 = .ok (some (withMarkers groups ++ [-1]))) ∧
      (∀ g ∈ groups, -1 ∉ g) ∧
      groups.head? = some [0] ∧
      (∀ k, k ≤ (3 : Int).toNat →
        (groups.getD k []).Nodup ∧ ∀ x, x ∈ groups.getD k [] ↔ HopDist catGraph 0 x k) ∧
      (∀ k, k ≤ (3 : Int).toNat → (∀ x, ¬ HopDist catGraph 0 x k) → groups.getD k [] = []) :=
  ⟨Built_catGraph, by decide,
    C6_BFSd_groups_are_distance_levels catGraph Built_catGraph 0 3 (by decide) (by decide)
      (by decide)⟩

/-- C7, as stated, fails: on the graph with the edges 0 -> 1, 0 -> 2, 1 -> 4, 2 -> 3 the
output of `BFSd(G, 0, 2)` has the groups [0], [1, 2], [4, 3], and the last one is not in
ascending order. -/
theorem C7_counterexample :
    Built crossGraph ∧
    BFSd 8 crossGraph 0 2 = .ok (some (withMarkers [[0], [1, 2], [4, 3]] ++ [-1])) ∧
    ¬ ∀ g ∈ ([[0], [1, 2], [4, 3]] : List (List Int)), g.Pairwise (fun a b => a < b) :=
  ⟨Built_crossGraph, by decide, by decide⟩

/-- C7, amended: for a graph built by `CreateGraph`, `AddVertex` and `AddEdge`, a valid
`start` and `d >= 1`, the output of `BFSd(G, start, d)` is the list of `d + 1` groups with
their markers; group 0 is `[start]` and group `k` holds exactly the vertices at
hop-distance `k`; groups 0 and 1 are in ascending order and every later group is the
concatenation, over the vertices `u` of the group before it in their order there, of one
run per vertex: the run of `u` is strictly ascending and holds exactly the neighbors of `u`
that are not discovered before, that is, neither in a group up to the one of `u` nor in the
run of a vertex that comes before `u` in its group. -/
theorem C7_BFSd_groups_ascending_per_parent (G : Graph) (hG : Built G) (start d : Int)
    (h0 : 0 ≤ start) (h1 : start < G.NumVertices) (hd : 1 ≤ d) :
    ∃ groups : List (List Int),
      groups.length = d.toNat + 1 ∧
      (∀ fuel, G.NumVertices.toNat + d.toNat + 1 ≤ fuel →
        BFSd fuel G start d = .ok (some (withMarkers groups ++ [-1]))) ∧
      (∀ g ∈ groups, -1 ∉ g) ∧
      groups.head? = some [start] ∧
      (∀ k, k ≤ d.toNat → ∀ x, x ∈ groups.getD k [] ↔ HopDist G start x k) ∧
      (groups.getD 0 []).Pairwise (fun a b => a < b) ∧
      (groups.getD 1 []).Pairwise (fun a b => a < b) ∧
      ∀ k, k < d.toNat → ∃ runs : List (List Int),
        List.Forall₂ (fun u run => run.Pairwise (fun a b => a < b) ∧ ∀ x ∈ run, Adj G u x)
          (groups.getD k []) runs ∧
        groups.getD (k + 1) [] = runs.flatten ∧
        ∀ i x, x ∈ runs.getD i [] ↔
          (∃ u, (groups.getD k [])[i]? = some u ∧ Adj G u x) ∧
          x ∉ (groups.take (k + 1)).flatten ∧ x ∉ (runs.take i).flatten := by
  have hwf := hG.wf
  have hspec := bfsLevels_spec hwf h0 h1 d.toNat 0 [start] [start] (LevelInv_init G start)
  have hruns := bfsLevels_runs_exact hwf h0 h1 d.toNat 0 [start] [start] []
    (LevelInv_init G start) (by intro x; simp)
  refine ⟨bfsLevels G d.toNat [start] [start], bfsLevels_length G _ _ _,
    fun fuel hf => BFSd_eq hwf start d h0 h1 hd fuel hf, ?_, ?_, ?_, ?_, ?_, ?_⟩
  · intro g hg hm
    have := bfsLevels_valid hwf h0 h1 d.toNat (-1) (List.mem_flatten.2 ⟨g, hg, hm⟩)
    omega
  · cases h : d.toNat <;> simp [bfsLevels]
  · intro k hk x
    simpa using (hspec k hk).2 x
  · rw [bfsLevels_getD_zero]
    exact List.pairwise_singleton _ _
  · obtain ⟨runs, r1, r2, _⟩ := hruns 0 (by omega)
    rw [bfsLevels_getD_zero] at r1
    rw [r2]
    cases r1 with
    | cons hrun htail =>
      cases htail
      simpa using hrun.1
  · intro k hk
    obtain ⟨runs, r1, r2, r3⟩ := hruns k hk
    refine ⟨runs, r1, r2, ?_⟩
    intro i x
    rw [r3 i x]
    simp

/-- Witness of the amended C7 on the graph with the edges 0 -> 1, 0 -> 2, 1 -> 4, 2 -> 3. -/
theorem C7_witness :
    Built crossGraph ∧
    ∃ groups : List (List Int),
      groups.length = (2 : Int).toNat + 1 ∧
      (∀ fuel, crossGraph.NumVertices.toNat + (2 : Int).toNat + 1 ≤ fuel →
        BFSd fuel crossGraph 0 2 = .ok (some (withMarkers groups ++ [-1]))) ∧
      (∀ g ∈ groups, -1 ∉ g) ∧
      groups.head? = some [0] ∧
      (∀ k, k ≤ (2 : Int).toNat → ∀ x, x ∈ groups.getD k [] ↔ HopDist crossGraph 0 x k) ∧
      (groups.getD 0 []).Pairwise (fun a b => a < b) ∧
      (groups.getD 1 []).Pairwise (fun a b => a < b) ∧
      ∀ k, k < (2 : Int).toNat → ∃ runs : List (List Int),
        List.Forall₂
          (fun u run => run.Pairwise (fun a b => a < b) ∧ ∀ x ∈ run, Adj crossGraph u x)
          (groups.getD k []) runs ∧
        groups.getD (k + 1) [] = runs.flatten ∧
        ∀ i x, x ∈ runs.getD i [] ↔
          (∃ u, (groups.getD k [])[i]? = some u ∧ Adj crossGraph u x) ∧
          x ∉ (groups.take (k + 1)).flatten ∧ x ∉ (runs.take i).flatten :=
  ⟨Built_crossGraph,
    C7_BFSd_groups_ascending_per_parent crossGraph Built_crossGraph 0 2 (by decide)
      (by decide) (by decide)⟩

/-- C8, on the code: on the complete directed graph on four vertices, where every vertex is
reachable from 0, `DFS(G, 0)` does not return the visited vertices: in its fourth iteration
a `Push` finds the `NumVertices + 1 = 5` slots of the stack in use and the function exits
(the defect of C26). In general, for a graph built by `CreateGraph`, `AddVertex` and
`AddEdge`, `DFS(G, start)` is `NULL` exactly for an invalid `start`; for a valid `start`
there is a sequence `out` that begins with `start`, has no vertex twice, holds exactly the
vertices reachable from `start` and is no longer than any list of all reachable vertices,
and `DFS` either exits on a full stack or returns `out` followed by `-1` (with fuel at least
`DFS_fuel G`); it returns `out` whenever the neighbors arrays of `G` have at most
`NumVertices` entries in all, as on the graph cat -> bat -> bad. -/
theorem C8_DFS_exits_on_a_full_stack :
    Built k4Graph ∧ (∀ x, 0 ≤ x → x < k4Graph.NumVertices → Reach k4Graph 0 x) ∧
    (∀ fuel, 4 ≤ fuel → DFS fuel k4Graph 0 = .error .exit) ∧
    DFS 3 catGraph 0 = .ok (some [0, 1, 2, -1]) ∧
    ∀ (G : Graph) (start : Int), Built G →
      (∀ fuel, DFS fuel G start = .ok none ↔ (start < 0 ∨ start ≥ G.NumVertices)) ∧
      (0 ≤ start → start < G.NumVertices →
        ∃ out : List Int,
          out.head? = some start ∧ out.Nodup ∧ (∀ x, x ∈ out ↔ Reach G start x) ∧
          (∀ l : List Int, (∀ x, Reach G start x → x ∈ l) → out.length ≤ l.length) ∧
          ((∀ fuel, DFS_fuel G ≤ fuel → DFS fuel G start = .error .exit) ∨
            (∀ fuel, DFS_fuel G ≤ fuel → DFS fuel G start = .ok (some (out ++ [-1])))) ∧
          (DFS_fuel G ≤ G.NumVertices.toNat + 1 →
            ∀ fuel, DFS_fuel G ≤ fuel →
              DFS fuel G start = .ok (some (out ++ [-1])))) := by
  refine ⟨Built_k4Graph, fun x h0 h1 => Reach_k4Graph x h0 h1, DFS_k4Graph_exits,
    by decide, ?_⟩
  intro G start hG
  have hwf := hG.wf
  refine ⟨fun fuel => DFS_null_iff fuel G start, ?_⟩
  intro h0 h1
  obtain ⟨k, t, _, _, hI, hq, hres, hsmall⟩ := DFS_exit_or_result hwf start h0 h1
  obtain ⟨f1, f2, f3⟩ := DFSInv_final start t hI hq
  refine ⟨t.visitedQ, f1, f2, f3, ?_, hres, hsmall⟩
  intro l hl
  exact (List.subperm_of_subset f2 (fun x hx => hl x ((f3 x).1 hx))).length_le

/-- C9: for a graph built by `CreateGraph`, `AddVertex` and `AddEdge`, `Neighbors(G, v)`
is `NULL` exactly for an invalid `v`; for a valid `v` it is an array `ns` followed by `-1`
where `ns` is strictly ascending, has no duplicates, and holds exactly the destinations `d`
of the edges `v -> d` that were added. -/
theorem C9_Neighbors_strictly_ascending_exact (N : Int) (G0 : Graph) (ops : List Op)
    (hc : CreateGraph N = some G0) (v : Int) :
    (Neighbors (applyOps G0 ops) v = none ↔
        (v < 0 ∨ v ≥ (applyOps G0 ops).NumVertices)) ∧
      (0 ≤ v → v < (applyOps G0 ops).NumVertices →
        ∃ ns : List Int, Neighbors (applyOps G0 ops) v = some (ns ++ [-1]) ∧
          ns.Pairwise (fun a b => a < b) ∧ ns.Nodup ∧
          ∀ d : Int, d ∈ ns ↔ ∃ e ∈ addedEdges G0 ops, e.src = v ∧ e.dest = d) := by
  have hwf0 : WF G0 := WF_CreateGraph N G0 hc
  have hwf : WF (applyOps G0 ops) := WF_applyOps ops G0 hwf0
  refine ⟨Neighbors_none_iff _ v, ?_⟩
  intro h0 h1
  refine ⟨nbrs (applyOps G0 ops) v, Neighbors_valid _ v h0 h1, nbrs_sorted hwf v h0 h1,
    nbrs_nodup hwf v h0 h1, ?_⟩
  intro d
  rw [mem_nbrs hwf v h0 h1]
  have hz := NumVertices_CreateGraph N G0 hc
  constructor
  · rintro ⟨e, he, hd⟩
    rcases (mem_edgesOf_applyOps ops G0 hwf0 v e h0 h1).1 he with ⟨h2, _⟩ | ⟨h2, h3⟩
    · omega
    · exact ⟨e, h2, h3, hd⟩
  · rintro ⟨e, he, hs, hd⟩
    exact ⟨e, (mem_edgesOf_applyOps ops G0 hwf0 v e h0 h1).2 (Or.inr ⟨he, hs⟩), hd⟩

/-- Witness of C9 on `historyABC`: the neighbors of a are b, c, each once. -/
theorem C9_witness :
    CreateGraph 2 = some emptyGraph2 ∧
    Neighbors (applyOps emptyGraph2 historyABC) 0 = some [1, 2, -1] ∧
    ∃ ns : List Int, Neighbors (applyOps emptyGraph2 historyABC) 0 = some (ns ++ [-1]) ∧
      ns.Pairwise (fun a b => a < b) ∧ ns.Nodup ∧
      ∀ d : Int, d ∈ ns ↔ ∃ e ∈ addedEdges emptyGraph2 historyABC, e.src = 0 ∧ e.dest = d :=
  ⟨by decide, by decide,
    (C9_Neighbors_strictly_ascending_exact 2 emptyGraph2 historyABC (by decide) 0).2
      (by decide) (by decide)⟩

/-- C10: in a graph built by `CreateGraph`, `AddVertex` and `AddEdge`, for valid `src` and
`dest`, `AddEdge(G, src, dest, w)` returns 1 and the edge list of `src` becomes the old
list with the new edge placed right after its longest initial run of edges with a
smaller `dest`, that is immediately before the first edge whose `dest` is at least the
new one (at the end when there is none), all old edges keeping their order; and in every
edge list of the graph the edges to one destination are the added ones in reverse order
of insertion. -/
theorem C10_AddEdge_inserts_before_first_ge (N : Int) (G0 : Graph) (ops : List Op)
    (hc : CreateGraph N = some G0) (src dest w : Int)
    (hs0 : 0 ≤ src) (hs1 : src < (applyOps G0 ops).NumVertices)
    (hd0 : 0 ≤ dest) (hd1 : dest < (applyOps G0 ops).NumVertices) :
    (AddEdge (applyOps G0 ops) src dest w).2 = 1 ∧
    edgesOf (AddEdge (applyOps G0 ops) src dest w).1 src =
      (edgesOf (applyOps G0 ops) src).takeWhile (fun c => decide (c.dest < dest)) ++
        { src := src, dest := dest, weight := w } ::
          (edgesOf (applyOps G0 ops) src).dropWhile (fun c => decide (c.dest < dest)) ∧
    (∀ v d : Int, 0 ≤ v → v < (applyOps G0 ops).NumVertices →
      (edgesOf (applyOps G0 ops) v).filter (fun c => decide (c.dest = d)) =
        ((addedEdges G0 ops).filter (fun c => decide (c.src = v ∧ c.dest = d))).reverse) := by
  have hwf0 : WF G0 := WF_CreateGraph N G0 hc
  have hwf : WF (applyOps G0 ops) := WF_applyOps ops G0 hwf0
  have hlen : (applyOps G0 ops).NumVertices.toNat ≤ (applyOps G0 ops).Vertices.length := by
    have := hwf.len_vertices; have := hwf.nv_le_cap; omega
  refine ⟨AddEdge_valid_snd _ src dest w hs0 hs1 hd0 hd1, ?_, ?_⟩
  · rw [edgesOf_AddEdge _ src dest w src hs0 hs0 hs1 hd0 hd1 hlen, if_pos rfl,
      AddEdge_link_eq]
  · intro v d hv0 hv1
    rw [filter_edgesOf_applyOps ops G0 hwf0 v d hv0 hv1]
    have hz := NumVertices_CreateGraph N G0 hc
    have : ¬ v < G0.NumVertices := by omega
    simp [this]

/-- Witness of C10: the example of the comment of `AddEdge`, the list (0,1,100),(0,2,75)
and the new edge (0,2,150); and a->b (5) followed by a->b (2). -/
theorem C10_witness :
    CreateGraph 2 = some emptyGraph2 ∧
    edgesOf (applyOps emptyGraph2 historyDoc) 0 =
      [{ src := 0, dest := 1, weight := 100 }, { src := 0, dest := 2, weight := 75 }] ∧
    edgesOf (AddEdge (applyOps emptyGraph2 historyDoc) 0 2 150).1 0 =
      [{ src := 0, dest := 1, weight := 100 }, { src := 0, dest := 2, weight := 150 },
        { src := 0, dest := 2, weight := 75 }] ∧
    edgesOf (applyOps emptyGraph2
        [Op.addVertex (cstr "a"), Op.addVertex (cstr "b"), Op.addEdge 0 1 5, Op.addEdge 0 1 2]) 0 =
      [{ src := 0, dest := 1, weight := 2 }, { src := 0, dest := 1, weight := 5 }] ∧
    ((AddEdge (applyOps emptyGraph2 historyDoc) 0 2 150).2 = 1 ∧
      edgesOf (AddEdge (applyOps emptyGraph2 historyDoc) 0 2 150).1 0 =
        (edgesOf (applyOps emptyGraph2 historyDoc) 0).takeWhile
            (fun c => decide (c.dest < 2)) ++
          { src := 0, dest := 2, weight := 150 } ::
            (edgesOf (applyOps emptyGraph2 historyDoc) 0).dropWhile
              (fun c => decide (c.dest < 2)) ∧
      (∀ v d : Int, 0 ≤ v → v < (applyOps emptyGraph2 historyDoc).NumVertices →
        (edgesOf (applyOps emptyGraph2 historyDoc) v).filter (fun c => decide (c.dest = d)) =
          ((addedEdges emptyGraph2 historyDoc).filter
            (fun c => decide (c.src = v ∧ c.dest = d))).reverse)) :=
  ⟨by decide, by decide, by decide, by decide,
    C10_AddEdge_inserts_before_first_ge 2 emptyGraph2 historyDoc (by decide) 0 2 150
      (by decide) (by decide) (by decide) (by decide)⟩

/-- C11: `AddEdge(G, src, dest, w)` returns 0 if and only if `src` or `dest` is outside
`[0, NumVertices)`, and then the graph is unchanged (the whole structure: every edge list,
`NumEdges`, `NumVertices` and the names); otherwise it returns 1, `NumEdges` increases by
exactly 1 and `NumVertices` and the names stay. A loop `src == dest` on a valid vertex is
accepted, and so is a second edge for a pair that was accepted before. -/
theorem C11_AddEdge_rejects_iff_invalid (G : Graph) (src dest w : Int) :
    ((AddEdge G src dest w).2 = 0 ↔
      (src < 0 ∨ src ≥ G.NumVertices ∨ dest < 0 ∨ dest ≥ G.NumVertices)) ∧
    ((AddEdge G src dest w).2 = 0 → (AddEdge G src dest w).1 = G) ∧
    ((AddEdge G src dest w).2 ≠ 0 →
      (AddEdge G src dest w).2 = 1 ∧
      (AddEdge G src dest w).1.NumEdges = G.NumEdges + 1 ∧
      (AddEdge G src dest w).1.NumVertices = G.NumVertices ∧
      (AddEdge G src dest w).1.Names = G.Names) ∧
    (0 ≤ src → src < G.NumVertices → (AddEdge G src src w).2 = 1) ∧
    (∀ w2 : Int, (AddEdge G src dest w).2 = 1 →
      (AddEdge (AddEdge G src dest w).1 src dest w2).2 = 1) := by
  have hsnd := AddEdge_snd G src dest w
  have hf := AddEdge_fields G src dest w
  refine ⟨?_, ?_, ?_, ?_, ?_⟩
  · rw [hsnd]
    split <;> simp_all
  · intro h0
    rw [hsnd] at h0
    have hinv : ¬ (0 ≤ src ∧ src < G.NumVertices ∧ 0 ≤ dest ∧ dest < G.NumVertices) := by
      intro hv
      have : ¬ (src < 0 ∨ src ≥ G.NumVertices ∨ dest < 0 ∨ dest ≥ G.NumVertices) := by omega
      simp [this] at h0
    rw [AddEdge_invalid G src dest w hinv]
  · intro hne
    have h1 : (AddEdge G src dest w).2 = 1 := by
      rw [hsnd] at hne ⊢
      split <;> simp_all
    refine ⟨h1, ?_, AddEdge_NumVertices G src dest w, hf.1⟩
    rw [hf.2.2.2, h1]
  · intro h0 h1
    exact AddEdge_valid_snd G src src w h0 h1 h0 h1
  · intro w2 h1
    rw [AddEdge_snd, AddEdge_NumVertices]
    rw [hsnd] at h1
    split at h1
    · simp at h1
    · rename_i hv
      simp [hv]

/-- Witness of C11: on the graph with the vertices x, y, z, the loop 0 -> 0 and a second
edge 0 -> 1 return 1 and an edge to the id 3 returns 0 and leaves the graph as it was. -/
theorem C11_witness :
    (AddEdge (applyOps emptyGraph2 historyDoc) 0 0 7).2 = 1 ∧
    (AddEdge (applyOps emptyGraph2 historyDoc) 0 1 100).2 = 1 ∧
    (AddEdge (applyOps emptyGraph2 historyDoc) 0 3 1).2 = 0 ∧
    (AddEdge (applyOps emptyGraph2 historyDoc) (-1) 0 1).2 = 0 ∧
    (AddEdge (applyOps emptyGraph2 historyDoc) 0 3 1).1 = applyOps emptyGraph2 historyDoc ∧
    (AddEdge (applyOps emptyGraph2 historyDoc) 0 0 7).1.NumEdges =
      (applyOps emptyGraph2 historyDoc).NumEdges + 1 :=
  ⟨by decide, by decide, by decide, by decide,
    (C11_AddEdge_rejects_iff_invalid (applyOps emptyGraph2 historyDoc) 0 3 1).2.1 (by decide),
    ((C11_AddEdge_rejects_iff_invalid (applyOps emptyGraph2 historyDoc) 0 0 7).2.2.1
      (by decide)).2.1⟩

/-- C12: in a graph built from `CreateGraph` by `AddVertex` and `AddEdge` calls, for
valid `src` and `dest`: when at least one edge `src -> dest` was added, `getEdgeWeight`
returns the weight of one of the added edges `src -> dest`, and that weight is at most the
weight of every added edge `src -> dest`; the scan ends without an edge (the branch that
prints 'no edge found' and exits) exactly when no edge `src -> dest` was added. -/
theorem C12_getEdgeWeight_returns_minimum (N : Int) (G0 : Graph) (ops : List Op)
    (hc : CreateGraph N = some G0) (src dest : Int)
    (hs0 : 0 ≤ src) (hs1 : src < (applyOps G0 ops).NumVertices)
    (hd0 : 0 ≤ dest) (hd1 : dest < (applyOps G0 ops).NumVertices) :
    ((∃ e ∈ addedEdges G0 ops, e.src = src ∧ e.dest = dest) →
      ∃ m : Int, getEdgeWeight (applyOps G0 ops) src dest = .ok m ∧
        (∃ e ∈ addedEdges G0 ops, e.src = src ∧ e.dest = dest ∧ e.weight = m) ∧
        ∀ e ∈ addedEdges G0 ops, e.src = src → e.dest = dest → m ≤ e.weight) ∧
    ((getEdgeWeight_loop dest (edgesOf (applyOps G0 ops) src) 0 false).2 = false ↔
      ¬ ∃ e ∈ addedEdges G0 ops, e.src = src ∧ e.dest = dest) ∧
    (getEdgeWeight (applyOps G0 ops) src dest = .error .exit ↔
      ¬ ∃ e ∈ addedEdges G0 ops, e.src = src ∧ e.dest = dest) := by
  have hwf : WF (applyOps G0 ops) := WF_applyOps ops G0 (WF_CreateGraph N G0 hc)
  have hmem := mem_edgesOf_history N G0 ops hc src hs0 hs1
  have e1 : ¬ (src < 0 ∨ src ≥ (applyOps G0 ops).NumVertices) := by omega
  have e2 : ¬ (dest < 0 ∨ dest ≥ (applyOps G0 ops).NumVertices) := by omega
  have hyes : (∃ e ∈ addedEdges G0 ops, e.src = src ∧ e.dest = dest) →
      Adj (applyOps G0 ops) src dest := by
    rintro ⟨e, he, hes, hed⟩
    exact ⟨hs0, hs1, e, (hmem e).2 ⟨he, hes⟩, hed⟩
  have hflag : (getEdgeWeight_loop dest (edgesOf (applyOps G0 ops) src) 0 false).2 = false ↔
      ¬ ∃ e ∈ addedEdges G0 ops, e.src = src ∧ e.dest = dest := by
    constructor
    · intro hf hex
      obtain ⟨_, _, hadj⟩ := hyes hex
      have := (getEdgeWeight_loop_false dest _ 0 (hwf.sorted src hs0 hs1) hadj).1
      rw [hf] at this
      exact Bool.false_ne_true this
    · intro hno
      rw [getEdgeWeight_loop_none]
      intro e he hed
      exact hno ⟨e, ((hmem e).1 he).1, ((hmem e).1 he).2, hed⟩
  refine ⟨?_, hflag, ?_⟩
  · intro hex
    obtain ⟨g1, ⟨e, he, hed, hew⟩, g3⟩ := getEdgeWeight_Adj hwf (hyes hex)
    refine ⟨wt (applyOps G0 ops) src dest, g1, ⟨e, ((hmem e).1 he).1, ((hmem e).1 he).2, hed, hew⟩,
      ?_⟩
    intro e2 he2 hs hd
    exact g3 e2 ((hmem e2).2 ⟨he2, hs⟩) hd
  · rw [← hflag]
    simp only [getEdgeWeight, e1, e2, if_false]
    cases hb : (getEdgeWeight_loop dest (edgesOf (applyOps G0 ops) src) 0 false).2 <;> simp

/-- Witness of C12: after a->c (1), a->b (5), a->b (2), the weight of a -> b is 2, and the
call for b -> a, which was never added, exits. -/
theorem C12_witness :
    CreateGraph 2 = some emptyGraph2 ∧
    getEdgeWeight (applyOps emptyGraph2 historyABC) 0 1 = .ok 2 ∧
    getEdgeWeight (applyOps emptyGraph2 historyABC) 0 2 = .ok 1 ∧
    getEdgeWeight (applyOps emptyGraph2 historyABC) 1 0 = .error .exit ∧
    (∃ m : Int, getEdgeWeight (applyOps emptyGraph2 historyABC) 0 1 = .ok m ∧
      (∃ e ∈ addedEdges emptyGraph2 historyABC, e.src = 0 ∧ e.dest = 1 ∧ e.weight = m) ∧
      ∀ e ∈ addedEdges emptyGraph2 historyABC, e.src = 0 → e.dest = 1 → m ≤ e.weight) :=
  ⟨by decide, by decide, by decide, by decide,
    (C12_getEdgeWeight_returns_minimum 2 emptyGraph2 historyABC (by decide) 0 1 (by decide)
      (by decide) (by decide) (by decide)).1
      ⟨{ src := 0, dest := 1, weight := 5 }, by decide, by decide, by decide⟩⟩

/-- C13, as stated, fails: after `AddVertex` of the name a twice, the calls
returned 0 and 1 for the same name, the one value of `Name2Vertex` cannot be both ids, and
`Name2Vertex(G, Vertex2Name(G, 0))` is 1. It also fails for a name that does not fit the 64
bytes of `value.Word`: after `AddVertex` of two distinct names of 64 bytes, the calls
returned 0 and 1 and `Name2Vertex` does not find the second name. -/
theorem C13_counterexample :
    CreateGraph 2 = some emptyGraph2 ∧
    addedVertices emptyGraph2 [Op.addVertex (cstr "a"), Op.addVertex (cstr "a")] =
      [(cstr "a", 0), (cstr "a", 1)] ∧
    ¬ (∀ p ∈ addedVertices emptyGraph2 [Op.addVertex (cstr "a"), Op.addVertex (cstr "a")],
      Name2Vertex (applyOps emptyGraph2 [Op.addVertex (cstr "a"), Op.addVertex (cstr "a")])
        p.1 = p.2) ∧
    Vertex2Name (applyOps emptyGraph2 [Op.addVertex (cstr "a"), Op.addVertex (cstr "a")]) 0 =
      some (cstr "a") ∧
    Name2Vertex (applyOps emptyGraph2 [Op.addVertex (cstr "a"), Op.addVertex (cstr "a")])
      (cstr "a") = 1 ∧
    (addedNames historyLongWords).Nodup ∧ name64b.length = 64 ∧
    addedVertices emptyGraph2 historyLongWords = [(name64a, 0), (name64b, 1)] ∧
    Name2Vertex (applyOps emptyGraph2 historyLongWords) name64b = -1 := by
  refine ⟨by decide, by decide, ?_, by decide, by decide, by decide, by decide, by decide,
    by decide⟩
  intro h
  have h0 := h (cstr "a", 0) (by decide)
  have h1 := h (cstr "a", 1) (by decide)
  simp only at h0 h1
  rw [h0] at h1
  exact absurd h1 (by decide)

/-- C13, amended: for every graph built from `CreateGraph` by a sequence of calls whose
`AddVertex` names are pairwise distinct and have fewer than 64 bytes each (the name index
being the ordered map of its contract): `Name2Vertex` returns for each inserted name the id
that `AddVertex` returned for it, `Vertex2Name(G, Name2Vertex(G, name))` is that name, every
id in `[0, NumVertices)` has a name and `Name2Vertex(G, Vertex2Name(G, id))` is `id`;
`Vertex2Name` returns `NULL` for every id outside `[0, NumVertices)`, whatever the names. -/
theorem C13_names_and_ids_are_inverse (N : Int) (G0 : Graph) (ops : List Op)
    (hc : CreateGraph N = some G0) (hnd : (addedNames ops).Nodup)
    (hfit : ∀ name ∈ addedNames ops, name.length < 64) :
    (∀ p ∈ addedVertices G0 ops, Name2Vertex (applyOps G0 ops) p.1 = p.2) ∧
    (∀ name ∈ addedNames ops,
      Vertex2Name (applyOps G0 ops) (Name2Vertex (applyOps G0 ops) name) = some name) ∧
    (∀ v : Int, 0 ≤ v → v < (applyOps G0 ops).NumVertices →
      ∃ name, Vertex2Name (applyOps G0 ops) v = some name ∧
        Name2Vertex (applyOps G0 ops) name = v) ∧
    (∀ (ops2 : List Op) (v : Int), v < 0 ∨ v ≥ (applyOps G0 ops2).NumVertices →
      Vertex2Name (applyOps G0 ops2) v = none) := by
  obtain ⟨r1, r2⟩ := names_roundtrip N G0 hc ops hnd hfit
  refine ⟨fun p hp => (r1 p hp).1, ?_, ?_, ?_⟩
  · intro name hname
    rw [← (addedVertices_spec ops G0).1, List.mem_map] at hname
    obtain ⟨p, hp, rfl⟩ := hname
    rw [(r1 p hp).1]
    exact (r1 p hp).2
  · intro v h0 h1
    obtain ⟨name, hn⟩ := r2 v h0 h1
    exact ⟨name, (r1 _ hn).2, (r1 _ hn).1⟩
  · intro ops2 v hv
    exact Vertex2Name_none_iff_invalid _ v hv

/-- Witness of the amended C13: in the graph of the scenario with the names cat, bat, bad,
zzz the name bad resolves to 2 and the id 2 to bad. -/
theorem C13_witness :
    CreateGraph 2 = some emptyGraph2 ∧
    (addedNames historyCat).Nodup ∧
    (∀ name ∈ addedNames historyCat, name.length < 64) ∧
    addedVertices emptyGraph2 historyCat =
      [(cstr "cat", 0), (cstr "bat", 1), (cstr "bad", 2), (cstr "zzz", 3)] ∧
    Vertex2Name catGraph 2 = some (cstr "bad") ∧
    Vertex2Name catGraph 4 = none ∧
    Name2Vertex catGraph (cstr "bad") = 2 :=
  ⟨by decide, by decide, by decide, by decide, by decide, by decide,
    (C13_names_and_ids_are_inverse 2 emptyGraph2 historyCat (by decide) (by decide)
      (by decide)).1 (cstr "bad", 2) (by decide)⟩

/-- C14: `AddVertex(G, name)` returns the value `NumVertices` had before the call and
increases `NumVertices` by exactly 1 (for every graph value); in a graph built from
`CreateGraph` the returned id is never -1, also when `NumVertices == Capacity`; and the ids
returned along a history that starts at a fresh graph are 0, 1, 2, ... in call order, so the
k-th vertex added gets the id k-1. -/
theorem C14_AddVertex_returns_next_id (N : Int) (G0 : Graph) (ops : List Op)
    (hc : CreateGraph N = some G0) (name : List Nat) :
    (∀ G : Graph, (AddVertex G name).2 = G.NumVertices ∧
      (AddVertex G name).1.NumVertices = G.NumVertices + 1) ∧
    (AddVertex (applyOps G0 ops) name).2 ≠ -1 ∧
    0 ≤ (AddVertex (applyOps G0 ops) name).2 ∧
    ((applyOps G0 ops).NumVertices = (applyOps G0 ops).Capacity →
      (AddVertex (applyOps G0 ops) name).2 = (applyOps G0 ops).Capacity) ∧
    (addedVertices G0 ops).map Prod.fst = addedNames ops ∧
    (addedVertices G0 ops).map Prod.snd =
      (List.range (addedNames ops).length).map (fun k : Nat => (k : Int)) ∧
    (applyOps G0 ops).NumVertices = ((addedNames ops).length : Int) := by
  have hwf : WF (applyOps G0 ops) := WF_applyOps ops G0 (WF_CreateGraph N G0 hc)
  have hz := NumVertices_CreateGraph N G0 hc
  have hnn := hwf.nv_nonneg
  obtain ⟨s1, s2⟩ := addedVertices_spec ops G0
  refine ⟨fun G => ⟨(AddVertex_fields G name).1, AddVertex_NumVertices G name⟩, ?_, ?_, ?_,
    s1, ?_, ?_⟩
  · rw [(AddVertex_fields _ name).1]; omega
  · rw [(AddVertex_fields _ name).1]; exact hnn
  · intro h; rw [(AddVertex_fields _ name).1, h]
  · rw [s2]
    apply List.map_congr_left
    intro k _
    rw [hz]; simp
  · rw [NumVertices_applyOps_count, hz]; simp

/-- Witness of C14: the vertices a, b, c of the multi-edge history get the ids 0, 1, 2, a
fourth vertex gets 3, and on the graph of capacity 2 that holds two vertices the call
returns 2. -/
theorem C14_witness :
    CreateGraph 2 = some emptyGraph2 ∧
    addedVertices emptyGraph2 historyABC = [(cstr "a", 0), (cstr "b", 1), (cstr "c", 2)] ∧
    (AddVertex (applyOps emptyGraph2 historyABC) (cstr "d")).2 = 3 ∧
    (applyOps emptyGraph2 [Op.addVertex (cstr "a"), Op.addVertex (cstr "b")]).NumVertices =
      (applyOps emptyGraph2 [Op.addVertex (cstr "a"), Op.addVertex (cstr "b")]).Capacity ∧
    (AddVertex (applyOps emptyGraph2 [Op.addVertex (cstr "a"), Op.addVertex (cstr "b")])
      (cstr "c")).2 = 2 ∧
    (AddVertex (applyOps emptyGraph2 historyABC) (cstr "d")).2 ≠ -1 :=
  ⟨by decide, by decide, by decide, by decide, by decide,
    (C14_AddVertex_returns_next_id 2 emptyGraph2 historyABC (by decide) (cstr "d")).2.1⟩

/-- C15: in every graph reached from `CreateGraph` by `AddVertex` and `AddEdge` calls,
the edge list of every vertex is non-decreasing by `dest`, and the edges to one destination
are contiguous: the list is the edges to smaller destinations, then all edges to `d`, then
the edges to larger destinations. -/
theorem C15_edge_lists_sorted_by_dest (N : Int) (G0 : Graph) (ops : List Op)
    (hc : CreateGraph N = some G0) (v : Int) (hv0 : 0 ≤ v)
    (hv1 : v < (applyOps G0 ops).NumVertices) :
    (edgesOf (applyOps G0 ops) v).Pairwise (fun a b => a.dest ≤ b.dest) ∧
    ∀ d : Int, edgesOf (applyOps G0 ops) v =
      (edgesOf (applyOps G0 ops) v).filter (fun c => decide (c.dest < d)) ++
        (edgesOf (applyOps G0 ops) v).filter (fun c => decide (c.dest = d)) ++
        (edgesOf (applyOps G0 ops) v).filter (fun c => decide (d < c.dest)) := by
  have hwf : WF (applyOps G0 ops) := WF_applyOps ops G0 (WF_CreateGraph N G0 hc)
  exact ⟨hwf.sorted v hv0 hv1, fun d => sorted_three_parts d _ (hwf.sorted v hv0 hv1)⟩

/-- Witness of C15: after a->c (1), a->b (5), a->b (2) the list of a is b (2), b (5),
c (1). -/
theorem C15_witness :
    CreateGraph 2 = some emptyGraph2 ∧
    edgesOf (applyOps emptyGraph2 historyABC) 0 =
      [{ src := 0, dest := 1, weight := 2 }, { src := 0, dest := 1, weight := 5 },
        { src := 0, dest := 2, weight := 1 }] ∧
    (edgesOf (applyOps emptyGraph2 historyABC) 0).Pairwise (fun a b => a.dest ≤ b.dest) :=
  ⟨by decide, by decide,
    (C15_edge_lists_sorted_by_dest 2 emptyGraph2 historyABC (by decide) 0 (by decide)
      (by decide)).1⟩

/-- C16: for two graphs built from `CreateGraph` that have the same number of vertices
and in which the same set of `(src, dest)` pairs was added (whatever the order of the calls,
the weights, the number of edges per pair and the names), `BFS` returns the same result for
every start and every budget of iterations, and for a valid start that result is an array
as soon as the budget is `NumVertices`. -/
theorem C16_BFS_depends_on_pairs_only (N1 N2 : Int) (A B : Graph) (ops1 ops2 : List Op)
    (hc1 : CreateGraph N1 = some A) (hc2 : CreateGraph N2 = some B)
    (hnv : (applyOps A ops1).NumVertices = (applyOps B ops2).NumVertices)
    (h12 : ∀ p ∈ edgePairs A ops1, p ∈ edgePairs B ops2)
    (h21 : ∀ p ∈ edgePairs B ops2, p ∈ edgePairs A ops1) (start : Int) :
    (∀ fuel : Nat, BFS fuel (applyOps A ops1) start = BFS fuel (applyOps B ops2) start) ∧
    (0 ≤ start → start < (applyOps A ops1).NumVertices →
      ∃ out : List Int, ∀ fuel : Nat, (applyOps A ops1).NumVertices.toNat ≤ fuel →
        BFS fuel (applyOps A ops1) start = .ok (some out) ∧
        BFS fuel (applyOps B ops2) start = .ok (some out)) := by
  have hN := Neighbors_history_ext N1 N2 A B ops1 ops2 hc1 hc2 hnv h12 h21
  have hb := BFS_body_congr _ _ hN
  have heq : ∀ fuel : Nat,
      BFS fuel (applyOps A ops1) start = BFS fuel (applyOps B ops2) start := by
    intro fuel
    unfold BFS
    rw [hb, hnv]
  refine ⟨heq, ?_⟩
  intro h0 h1
  have w1 : WF (applyOps A ops1) := WF_applyOps ops1 A (WF_CreateGraph N1 A hc1)
  obtain ⟨t, ht, _, _⟩ := BFS_run w1 start h0 h1 _ (le_refl _)
  refine ⟨t.visited ++ [-1], ?_⟩
  intro fuel hf
  have hrun := whileLoop_mono _ _ _ _ _ ht fuel hf
  have hv : ¬ (start < 0 ∨ start ≥ (applyOps A ops1).NumVertices) := by omega
  have e1 : BFS fuel (applyOps A ops1) start = .ok (some (t.visited ++ [-1])) := by
    unfold BFS
    rw [if_neg hv, hrun]
  exact ⟨e1, (heq fuel) ▸ e1⟩

/-- Witness of C16: the two histories on three vertices give the same `BFS` from 0, the
array 0, 1, 2, -1. -/
theorem C16_witness :
    CreateGraph 2 = some emptyGraph2 ∧
    edgesOf (applyOps emptyGraph2 historyTriA) 0 ≠ edgesOf (applyOps emptyGraph2 historyTriB) 0 ∧
    BFS 3 (applyOps emptyGraph2 historyTriA) 0 = .ok (some [0, 1, 2, -1]) ∧
    BFS 3 (applyOps emptyGraph2 historyTriB) 0 = .ok (some [0, 1, 2, -1]) ∧
    ∀ fuel : Nat, BFS fuel (applyOps emptyGraph2 historyTriA) 0 =
      BFS fuel (applyOps emptyGraph2 historyTriB) 0 :=
  ⟨by decide, by decide, by decide, by decide,
    (C16_BFS_depends_on_pairs_only 2 2 emptyGraph2 emptyGraph2 historyTriA historyTriB
      (by decide) (by decide) (by decide) (by decide) (by decide) 0).1⟩

/-- C17: `CreateGraph(N)` returns a graph only when `N >= 1`, and then `Capacity = N`; in
every graph reached from it by `AddVertex` and `AddEdge` calls `1 <= Capacity` and
`NumVertices <= Capacity`; `AddVertex` leaves `Capacity` as it is unless
`NumVertices == Capacity` before the call, and then sets it to twice its value; `AddEdge`
leaves `Capacity` as it is. -/
theorem C17_capacity_invariant (N : Int) (G0 : Graph) (ops : List Op)
    (hc : CreateGraph N = some G0) :
    1 ≤ N ∧ G0.Capacity = N ∧
    1 ≤ (applyOps G0 ops).Capacity ∧
    0 ≤ (applyOps G0 ops).NumVertices ∧
    (applyOps G0 ops).NumVertices ≤ (applyOps G0 ops).Capacity ∧
    (∀ name : List Nat,
      ((applyOps G0 ops).NumVertices ≠ (applyOps G0 ops).Capacity →
        (AddVertex (applyOps G0 ops) name).1.Capacity = (applyOps G0 ops).Capacity) ∧
      ((applyOps G0 ops).NumVertices = (applyOps G0 ops).Capacity →
        (AddVertex (applyOps G0 ops) name).1.Capacity = 2 * (applyOps G0 ops).Capacity)) ∧
    (∀ s d w : Int, (AddEdge (applyOps G0 ops) s d w).1.Capacity =
      (applyOps G0 ops).Capacity) := by
  have hwf : WF (applyOps G0 ops) := WF_applyOps ops G0 (WF_CreateGraph N G0 hc)
  have hN : 1 ≤ N ∧ G0.Capacity = N := by
    unfold CreateGraph at hc
    split at hc
    · simp at hc
    · simp only [Option.some.injEq] at hc
      subst hc
      exact ⟨by omega, rfl⟩
  refine ⟨hN.1, hN.2, hwf.cap_pos, hwf.nv_nonneg, hwf.nv_le_cap, ?_, ?_⟩
  · intro name
    rw [AddVertex_Capacity]
    constructor
    · intro h; simp [h]
    · intro h; simp [h]
  · intro s d w
    exact (AddEdge_fields _ s d w).2.1

/-- Witness of C17: from `CreateGraph(2)`, the third `AddVertex` finds the graph full and
doubles the capacity to 4; the second does not change it. -/
theorem C17_witness :
    CreateGraph 2 = some emptyGraph2 ∧
    CreateGraph 0 = none ∧
    (applyOps emptyGraph2 [Op.addVertex (cstr "a")]).Capacity = 2 ∧
    (applyOps emptyGraph2 [Op.addVertex (cstr "a"), Op.addVertex (cstr "b")]).Capacity = 2 ∧
    (applyOps emptyGraph2 historyABC).Capacity = 4 ∧
    (applyOps emptyGraph2 historyABC).NumVertices = 3 ∧
    (applyOps emptyGraph2 historyABC).NumVertices ≤ (applyOps emptyGraph2 historyABC).Capacity :=
  ⟨by decide, by decide, by decide, by decide, by decide, by decide,
    (C17_capacity_invariant 2 emptyGraph2 historyABC (by decide)).2.2.2.2.1⟩

/-- C18: in every graph reached from `CreateGraph` by `AddVertex` and `AddEdge` calls,
accepted or rejected, `NumEdges` is the sum over the vertices `v` in `[0, NumVertices)` of
the length of the edge list of `v`. -/
theorem C18_NumEdges_counts_edge_nodes (N : Int) (G0 : Graph) (ops : List Op)
    (hc : CreateGraph N = some G0) :
    (applyOps G0 ops).NumEdges = edgeCount (applyOps G0 ops) :=
  (Built_applyOps ops G0 (Built.create N G0 hc)).numEdges

/-- Witness of C18: the multi-edge history followed by a rejected call has 3 edges, all in
the list of vertex 0. -/
theorem C18_witness :
    CreateGraph 2 = some emptyGraph2 ∧
    (applyOps emptyGraph2 (historyABC ++ [Op.addEdge 0 7 1])).NumEdges = 3 ∧
    edgeCount (applyOps emptyGraph2 (historyABC ++ [Op.addEdge 0 7 1])) = 3 ∧
    (applyOps emptyGraph2 (historyABC ++ [Op.addEdge 0 7 1])).NumEdges =
      edgeCount (applyOps emptyGraph2 (historyABC ++ [Op.addEdge 0 7 1])) :=
  ⟨by decide, by decide, by decide,
    C18_NumEdges_counts_edge_nodes 2 emptyGraph2 (historyABC ++ [Op.addEdge 0 7 1])
      (by decide)⟩

/-- C19: in a graph reached from `CreateGraph`, `AddVertex(G, name)` leaves the name and
the edge list of every id below the old `NumVertices` as they were, with or without a
doubling of the capacity; the new vertex has the given name and an empty edge list;
`NumEdges` is unchanged. -/
theorem C19_AddVertex_preserves_vertices (N : Int) (G0 : Graph) (ops : List Op)
    (hc : CreateGraph N = some G0) (name : List Nat) :
    (∀ i : Int, 0 ≤ i → i < (applyOps G0 ops).NumVertices →
      Vertex2Name (AddVertex (applyOps G0 ops) name).1 i = Vertex2Name (applyOps G0 ops) i ∧
      edgesOf (AddVertex (applyOps G0 ops) name).1 i = edgesOf (applyOps G0 ops) i) ∧
    Vertex2Name (AddVertex (applyOps G0 ops) name).1 (applyOps G0 ops).NumVertices =
      some name ∧
    edgesOf (AddVertex (applyOps G0 ops) name).1 (applyOps G0 ops).NumVertices = [] ∧
    (AddVertex (applyOps G0 ops) name).1.NumEdges = (applyOps G0 ops).NumEdges := by
  have hB : Built (applyOps G0 ops) := Built_applyOps ops G0 (Built.create N G0 hc)
  have hwf := hB.wf
  have hnn := hwf.nv_nonneg
  refine ⟨?_, ?_, ?_, (AddVertex_fields _ name).2.1⟩
  · intro i hi0 hi1
    have hne : ¬ i = (applyOps G0 ops).NumVertices := by omega
    constructor
    · rw [Vertex2Name_AddVertex hB name i hi0 (by omega), if_neg hne]
    · rw [edgesOf_AddVertex _ name hwf i hi0 (by omega), if_neg hne]
  · rw [Vertex2Name_AddVertex hB name _ hnn (by omega), if_pos rfl]
  · rw [edgesOf_AddVertex _ name hwf _ hnn (by omega), if_pos rfl]

/-- Witness of C19: adding the vertex c to the full graph of capacity 2 with the vertices a,
b and the edge a -> b doubles the capacity and keeps the names and the edge of a. -/
theorem C19_witness :
    CreateGraph 2 = some emptyGraph2 ∧
    (applyOps emptyGraph2
      [Op.addVertex (cstr "a"), Op.addVertex (cstr "b"), Op.addEdge 0 1 5]).Capacity = 2 ∧
    (AddVertex (applyOps emptyGraph2
      [Op.addVertex (cstr "a"), Op.addVertex (cstr "b"), Op.addEdge 0 1 5])
      (cstr "c")).1.Capacity = 4 ∧
    edgesOf (AddVertex (applyOps emptyGraph2
      [Op.addVertex (cstr "a"), Op.addVertex (cstr "b"), Op.addEdge 0 1 5]) (cstr "c")).1 0 =
      [{ src := 0, dest := 1, weight := 5 }] ∧
    Vertex2Name (AddVertex (applyOps emptyGraph2
      [Op.addVertex (cstr "a"), Op.addVertex (cstr "b"), Op.addEdge 0 1 5]) (cstr "c")).1 0 =
      some (cstr "a") ∧
    Vertex2Name (AddVertex (applyOps emptyGraph2
      [Op.addVertex (cstr "a"), Op.addVertex (cstr "b"), Op.addEdge 0 1 5]) (cstr "c")).1
        (applyOps emptyGraph2
          [Op.addVertex (cstr "a"), Op.addVertex (cstr "b"),
            Op.addEdge 0 1 5]).NumVertices = some (cstr "c") :=
  ⟨by decide, by decide, by decide, by decide, by decide,
    (C19_AddVertex_preserves_vertices 2 emptyGraph2
      [Op.addVertex (cstr "a"), Op.addVertex (cstr "b"), Op.addEdge 0 1 5] (by decide)
      (cstr "c")).2.1⟩

/-- C20, on the code: on the complete directed graph on four vertices the recursive
depth-first search from 0 that visits at each vertex its not yet visited neighbors in
ascending id order has the preorder 0, 1, 2, 3, and `DFS(G, 0)` does not return it: a `Push`
finds the `NumVertices + 1 = 5` slots of the stack in use and the function exits (the
defect of C26). In general, for a graph built by `CreateGraph`, `AddVertex` and `AddEdge`
and a valid `start`, the recursive search (`specDFS`, with any depth budget of at least
`DFS_fuel G`) has a preorder `out`, and `DFS(G, start)` either exits on a full stack or
returns `out` followed by `-1` (with fuel at least `DFS_fuel G`); it returns `out` whenever
the neighbors arrays of `G` have at most `NumVertices` entries in all, as on the graph with
the edges 0 -> 1, 0 -> 2, 1 -> 4, 2 -> 3. -/
theorem C20_DFS_exits_where_the_recursive_search_returns :
    Built k4Graph ∧
    (∀ fuel, DFS_fuel k4Graph ≤ fuel → specDFS k4Graph fuel [0] [] = some [0, 1, 2, 3]) ∧
    (∀ fuel, 4 ≤ fuel → DFS fuel k4Graph 0 = .error .exit) ∧
    DFS 9 crossGraph 0 = .ok (some [0, 1, 4, 2, 3, -1]) ∧
    specDFS crossGraph 5 [0] [] = some [0, 1, 4, 2, 3] ∧
    ∀ (G : Graph) (start : Int), Built G → 0 ≤ start → start < G.NumVertices →
      ∃ out : List Int,
        (∀ fuel, DFS_fuel G ≤ fuel → specDFS G fuel [start] [] = some out) ∧
        ((∀ fuel, DFS_fuel G ≤ fuel → DFS fuel G start = .error .exit) ∨
          (∀ fuel, DFS_fuel G ≤ fuel → DFS fuel G start = .ok (some (out ++ [-1])))) ∧
        (DFS_fuel G ≤ G.NumVertices.toNat + 1 →
          ∀ fuel, DFS_fuel G ≤ fuel → DFS fuel G start = .ok (some (out ++ [-1]))) := by
  refine ⟨Built_k4Graph, ?_, DFS_k4Graph_exits, by decide, by decide, ?_⟩
  · intro fuel hf
    exact specDFS_mono k4Graph 13 _ _ _ (by decide) fuel
      (le_trans (by decide) hf)
  · intro G start hG h0 h1
    have hwf := hG.wf
    obtain ⟨k, t, hk, hsteps, _, hq, hres, hsmall⟩ := DFS_exit_or_result hwf start h0 h1
    refine ⟨t.visitedQ, ?_, hres, hsmall⟩
    intro fuel hf
    have hsteps2 : Steps (fun st : DFSState => !isEmptyStack st.frontierStack)
        (DFS_body_unbounded G) k
        { frontierStack := [start] ++ [], visitedSet := [], visitedQ := [] } t := hsteps
    obtain ⟨c, k2, vset2, vq2, e1, e2, _, e4⟩ :=
      DFS_loop_refines_specDFS hwf t hq k [start] [] [] [] (by simp) hsteps2
    have hvq : vq2 = t.visitedQ := by
      cases e4 with
      | refl s => rfl
      | step k1 s s1 t2 hc hb hrest => simp [isEmptyStack] at hc
    rw [← hvq]
    exact specDFS_mono G c _ _ _ e2 fuel (by omega)

/-- C21: for a graph built by `CreateGraph`, `AddVertex` and `AddEdge` and a valid `start`,
`BFS(G, start)` returns (with fuel at least `NumVertices`) an array `out` followed by `-1`
in which every vertex has a hop-distance from `start` and a vertex never comes before a
vertex that is nearer to `start`: if `u` is before `w`, the distance of `u` is at most the
distance of `w`. -/
theorem C21_BFS_output_in_level_order (G : Graph) (hG : Built G) (start : Int)
    (h0 : 0 ≤ start) (h1 : start < G.NumVertices) :
    ∃ out : List Int,
      (∀ fuel, G.NumVertices.toNat ≤ fuel → BFS fuel G start = .ok (some (out ++ [-1]))) ∧
      (∀ x ∈ out, ∃ k, HopDist G start x k) ∧
      out.Pairwise (fun u w => ∀ a b, HopDist G start u a → HopDist G start w b → a ≤ b) := by
  have hwf := hG.wf
  refine ⟨(bfsLevels G G.NumVertices.toNat [start] [start]).flatten,
    fun fuel hf => BFS_eq_levels hwf start h0 h1 _ (le_refl _) fuel hf, ?_,
    bfsLevels_pairwise hwf h0 h1 _ 0 _ _ (LevelInv_init G start)⟩
  intro x hx
  obtain ⟨j, _, hj⟩ := (bfsLevels_flatten hwf h0 h1 _ 0 _ _ (LevelInv_init G start)).2 x hx
  exact ⟨j, hj⟩

/-- Witness of C21 on the graph with the edges 0 -> 1, 0 -> 2, 1 -> 4, 2 -> 3: the output
0, 1, 2, 4, 3 has the distances 0, 1, 1, 2, 2. -/
theorem C21_witness :
    Built crossGraph ∧
    BFS 5 crossGraph 0 = .ok (some [0, 1, 2, 4, 3, -1]) ∧
    ∃ out : List Int,
      (∀ fuel, crossGraph.NumVertices.toNat ≤ fuel →
        BFS fuel crossGraph 0 = .ok (some (out ++ [-1]))) ∧
      (∀ x ∈ out, ∃ k, HopDist crossGraph 0 x k) ∧
      out.Pairwise
        (fun u w => ∀ a b, HopDist crossGraph 0 u a → HopDist crossGraph 0 w b → a ≤ b) :=
  ⟨Built_crossGraph, by decide,
    C21_BFS_output_in_level_order crossGraph Built_crossGraph 0 (by decide) (by decide)⟩

/-- C22, as stated, fails: on the graph with the edges 0 -> 1, 0 -> 2, 1 -> 4, 2 -> 3 the
vertices 4 and 3 are both at hop-distance 2 from 0 and `BFS(G, 0)` lists 4 before 3. -/
theorem C22_counterexample :
    Built crossGraph ∧
    BFS 5 crossGraph 0 = .ok (some [0, 1, 2, 4, 3, -1]) ∧
    HopDist crossGraph 0 4 2 ∧ HopDist crossGraph 0 3 2 ∧
    List.Sublist [4, 3] ([0, 1, 2, 4, 3] : List Int) ∧ ¬ ((4 : Int) < 3) := by
  have h0 : (0 : Int) ≤ 0 := le_refl _
  have hspec := bfsLevels_spec Built_crossGraph.wf h0 (by decide) 2 0
    [0] [0] (LevelInv_init crossGraph 0) 2 (le_refl _)
  refine ⟨Built_crossGraph, by decide, ?_, ?_, by decide, by decide⟩
  · exact (hspec.2 4).1 (by decide)
  · exact (hspec.2 3).1 (by decide)

/-- C22, amended: for a graph built by `CreateGraph`, `AddVertex` and `AddEdge` and a valid
`start`, the output of `BFS(G, start)` is the sequence of the levels of the search, level
`k` holding exactly the vertices at hop-distance `k`; level 0 is `[start]`, the levels 0
and 1 are in ascending id order and every later level is the concatenation, over the
vertices `u` of the level before it in their order there, of one run per vertex: the run
of `u` is strictly ascending and holds exactly the neighbors of `u` that are not discovered
before, that is, neither in a level up to the one of `u` nor in the run of a vertex that
comes before `u` in its level. -/
theorem C22_BFS_levels_ascending_per_parent (G : Graph) (hG : Built G) (start : Int)
    (h0 : 0 ≤ start) (h1 : start < G.NumVertices) :
    ∃ levels : List (List Int),
      (∀ fuel, G.NumVertices.toNat ≤ fuel →
        BFS fuel G start = .ok (some (levels.flatten ++ [-1]))) ∧
      levels.head? = some [start] ∧
      (∀ k, k ≤ G.NumVertices.toNat →
        ∀ x, x ∈ levels.getD k [] ↔ HopDist G start x k) ∧
      (levels.getD 0 []).Pairwise (fun a b => a < b) ∧
      (levels.getD 1 []).Pairwise (fun a b => a < b) ∧
      ∀ k, k < G.NumVertices.toNat → ∃ runs : List (List Int),
        List.Forall₂ (fun u run => run.Pairwise (fun a b => a < b) ∧ ∀ x ∈ run, Adj G u x)
          (levels.getD k []) runs ∧
        levels.getD (k + 1) [] = runs.flatten ∧
        ∀ i x, x ∈ runs.getD i [] ↔
          (∃ u, (levels.getD k [])[i]? = some u ∧ Adj G u x) ∧
          x ∉ (levels.take (k + 1)).flatten ∧ x ∉ (runs.take i).flatten := by
  have hwf := hG.wf
  have hN : 0 < G.NumVertices.toNat := by omega
  have hruns := bfsLevels_runs_exact hwf h0 h1 G.NumVertices.toNat 0 [start] [start] []
    (LevelInv_init G start) (by intro x; simp)
  have hspec := bfsLevels_spec hwf h0 h1 G.NumVertices.toNat 0 [start] [start]
    (LevelInv_init G start)
  refine ⟨bfsLevels G G.NumVertices.toNat [start] [start],
    fun fuel hf => BFS_eq_levels hwf start h0 h1 _ (le_refl _) fuel hf, ?_, ?_, ?_, ?_, ?_⟩
  · cases h : G.NumVertices.toNat <;> simp [bfsLevels]
  · intro k hk x
    simpa using (hspec k hk).2 x
  · rw [bfsLevels_getD_zero]
    exact List.pairwise_singleton _ _
  · obtain ⟨runs, r1, r2, _⟩ := hruns 0 hN
    rw [bfsLevels_getD_zero] at r1
    rw [r2]
    cases r1 with
    | cons hrun htail =>
      cases htail
      simpa using hrun.1
  · intro k hk
    obtain ⟨runs, r1, r2, r3⟩ := hruns k hk
    refine ⟨runs, r1, r2, ?_⟩
    intro i x
    rw [r3 i x]
    simp

/-- Witness of the amended C22 on the graph with the edges 0 -> 1, 0 -> 2, 1 -> 4, 2 -> 3. -/
theorem C22_witness :
    Built crossGraph ∧
    ∃ levels : List (List Int),
      (∀ fuel, crossGraph.NumVertices.toNat ≤ fuel →
        BFS fuel crossGraph 0 = .ok (some (levels.flatten ++ [-1]))) ∧
      levels.head? = some [0] ∧
      (∀ k, k ≤ crossGraph.NumVertices.toNat →
        ∀ x, x ∈ levels.getD k [] ↔ HopDist crossGraph 0 x k) ∧
      (levels.getD 0 []).Pairwise (fun a b => a < b) ∧
      (levels.getD 1 []).Pairwise (fun a b => a < b) ∧
      ∀ k, k < crossGraph.NumVertices.toNat → ∃ runs : List (List Int),
        List.Forall₂
          (fun u run => run.Pairwise (fun a b => a < b) ∧ ∀ x ∈ run, Adj crossGraph u x)
          (levels.getD k []) runs ∧
        levels.getD (k + 1) [] = runs.flatten ∧
        ∀ i x, x ∈ runs.getD i [] ↔
          (∃ u, (levels.getD k [])[i]? = some u ∧ Adj crossGraph u x) ∧
          x ∉ (levels.take (k + 1)).flatten ∧ x ∉ (runs.take i).flatten :=
  ⟨Built_crossGraph,
    C22_BFS_levels_ascending_per_parent crossGraph Built_crossGraph 0 (by decide)
      (by decide)⟩

/-- C23: for a graph built by `CreateGraph`, `AddVertex` and `AddEdge`, a valid `start` and
`d >= 1`, `BFS(G, start)` returns an array `outB` followed by `-1` and `BFSd(G, start, d)`
an array `outD`; `outD` without its `-1` entries is a prefix of `outB`, and is `outB` when
no vertex is at a hop-distance from `start` larger than `d`. -/
theorem C23_BFSd_without_markers_is_prefix_of_BFS (G : Graph) (hG : Built G) (start d : Int)
    (h0 : 0 ≤ start) (h1 : start < G.NumVertices) (hd : 1 ≤ d) :
    ∃ outB outD : List Int,
      (∀ fuel, G.NumVertices.toNat ≤ fuel → BFS fuel G start = .ok (some (outB ++ [-1]))) ∧
      (∀ fuel, G.NumVertices.toNat + d.toNat + 1 ≤ fuel →
        BFSd fuel G start d = .ok (some outD)) ∧
      outD.filter (fun x => decide (x ≠ -1)) <+: outB ∧
      ((∀ x k, HopDist G start x k → k ≤ d.toNat) →
        outD.filter (fun x => decide (x ≠ -1)) = outB) := by
  have hwf := hG.wf
  have hM : G.NumVertices.toNat ≤ G.NumVertices.toNat + d.toNat := by omega
  have htake := bfsLevels_take G d.toNat (G.NumVertices.toNat + d.toNat) [start] [start]
    (by omega)
  have hnomark : ∀ g ∈ bfsLevels G d.toNat [start] [start], -1 ∉ g := by
    intro g hg hm
    have := bfsLevels_valid hwf h0 h1 d.toNat (-1) (List.mem_flatten.2 ⟨g, hg, hm⟩)
    omega
  refine ⟨(bfsLevels G (G.NumVertices.toNat + d.toNat) [start] [start]).flatten,
    withMarkers (bfsLevels G d.toNat [start] [start]) ++ [-1],
    fun fuel hf => BFS_eq_levels hwf start h0 h1 _ hM fuel hf,
    fun fuel hf => BFSd_eq hwf start d h0 h1 hd fuel hf, ?_, ?_⟩
  · rw [filter_withMarkers _ hnomark, htake]
    exact flatten_take_prefix _ _
  · intro hwithin
    rw [filter_withMarkers _ hnomark, htake]
    have hsplit := List.take_append_drop (d.toNat + 1)
      (bfsLevels G (G.NumVertices.toNat + d.toNat) [start] [start])
    have hdrop : ((bfsLevels G (G.NumVertices.toNat + d.toNat) [start] [start]).drop
        (d.toNat + 1)).flatten = [] := by
      rw [List.flatten_eq_nil_iff]
      intro l hl
      obtain ⟨i, hi, hli⟩ := List.mem_iff_getElem.1 hl
      rw [List.getElem_drop] at hli
      have hi2 : d.toNat + 1 + i < (bfsLevels G (G.NumVertices.toNat + d.toNat) [start]
          [start]).length := by
        rw [List.length_drop] at hi; omega
      have hlen := bfsLevels_length G (G.NumVertices.toNat + d.toNat) [start] [start]
      have hspec := bfsLevels_spec hwf h0 h1 (G.NumVertices.toNat + d.toNat) 0 [start] [start]
        (LevelInv_init G start) (d.toNat + 1 + i) (by omega)
      apply List.eq_nil_iff_forall_not_mem.2
      intro x hx
      have hx2 : x ∈ (bfsLevels G (G.NumVertices.toNat + d.toNat) [start] [start]).getD
          (d.toNat + 1 + i) [] := by
        rw [List.getD_eq_getElem _ _ hi2, hli]
        exact hx
      have := hwithin x _ ((hspec.2 x).1 hx2)
      omega
    conv_rhs => rw [← hsplit]
    rw [List.flatten_append, hdrop, List.append_nil]

/-- Witness of C23 on the graph cat -> bat -> bad with the isolated vertex zzz and d = 3:
`BFSd` gives 0, -1, 1, -1, 2, -1, -1, -1 and `BFS` gives 0, 1, 2, -1. -/
theorem C23_witness :
    Built catGraph ∧
    BFS 4 catGraph 0 = .ok (some [0, 1, 2, -1]) ∧
    BFSd 8 catGraph 0 3 = .ok (some [0, -1, 1, -1, 2, -1, -1, -1]) ∧
    BFSd 8 catGraph 0 1 = .ok (some [0, -1, 1, -1, -1]) ∧
    ∃ outB outD : List Int,
      (∀ fuel, catGraph.NumVertices.toNat ≤ fuel →
        BFS fuel catGraph 0 = .ok (some (outB ++ [-1]))) ∧
      (∀ fuel, catGraph.NumVertices.toNat + (3 : Int).toNat + 1 ≤ fuel →
        BFSd fuel catGraph 0 3 = .ok (some outD)) ∧
      outD.filter (fun x => decide (x ≠ -1)) <+: outB ∧
      ((∀ x k, HopDist catGraph 0 x k → k ≤ (3 : Int).toNat) →
        outD.filter (fun x => decide (x ≠ -1)) = outB) :=
  ⟨Built_catGraph, by decide, by decide, by decide,
    C23_BFSd_without_markers_is_prefix_of_BFS catGraph Built_catGraph 0 3 (by decide)
      (by decide) (by decide)⟩

/-- C24, on the code: on the graph with the single vertex a, `BFSd(G, 0, 1)` writes the four
entries 0, -1, -1, -1, one more than the `NumVertices + distance + 1 = 3` entries that it
allocates. In general the output has `NumVertices + distance + 2` entries when every vertex
of the graph is within `distance` hops of the start, and at most
`NumVertices + distance + 1` when some vertex is not. -/
theorem C24_BFSd_writes_past_the_allocated_size :
    Built oneGraph ∧ oneGraph.NumVertices = 1 ∧
    (∀ fuel, 3 ≤ fuel → BFSd fuel oneGraph 0 1 = .ok (some [0, -1, -1, -1])) ∧
    (([0, -1, -1, -1] : List Int).length : Int) = (oneGraph.NumVertices + 1 + 1) + 1 ∧
    ∀ (G : Graph) (start d : Int), Built G → 0 ≤ start → start < G.NumVertices → 1 ≤ d →
      ∃ out : List Int,
        (∀ fuel, G.NumVertices.toNat + d.toNat + 1 ≤ fuel →
          BFSd fuel G start d = .ok (some out)) ∧
        ((∀ v, 0 ≤ v → v < G.NumVertices → ∃ k, k ≤ d.toNat ∧ HopDist G start v k) →
          (out.length : Int) = (G.NumVertices + d + 1) + 1) ∧
        ((∃ v, 0 ≤ v ∧ v < G.NumVertices ∧ ∀ k, k ≤ d.toNat → ¬ HopDist G start v k) →
          (out.length : Int) ≤ G.NumVertices + d + 1) := by
  have hgen : ∀ (G : Graph) (start d : Int), Built G → 0 ≤ start → start < G.NumVertices →
      1 ≤ d → ∃ out : List Int,
        (∀ fuel, G.NumVertices.toNat + d.toNat + 1 ≤ fuel →
          BFSd fuel G start d = .ok (some out)) ∧
        ((∀ v, 0 ≤ v → v < G.NumVertices → ∃ k, k ≤ d.toNat ∧ HopDist G start v k) →
          (out.length : Int) = (G.NumVertices + d + 1) + 1) ∧
        ((∃ v, 0 ≤ v ∧ v < G.NumVertices ∧ ∀ k, k ≤ d.toNat → ¬ HopDist G start v k) →
          (out.length : Int) ≤ G.NumVertices + d + 1) := by
    intro G start d hG h0 h1 hd
    have hwf := hG.wf
    have hnd := (bfsLevels_flatten hwf h0 h1 d.toNat 0 _ _ (LevelInv_init G start)).1
    have hval := fun x hx => bfsLevels_valid hwf h0 h1 d.toNat x hx
    refine ⟨withMarkers (bfsLevels G d.toNat [start] [start]) ++ [-1],
      fun fuel hf => BFSd_eq hwf start d h0 h1 hd fuel hf, ?_, ?_⟩
    · intro hall
      rw [BFSd_output_length G start d hd]
      have := length_eq_of_all_ids _ G.NumVertices (by omega) hnd hval
        (fun x hx0 hx1 => (mem_bfsLevels_flatten hwf h0 h1 d.toNat x).2 (hall x hx0 hx1))
      omega
    · rintro ⟨v, hv0, hv1, hmiss⟩
      rw [BFSd_output_length G start d hd]
      have := length_lt_of_missing_id _ G.NumVertices hnd hval v hv0 hv1 (by
        intro hin
        obtain ⟨k, hk, hd2⟩ := (mem_bfsLevels_flatten hwf h0 h1 d.toNat v).1 hin
        exact hmiss k hk hd2)
      omega
  refine ⟨Built_oneGraph, by decide, ?_, by decide, hgen⟩
  intro fuel hf
  have h3 : BFSd 3 oneGraph 0 1 = .ok (some [0, -1, -1, -1]) := by decide
  have := BFSd_eq Built_oneGraph.wf 0 1 (by decide) (by decide) (by decide) fuel
    (by have : oneGraph.NumVertices.toNat = 1 := by decide
        have : (1 : Int).toNat = 1 := by decide
        omega)
  rw [this]
  have h4 := BFSd_eq Built_oneGraph.wf 0 1 (by decide) (by decide) (by decide) 3 (by decide)
  rw [← h4, h3]

/-- C25, as stated, fails: on the graph with one vertex and the loop 0 -> 0 of weight -1
the main loop of `Dijkstra(G, 0, 0)` ends after one iteration with vertex 0 as its own
predecessor, the walk from `dest` stays at 0, and `Dijkstra` does not return whatever the
number of iterations allowed. It also fails without a negative weight when a sum leaves the
range of `int`: with the edges 0 -> 1 and 1 -> 0 of weight 1073741824 the sum for the way
back to 0 wraps to -2147483648, the two vertices become predecessors of each other, and
`Dijkstra(G, 0, 1)` does not return. -/
theorem C25_counterexample :
    Built negLoopGraph ∧
    whileLoop Dijkstra_cond (Dijkstra_body negLoopGraph) 1 (Dijkstra_init negLoopGraph 0) =
      .ok { unvisitedQ := [], distance := [-1], predecessor := [0], stop := false } ∧
    (∀ (k : Nat) (vs : Int × Stack),
      Steps (fun vs : Int × Stack => arrGet [0] vs.1 != -1) (Dijkstra_walkBody [0]) k
        (0, []) vs → arrGet [0] vs.1 ≠ -1) ∧
    (∀ fuel, Dijkstra fuel negLoopGraph 0 0 = .error .outOfFuel) ∧
    Built wrapGraph ∧ NonNegWeights wrapGraph ∧
    whileLoop Dijkstra_cond (Dijkstra_body wrapGraph) 2 (Dijkstra_init wrapGraph 0) =
      .ok { unvisitedQ := [], distance := [-2147483648, 1073741824], predecessor := [1, 0],
            stop := false } ∧
    ∀ fuel, Dijkstra fuel wrapGraph 0 1 = .error .outOfFuel := by
  have hmain : whileLoop Dijkstra_cond (Dijkstra_body negLoopGraph) 1
      (Dijkstra_init negLoopGraph 0) =
      .ok { unvisitedQ := [], distance := [-1], predecessor := [0], stop := false } := by
    decide
  have hmain2 : whileLoop Dijkstra_cond (Dijkstra_body wrapGraph) 2
      (Dijkstra_init wrapGraph 0) =
      .ok { unvisitedQ := [], distance := [-2147483648, 1073741824], predecessor := [1, 0],
            stop := false } := by
    decide
  refine ⟨Built_negLoopGraph, hmain, ?_, ?_, Built_wrapGraph,
    NonNegWeights_of_check wrapGraph (by decide), hmain2, ?_⟩
  · intro k vs hsteps
    have key : ∀ (k : Nat) (a b : Int × Stack),
        Steps (fun vs : Int × Stack => arrGet [0] vs.1 != -1) (Dijkstra_walkBody [0]) k a b →
        a.1 = 0 → b.1 = 0 := by
      intro k a b h
      induction h with
      | refl s => exact id
      | step k s s1 t _ hb _ ih =>
        intro hs
        apply ih
        simp only [Dijkstra_walkBody, Except.ok.injEq] at hb
        rw [← hb, hs]
        rfl
    rw [key k _ vs hsteps rfl]
    decide
  · intro fuel
    cases fuel with
    | zero => decide
    | succ n =>
      rw [Dijkstra_unfold (n + 1) negLoopGraph 0 0 (by decide) (by decide) (by decide)
        (by decide), whileLoop_mono _ _ _ _ _ hmain (n + 1) (by omega)]
      simp only
      rw [walk_self_predecessor [0] 0 (by decide) (by decide) (n + 1) []]
  · intro fuel
    cases fuel with
    | zero => decide
    | succ n =>
      cases n with
      | zero => decide
      | succ n =>
        rw [Dijkstra_unfold (n + 2) wrapGraph 0 1 (by decide) (by decide) (by decide)
          (by decide), whileLoop_mono _ _ _ _ _ hmain2 (n + 2) (by omega)]
        simp only
        rw [walk_without_root [1, 0] 2 (by
          intro v v0 v1
          have h : v = 0 ∨ v = 1 := by omega
          rcases h with h | h <;> subst h <;> decide) (n + 2) 1 [] (by decide) (by decide)]

/-- C25, amended: for a graph built by `CreateGraph`, `AddVertex` and `AddEdge` and valid
`src` and `dest`, whatever the weights, the main loop of `Dijkstra(G, src, dest)` ends
after at most `NumVertices` iterations; when no cycle of negative weight can be reached
from `src` and the path sums from `src` stay in the range of `int`, the walk from `dest`
reaches a vertex whose predecessor is `-1` after at most `NumVertices` steps, the stack
holds at most `NumVertices` entries once `src` is pushed, and `Dijkstra` returns an array.
Single edges may have a negative weight. -/
theorem C25_Dijkstra_terminates (G : Graph) (hG : Built G) (src dest : Int) (h0 : 0 ≤ src)
    (h1 : src < G.NumVertices) (h2 : 0 ≤ dest) (h3 : dest < G.NumVertices) :
    ∃ (k : Nat) (t : DijkstraState),
      k ≤ G.NumVertices.toNat ∧
      Steps Dijkstra_cond (Dijkstra_body G) k (Dijkstra_init G src) t ∧
      Dijkstra_cond t = false ∧
      (NoNegCycle G src → PathSumsInIntRange G src →
        ∃ (j : Nat) (vs : Int × Stack),
          j ≤ G.NumVertices.toNat ∧
          Steps (fun vs : Int × Stack => arrGet t.predecessor vs.1 != -1)
            (Dijkstra_walkBody t.predecessor) j (dest, []) vs ∧
          arrGet t.predecessor vs.1 = -1 ∧
          (Push vs.2 src).length ≤ G.NumVertices.toNat ∧
          ∀ fuel, G.NumVertices.toNat ≤ fuel →
            ∃ r, Dijkstra fuel G src dest = .ok (some r)) := by
  have hwf := hG.wf
  obtain ⟨t, ht, _⟩ := Dijkstra_main_W hwf src h0 h1 _ (le_refl _)
  obtain ⟨k, hk, hsteps, hc⟩ := whileLoop_ok_Steps _ _ _ _ _ ht
  exact ⟨k, t, hk, hsteps, hc,
    fun hnc hb => Dijkstra_walk_ends hwf hnc hb h0 h1 h2 h3 t ht⟩

/-- Witness of the amended C25 on the graph with the edges 0 -> 1 of weight 2, 0 -> 2 of
weight 5 and 2 -> 1 of weight -4, from 0 to 1: no cycle, sums in range, a negative weight;
both loops end and `Dijkstra` returns 0, 2, 1. -/
theorem C25_witness :
    Built negEdgeGraph ∧ NoNegCycle negEdgeGraph 0 ∧ PathSumsInIntRange negEdgeGraph 0 ∧
    ¬ NonNegWeights negEdgeGraph ∧
    Dijkstra 3 negEdgeGraph 0 1 = .ok (some [0, 2, 1, -1]) ∧
    ∃ (k : Nat) (t : DijkstraState),
      k ≤ negEdgeGraph.NumVertices.toNat ∧
      Steps Dijkstra_cond (Dijkstra_body negEdgeGraph) k (Dijkstra_init negEdgeGraph 0) t ∧
      Dijkstra_cond t = false ∧
      ∃ (j : Nat) (vs : Int × Stack),
        j ≤ negEdgeGraph.NumVertices.toNat ∧
        Steps (fun vs : Int × Stack => arrGet t.predecessor vs.1 != -1)
          (Dijkstra_walkBody t.predecessor) j (1, []) vs ∧
        arrGet t.predecessor vs.1 = -1 ∧
        (Push vs.2 0).length ≤ negEdgeGraph.NumVertices.toNat ∧
        ∀ fuel, negEdgeGraph.NumVertices.toNat ≤ fuel →
          ∃ r, Dijkstra fuel negEdgeGraph 0 1 = .ok (some r) := by
  obtain ⟨k, t, hk, hs, hc, h⟩ :=
    C25_Dijkstra_terminates negEdgeGraph Built_negEdgeGraph 0 1 (by decide) (by decide)
      (by decide) (by decide)
  exact ⟨Built_negEdgeGraph, NoNegCycle_negEdgeGraph, PathSums_negEdgeGraph,
    fun hn => absurd (hn 2 (by decide) (by decide) { src := 2, dest := 1, weight := -4 }
      (by decide)) (by decide),
    by decide, k, t, hk, hs, hc, h NoNegCycle_negEdgeGraph PathSums_negEdgeGraph⟩

/-- C26, on the code: on the complete directed graph on four vertices `DFS(G, 0)` has the
vertices 2, 3, 2, 3 on the frontier stack after three iterations; the fourth iteration pops
2 and pushes 3 and 1, and its push of 0 finds the `NumVertices + 1 = 5` slots of the stack
in use, so `DFS` takes the branch that prints "Error!" and exits. On a stack without a limit
the same iterations leave the six vertices 0, 1, 3, 3, 2, 3 on the stack, one more than the
capacity, and the search returns 0, 1, 2, 3. In general that stack holds at most
`DFS_fuel G` entries, one for the start and one for each entry of each neighbors array. -/
theorem C26_DFS_stack_exceeds_its_capacity :
    Built k4Graph ∧ k4Graph.NumVertices + 1 = 5 ∧
    Steps (fun st : DFSState => !isEmptyStack st.frontierStack) (DFS_body k4Graph) 3
      { frontierStack := Push [] 0, visitedSet := [], visitedQ := [] }
      { frontierStack := [2, 3, 2, 3], visitedSet := [1, 0], visitedQ := [0, 1] } ∧
    DFS_body k4Graph
      { frontierStack := [2, 3, 2, 3], visitedSet := [1, 0], visitedQ := [0, 1] } =
        .error .exit ∧
    (∀ fuel, 4 ≤ fuel → DFS fuel k4Graph 0 = .error .exit) ∧
    Steps (fun st : DFSState => !isEmptyStack st.frontierStack) (DFS_body_unbounded k4Graph) 4
      { frontierStack := Push [] 0, visitedSet := [], visitedQ := [] }
      { frontierStack := [0, 1, 3, 3, 2, 3], visitedSet := [2, 1, 0], visitedQ := [0, 1, 2] } ∧
    ([0, 1, 3, 3, 2, 3] : List Int).length = 6 ∧
    DFS_unbounded 13 k4Graph 0 = .ok (some [0, 1, 2, 3, -1]) ∧
    ∀ (G : Graph) (start : Int), Built G → 0 ≤ start → start < G.NumVertices →
      ∀ (k : Nat) (t : DFSState),
        Steps (fun st : DFSState => !isEmptyStack st.frontierStack) (DFS_body_unbounded G) k
          { frontierStack := Push [] start, visitedSet := [], visitedQ := [] } t →
        t.frontierStack.length ≤ DFS_fuel G := by
  refine ⟨Built_k4Graph, by decide, DFS_k4Graph_third_state, by decide, DFS_k4Graph_exits,
    ?_, by decide, by decide, ?_⟩
  · exact Steps.step 3 _
        { frontierStack := [1, 2, 3], visitedSet := [0], visitedQ := [0] } _
        (by decide) (by decide)
      (Steps.step 2 _
        { frontierStack := [0, 2, 3, 2, 3], visitedSet := [1, 0], visitedQ := [0, 1] } _
        (by decide) (by decide)
      (Steps.step 1 _
        { frontierStack := [2, 3, 2, 3], visitedSet := [1, 0], visitedQ := [0, 1] } _
        (by decide) (by decide)
      (Steps.step 0 _
        { frontierStack := [0, 1, 3, 3, 2, 3], visitedSet := [2, 1, 0],
          visitedQ := [0, 1, 2] } _
        (by decide) (by decide) (Steps.refl _))))
  · intro G start hG h0 h1 k t hsteps
    have := (DFS_stack_bound hG.wf start k _ t hsteps (DFSInv_init G start h0 h1)).2
    have h2 := dfsCost_nil G
    simp only [Push, List.length_singleton] at this
    omega

/-- C27, as stated, fails for names that do not fit the 64 bytes of `value.Word`: the two
names of 64 bytes `name64a` (the letter a 64 times) and `name64b` (the same with the letter b
in front) are distinct, of the same length, and differ in exactly one position, where the
second has the letter b; `AddEdges` on the graph with these two vertices and no edge
returns, and the list of vertex 0 holds no edge to vertex 1. -/
theorem C27_counterexample :
    CreateGraph 2 = some emptyGraph2 ∧
    (addedNames historyLongWords).Nodup ∧
    addedEdges emptyGraph2 historyLongWords = [] ∧
    Vertex2Name (applyOps emptyGraph2 historyLongWords) 0 = some name64a ∧
    Vertex2Name (applyOps emptyGraph2 historyLongWords) 1 = some name64b ∧
    name64a.length = 64 ∧ name64b.length = 64 ∧
    differInOneLetter name64a name64b ∧
    ∃ G1 : Graph,
      AddEdges (applyOps emptyGraph2 historyLongWords) = .ok G1 ∧
      (edgesOf G1 0).filter (fun c => decide (c.dest = 1)) = [] := by
  have hc : CreateGraph 2 = some emptyGraph2 := by decide
  have hB : Built (applyOps emptyGraph2 historyLongWords) :=
    Built_applyOps _ _ (Built.create 2 emptyGraph2 hc)
  have hn0 : Vertex2Name (applyOps emptyGraph2 historyLongWords) 0 = some name64a := by
    decide
  have hn1 : Vertex2Name (applyOps emptyGraph2 historyLongWords) 1 = some name64b := by
    decide
  obtain ⟨hrun, _, hfil⟩ := AddEdges_result 2 emptyGraph2 historyLongWords hc (by decide)
  refine ⟨hc, by decide, by decide, hn0, hn1, by decide, by decide,
    ⟨by decide, 0, by decide, by decide, by decide, 98, by decide, by decide⟩,
    _, hrun, ?_⟩
  rw [hfil 0 1 name64a (by decide) (by decide) hn0, List.reverse_eq_nil_iff,
    List.filter_eq_nil_iff]
  intro e he
  unfold vertexEdges at he
  rw [List.mem_flatMap] at he
  obtain ⟨i, _, he⟩ := he
  rw [List.mem_flatMap] at he
  obtain ⟨c, _, he⟩ := he
  obtain ⟨_, _, _, _, _, _, name, h7, h8⟩ := mem_tryEdges hB 0 _ e he
  simp only [decide_eq_true_eq]
  intro hd
  rw [hd, hn1] at h7
  rw [hd, ← Option.some.inj h7] at h8
  have hlen := congrArg List.length h8
  rw [List.length_set] at hlen
  exact absurd hlen (by decide)

/-- C27, amended: for a graph built by `CreateGraph` and `AddVertex` calls with pairwise
distinct names of fewer than 64 bytes each in which no edge was added, `AddEdges(G)` returns
and leaves the vertices and their names as they were; afterwards, for distinct vertices `u`
and `d`, the list of `u` holds exactly one edge to `d`, of weight 1, when the names have the
same length and differ in exactly one position, where the name of `d` has a letter
`'a' .. 'z'`, and no edge to `d` otherwise; no vertex has an edge to itself, no list holds
two edges to the same vertex, and when all names are made of letters `'a' .. 'z'` every
edge has its reverse edge. -/
theorem C27_AddEdges_links_names_one_letter_apart (N : Int) (E : Graph) (ops0 : List Op)
    (hc : CreateGraph N = some E) (hnd : (addedNames ops0).Nodup)
    (hfit : ∀ name ∈ addedNames ops0, name.length < 64) (hno : addedEdges E ops0 = []) :
    ∃ G1 : Graph,
      AddEdges (applyOps E ops0) = .ok G1 ∧
      G1.NumVertices = (applyOps E ops0).NumVertices ∧
      (∀ v, Vertex2Name G1 v = Vertex2Name (applyOps E ops0) v) ∧
      (∀ (u d : Int) (nu nd : List Nat), 0 ≤ u → u < G1.NumVertices → 0 ≤ d →
        d < G1.NumVertices → u ≠ d → Vertex2Name G1 u = some nu →
        Vertex2Name G1 d = some nd →
        (differInOneLetter nu nd →
          (edgesOf G1 u).filter (fun c => decide (c.dest = d)) =
            [{ src := u, dest := d, weight := 1 }]) ∧
        (¬ differInOneLetter nu nd →
          (edgesOf G1 u).filter (fun c => decide (c.dest = d)) = [])) ∧
      (∀ u, 0 ≤ u → u < G1.NumVertices →
        (edgesOf G1 u).filter (fun c => decide (c.dest = u)) = []) ∧
      (∀ u d, 0 ≤ u → u < G1.NumVertices →
        ((edgesOf G1 u).filter (fun c => decide (c.dest = d))).length ≤ 1) ∧
      ((∀ name ∈ addedNames ops0, ∀ c ∈ name, c ∈ AddEdges_letters) →
        ∀ u d, Adj G1 u d → Adj G1 d u) := by
  have hB : Built (applyOps E ops0) := Built_applyOps ops0 E (Built.create N E hc)
  obtain ⟨hrun, hsame, hfil⟩ := AddEdges_result N E ops0 hc hno
  have hB1 : Built (applyOps (applyOps E ops0) (edgeOps (allEdges (applyOps E ops0)))) :=
    Built_applyOps _ _ hB
  have hnv := hsame.2.2
  have hv2n : ∀ v, Vertex2Name (applyOps (applyOps E ops0)
      (edgeOps (allEdges (applyOps E ops0)))) v = Vertex2Name (applyOps E ops0) v := by
    intro v
    unfold Vertex2Name
    rw [hsame.2.1, hsame.2.2]
  -- the edges between two distinct named vertices
  have hpair : ∀ (u d : Int) (nu nd : List Nat), 0 ≤ u → u < (applyOps E ops0).NumVertices →
      0 ≤ d → d < (applyOps E ops0).NumVertices → u ≠ d →
      Vertex2Name (applyOps E ops0) u = some nu → Vertex2Name (applyOps E ops0) d = some nd →
      (differInOneLetter nu nd →
        (edgesOf (applyOps (applyOps E ops0) (edgeOps (allEdges (applyOps E ops0)))) u).filter
          (fun c => decide (c.dest = d)) = [{ src := u, dest := d, weight := 1 }]) ∧
      (¬ differInOneLetter nu nd →
        (edgesOf (applyOps (applyOps E ops0) (edgeOps (allEdges (applyOps E ops0)))) u).filter
          (fun c => decide (c.dest = d)) = []) := by
    intro u d nu nd hu0 hu1 hd0 hd1 hud hnu hnd2
    obtain ⟨name, _, h2, _, h4⟩ := vertex_name N E ops0 hc hnd hfit d hd0 hd1
    rw [hnd2] at h2
    have hnn : name = nd := (Option.some.inj h2).symm
    subst hnn
    obtain ⟨nameu, _, g2, _, g4⟩ := vertex_name N E ops0 hc hnd hfit u hu0 hu1
    rw [hnu] at g2
    have hnn : nameu = nu := (Option.some.inj g2).symm
    subst hnn
    have hab : nameu ≠ name := by
      intro h5
      have h6 := (g4 nameu).2 rfl
      have h7 := (h4 nameu).2 h5
      omega
    have hpass := passes_for_name nameu name hab
      ({ src := u, dest := d, weight := 1 } : Edge)
    rw [hfil u d nameu hu0 hu1 hnu,
      filter_vertexEdges _ u d (fun e => hud e.symm) hd0 nameu name h4]
    constructor
    · intro h; rw [hpass.1 h]; rfl
    · intro h; rw [hpass.2 h]; rfl
  -- no edge from a vertex to itself or to an id that is not a vertex
  have hnone : ∀ (u d : Int), 0 ≤ u → u < (applyOps E ops0).NumVertices →
      (d = u ∨ d < 0 ∨ d ≥ (applyOps E ops0).NumVertices) →
      (edgesOf (applyOps (applyOps E ops0) (edgeOps (allEdges (applyOps E ops0)))) u).filter
        (fun c => decide (c.dest = d)) = [] := by
    intro u d hu0 hu1 hd
    obtain ⟨nameu, _, g2, _, _⟩ := vertex_name N E ops0 hc hnd hfit u hu0 hu1
    rw [hfil u d nameu hu0 hu1 g2, List.reverse_eq_nil_iff, List.filter_eq_nil_iff]
    intro e he
    obtain ⟨_, _, h3, h4, h5⟩ := mem_vertexEdges hB u _ e he
    simp only [decide_eq_true_eq]
    omega
  refine ⟨_, hrun, hnv, hv2n, ?_, ?_, ?_, ?_⟩
  · intro u d nu nd hu0 hu1 hd0 hd1 hud hnu hnd2
    rw [hnv] at hu1 hd1
    rw [hv2n] at hnu hnd2
    exact hpair u d nu nd hu0 hu1 hd0 hd1 hud hnu hnd2
  · intro u hu0 hu1
    rw [hnv] at hu1
    exact hnone u u hu0 hu1 (Or.inl rfl)
  · intro u d hu0 hu1
    rw [hnv] at hu1
    by_cases hd : d = u ∨ d < 0 ∨ d ≥ (applyOps E ops0).NumVertices
    · rw [hnone u d hu0 hu1 hd]
      exact Nat.zero_le _
    · have hd0 : 0 ≤ d := by omega
      have hd1 : d < (applyOps E ops0).NumVertices := by omega
      have hud : u ≠ d := fun e => hd (Or.inl e.symm)
      obtain ⟨nu, _, g2, _, _⟩ := vertex_name N E ops0 hc hnd hfit u hu0 hu1
      obtain ⟨nd, _, h2, _, _⟩ := vertex_name N E ops0 hc hnd hfit d hd0 hd1
      obtain ⟨p1, p2⟩ := hpair u d nu nd hu0 hu1 hd0 hd1 hud g2 h2
      by_cases hdiff : differInOneLetter nu nd
      · rw [p1 hdiff]; exact le_refl _
      · rw [p2 hdiff]; exact Nat.zero_le _
  · intro hlow u d hadj
    obtain ⟨hu0, hu1, e, he, hed⟩ := hadj
    rw [hnv] at hu1
    have hne : (edgesOf (applyOps (applyOps E ops0)
        (edgeOps (allEdges (applyOps E ops0)))) u).filter
        (fun c => decide (c.dest = d)) ≠ [] := by
      intro h
      rw [List.filter_eq_nil_iff] at h
      exact h e he (by simpa using hed)
    have hd : ¬ (d = u ∨ d < 0 ∨ d ≥ (applyOps E ops0).NumVertices) :=
      fun h => hne (hnone u d hu0 hu1 h)
    have hd0 : 0 ≤ d := by omega
    have hd1 : d < (applyOps E ops0).NumVertices := by omega
    have hud : u ≠ d := fun e => hd (Or.inl e.symm)
    obtain ⟨nu, hin, g2, _, _⟩ := vertex_name N E ops0 hc hnd hfit u hu0 hu1
    obtain ⟨nd, _, h2, _, _⟩ := vertex_name N E ops0 hc hnd hfit d hd0 hd1
    have hdiff : differInOneLetter nu nd := by
      by_contra hcon
      exact hne ((hpair u d nu nd hu0 hu1 hd0 hd1 hud g2 h2).2 hcon)
    have hrev := (hpair d u nd nu hd0 hd1 hu0 hu1 (fun e => hud e.symm) h2 g2).1
      (differInOneLetter_symm _ _ (hlow nu hin) hdiff)
    refine ⟨hd0, by rw [hnv]; exact hd1, { src := d, dest := u, weight := 1 }, ?_, rfl⟩
    have hmem : ({ src := d, dest := u, weight := 1 } : Edge) ∈
        (edgesOf (applyOps (applyOps E ops0)
          (edgeOps (allEdges (applyOps E ops0)))) d).filter
          (fun c => decide (c.dest = u)) := by
      rw [hrev]; exact List.mem_singleton.2 rfl
    exact (List.mem_filter.1 hmem).1

/-- Witness of the amended C27 on the words cat, bat, bad, dog: `AddEdges` links cat and bat in both
directions and bat to bad, and adds no edge between cat and bad or from cat to dog. -/
theorem C27_witness :
    CreateGraph 2 = some emptyGraph2 ∧
    (addedNames historyWords).Nodup ∧
    (∀ name ∈ addedNames historyWords, name.length < 64) ∧
    addedEdges emptyGraph2 historyWords = [] ∧
    differInOneLetter (cstr "cat") (cstr "bat") ∧
    ¬ differInOneLetter (cstr "cat") (cstr "dog") ∧
    ∃ G1 : Graph,
      AddEdges (applyOps emptyGraph2 historyWords) = .ok G1 ∧
      G1.NumVertices = 4 ∧
      (edgesOf G1 0).filter (fun c => decide (c.dest = 1)) =
        [{ src := 0, dest := 1, weight := 1 }] ∧
      (edgesOf G1 1).filter (fun c => decide (c.dest = 0)) =
        [{ src := 1, dest := 0, weight := 1 }] ∧
      (edgesOf G1 0).filter (fun c => decide (c.dest = 3)) = [] ∧
      (edgesOf G1 0).filter (fun c => decide (c.dest = 0)) = [] := by
  have hcb : differInOneLetter (cstr "cat") (cstr "bat") :=
    ⟨by decide, 0, by decide, by decide, by decide, 98, by decide, by decide⟩
  have hbc : differInOneLetter (cstr "bat") (cstr "cat") :=
    ⟨by decide, 0, by decide, by decide, by decide, 99, by decide, by decide⟩
  have hcd : ¬ differInOneLetter (cstr "cat") (cstr "dog") := by
    intro h
    obtain ⟨_, i, _, _, hrest, _⟩ := h
    by_cases hi0 : i = 0
    · exact absurd (hrest 1 (by decide) (by omega)) (by decide)
    · exact absurd (hrest 0 (by decide) (fun e => hi0 e.symm)) (by decide)
  obtain ⟨G1, h1, h2, h3, h4, h5, _, _⟩ :=
    C27_AddEdges_links_names_one_letter_apart 2 emptyGraph2 historyWords (by decide)
      (by decide) (by decide) (by decide)
  have hn : G1.NumVertices = 4 := by rw [h2]; decide
  have n0 : Vertex2Name G1 0 = some (cstr "cat") := by rw [h3]; decide
  have n1 : Vertex2Name G1 1 = some (cstr "bat") := by rw [h3]; decide
  have n3 : Vertex2Name G1 3 = some (cstr "dog") := by rw [h3]; decide
  refine ⟨by decide, by decide, by decide, by decide, hcb, hcd, G1, h1, hn, ?_, ?_, ?_, ?_⟩
  · exact (h4 0 1 (cstr "cat") (cstr "bat") (by decide) (by rw [hn]; decide) (by decide)
      (by rw [hn]; decide) (by decide) n0 n1).1 hcb
  · exact (h4 1 0 (cstr "bat") (cstr "cat") (by decide) (by rw [hn]; decide) (by decide)
      (by rw [hn]; decide) (by decide) n1 n0).1 hbc
  · exact (h4 0 3 (cstr "cat") (cstr "dog") (by decide) (by rw [hn]; decide) (by decide)
      (by rw [hn]; decide) (by decide) n0 n3).2 hcd
  · exact h5 0 (by decide) (by rw [hn]; decide)

/-- C28: for a non-empty queue `Q` of distinct vertex ids and a distance array, `PopMin`
returns a vertex `m` and leaves a queue `Q1` such that `m` is in `Q`, the distance of `m`
is at most the distance of every vertex of `Q`, every vertex that was in front of `m` in `Q`
is strictly farther (`m` is the first of least distance), `Q1` holds exactly the vertices of
`Q` other than `m`, each once, and has one entry less than `Q`, which is what the final
assertion checks. -/
theorem C28_PopMin_removes_first_minimum (Q : Queue) (distance : List Int) (hQ : Q ≠ [])
    (hnd : Q.Nodup) :
    ∃ (m : Int) (Q1 : Queue) (pre post : List Int),
      PopMin Q distance = .ok (m, Q1) ∧
      Q = pre ++ m :: post ∧
      (∀ x ∈ Q, arrGet distance m ≤ arrGet distance x) ∧
      (∀ x ∈ pre, arrGet distance m < arrGet distance x) ∧
      (∀ x, x ∈ Q1 ↔ x ∈ Q ∧ x ≠ m) ∧
      Q1.Nodup ∧ List.Perm Q1 (pre ++ post) ∧ Q1.length + 1 = Q.length := by
  obtain ⟨m, Q1, hpop, hperm, hmin⟩ := PopMin_spec Q distance hQ
  cases Q with
  | nil => exact absurd rfl hQ
  | cons first rest =>
    obtain ⟨pre, post, e1, e2⟩ := PopMin_scan_first distance rest first []
    have hm : m = (PopMin_scan distance rest first []).1 := by
      have h := hpop
      simp only [PopMin] at h
      split at h
      · simp only [Except.ok.injEq, Prod.mk.injEq] at h
        exact h.1.symm
      · simp at h
    rw [← hm] at e1 e2
    have hnd2 : (m :: Q1).Nodup := hperm.nodup_iff.2 hnd
    have hmem : ∀ x, x ∈ Q1 ↔ x ∈ first :: rest ∧ x ≠ m := by
      intro x
      have h1 : x ∈ m :: Q1 ↔ x ∈ first :: rest := hperm.mem_iff
      have h2 := (List.nodup_cons.1 hnd2).1
      constructor
      · intro hx
        exact ⟨h1.1 (List.mem_cons_of_mem _ hx), fun e => h2 (e ▸ hx)⟩
      · rintro ⟨hx, hne⟩
        rcases List.mem_cons.1 (h1.2 hx) with h | h
        · exact absurd h hne
        · exact h
    have hperm2 : List.Perm Q1 (pre ++ post) := by
      have h3 : List.Perm (m :: Q1) (m :: (pre ++ post)) := by
        rw [e1] at hperm
        exact hperm.trans List.perm_middle
      exact (List.perm_cons m).1 h3
    refine ⟨m, Q1, pre, post, hpop, e1, hmin, e2, hmem, (List.nodup_cons.1 hnd2).2, hperm2, ?_⟩
    have := hperm.length_eq
    simpa using this

/-- Witness of C28: from the queue 0, 1, 2, 3 with the distances 5, 2, 7, 2 the vertex 1 is
removed, the first of the two vertices of distance 2. -/
theorem C28_witness :
    PopMin [0, 1, 2, 3] [5, 2, 7, 2] = .ok (1, [3, 2, 0]) ∧
    ∃ (m : Int) (Q1 : Queue) (pre post : List Int),
      PopMin [0, 1, 2, 3] [5, 2, 7, 2] = .ok (m, Q1) ∧
      ([0, 1, 2, 3] : List Int) = pre ++ m :: post ∧
      (∀ x ∈ ([0, 1, 2, 3] : List Int), arrGet [5, 2, 7, 2] m ≤ arrGet [5, 2, 7, 2] x) ∧
      (∀ x ∈ pre, arrGet [5, 2, 7, 2] m < arrGet [5, 2, 7, 2] x) ∧
      (∀ x, x ∈ Q1 ↔ x ∈ ([0, 1, 2, 3] : List Int) ∧ x ≠ m) ∧
      Q1.Nodup ∧ List.Perm Q1 (pre ++ post) ∧ Q1.length + 1 = ([0, 1, 2, 3] : List Int).length :=
  ⟨by decide, C28_PopMin_removes_first_minimum [0, 1, 2, 3] [5, 2, 7, 2] (by decide)
    (by decide)⟩

end WordLadder
